import Mathlib

/-! librbd BlockCacher: a shallow embedding

The definitions below transcribe `src/librbd/BlockCacher.h` and
`src/librbd/BlockCacher.cc`.  Page descriptors live in one array (`all_pages`),
a `Page *` is an index into it (`none` is `NULL`), and every function that
dereferences a pointer, evaluates an `assert`, indexes an array or calls
`memcpy`/`memset` returns in `Except Fault`.
-/

namespace librbd

/-! ## Faults, machine integers, memory -/

/-- Ways in which a run of the C++ code leaves defined behaviour or stops. -/
inductive Fault where
  /-- a `NULL` (or dangling) `Page *` is dereferenced -/
  | null_deref
  /-- the condition of an `assert(...)` is false -/
  | assert_fail
  /-- `memcpy` / `memset` / array index outside the object -/
  | out_of_bounds
  /-- integer division by zero -/
  | div_by_zero
  /-- the caller waits on a condition variable -/
  | would_block
  /-- a loop whose exit condition can never become true -/
  | diverge
  /-- a variable is read before it was assigned -/
  | uninit_read
  /-- a loop was cut off by the step bound of the model -/
  | out_of_fuel
  deriving DecidableEq, Repr

/-- Truncation to `uint32_t`. -/
def u32 (x : Nat) : Nat := x % 4294967296

/-- Truncation to `uint64_t` / `size_t`. -/
def u64 (x : Nat) : Nat := x % 18446744073709551616

/-- Subtraction `a - b` on `uint32_t`: the difference modulo `2^32`. -/
def sub32 (a b : Nat) : Nat :=
  if b % 4294967296 ≤ a % 4294967296 then a % 4294967296 - b % 4294967296
  else 4294967296 - (b % 4294967296 - a % 4294967296)

/-- Subtraction `a - b` on `uint64_t` / `size_t`: the difference modulo `2^64`. -/
def sub64 (a b : Nat) : Nat :=
  if b % 18446744073709551616 ≤ a % 18446744073709551616 then
    a % 18446744073709551616 - b % 18446744073709551616
  else 18446744073709551616 - (b % 18446744073709551616 - a % 18446744073709551616)

/-- The call `memset(buf + off, v, n)` on a buffer object `buf`. -/
def memset (buf : List Nat) (off v n : Nat) : Except Fault (List Nat) :=
  if off + n ≤ buf.length then
    .ok (buf.take off ++ List.replicate n v ++ buf.drop (off + n))
  else .error .out_of_bounds

/-- The `n` bytes at `buf + off` (the source side of a `memcpy`). -/
def memread (buf : List Nat) (off n : Nat) : Except Fault (List Nat) :=
  if off + n ≤ buf.length then .ok ((buf.drop off).take n) else .error .out_of_bounds

/-- Storing `data` at `buf + off` (the destination side of a `memcpy`). -/
def memwrite (buf : List Nat) (off : Nat) (data : List Nat) : Except Fault (List Nat) :=
  if off + data.length ≤ buf.length then
    .ok (buf.take off ++ data ++ buf.drop (off + data.length))
  else .error .out_of_bounds

/-- The call `memcpy(dst + doff, src + soff, n)`. -/
def memcpy (dst : List Nat) (doff : Nat) (src : List Nat) (soff n : Nat) :
    Except Fault (List Nat) := do
  let d ← memread src soff n
  memwrite dst doff d

/-! ## Page -/

/-- Values of `Page::arc_idx`. -/
def ARC_LRU : Nat := 0
/-- Frequency list. -/
def ARC_LFU : Nat := 1
/-- History of pages evicted from `ARC_LRU`. -/
def ARC_LRU_GHOST : Nat := 2
/-- History of pages evicted from `ARC_LFU`. -/
def ARC_LFU_GHOST : Nat := 3
/-- Number of lists; also the `arc_idx` of a page that is on no list. -/
def ARC_COUNT : Nat := 4

/-- The descriptor `struct Page`.  `addr` is the number of the page frame the
descriptor owns (`none` for `NULL`); `page_prev`, `page_next` are `Page *`. -/
structure Page where
  offset : Nat := 0
  ictx_id : Nat := 0
  reference : Nat := 0
  arc_idx : Nat := 0
  onread : Nat := 0
  dirty : Nat := 0
  addr : Option Nat := none
  page_prev : Option Nat := none
  page_next : Option Nat := none
  deriving DecidableEq, Repr

/-- Dereference of the `Page *` with index `i`. -/
def getPage (ps : List Page) (i : Nat) : Except Fault Page :=
  match ps[i]? with
  | some p => .ok p
  | none => .error .null_deref

/-- Assignment through the `Page *` with index `i`. -/
def modPage (ps : List Page) (i : Nat) (f : Page → Page) : Except Fault (List Page) :=
  match ps[i]? with
  | some p => .ok (ps.set i (f p))
  | none => .error .null_deref

/-- An `assert(c)`. -/
def assert (c : Bool) : Except Fault Unit :=
  if c then .ok () else .error .assert_fail

/-! ## Ordered maps (`std::map` with integer keys) -/

/-- The assignment `m[k] = v` on a `std::map`, kept as a key-ascending list. -/
def map_set {β : Type} : List (Nat × β) → Nat → β → List (Nat × β)
  | [], k, v => [(k, v)]
  | (k0, v0) :: m, k, v =>
    if k < k0 then (k, v) :: (k0, v0) :: m
    else if k = k0 then (k, v) :: m
    else (k0, v0) :: map_set m k v

/-- Lookup in a `std::map`. -/
def map_find {β : Type} : List (Nat × β) → Nat → Option β
  | [], _ => none
  | (k0, v0) :: m, k => if k = k0 then some v0 else map_find m k

/-- Removal `m.erase(k)`. -/
def map_erase {β : Type} : List (Nat × β) → Nat → List (Nat × β)
  | [], _ => []
  | (k0, v0) :: m, k => if k = k0 then m else (k0, v0) :: map_erase m k

/-! ## DirtyPageState (BlockCacher.h 338-395) -/

/-- The struct `BlockCacher::DirtyPageState`. -/
structure DirtyPageState where
  wt : Bool := true
  dirty_pages_head : Option Nat := none
  dirty_pages_foot : Option Nat := none
  dirty_pages : Nat := 0
  target_pages : Nat := 0
  max_dirty_pages : Nat := 0
  deriving DecidableEq, Repr

namespace DirtyPageState

/-- `bool writethrough() const { return wt || !max_dirty_pages; }` -/
def writethrough (d : DirtyPageState) : Bool := d.wt || d.max_dirty_pages == 0

/-- `bool need_writeback() const { return dirty_pages > target_pages; }` -/
def need_writeback (d : DirtyPageState) : Bool := decide (d.dirty_pages > d.target_pages)

/-- `need_writeback_pages()`. -/
def need_writeback_pages (d : DirtyPageState) : Nat :=
  if d.dirty_pages > d.target_pages then sub32 d.dirty_pages d.target_pages else 0

/-- `get_dirty_pages()`. -/
def get_dirty_pages (d : DirtyPageState) : Nat := d.dirty_pages

/-- `set_writeback()`. -/
def set_writeback (d : DirtyPageState) : DirtyPageState := { d with wt := false }

/-- `mark_dirty(Page *p)`. -/
def mark_dirty (ps : List Page) (d : DirtyPageState) (p : Nat) :
    Except Fault (List Page × DirtyPageState) := do
  let pg ← getPage ps p
  let (ps, d) ←
    if pg.dirty ≠ 0 then do
      let (ps, d) ←
        (match pg.page_prev with
          | some q => do
            let ps ← modPage ps q (fun x => { x with page_next := pg.page_next })
            pure (ps, d)
          | none => pure (ps, { d with dirty_pages_head := pg.page_next }) :
          Except Fault (List Page × DirtyPageState))
      (match pg.page_next with
        | some q => do
          let ps ← modPage ps q (fun x => { x with page_prev := pg.page_prev })
          pure (ps, d)
        | none => pure (ps, { d with dirty_pages_foot := pg.page_prev }) :
        Except Fault (List Page × DirtyPageState))
    else do
      let ps ← modPage ps p (fun x => { x with dirty := 1 })
      pure (ps, { d with dirty_pages := u32 (d.dirty_pages + 1) })
  -- p->page_prev = dirty_pages_foot;
  let ps ← modPage ps p (fun x => { x with page_prev := d.dirty_pages_foot })
  -- if (dirty_pages_foot) dirty_pages_foot->page_next = p;
  let ps ←
    (match d.dirty_pages_foot with
      | some f => modPage ps f (fun x => { x with page_next := some p })
      | none => pure ps : Except Fault (List Page))
  -- if (!dirty_pages_head) dirty_pages_head = p;
  let d := if d.dirty_pages_head.isNone then { d with dirty_pages_head := some p } else d
  let d := { d with dirty_pages_foot := some p }
  let ps ← modPage ps p (fun x => { x with page_next := none })
  pure (ps, d)

/-- The map `sorted_flush : map<uint16_t, map<uint64_t, Page*>>`. -/
abbrev SortedFlush := List (Nat × List (Nat × Nat))

/-- The statement `sorted_flush[ictx_id][offset] = p`. -/
def sorted_flush_set (sf : SortedFlush) (ictx_id offset p : Nat) : SortedFlush :=
  map_set sf ictx_id (map_set ((map_find sf ictx_id).getD []) offset p)

/-- The `while (p)` loop of `writeback_pages`; returns the heap, the map, `i`
and the pointer `p` at loop exit. -/
def writeback_loop (num : Nat) :
    Nat → List Page → SortedFlush → Nat → Option Nat →
      Except Fault (List Page × SortedFlush × Nat × Option Nat)
  | 0, _, _, _, _ => .error .out_of_fuel
  | _ + 1, ps, sf, i, none => .ok (ps, sf, i, none)
  | fuel + 1, ps, sf, i, some p => do
    let pg ← getPage ps p
    -- p->dirty = 0; sorted_flush[p->ictx_id][p->offset] = p;
    let sf := sorted_flush_set sf pg.ictx_id pg.offset p
    -- prev = p; p = p->page_next; prev->page_next = prev->page_prev = NULL;
    let ps ← modPage ps p (fun x => { x with dirty := 0, page_next := none, page_prev := none })
    let nxt := pg.page_next
    -- if (num && i++ > num) break;
    if num ≠ 0 then
      if i > num then .ok (ps, sf, u32 (i + 1), nxt)
      else writeback_loop num fuel ps sf (u32 (i + 1)) nxt
    else writeback_loop num fuel ps sf i nxt

/-- `writeback_pages(sorted_flush, num)`; the loop visits each descriptor at
most once on a list without cycles, hence the step bound. -/
def writeback_pages (ps : List Page) (d : DirtyPageState) (sf : SortedFlush) (num : Nat) :
    Except Fault (List Page × DirtyPageState × SortedFlush) := do
  let (ps, sf, i, p) ← writeback_loop num (ps.length + 1) ps sf 0 d.dirty_pages_head
  let d := { d with dirty_pages := sub32 d.dirty_pages i, dirty_pages_head := p }
  let d := if p.isNone then { d with dirty_pages_foot := none } else d
  pure (ps, d, sf)

end DirtyPageState

/-! ## PageRBTree (BlockCacher.h 47-105) -/

/-- Modelled from the spec: `common/RBTree.h` (`rb_link_node`, `insert_color`,
`erase`, the iterator and `end()`) is not among the sources.  The spec (4.B)
describes each index as a map keyed by page offset that is iterated in
ascending order; rebalancing reorders no node.  An index is the binary tree
below `root.rb_node`, each node being the `rb` member of a page descriptor; it
keeps the shape that linking gives it (no rotation happens in a tree of one or
two nodes), and `Page::rb` is the first member, so that the container of the
`end()` node is `NULL`. -/
inductive PageRBTree where
  | nil : PageRBTree
  | node (rb_left : PageRBTree) (page : Nat) (rb_right : PageRBTree) : PageRBTree
  deriving DecidableEq, Repr

namespace PageRBTree

/-- Modelled from the spec: the nodes in iteration order (left subtree, node,
right subtree). -/
def inorder : PageRBTree → List Nat
  | nil => []
  | node l n r => inorder l ++ n :: inorder r

/-- Modelled from the spec: the iteration from the iterator `it` to `end()`;
`none` is `end()`. -/
def from_iterator (t : PageRBTree) (it : Option Nat) : List Nat :=
  match it with
  | none => []
  | some n => (inorder t).dropWhile (fun m => m != n)

/-- The descent of `lower_bound`: `while (node) { parent = node; ... }`.
Returns the node whose offset equals `offset`, or else the last node visited. -/
def lower_bound_descent (ps : List Page) (offset : Nat) :
    PageRBTree → Option Nat → Except Fault (Option Nat)
  | nil, parent => .ok parent
  | node l n r, _ => do
    let page ← getPage ps n
    if offset < page.offset then lower_bound_descent ps offset l (some n)
    else if offset > page.offset then lower_bound_descent ps offset r (some n)
    else .ok (some n)

/-- The loop `while (page && offset > page->offset) { ++it; page = ...; }` of
`lower_bound`, on the nodes from `it` to `end()`. -/
def lower_bound_advance (ps : List Page) (offset : Nat) : List Nat → Except Fault (List Nat)
  | [] => .ok []
  | n :: t => do
    let page ← getPage ps n
    if offset > page.offset then lower_bound_advance ps offset t else .ok (n :: t)

/-- `RBTree::Iterator lower_bound(uint64_t offset)`.  The result is the
iteration from the returned iterator to `end()`; `[]` stands for `end()`. -/
def lower_bound (ps : List Page) (t : PageRBTree) (offset : Nat) : Except Fault (List Nat) := do
  let it ← lower_bound_descent ps offset t none
  lower_bound_advance ps offset (from_iterator t it)

/-- The descent of `insert` with `key = page->offset`, and the link of the new
node at the empty slot it reaches. -/
def insert_key (ps : List Page) (key p : Nat) : PageRBTree → Except Fault PageRBTree
  | nil => .ok (node nil p nil)
  | node l n r => do
    let parent ← getPage ps n
    if key < parent.offset then do
      let l ← insert_key ps key p l
      .ok (node l n r)
    else do
      let r ← insert_key ps key p r
      .ok (node l n r)

/-- `void insert(Page *page)`. -/
def insert (ps : List Page) (t : PageRBTree) (page : Nat) : Except Fault PageRBTree := do
  let pg ← getPage ps page
  insert_key ps pg.offset page t

/-- Modelled from the spec: the leftmost node of a tree and the tree without
it. -/
def pop_first : PageRBTree → Option (Nat × PageRBTree)
  | nil => none
  | node l n r =>
    match pop_first l with
    | none => some (n, r)
    | some (m, l) => some (m, node l n r)

/-- Modelled from the spec: `void erase(Page *page)` calls `root.erase`, which
is not among the sources.  The node leaves the tree, its place is taken by its
only child or by its in-order successor (a node that is not in this tree
leaves it unchanged). -/
def erase : PageRBTree → Nat → PageRBTree
  | nil, _ => nil
  | node l n r, page =>
    if n = page then
      match l, pop_first r with
      | nil, _ => r
      | _, none => l
      | _, some (m, r) => node l m r
    else node (erase l page) n (erase r page)

/-- Modelled from the spec: `++it` for an iterator that points at node `n`,
the in-order successor. -/
def next (t : PageRBTree) (n : Nat) : Option Nat :=
  ((inorder t).dropWhile (fun m => m != n)).tail.head?

end PageRBTree

/-! ## CARState (BlockCacher.h 107-269, BlockCacher.cc 50-68) -/

/-- An array indexed by `ARC_LRU .. ARC_LFU_GHOST` (`T x[ARC_COUNT]`). -/
structure Arc4 (α : Type) where
  lru : α
  lfu : α
  lru_ghost : α
  lfu_ghost : α
  deriving DecidableEq, Repr

namespace Arc4

/-- Read of `x[i]`. -/
def get {α : Type} (a : Arc4 α) (i : Nat) : Except Fault α :=
  match i with
  | 0 => .ok a.lru
  | 1 => .ok a.lfu
  | 2 => .ok a.lru_ghost
  | 3 => .ok a.lfu_ghost
  | _ => .error .out_of_bounds

/-- Write of `x[i] = v`. -/
def set {α : Type} (a : Arc4 α) (i : Nat) (v : α) : Except Fault (Arc4 α) :=
  match i with
  | 0 => .ok { a with lru := v }
  | 1 => .ok { a with lfu := v }
  | 2 => .ok { a with lru_ghost := v }
  | 3 => .ok { a with lfu_ghost := v }
  | _ => .error .out_of_bounds

end Arc4

/-- The class `CARState` (without its mutex and `cct`). -/
structure CARState where
  arc_list_head : Arc4 (Option Nat) := ⟨none, none, none, none⟩
  arc_list_foot : Arc4 (Option Nat) := ⟨none, none, none, none⟩
  arc_list_size : Arc4 Nat := ⟨0, 0, 0, 0⟩
  arc_lru_limit : Nat := 0
  data_pages : Nat := 0
  deriving DecidableEq, Repr

namespace CARState

/-- Dereference of a `Page *` that may be `NULL`. -/
def deref (p : Option Nat) : Except Fault Nat :=
  match p with
  | some i => .ok i
  | none => .error .null_deref

/-- `Page* _pop_head_page(uint8_t arc_idx)`. -/
def _pop_head_page (ps : List Page) (c : CARState) (arc_idx : Nat) :
    Except Fault (List Page × CARState × Nat) := do
  -- Page *p = arc_list_head[arc_idx];
  let h ← c.arc_list_head.get arc_idx
  let p ← deref h
  let pg ← getPage ps p
  -- if (p->page_next) p->page_next->page_prev = NULL;
  let ps ←
    (match pg.page_next with
      | some q => modPage ps q (fun x => { x with page_prev := none })
      | none => pure ps : Except Fault (List Page))
  -- arc_list_head[arc_idx] = p->page_next;
  let heads ← c.arc_list_head.set arc_idx pg.page_next
  -- p->page_next = p->page_prev = NULL;
  let ps ← modPage ps p (fun x => { x with page_next := none, page_prev := none })
  -- if (!arc_list_head[arc_idx]) arc_list_foot[arc_idx] = NULL;
  let foots ←
    (if pg.page_next.isNone then c.arc_list_foot.set arc_idx none else pure c.arc_list_foot :
      Except Fault (Arc4 (Option Nat)))
  -- --arc_list_size[arc_idx];
  let sz ← c.arc_list_size.get arc_idx
  let sizes ← c.arc_list_size.set arc_idx (sub32 sz 1)
  -- p->arc_idx = ARC_COUNT;
  let ps ← modPage ps p (fun x => { x with arc_idx := ARC_COUNT })
  pure (ps, { c with arc_list_head := heads, arc_list_foot := foots, arc_list_size := sizes }, p)

/-- `void _append_page(Page *page, uint8_t dst)`. -/
def _append_page (ps : List Page) (c : CARState) (page dst : Nat) :
    Except Fault (List Page × CARState) := do
  let pg ← getPage ps page
  -- assert(!page->dirty && !page->page_next && !page->page_prev);
  assert (pg.dirty == 0 && pg.page_next.isNone && pg.page_prev.isNone)
  -- page->arc_idx = dst;
  let ps ← modPage ps page (fun x => { x with arc_idx := dst })
  -- if (arc_list_foot[dst]) arc_list_foot[dst]->page_next = page;
  let foot ← c.arc_list_foot.get dst
  let ps ←
    (match foot with
      | some f => modPage ps f (fun x => { x with page_next := some page })
      | none => pure ps : Except Fault (List Page))
  -- page->page_prev = arc_list_foot[dst];
  let ps ← modPage ps page (fun x => { x with page_prev := foot })
  -- arc_list_foot[dst] = page;
  let foots ← c.arc_list_foot.set dst (some page)
  -- if (!arc_list_head[dst]) arc_list_head[dst] = page;
  let head ← c.arc_list_head.get dst
  let heads ←
    (if head.isNone then c.arc_list_head.set dst (some page) else pure c.arc_list_head :
      Except Fault (Arc4 (Option Nat)))
  -- page->reference = 0;
  let ps ← modPage ps page (fun x => { x with reference := 0 })
  -- ++arc_list_size[dst];
  let sz ← c.arc_list_size.get dst
  let sizes ← c.arc_list_size.set dst (u32 (sz + 1))
  pure (ps, { c with arc_list_head := heads, arc_list_foot := foots, arc_list_size := sizes })

/-- `void _remove_page(Page *p)`. -/
def _remove_page (ps : List Page) (c : CARState) (p : Nat) :
    Except Fault (List Page × CARState) := do
  let pg ← getPage ps p
  -- --arc_list_size[p->arc_idx];
  let sz ← c.arc_list_size.get pg.arc_idx
  let sizes ← c.arc_list_size.set pg.arc_idx (sub32 sz 1)
  let c := { c with arc_list_size := sizes }
  -- if (p->page_prev) p->page_prev->page_next = p->page_next;
  -- else arc_list_head[p->arc_idx] = p->page_next;
  let (ps, c) ←
    (match pg.page_prev with
      | some q => do
        let ps ← modPage ps q (fun x => { x with page_next := pg.page_next })
        pure (ps, c)
      | none => do
        let heads ← c.arc_list_head.set pg.arc_idx pg.page_next
        pure (ps, { c with arc_list_head := heads }) : Except Fault (List Page × CARState))
  let pg ← getPage ps p
  -- if (p->page_next) p->page_next->page_prev = p->page_prev;
  -- else arc_list_foot[p->arc_idx] = p->page_prev;
  let (ps, c) ←
    (match pg.page_next with
      | some q => do
        let ps ← modPage ps q (fun x => { x with page_prev := pg.page_prev })
        pure (ps, c)
      | none => do
        let foots ← c.arc_list_foot.set pg.arc_idx pg.page_prev
        pure (ps, { c with arc_list_foot := foots }) : Except Fault (List Page × CARState))
  -- p->arc_idx = ARC_COUNT; p->page_prev = p->page_next = NULL;
  let ps ← modPage ps p
    (fun x => { x with arc_idx := ARC_COUNT, page_prev := none, page_next := none })
  pure (ps, c)

/-- `void hit_page(Page *p) { p->reference = 1; }` -/
def hit_page (ps : List Page) (p : Nat) : Except Fault (List Page) :=
  modPage ps p (fun x => { x with reference := 1 })

/-- `Page* get_ghost_page(Page *ghost_page)`. -/
def get_ghost_page (ps : List Page) (c : CARState) (ghost_page : Option Nat) :
    Except Fault (List Page × CARState × Option Nat) :=
  match ghost_page with
  | some g => do
    let (ps, c) ← _remove_page ps c g
    pure (ps, c, some g)
  | none =>
    if u32 (c.arc_list_size.lru + c.arc_list_size.lru_ghost) = c.data_pages then do
      let (ps, c, p) ← _pop_head_page ps c ARC_LRU_GHOST
      pure (ps, c, some p)
    else if u32 (c.arc_list_size.lru + c.arc_list_size.lfu +
        c.arc_list_size.lru_ghost + c.arc_list_size.lfu_ghost) = u32 (c.data_pages * 2) then do
      let (ps, c, p) ← _pop_head_page ps c ARC_LFU_GHOST
      pure (ps, c, some p)
    else pure (ps, c, none)

/-- The `while (true)` loop of `evict_data()`, cut off after `fuel` rounds. -/
def evict_loop : Nat → List Page → CARState → Except Fault (List Page × CARState × Nat)
  | 0, _, _ => .error .out_of_fuel
  | fuel + 1, ps, c =>
    if c.arc_list_size.lru ≥ c.arc_lru_limit then do
      let (ps, c, p) ← _pop_head_page ps c ARC_LRU
      let pg ← getPage ps p
      if pg.reference ≠ 0 then do
        let (ps, c) ← _append_page ps c p ARC_LFU
        evict_loop fuel ps c
      else do
        let (ps, c) ← _append_page ps c p ARC_LRU_GHOST
        pure (ps, c, p)
    else do
      let (ps, c, p) ← _pop_head_page ps c ARC_LFU
      let pg ← getPage ps p
      if pg.reference ≠ 0 then do
        let (ps, c) ← _append_page ps c p ARC_LFU
        evict_loop fuel ps c
      else do
        let (ps, c) ← _append_page ps c p ARC_LFU_GHOST
        pure (ps, c, p)

/-- `Page* evict_data()`.  Every round that does not return clears one
reference bit, so `ps.length + 1` rounds are enough for any heap. -/
def evict_data (ps : List Page) (c : CARState) : Except Fault (List Page × CARState × Nat) :=
  evict_loop (ps.length + 1) ps c

/-- `void insert_page(Page *page)`. -/
def insert_page (ps : List Page) (c : CARState) (page : Nat) :
    Except Fault (List Page × CARState) := do
  let pg ← getPage ps page
  -- --arc_list_size[page->arc_idx];
  let sz ← c.arc_list_size.get pg.arc_idx
  let sizes ← c.arc_list_size.set pg.arc_idx (sub32 sz 1)
  _append_page ps { c with arc_list_size := sizes } page pg.arc_idx

/-- `inline void adjust_and_hold(Page *cur_page, int hit_ghost_history)`. -/
def adjust_and_hold (ps : List Page) (c : CARState) (cur_page hit_ghost_history : Nat) :
    Except Fault (List Page × CARState) := do
  let (ps, c) ←
    (if hit_ghost_history = ARC_LRU then
      if c.arc_list_size.lfu_ghost = 0 then .error .div_by_zero
      else do
        let lim := min
          (u32 (c.arc_lru_limit + c.arc_list_size.lru_ghost / c.arc_list_size.lfu_ghost))
          c.data_pages
        let ps ← modPage ps cur_page (fun x => { x with arc_idx := ARC_LFU })
        pure (ps, { c with arc_lru_limit := lim })
    else if hit_ghost_history = ARC_LFU then
      if c.arc_list_size.lfu_ghost = 0 then .error .div_by_zero
      else do
        let difference := c.arc_list_size.lru_ghost / c.arc_list_size.lfu_ghost
        let lim := if c.arc_lru_limit > difference then sub32 c.arc_lru_limit difference else 0
        let ps ← modPage ps cur_page (fun x => { x with arc_idx := ARC_LFU })
        pure (ps, { c with arc_lru_limit := lim })
    else do
      let ps ← modPage ps cur_page (fun x => { x with arc_idx := ARC_LRU })
      pure (ps, c) : Except Fault (List Page × CARState))
  -- ++arc_list_size[cur_page->arc_idx];
  let pg ← getPage ps cur_page
  let sz ← c.arc_list_size.get pg.arc_idx
  let sizes ← c.arc_list_size.set pg.arc_idx (u32 (sz + 1))
  pure (ps, { c with arc_list_size := sizes })

/-- `void make_dirty(Page *page)`. -/
def make_dirty (ps : List Page) (c : CARState) (page : Nat) :
    Except Fault (List Page × CARState) := do
  let (ps, c) ← _remove_page ps c page
  -- ++arc_list_size[page->arc_idx];
  let pg ← getPage ps page
  let sz ← c.arc_list_size.get pg.arc_idx
  let sizes ← c.arc_list_size.set pg.arc_idx (u32 (sz + 1))
  pure (ps, { c with arc_list_size := sizes })

/-- `bool is_full()`. -/
def is_full (c : CARState) : Bool :=
  u32 (c.arc_list_size.lru + c.arc_list_size.lfu) == c.data_pages

/-- `bool validate()`, with the `uint32_t` arithmetic of the source. -/
def validate (c : CARState) : Bool :=
  let s := c.arc_list_size
  if u32 (s.lru + s.lfu) > c.data_pages then false
  else if u32 (s.lru + s.lru_ghost) > c.data_pages then false
  else if u32 (s.lfu + s.lfu_ghost) > u32 (c.data_pages * 2) then false
  else if u32 (s.lru + s.lfu + s.lru_ghost + s.lfu_ghost) > u32 (c.data_pages * 2) then false
  else if u32 (s.lru + s.lfu) < c.data_pages ∧ u32 (s.lru_ghost + s.lfu_ghost) ≠ 0 then false
  else if u32 (s.lru + s.lfu + s.lru_ghost + s.lfu_ghost) > c.data_pages
      ∧ u32 (s.lru + s.lfu) ≠ c.data_pages then false
  else true

end CARState

/-! ## Requests, completions and the environment -/

/-- `errno` values used by the sources (Linux). -/
def ENOENT : Int := 2
/-- Try again. -/
def EAGAIN : Int := 11
/-- File exists. -/
def EEXIST : Int := 17

/-- `ObjectPage`: one object extent with the pages that back it, as
`(offset in the object, Page *)` pairs. -/
structure ObjectPage where
  oid : Nat
  objectno : Nat
  offset : Nat
  length : Nat
  page_extents : List (Nat × Nat)
  deriving DecidableEq, Repr

/-- The map `map<object_t, vector<ObjectPage> >`. -/
abbrev ObjectExtents := List (Nat × List ObjectPage)

/-- `Striper::file_to_pages(cct, format, layout, offset, len, trunc, pages,
page_length, object_extents)` is outside the sources: it is a parameter, taking
the start offset, the byte length, the page array and the page length, and
adding extents to the map. -/
abbrev Striper := Nat → Nat → List Nat → Nat → ObjectExtents → ObjectExtents

/-- A `Context *`: a completion supplied by the user (named by a number), or
a `C_FlushWrite(bc, c)` wrapper. -/
inductive Context where
  | user (id : Nat)
  | C_FlushWrite (c : Option Nat)
  deriving DecidableEq, Repr

/-- The class `BlockCacherCompletion`; `deleted` records `delete this`. -/
structure BlockCacherCompletion where
  count : Nat := 0
  rval : Int := 0
  ctxt : Context
  deleted : Bool := false
  deriving DecidableEq, Repr

/-- The class `C_BlockCacheWrite`; `comp` is a `BlockCacherCompletion *`. -/
structure C_BlockCacheWrite where
  comp : Nat
  ictx : Nat
  extent : ObjectPage
  data : List Nat
  flush_id : Nat
  deriving DecidableEq, Repr

/-- The class `C_BlockCacheRead`; `start_buf` is a pointer into a caller
buffer, kept as (buffer, byte offset). -/
structure C_BlockCacheRead where
  comp : Nat
  extent : ObjectPage
  start : Nat
  «end» : Nat
  start_buf : Nat × Nat
  deriving DecidableEq, Repr

/-! ## BlockCacher (BlockCacher.h 302-614) -/

/-- The class `BlockCacher` (locks, condition variables and threads left out),
together with what it points into: the page frames, the live completions, the
requests handed to the object backend, the caller buffers, and the log of
`Context::complete(r)` calls. -/
structure BlockCacher where
  ictx_next : Nat := 1
  ictx_ids : List (Nat × Nat) := []
  registered_ictx : List (Option Nat) := []
  registered_tree : List (Option PageRBTree) := []
  ghost_trees : List (Option PageRBTree) := []
  all_pages : List Page := []
  total_half_pages : Nat := 0
  region_maxpages : Nat := 0
  page_length : Nat := 0
  remain_data_pages : Nat := 0
  regions : List (Nat × Nat) := []
  free_pages_head : Option Nat := none
  free_data_pages_head : Option Nat := none
  num_free_data_pages : Nat := 0
  read_page_wait : Bool := false
  write_page_wait : Bool := false
  inflight_pages : Int := 0
  car_state : CARState := {}
  dirty_page_state : DirtyPageState := {}
  flusher_stop : Bool := true
  flush_id : Nat := 0
  flush_retry_writes : List C_BlockCacheWrite := []
  flush_commits : List (Nat × (Nat × Option Context)) := []
  wait_writeback : List Context := []
  frames : List (List Nat) := []
  heap_fill : Nat := 0
  completions : List BlockCacherCompletion := []
  backend_reads : List C_BlockCacheRead := []
  backend_writes : List C_BlockCacheWrite := []
  user_bufs : List (List Nat) := []
  fired : List (Nat × Int) := []
  deriving DecidableEq, Repr

namespace BlockCacher

/-- The loop of `init` that threads all descriptors onto `free_pages`. -/
def init_pages : Nat → List Page × Option Nat
  | 0 => ([], none)
  | i + 1 =>
    let (ps, head) := init_pages i
    (ps ++ [{ page_next := head, arc_idx := ARC_COUNT }], some i)

/-- `void init(cache_size, unit, region_units, target_dirty, max_dirty, ...)`;
`fill` is the byte that freshly allocated region memory happens to hold. -/
def init (bc : BlockCacher) (cache_size unit region_units target_dirty max_dirty fill : Nat) :
    Except Fault BlockCacher :=
  if bc.page_length ≠ 0 then .ok bc
  else if u64 unit = 0 then .error .div_by_zero
  else
    let total := u32 (u64 cache_size / u64 unit)
    let (ps, head) := init_pages (u64 (total * 2))
    .ok { bc with
      page_length := u32 unit
      region_maxpages := u32 region_units
      total_half_pages := total
      remain_data_pages := total
      dirty_page_state := { bc.dirty_page_state with
        target_pages := u32 (u32 target_dirty / u64 unit)
        max_dirty_pages := u32 (u32 max_dirty / u64 unit) }
      car_state := { bc.car_state with arc_lru_limit := total / 2, data_pages := total }
      all_pages := ps
      free_pages_head := head
      flusher_stop := false
      heap_fill := fill }

/-- `v.resize(n + 1)` followed by `v[n] = x`. -/
def resize_set {α : Type} (v : List (Option α)) (n : Nat) (x : Option α) : List (Option α) :=
  ((v ++ List.replicate (n + 1 - v.length) none).take (n + 1)).set n x

/-- `int register_image(ImageCtx *ictx)`; an `ImageCtx *` is a number. -/
def register_image (bc : BlockCacher) (ictx : Nat) : BlockCacher × Nat :=
  match map_find bc.ictx_ids ictx with
  | some id => (bc, id)
  | none =>
    ({ bc with
        registered_ictx := resize_set bc.registered_ictx bc.ictx_next (some ictx)
        registered_tree := resize_set bc.registered_tree bc.ictx_next (some .nil)
        ghost_trees := resize_set bc.ghost_trees bc.ictx_next (some .nil)
        ictx_ids := map_set bc.ictx_ids ictx bc.ictx_next
        ictx_next := bc.ictx_next + 1 },
      bc.ictx_next)

/-- `void unregister_image(ImageCtx *ictx)`. -/
def unregister_image (bc : BlockCacher) (ictx : Nat) : BlockCacher :=
  match map_find bc.ictx_ids ictx with
  | none => bc
  | some id =>
    { bc with
      registered_ictx := bc.registered_ictx.set id none
      registered_tree := bc.registered_tree.set id none
      ghost_trees := bc.ghost_trees.set id none
      ictx_ids := map_erase bc.ictx_ids ictx }

/-- Dereference of the tree pointer stored in slot `i` of a tree vector. -/
def get_tree (v : List (Option PageRBTree)) (i : Nat) : Except Fault PageRBTree :=
  match v[i]? with
  | some (some t) => .ok t
  | some none => .error .null_deref
  | none => .error .out_of_bounds

/-- Assignment to slot `i` of a tree vector. -/
def set_tree (v : List (Option PageRBTree)) (i : Nat) (t : PageRBTree) :
    List (Option PageRBTree) :=
  v.set i (some t)

/-- `int reg_region(uint64_t num_pages)`, the loop that moves one descriptor
per new frame from `free_pages` to `free_data_pages`; `frame` is the number of
the frame the descriptor receives. -/
def reg_region_loop : Nat → BlockCacher → Nat → Except Fault BlockCacher
  | 0, bc, _ => .ok bc
  | n + 1, bc, frame => do
    -- p = free_pages_head; free_pages_head = free_pages_head->page_next;
    let p ← CARState.deref bc.free_pages_head
    let pg ← getPage bc.all_pages p
    -- p->addr = data; p->page_next = free_data_pages_head; free_data_pages_head = p;
    let ps ← modPage bc.all_pages p
      (fun x => { x with addr := some frame, page_next := bc.free_data_pages_head })
    reg_region_loop n
      { bc with
        free_pages_head := pg.page_next
        num_free_data_pages := u64 (bc.num_free_data_pages + 1)
        all_pages := ps
        free_data_pages_head := some p }
      (frame + 1)

/-- `int reg_region(uint64_t num_pages)` for a `posix_memalign` that succeeds
(returns 0); the new region is `num_pages` fresh frames. -/
def reg_region (bc : BlockCacher) (num_pages : Nat) : Except Fault (BlockCacher × Int) := do
  assert (num_pages != 0)
  let first := bc.frames.length
  let bc := { bc with
    frames := bc.frames ++ List.replicate num_pages (List.replicate bc.page_length bc.heap_fill) }
  let bc ← reg_region_loop num_pages bc first
  pure ({ bc with
    remain_data_pages := sub32 bc.remain_data_pages (u32 num_pages)
    regions := bc.regions ++ [(first, u64 (num_pages * bc.page_length))] }, 0)

/-- The first loop of `get_pages`: walk the image index from
`lower_bound(align_offset)` and record the pages below `end_offset` as hits.
The argument is the in-order suffix the iterator still has to visit. -/
def hit_scan (page_length align_offset end_offset num_pages : Nat) :
    List Nat → List Page → List (Option Nat) → List Bool →
      Except Fault (List Page × List (Option Nat) × List Bool)
  | [], ps, pages, hit => .ok (ps, pages, hit)
  | n :: rest, ps, pages, hit => do
    let cur_page ← getPage ps n
    -- while (cur_page->onread) { read_page_wait = true; tree_cond.Wait(tree_lock); }
    if cur_page.onread ≠ 0 then .error .would_block
    else if cur_page.offset < end_offset then do
      let ps ← CARState.hit_page ps n
      -- idx = (cur_page->offset-align_offset)/page_length; pages[idx] = cur_page; hit[idx] = true;
      if page_length = 0 then .error .div_by_zero
      else if sub64 cur_page.offset align_offset / page_length ≥ num_pages then
        .error .out_of_bounds
      else
        hit_scan page_length align_offset end_offset num_pages rest ps
          (pages.set (sub64 cur_page.offset align_offset / page_length) (some n))
          (hit.set (sub64 cur_page.offset align_offset / page_length) true)
    else .ok (ps, pages, hit)

/-- Lines 150-164 of `get_pages`: the ghost-index walk for the miss slot at
`pos`.  Returns `hit_ghost_history`, `ghost_it` and `ghost_page`. -/
def ghost_walk (ps : List Page) (ghost_tree : PageRBTree) (pos : Nat)
    (ghost_it ghost_page : Option Nat) : Except Fault (Nat × Option Nat × Option Nat) :=
  match ghost_it with
  | none => .ok (2, none, ghost_page)
  | some it => do
    let g ← CARState.deref ghost_page
    let gp ← getPage ps g
    let (hist, ghost_it, ghost_page) ←
      (if gp.offset = pos then
        -- hit_ghost_history = ghost_page->arc_idx; ++ghost_it;
        pure (gp.arc_idx, PageRBTree.next ghost_tree it, ghost_page)
      else if gp.offset < pos then
        -- while (ghost_page->offset < pos) ++ghost_it;
        throw Fault.diverge
      else
        -- ghost_page = ghost_it != end ? container(ghost_it) : NULL;
        pure (2, some it, some it) : Except Fault (Nat × Option Nat × Option Nat))
    -- if (ghost_page) assert(ghost_page->offset > pos);
    match ghost_page with
    | some g => do
      let gp ← getPage ps g
      assert (decide (gp.offset > pos))
      pure (hist, ghost_it, ghost_page)
    | none => pure (hist, ghost_it, ghost_page)

/-- Pop of the head of `free_data_pages`:
`cur_page = free_data_pages_head; free_data_pages_head = cur_page->page_next;
--num_free_data_pages;`. -/
def pop_free_data_page (bc : BlockCacher) : Except Fault (BlockCacher × Nat) := do
  let cur_page ← CARState.deref bc.free_data_pages_head
  let pg ← getPage bc.all_pages cur_page
  pure ({ bc with
    free_data_pages_head := pg.page_next
    num_free_data_pages := sub64 bc.num_free_data_pages 1 }, cur_page)

/-- Lines 168-180 of `get_pages` (cache full): evict a page with CAR, move it
to the ghost index, and give its frame to a descriptor taken from a ghost list
or from `free_pages`. -/
def take_evicted (bc : BlockCacher) (tree ghost_tree hit_ghost_history : Nat)
    (ghost_page : Option Nat) : Except Fault (BlockCacher × Nat) := do
  -- Page *p = car_state.evict_data();
  let (ps, car, p) ← CARState.evict_data bc.all_pages bc.car_state
  -- tree->erase(p); ghost_tree->insert(p);
  let t ← get_tree bc.registered_tree tree
  let trees := set_tree bc.registered_tree tree (PageRBTree.erase t p)
  let gt ← get_tree bc.ghost_trees ghost_tree
  let gt ← PageRBTree.insert ps gt p
  let ghosts := set_tree bc.ghost_trees ghost_tree gt
  -- cur_page = car_state.get_ghost_page(hit_ghost_history != 2 ? ghost_page : NULL);
  let (ps, car, cur) ← CARState.get_ghost_page ps car
    (if hit_ghost_history ≠ 2 then ghost_page else none)
  let bc := { bc with all_pages := ps, car_state := car, registered_tree := trees,
                      ghost_trees := ghosts }
  let (bc, cur_page) ←
    (match cur with
      | some q => do
        -- ghost_tree->erase(cur_page);
        let gt ← get_tree bc.ghost_trees ghost_tree
        let ghosts := set_tree bc.ghost_trees ghost_tree (PageRBTree.erase gt q)
        pure ({ bc with ghost_trees := ghosts }, q)
      | none => do
        -- cur_page = free_pages_head; free_pages_head = free_pages_head->page_next;
        let q ← CARState.deref bc.free_pages_head
        let qg ← getPage bc.all_pages q
        pure ({ bc with free_pages_head := qg.page_next }, q) :
      Except Fault (BlockCacher × Nat))
  -- cur_page->addr = p->addr;
  let pg ← getPage bc.all_pages p
  let ps ← modPage bc.all_pages cur_page (fun x => { x with addr := pg.addr })
  pure ({ bc with all_pages := ps }, cur_page)

/-- Lines 182-188 of `get_pages` (frames left to allocate): grow by one region
and take its first free frame. -/
def take_grown (bc : BlockCacher) : Except Fault (BlockCacher × Nat) := do
  -- uint32_t rps = MIN(remain_data_pages, region_maxpages);
  let rps := min bc.remain_data_pages bc.region_maxpages
  -- assert(reg_region(rps) == 0);
  let (bc, r) ← reg_region bc rps
  assert (r == 0)
  pop_free_data_page bc

/-- Lines 196-202 of `get_pages`: admit `cur_page` to CAR and to the image
index, then give it its identity. -/
def admit_page (bc : BlockCacher) (ictx_id tree pos hit_ghost_history cur_page : Nat) :
    Except Fault (BlockCacher × Nat) := do
  -- assert(cur_page->addr);
  let pg ← getPage bc.all_pages cur_page
  assert pg.addr.isSome
  -- car_state.adjust_and_hold(cur_page, hit_ghost_history);
  let (ps, car) ← CARState.adjust_and_hold bc.all_pages bc.car_state cur_page hit_ghost_history
  -- tree->insert(cur_page);
  let t ← get_tree bc.registered_tree tree
  let t ← PageRBTree.insert ps t cur_page
  -- cur_page->ictx_id = ictx_id; cur_page->offset = pos;
  let ps ← modPage ps cur_page (fun x => { x with ictx_id := ictx_id % 65536, offset := pos })
  let trees := set_tree bc.registered_tree tree t
  pure ({ bc with all_pages := ps, car_state := car, registered_tree := trees }, cur_page)

/-- Lines 166-202 of `get_pages`: obtain a descriptor with a frame for the miss
slot at `pos` (from `free_data_pages`, from a new region, or by eviction), and
admit it. -/
def miss_admit (bc : BlockCacher) (ictx_id tree ghost_tree pos hit_ghost_history : Nat)
    (ghost_page : Option Nat) : Except Fault (BlockCacher × Nat) := do
  let (bc, cur_page) ←
    (if bc.free_data_pages_head.isNone then
      if bc.remain_data_pages = 0 then
        take_evicted bc tree ghost_tree hit_ghost_history ghost_page
      else take_grown bc
    else pop_free_data_page bc : Except Fault (BlockCacher × Nat))
  admit_page bc ictx_id tree pos hit_ghost_history cur_page

/-- The `for (pos = align_offset; idx < num_pages; pos += page_length, idx++)`
loop of `get_pages`; the first argument counts the slots still to visit. -/
def miss_loop (ictx_id tree ghost_tree : Nat) :
    Nat → BlockCacher → Nat → Nat → Option Nat → Option Nat → List (Option Nat) → List Bool →
      Except Fault (BlockCacher × List (Option Nat) × List Bool)
  | 0, bc, _, _, _, _, pages, hit => .ok (bc, pages, hit)
  | n + 1, bc, idx, pos, ghost_it, ghost_page, pages, hit =>
    if hit.getD idx false then
      miss_loop ictx_id tree ghost_tree n bc (idx + 1) (u64 (pos + bc.page_length))
        ghost_it ghost_page pages hit
    else do
      let gt ← get_tree bc.ghost_trees ghost_tree
      let (hist, ghost_it, ghost_page) ← ghost_walk bc.all_pages gt pos ghost_it ghost_page
      let (bc, cur_page) ← miss_admit bc ictx_id tree ghost_tree pos hist ghost_page
      -- pages[idx] = cur_page;
      miss_loop ictx_id tree ghost_tree n bc (idx + 1) (u64 (pos + bc.page_length))
        ghost_it ghost_page (pages.set idx (some cur_page)) hit

/-- `int get_pages(ictx_id, tree, ghost_tree, pages, hit, num_pages,
align_offset, only_hit)`.  `tree` is the slot of `registered_tree` the pointer
refers to, `ghost_tree` the slot of `ghost_trees` (or `NULL`).  Returns the
arrays `pages` (`none`: not written) and `hit`. -/
def get_pages (bc : BlockCacher) (ictx_id tree : Nat) (ghost_tree : Option Nat)
    (num_pages align_offset : Nat) (only_hit : Bool := false) :
    Except Fault (BlockCacher × List (Option Nat) × List Bool) := do
  let end_offset := u64 (align_offset + num_pages * bc.page_length)
  let t ← get_tree bc.registered_tree tree
  let suffix ← PageRBTree.lower_bound bc.all_pages t align_offset
  let (ps, pages, hit) ← hit_scan bc.page_length align_offset end_offset num_pages suffix
    bc.all_pages (List.replicate num_pages none) (List.replicate num_pages false)
  let bc := { bc with all_pages := ps }
  if only_hit then pure (bc, pages, hit)
  -- while (num_pages + dirty_pages + inflight_pages >= total_half_pages) wait
  else if (num_pages : Int) + bc.dirty_page_state.get_dirty_pages + bc.inflight_pages
      ≥ bc.total_half_pages then .error .would_block
  else do
    -- assert(ghost_tree);
    let gslot ← (match ghost_tree with
      | some g => pure g
      | none => throw Fault.assert_fail : Except Fault Nat)
    let gt ← get_tree bc.ghost_trees gslot
    let gsuffix ← PageRBTree.lower_bound bc.all_pages gt align_offset
    let ghost_it := gsuffix.head?
    miss_loop ictx_id tree gslot num_pages bc 0 align_offset ghost_it ghost_it pages hit

/-! ### Completions -/

/-- `Context::complete(r)`: a user completion is logged in `fired`; a
`C_FlushWrite` forwards to its wrapped completion when that is not `NULL`. -/
def complete_context (bc : BlockCacher) (c : Context) (r : Int) : BlockCacher :=
  match c with
  | .user id => { bc with fired := bc.fired ++ [(id, r)] }
  | .C_FlushWrite (some id) => { bc with fired := bc.fired ++ [(id, r)] }
  | .C_FlushWrite none => bc

/-- `new BlockCacherCompletion(c)`. -/
def new_completion (bc : BlockCacher) (c : Context) : BlockCacher × Nat :=
  ({ bc with completions := bc.completions ++ [{ ctxt := c }] }, bc.completions.length)

/-- Dereference of a `BlockCacherCompletion *` (a deleted object counts as a
dangling pointer). -/
def get_completion (bc : BlockCacher) (comp : Nat) : Except Fault BlockCacherCompletion :=
  match bc.completions[comp]? with
  | some x => if x.deleted then .error .null_deref else .ok x
  | none => .error .null_deref

/-- `void add_request() { count.inc(); }` -/
def add_request (bc : BlockCacher) (comp : Nat) : Except Fault BlockCacher := do
  let x ← get_completion bc comp
  pure { bc with completions := bc.completions.set comp { x with count := u32 (x.count + 1) } }

/-- `void BlockCacherCompletion::complete_request(int r)`. -/
def complete_request (bc : BlockCacher) (comp : Nat) (r : Int) : Except Fault BlockCacher := do
  let x ← get_completion bc comp
  let rval :=
    if x.rval ≥ 0 then
      if r < 0 ∧ r ≠ -EEXIST then r
      else if r > 0 then x.rval + r
      else x.rval
    else x.rval
  -- if (!count.dec()) { ctxt->complete(rval); delete this; }
  let count := sub32 x.count 1
  if count = 0 then
    let bc := complete_context bc x.ctxt rval
    pure { bc with completions :=
      bc.completions.set comp { x with rval := rval, count := count, deleted := true } }
  else
    pure { bc with completions := bc.completions.set comp { x with rval := rval, count := count } }

/-! ### Writeback -/

/-- Modelled from the spec: `Striper::file_to_pages` is not among the sources.
This is the layout in which the whole image is one object (object 0, offset in
the object = offset in the image), the case "the pages map to one object" of the
spec: each call produces one `ObjectExtent` holding the pages it was given. -/
def single_object_striper : Striper := fun offset len pages page_length object_extents =>
  let e : ObjectPage :=
    { oid := 0, objectno := 0, offset := offset, length := len,
      page_extents := (List.range pages.length).zipWith
        (fun i p => (offset + i * page_length, p)) pages }
  map_set object_extents 0 ((map_find object_extents 0).getD [] ++ [e])

/-- The call `Striper::file_to_pages(..., continuous_pages[0]->offset,
continuous_pages.size()*page_length, 0, &continuous_pages[0], page_length,
object_extents)`. -/
def stripe_run (striper : Striper) (ps : List Page) (page_length : Nat)
    (continuous_pages : List Nat) (object_extents : ObjectExtents) : Except Fault ObjectExtents :=
  match continuous_pages with
  | [] => .error .out_of_bounds
  | p0 :: _ => do
    let pg ← getPage ps p0
    pure (striper pg.offset (u64 (continuous_pages.length * page_length)) continuous_pages
      page_length object_extents)

/-- The `for` loop of `prepare_continuous_pages` over the map `pages`
(`(offset, Page *)` in key order).  `last_offset` is the local variable of
that name. -/
def continuous_loop (striper : Striper) (ps : List Page) (page_length last_offset : Nat) :
    List (Nat × Nat) → List Nat → ObjectExtents → Except Fault (List Nat × ObjectExtents)
  | [], continuous_pages, object_extents => .ok (continuous_pages, object_extents)
  | (first, second) :: rest, continuous_pages, object_extents => do
    let (continuous_pages, object_extents) ←
      (if first ≠ u64 (last_offset + page_length) then
        if continuous_pages ≠ [] then do
          let oe ← stripe_run striper ps page_length continuous_pages object_extents
          pure ([], oe)
        else pure (continuous_pages, object_extents)
      else pure (continuous_pages, object_extents) : Except Fault (List Nat × ObjectExtents))
    continuous_loop striper ps page_length last_offset rest (continuous_pages ++ [second])
      object_extents

/-- `void prepare_continuous_pages(ictx, pages, object_extents)`. -/
def prepare_continuous_pages (striper : Striper) (ps : List Page) (page_length : Nat)
    (pages : List (Nat × Nat)) (object_extents : ObjectExtents) : Except Fault ObjectExtents := do
  -- uint64_t last_offset = 0;
  let (continuous_pages, object_extents) ←
    continuous_loop striper ps page_length 0 pages [] object_extents
  if continuous_pages ≠ [] then
    stripe_run striper ps page_length continuous_pages object_extents
  else pure object_extents

/-- Read of `flush_commits[id]`; `operator[]` creates the entry `(0, NULL)`
when the key is absent. -/
def flush_commits_touch (m : List (Nat × (Nat × Option Context))) (id : Nat) :
    List (Nat × (Nat × Option Context)) × (Nat × Option Context) :=
  match map_find m id with
  | some e => (m, e)
  | none => (map_set m id (0, none), (0, none))

/-- Dereference of `pages[i]->addr`: the frame of a page descriptor. -/
def frame_of (bc : BlockCacher) (page : Nat) : Except Fault (Nat × List Nat) := do
  let pg ← getPage bc.all_pages page
  let a ← CARState.deref pg.addr
  match bc.frames[a]? with
  | some f => pure (a, f)
  | none => throw Fault.null_deref

/-- The inner loop of `flush_object_extent`:
`data.append(q->second->addr, page_length)` for every page of the extent. -/
def gather_data (bc : BlockCacher) : List (Nat × Nat) → List Nat → Except Fault (List Nat)
  | [], data => .ok data
  | (_, q) :: rest, data => do
    let (_, f) ← frame_of bc q
    let bytes ← memread f 0 bc.page_length
    gather_data bc rest (data ++ bytes)

/-- The body of the loops of `flush_object_extent` for one extent `p`. -/
def flush_one_extent (bc : BlockCacher) (ictx comp : Nat) (p : ObjectPage) :
    Except Fault BlockCacher := do
  -- new C_BlockCacheWrite(this, c, ictx, *p, flush_id): comp->add_request()
  let bc ← add_request bc comp
  let data ← gather_data bc p.page_extents []
  let w : C_BlockCacheWrite :=
    { comp := comp, ictx := ictx, extent := p, data := data, flush_id := bc.flush_id }
  -- bc_write_comp->send_by_bc_write_comp(snapc);
  let bc := { bc with backend_writes := bc.backend_writes ++ [w] }
  -- inflight_pages.add(bc_write_comp->extent.page_extents.size());
  let bc := { bc with inflight_pages := bc.inflight_pages + p.page_extents.length }
  -- flush_commits[flush_id].first++;
  let (m, e) := flush_commits_touch bc.flush_commits bc.flush_id
  pure { bc with flush_commits := map_set m bc.flush_id (u64 (e.1 + 1), e.2) }

/-- All extents of one object, in vector order. -/
def flush_extents (ictx comp : Nat) : List ObjectPage → BlockCacher → Except Fault BlockCacher
  | [], bc => .ok bc
  | p :: rest, bc => do
    let bc ← flush_one_extent bc ictx comp p
    flush_extents ictx comp rest bc

/-- `void flush_object_extent(ictx, object_extents, c, snapc)`. -/
def flush_object_extent (ictx comp : Nat) : ObjectExtents → BlockCacher → Except Fault BlockCacher
  | [], bc => .ok bc
  | (_, v) :: rest, bc => do
    let bc ← flush_extents ictx comp v bc
    flush_object_extent ictx comp rest bc

/-- `car_state.insert_page(p)` on the cache state. -/
def car_insert_page (bc : BlockCacher) (p : Nat) : Except Fault BlockCacher := do
  let (ps, car) ← CARState.insert_page bc.all_pages bc.car_state p
  pure { bc with all_pages := ps, car_state := car }

/-- The branch of `flush_pages` for an image that is no longer registered:
`assert(!p->onread); car_state.insert_page(p);` for each page. -/
def discard_dirty : List (Nat × Nat) → BlockCacher → Except Fault BlockCacher
  | [], bc => .ok bc
  | (_, p) :: rest, bc => do
    let pg ← getPage bc.all_pages p
    assert (pg.onread == 0)
    let bc ← car_insert_page bc p
    discard_dirty rest bc

/-- The `for` loop of `flush_pages` over `sorted_flush`. -/
def flush_images (striper : Striper) (c : Context) :
    DirtyPageState.SortedFlush → BlockCacher → Except Fault BlockCacher
  | [], bc => .ok bc
  | (id, pages) :: rest, bc => do
    -- ictx = registered_ictx[it->first];
    let ictx ← (match bc.registered_ictx[id]? with
      | some x => pure x
      | none => throw Fault.out_of_bounds : Except Fault (Option Nat))
    match ictx with
    | none => do
      let bc ← discard_dirty pages bc
      flush_images striper c rest { bc with write_page_wait := false }
    | some ictx => do
      let object_extents ← prepare_continuous_pages striper bc.all_pages bc.page_length pages []
      -- BlockCacherCompletion *comp = new BlockCacherCompletion(c);
      let (bc, comp) := new_completion bc c
      let bc ← flush_object_extent ictx comp object_extents bc
      flush_images striper c rest bc

/-- `void flush_pages(uint32_t num, Context *c)`. -/
def flush_pages (striper : Striper) (bc : BlockCacher) (num : Nat) (c : Context) :
    Except Fault BlockCacher := do
  let (ps, d, sorted_flush) ←
    DirtyPageState.writeback_pages bc.all_pages bc.dirty_page_state [] num
  flush_images striper c sorted_flush { bc with all_pages := ps, dirty_page_state := d }

/-- The loop of `complete_write` over the pages of the extent:
`assert(!p->onread); if (!p->dirty) car_state.insert_page(p);`. -/
def reinsert_clean : List (Nat × Nat) → BlockCacher → Except Fault BlockCacher
  | [], bc => .ok bc
  | (_, p) :: rest, bc => do
    let pg ← getPage bc.all_pages p
    assert (pg.onread == 0)
    let bc ← if pg.dirty = 0 then car_insert_page bc p else pure bc
    reinsert_clean rest bc

/-- `void complete_write(C_BlockCacheWrite *bc_write_comp, int r, bool noretry)`. -/
def complete_write (bc : BlockCacher) (w : C_BlockCacheWrite) (r : Int)
    (noretry : Bool := false) : Except Fault BlockCacher := do
  -- inflight_pages.sub(bc_write_comp->extent.page_extents.size());
  let bc := { bc with inflight_pages := bc.inflight_pages - w.extent.page_extents.length }
  if r < 0 ∧ !noretry then
    pure { bc with flush_retry_writes := bc.flush_retry_writes ++ [w] }
  else do
    -- if (!(--flush_commits[fid].first) && flush_id > fid) { second->complete(0); erase(fid); }
    let (m, e) := flush_commits_touch bc.flush_commits w.flush_id
    let first := sub64 e.1 1
    let bc := { bc with flush_commits := map_set m w.flush_id (first, e.2) }
    let bc ←
      (if first = 0 ∧ bc.flush_id > w.flush_id then do
        let c ← (match e.2 with
          | some c => pure c
          | none => throw Fault.null_deref : Except Fault Context)
        let bc := complete_context bc c 0
        pure { bc with flush_commits := map_erase bc.flush_commits w.flush_id }
      else pure bc : Except Fault BlockCacher)
    let bc ← reinsert_clean w.extent.page_extents bc
    -- bc_write_comp->comp->complete_request(r);
    let bc ← complete_request bc w.comp r
    pure { bc with write_page_wait := false }

/-- `void user_flush(Context *c)`; `c` is the number of a user completion. -/
def user_flush (striper : Striper) (bc : BlockCacher) (c : Nat) : Except Fault BlockCacher := do
  -- dirty_page_state.set_writeback(); flush_pages(0, c);
  let bc := { bc with dirty_page_state := bc.dirty_page_state.set_writeback }
  let bc ← flush_pages striper bc 0 (.user c)
  -- uint64_t count = flush_commits[flush_id].first;
  let (m, e) := flush_commits_touch bc.flush_commits bc.flush_id
  let count := e.1
  -- if (!count) { flush_commits.erase(flush_id);
  let m := if count = 0 then map_erase m bc.flush_id else m
  --   if (flush_commits.empty()) { c->complete(0); return; } }
  if count = 0 ∧ m.isEmpty then
    pure (complete_context { bc with flush_commits := m } (.user c) 0)
  else
    -- flush_commits[flush_id++].second = c;
    let (m, e) := flush_commits_touch m bc.flush_id
    pure { bc with
      flush_commits := map_set m bc.flush_id (e.1, some (.user c))
      flush_id := u64 (bc.flush_id + 1) }

/-! ### write_buffer -/

/-- The expression `end < page->offset + page_length ? end - base : page_length`
that `write_buffer`, `read_buffer` and `complete_read` use for `end_len`. -/
def tail_len («end» page_offset page_length base : Nat) : Nat :=
  if «end» < u64 (page_offset + page_length) then sub64 «end» base else page_length

/-- `if (hit[i] && !pages[i]->dirty) car_state.make_dirty(pages[i]);` followed
(when `mark` is set) by `dirty_page_state.mark_dirty(pages[i]);`. -/
def dirty_page (bc : BlockCacher) (hit : Bool) (page : Nat) : Except Fault BlockCacher := do
  let pg ← getPage bc.all_pages page
  let bc ←
    (if hit ∧ pg.dirty = 0 then do
      let (ps, car) ← CARState.make_dirty bc.all_pages bc.car_state page
      pure { bc with all_pages := ps, car_state := car }
    else pure bc : Except Fault BlockCacher)
  let (ps, d) ← DirtyPageState.mark_dirty bc.all_pages bc.dirty_page_state page
  pure { bc with all_pages := ps, dirty_page_state := d }

/-- `memcpy(pages[i]->addr + off, buf + boff, n)`. -/
def copy_in (bc : BlockCacher) (page off : Nat) (buf : List Nat) (boff n : Nat) :
    Except Fault BlockCacher := do
  let (a, f) ← frame_of bc page
  let f ← memcpy f off buf boff n
  pure { bc with frames := bc.frames.set a f }

/-- Read of `pages[i]` (an array slot that was never written is not a valid
pointer). -/
def page_at (pages : List (Option Nat)) (i : Nat) : Except Fault Nat :=
  match pages[i]? with
  | some (some p) => .ok p
  | some none => .error .null_deref
  | none => .error .out_of_bounds

/-- The `for (i = 1; i < num_pages - 1; ++i, buf += page_length)` loop of
`write_buffer`; the first argument counts the remaining rounds. -/
def write_middle (pages : List (Option Nat)) (hit : List Bool) (buf : List Nat) :
    Nat → BlockCacher → Nat → Nat → Except Fault (BlockCacher × Nat)
  | 0, bc, _, boff => .ok (bc, boff)
  | n + 1, bc, i, boff => do
    let page ← page_at pages i
    let pg ← getPage bc.all_pages page
    let bc ←
      (if hit.getD i false ∧ pg.dirty = 0 then do
        let (ps, car) ← CARState.make_dirty bc.all_pages bc.car_state page
        pure { bc with all_pages := ps, car_state := car }
      else pure bc : Except Fault BlockCacher)
    let bc ← copy_in bc page 0 buf boff bc.page_length
    let (ps, d) ← DirtyPageState.mark_dirty bc.all_pages bc.dirty_page_state page
    write_middle pages hit buf n { bc with all_pages := ps, dirty_page_state := d } (i + 1)
      (boff + bc.page_length)

/-- Lines 588-591 of `write_buffer`: `align_offset` and `num_pages`. -/
def write_buffer_span (page_length off len : Nat) : Nat × Nat :=
  -- uint64_t align_offset = off - off % page_length;
  let align_offset := off - off % page_length
  -- uint64_t num_pages = (len + off - align_offset) / page_length;
  let num_pages := u64 (len + off - align_offset) / page_length
  -- if ((off + len) % page_length) ++num_pages;
  let num_pages := if u64 (off + len) % page_length ≠ 0 then u64 (num_pages + 1) else num_pages
  (align_offset, num_pages)

/-- `int write_buffer(ictx_id, off, len, buf, c, op_flags, snapc)`; `buf` is
the caller buffer, `c` the number of the user completion. -/
def write_buffer (striper : Striper) (bc : BlockCacher) (ictx_id off len : Nat)
    (buf : List Nat) (c : Nat) : Except Fault (BlockCacher × Int) := do
  if len = 0 then return (bc, 0)
  if bc.page_length = 0 then throw Fault.div_by_zero
  let (align_offset, num_pages) := write_buffer_span bc.page_length off len
  -- ImageCtx *ictx = registered_ictx[ictx_id];
  let ictx ← (match bc.registered_ictx[ictx_id]? with
    | some x => pure x
    | none => throw Fault.out_of_bounds : Except Fault (Option Nat))
  let (bc, pages, hit) ← get_pages bc ictx_id ictx_id (some ictx_id) num_pages align_offset
  let «end» := u64 (off + len)
  let p0 ← page_at pages 0
  let pg0 ← getPage bc.all_pages p0
  let start_padding := if off > pg0.offset then off - pg0.offset else 0
  let (bc, i) ←
    (if num_pages = 1 then do
      let end_len := tail_len «end» pg0.offset bc.page_length off
      let bc ← copy_in bc p0 start_padding buf 0 end_len
      pure (bc, 0)
    else do
      let bc ← dirty_page bc (hit.getD 0 false) p0
      let copy_size := sub64 bc.page_length start_padding
      let bc ← copy_in bc p0 start_padding buf 0 copy_size
      let (bc, boff) ← write_middle pages hit buf (num_pages - 2) bc 1 copy_size
      let i := num_pages - 1
      let pi ← page_at pages i
      let pgi ← getPage bc.all_pages pi
      let end_len := tail_len «end» pgi.offset bc.page_length pgi.offset
      let bc ← copy_in bc pi 0 buf boff end_len
      pure (bc, i) : Except Fault (BlockCacher × Nat))
  let pi ← page_at pages i
  let bc ← dirty_page bc (hit.getD i false) pi
  if bc.dirty_page_state.writethrough then do
    -- write-thru!  flush what we just wrote.
    let ictx ← CARState.deref ictx
    let (bc, comp) := new_completion bc (.user c)
    let ps ← pages.mapM (fun x => CARState.deref x)
    let object_extents := striper pg0.offset (u64 (num_pages * bc.page_length)) ps
      bc.page_length []
    let bc ← flush_object_extent ictx comp object_extents bc
    pure (bc, 0)
  else if bc.dirty_page_state.need_writeback then
    pure ({ bc with wait_writeback := bc.wait_writeback ++ [.user c] }, 0)
  else
    pure (complete_context bc (.user c) 0, 0)

/-! ### read_buffer -/

/-- `memcpy(buf + boff, pages[i]->addr + off, n)` into caller buffer `b`. -/
def copy_out (bc : BlockCacher) (b boff page off n : Nat) : Except Fault BlockCacher := do
  let (_, f) ← frame_of bc page
  let dst ← (match bc.user_bufs[b]? with
    | some d => pure d
    | none => throw Fault.null_deref : Except Fault (List Nat))
  let dst ← memcpy dst boff f off n
  pure { bc with user_bufs := bc.user_bufs.set b dst }

/-- `pages[i]->onread = 1; need_read[pages[i]->offset] = pages[i];`. -/
def want_read (bc : BlockCacher) (need_read : List (Nat × Nat)) (page : Nat) :
    Except Fault (BlockCacher × List (Nat × Nat)) := do
  let pg ← getPage bc.all_pages page
  let ps ← modPage bc.all_pages page (fun x => { x with onread := 1 })
  pure ({ bc with all_pages := ps }, map_set need_read pg.offset page)

/-- The `for (i = 1; i < num_pages - 1; ++i, buf += page_length)` loop of
`read_buffer`. -/
def read_middle (pages : List (Option Nat)) (hit : List Bool) (b : Nat) :
    Nat → BlockCacher → Nat → Nat → List (Nat × Nat) →
      Except Fault (BlockCacher × Nat × List (Nat × Nat))
  | 0, bc, _, boff, need_read => .ok (bc, boff, need_read)
  | n + 1, bc, i, boff, need_read => do
    let page ← page_at pages i
    let (bc, need_read) ←
      (if hit.getD i false then do
        let bc ← copy_out bc b boff page 0 bc.page_length
        pure (bc, need_read)
      else want_read bc need_read page : Except Fault (BlockCacher × List (Nat × Nat)))
    read_middle pages hit b n bc (i + 1) (u64 (boff + bc.page_length)) need_read

/-- The loops of `read_object_extents` for an `AioRead::send()` that
returns 0: one `C_BlockCacheRead` per extent goes to the backend. -/
def read_extents (comp start len : Nat) (start_buf : Nat × Nat) :
    List ObjectPage → BlockCacher → Except Fault BlockCacher
  | [], bc => .ok bc
  | p :: rest, bc => do
    let bc ← add_request bc comp
    let rd : C_BlockCacheRead :=
      { comp := comp, extent := p, start := start, «end» := u64 (start + len),
        start_buf := start_buf }
    read_extents comp start len start_buf rest
      { bc with backend_reads := bc.backend_reads ++ [rd] }

/-- `int read_object_extents(ictx, offset, len, object_extents, buf, c, snap_id)`. -/
def read_object_extents (comp offset len : Nat) (buf : Nat × Nat) :
    ObjectExtents → BlockCacher → Except Fault BlockCacher
  | [], bc => .ok bc
  | (_, v) :: rest, bc => do
    let bc ← read_extents comp offset len buf v bc
    read_object_extents comp offset len buf rest bc

/-- Lines 671-674 of `read_buffer`: `align_offset` and `num_pages`
(a `uint32_t`). -/
def read_buffer_span (page_length offset len : Nat) : Nat × Nat :=
  let align_offset := offset - offset % page_length
  let num_pages := u32 (u64 (len + offset - align_offset) / page_length)
  let num_pages := if u64 (offset + len) % page_length ≠ 0 then u32 (num_pages + 1)
    else num_pages
  (align_offset, num_pages)

/-- `int read_buffer(ictx_id, offset, len, buf, c, snap_id, op_flags)`.  `b`
names the caller buffer in `user_bufs`; `uninit` is the value the local
`size_t copy_size` holds when it is read without having been assigned. -/
def read_buffer (striper : Striper) (bc : BlockCacher) (ictx_id offset len b c uninit : Nat) :
    Except Fault (BlockCacher × Int) := do
  if bc.page_length = 0 then throw Fault.div_by_zero
  let (align_offset, num_pages) := read_buffer_span bc.page_length offset len
  let ictx ← (match bc.registered_ictx[ictx_id]? with
    | some x => pure x
    | none => throw Fault.out_of_bounds : Except Fault (Option Nat))
  let (bc, pages, hit) ← get_pages bc ictx_id ictx_id (some ictx_id) num_pages align_offset
  let «end» := u64 (offset + len)
  let p0 ← page_at pages 0
  let pg0 ← getPage bc.all_pages p0
  let start_padding := if offset > pg0.offset then offset - pg0.offset else 0
  let (bc, boff, need_read) ←
    (if num_pages = 1 then
      if hit.getD 0 false then do
        let end_len := tail_len «end» pg0.offset bc.page_length offset
        let bc ← copy_out bc b 0 p0 start_padding end_len
        pure (bc, 0, [])
      else do
        let (bc, need_read) ← want_read bc [] p0
        pure (bc, 0, need_read)
    else do
      let (bc, copy_size, need_read) ←
        (if hit.getD 0 false then do
          let copy_size := sub64 bc.page_length start_padding
          let bc ← copy_out bc b 0 p0 start_padding copy_size
          pure (bc, copy_size, [])
        else do
          let (bc, need_read) ← want_read bc [] p0
          pure (bc, uninit, need_read) : Except Fault (BlockCacher × Nat × List (Nat × Nat)))
      -- buf += copy_size;
      let (bc, boff, need_read) ←
        read_middle pages hit b (num_pages - 2) bc 1 (u64 copy_size) need_read
      let i := num_pages - 1
      let pi ← page_at pages i
      if hit.getD i false then do
        let pgi ← getPage bc.all_pages pi
        let end_len := tail_len «end» pgi.offset bc.page_length pgi.offset
        let bc ← copy_out bc b boff pi 0 end_len
        pure (bc, boff, need_read)
      else do
        let (bc, need_read) ← want_read bc need_read pi
        pure (bc, boff, need_read) : Except Fault (BlockCacher × Nat × List (Nat × Nat)))
  -- inflight_pages.add(need_read.size());
  let bc := { bc with inflight_pages := bc.inflight_pages + need_read.length }
  if need_read ≠ [] then do
    let (bc, comp) := new_completion bc (.user c)
    let _ ← CARState.deref ictx
    let object_extents ← prepare_continuous_pages striper bc.all_pages bc.page_length need_read []
    let bc ← read_object_extents comp offset len (b, boff) object_extents bc
    pure (bc, 0)
  else
    pure (complete_context bc (.user c) len, 0)

/-! ### complete_read -/

/-- The locals of the scatter phase of `complete_read`: `page_it` (as an index
into `extent.page_extents`), `i`, `page_left`, `page_int_offset`, the position
of `bliter` in the data, and the array `is_zero`. -/
structure ReadCursor where
  page_it : Nat
  i : Nat
  page_left : Nat
  page_int_offset : Nat
  bliter : Nat
  is_zero : List (Option Bool)
  deriving DecidableEq, Repr

/-- Dereference of `page_it`. -/
def page_ref (pe : List (Nat × Nat)) (page_it : Nat) : Except Fault (Nat × Nat) :=
  match pe[page_it]? with
  | some x => .ok x
  | none => .error .out_of_bounds

/-- `memset(page->addr + off, 0, n)`. -/
def zero_page (bc : BlockCacher) (page off n : Nat) : Except Fault BlockCacher := do
  let (a, f) ← frame_of bc page
  let f ← memset f off 0 n
  pure { bc with frames := bc.frames.set a f }

/-- The assignment `is_zero[i++] = v`. -/
def set_is_zero (k : ReadCursor) (v : Bool) : Except Fault ReadCursor :=
  if k.i < k.is_zero.length then
    .ok { k with is_zero := k.is_zero.set k.i (some v), i := k.i + 1 }
  else .error .out_of_bounds

/-- The loop `while (ext_it->first >= page_it->first + page_int_offset +
page_left)` that zero-fills pages lying wholly before the extent. -/
def skip_loop (pe : List (Nat × Nat)) (ext_first : Nat) :
    Nat → BlockCacher → ReadCursor → Except Fault (BlockCacher × ReadCursor)
  | 0, _, _ => .error .out_of_fuel
  | fuel + 1, bc, k => do
    let (first, page) ← page_ref pe k.page_it
    if ext_first ≥ u64 (first + k.page_int_offset + k.page_left) then do
      let bc ← zero_page bc page k.page_int_offset k.page_left
      let k ← set_is_zero { k with page_int_offset := 0, page_left := bc.page_length,
                                   page_it := k.page_it + 1 } true
      skip_loop pe ext_first fuel bc k
    else pure (bc, k)

/-- The loop `while (tlen)` that copies one extent from the backend data into
the pages. -/
def fill_loop (pe : List (Nat × Nat)) (data : List Nat) :
    Nat → BlockCacher → ReadCursor → Nat → Except Fault (BlockCacher × ReadCursor)
  | 0, _, _, _ => .error .out_of_fuel
  | fuel + 1, bc, k, tlen =>
    if tlen = 0 then pure (bc, k)
    else do
      let copy_size := min k.page_left tlen
      let (_, page) ← page_ref pe k.page_it
      -- bliter.copy(copy_size, page_it->second->addr + page_int_offset);
      let (a, f) ← frame_of bc page
      let f ← memcpy f k.page_int_offset data k.bliter copy_size
      let bc := { bc with frames := bc.frames.set a f }
      let k := { k with bliter := k.bliter + copy_size }
      let tlen := tlen - copy_size
      if k.page_left = copy_size then do
        let k ← set_is_zero { k with page_it := k.page_it + 1, page_left := bc.page_length,
                                     page_int_offset := 0 } false
        fill_loop pe data fuel bc k tlen
      else
        fill_loop pe data fuel bc
          { k with page_left := k.page_left - copy_size,
                   page_int_offset := k.page_int_offset + copy_size } tlen

/-- The `for` loop of `complete_read` over `req->m_ext_map`. -/
def scatter_loop (pe : List (Nat × Nat)) (data : List Nat) :
    List (Nat × Nat) → BlockCacher → ReadCursor → Except Fault (BlockCacher × ReadCursor)
  | [], bc, k => .ok (bc, k)
  | (ext_first, ext_second) :: rest, bc, k => do
    let (bc, k) ← skip_loop pe ext_first (pe.length + 1) bc k
    -- padding = ext_it->first - page_it->first;
    let (first, page) ← page_ref pe k.page_it
    let padding := sub64 ext_first first
    let (bc, k) ←
      (if padding ≠ 0 then do
        let bc ← zero_page bc page k.page_int_offset padding
        pure (bc, { k with page_int_offset := u64 (k.page_int_offset + padding),
                           page_left := sub64 k.page_left padding })
      else pure (bc, k) : Except Fault (BlockCacher × ReadCursor))
    let (bc, k) ← fill_loop pe data (ext_second + pe.length + 1) bc k ext_second
    scatter_loop pe data rest bc k

/-- The loop `while (i != num_pages)` that zero-fills the remaining pages. -/
def tail_zero (pe : List (Nat × Nat)) (num_pages : Nat) :
    Nat → BlockCacher → ReadCursor → Except Fault (BlockCacher × ReadCursor)
  | 0, _, _ => .error .out_of_fuel
  | fuel + 1, bc, k =>
    if k.i ≠ num_pages then do
      let (_, page) ← page_ref pe k.page_it
      let bc ← zero_page bc page 0 bc.page_length
      let k ← set_is_zero { k with page_it := k.page_it + 1 } true
      tail_zero pe num_pages fuel bc k
    else pure (bc, k)

/-- `assert(page->onread); page->onread = 0; car_state.insert_page(page);`. -/
def finish_page (bc : BlockCacher) (page : Nat) : Except Fault BlockCacher := do
  let pg ← getPage bc.all_pages page
  assert (pg.onread != 0)
  let ps ← modPage bc.all_pages page (fun x => { x with onread := 0 })
  car_insert_page { bc with all_pages := ps } page

/-- `memset(buf + boff, 0, n)` on caller buffer `b`. -/
def zero_out (bc : BlockCacher) (b boff n : Nat) : Except Fault BlockCacher := do
  let dst ← (match bc.user_bufs[b]? with
    | some d => pure d
    | none => throw Fault.null_deref : Except Fault (List Nat))
  let dst ← memset dst boff 0 n
  pure { bc with user_bufs := bc.user_bufs.set b dst }

/-- The loop `for (i = 1; i < num_pages - 1; ++i, ++page_it)` of the copy-out
phase of `complete_read`. -/
def out_middle (pe : List (Nat × Nat)) (rd : C_BlockCacheRead) (is_zero : List (Option Bool)) :
    Nat → BlockCacher → Nat → Except Fault BlockCacher
  | 0, bc, _ => .ok bc
  | n + 1, bc, i => do
    let (_, page) ← page_ref pe i
    let pg ← getPage bc.all_pages page
    let z ← (match is_zero[i]? with
      | some (some z) => pure z
      | some none => throw Fault.uninit_read
      | none => throw Fault.out_of_bounds : Except Fault Bool)
    let bc ←
      (if z then zero_out bc rd.start_buf.1 rd.start_buf.2 bc.page_length
      else copy_out bc rd.start_buf.1 (u64 (rd.start_buf.2 + sub64 pg.offset rd.start)) page 0
        bc.page_length : Except Fault BlockCacher)
    let bc ← finish_page bc page
    out_middle pe rd is_zero n bc (i + 1)

/-- The error branch of `complete_read`: `onread = 0; insert_page` per page. -/
def release_pages : List (Nat × Nat) → BlockCacher → Except Fault BlockCacher
  | [], bc => .ok bc
  | (_, page) :: rest, bc => do
    let ps ← modPage bc.all_pages page (fun x => { x with onread := 0 })
    let bc ← car_insert_page { bc with all_pages := ps } page
    release_pages rest bc

/-- `void complete_read(C_BlockCacheRead *bc_read_comp, int r)`.  The reply of
the backend is the result `r`, the sparse extent map `m_ext_map` of the
`AioRead` (object offset, length) and its `data()`. -/
def complete_read (bc : BlockCacher) (rd : C_BlockCacheRead) (r : Int)
    (m_ext_map : List (Nat × Nat)) (data : List Nat) : Except Fault BlockCacher := do
  let pe := rd.extent.page_extents
  -- inflight_pages.sub(bc_read_comp->extent.page_extents.size());
  let bc := { bc with inflight_pages := bc.inflight_pages - pe.length }
  let (bc, r) ←
    (if r < 0 ∧ r ≠ -ENOENT then do
      let bc ← release_pages pe bc
      pure (bc, r)
    else do
      -- if (req->m_ext_map.empty()) req->m_ext_map[req->get_object_off()] = req->data().length();
      let m_ext_map := if m_ext_map.isEmpty then [(rd.extent.offset, data.length)] else m_ext_map
      let num_pages := pe.length
      let k : ReadCursor :=
        { page_it := 0, i := 0, page_left := bc.page_length, page_int_offset := 0, bliter := 0,
          is_zero := List.replicate num_pages none }
      let (bc, k) ← scatter_loop pe data m_ext_map bc k
      -- if (page_it != bc_read_comp->extent.page_extents.end()) { ... }
      let (bc, k) ←
        (if k.page_it ≠ pe.length then do
          let (bc, k) ←
            (if k.page_left ≠ 0 then do
              let (_, page) ← page_ref pe k.page_it
              let bc ← zero_page bc page k.page_int_offset k.page_left
              let k ← set_is_zero { k with page_it := k.page_it + 1 } true
              pure (bc, k)
            else pure (bc, k) : Except Fault (BlockCacher × ReadCursor))
          tail_zero pe num_pages (num_pages + 1) bc k
        else pure (bc, k) : Except Fault (BlockCacher × ReadCursor))
      -- char *buf = bc_read_comp->start_buf; page_it = begin();
      let (b, boff) := rd.start_buf
      let (_, p0) ← page_ref pe 0
      let pg0 ← getPage bc.all_pages p0
      let start_padding := if rd.start > pg0.offset then rd.start - pg0.offset else 0
      let dst0 := if start_padding ≠ 0 then boff else u64 (boff + sub64 pg0.offset rd.start)
      let (bc, last) ←
        (if num_pages = 1 then do
          let end_len := tail_len rd.«end» pg0.offset bc.page_length pg0.offset
          let bc ← copy_out bc b dst0 p0 start_padding end_len
          pure (bc, p0)
        else do
          let copy_size := sub64 bc.page_length start_padding
          let bc ← copy_out bc b dst0 p0 start_padding copy_size
          let bc ← finish_page bc p0
          let bc ← out_middle pe rd k.is_zero (num_pages - 2) bc 1
          let (_, pl) ← page_ref pe (num_pages - 1)
          let pgl ← getPage bc.all_pages pl
          let end_len := tail_len rd.«end» pgl.offset bc.page_length pgl.offset
          let bc ← copy_out bc b (u64 (boff + sub64 pgl.offset rd.start)) pl 0 end_len
          pure (bc, pl) : Except Fault (BlockCacher × Nat))
      let bc ← finish_page bc last
      -- r = req->get_object_len();
      pure (bc, (rd.extent.length : Int)) : Except Fault (BlockCacher × Int))
  let bc := { bc with read_page_wait := false }
  complete_request bc rd.comp r

/-! ### discard -/

/-- The `for (i = 0; i < num_pages; ++i)` loop of `discard`. -/
def discard_loop (pages : List (Option Nat)) (hit : List Bool) (end_len : Nat) :
    Nat → BlockCacher → Nat → Nat → Nat → Except Fault BlockCacher
  | 0, bc, _, _, _ => .ok bc
  | n + 1, bc, i, start_padding, zeroed => do
    let (bc, zeroed) ←
      (if hit.getD i false then do
        let copied := min (sub64 end_len zeroed) bc.page_length
        let page ← page_at pages i
        let bc ← zero_page bc page start_padding copied
        pure (bc, u64 (zeroed + copied))
      else pure (bc, u64 (zeroed + bc.page_length)) : Except Fault (BlockCacher × Nat))
    if zeroed = end_len then pure bc
    else discard_loop pages hit end_len n bc (i + 1) 0 zeroed

/-- Lines 771-776 of `discard`: `align_offset` and `num_pages` (a `uint32_t`). -/
def discard_span (page_length offset len : Nat) : Nat × Nat :=
  -- uint64_t start_padding = offset % page_length;
  let start_padding := offset % page_length
  -- uint64_t align_offset = offset - start_padding;
  let align_offset := offset - start_padding
  let num_pages := u32 (u64 (len + offset - align_offset) / page_length)
  let num_pages := if u64 (offset + len) % page_length ≠ 0 then u32 (num_pages + 1)
    else num_pages
  (align_offset, num_pages)

/-- `void discard(uint64_t ictx_id, uint64_t offset, size_t len)`. -/
def discard (bc : BlockCacher) (ictx_id offset len : Nat) : Except Fault BlockCacher := do
  if bc.page_length = 0 then throw Fault.div_by_zero
  let start_padding := offset % bc.page_length
  let (align_offset, num_pages) := discard_span bc.page_length offset len
  let end_len := u64 (len + start_padding)
  let (bc, pages, hit) ← get_pages bc ictx_id ictx_id none num_pages align_offset true
  discard_loop pages hit end_len num_pages bc 0 start_padding 0

/-! ### The object backend -/

/-- The backend answers the oldest outstanding write with result `r`:
`C_BlockCacheWrite::finish(r)` calls `complete_write(this, r)`. -/
def backend_write_done (bc : BlockCacher) (r : Int) : Except Fault BlockCacher :=
  match bc.backend_writes with
  | [] => .error .null_deref
  | w :: rest => complete_write { bc with backend_writes := rest } w r

/-- The backend answers the oldest outstanding read:
`C_BlockCacheRead::finish(r)` calls `complete_read(this, r)`. -/
def backend_read_done (bc : BlockCacher) (r : Int) (m_ext_map : List (Nat × Nat))
    (data : List Nat) : Except Fault BlockCacher :=
  match bc.backend_reads with
  | [] => .error .null_deref
  | rd :: rest => complete_read { bc with backend_reads := rest } rd r m_ext_map data

end BlockCacher

/-! ## Scenarios

Runs of the public interface on small caches, with the single-object layout.
Image handle 100 is registered first (id 1), handle 200 second (id 2). -/

namespace Scenario

open BlockCacher

/-- A started cache of `pages` frames of `unit` bytes grown one frame at a
time, `target_dirty = max_dirty = dirty_bytes`, fresh memory holding `0xAA`,
with images 100 and 200 registered. -/
def cache (pages unit dirty_bytes : Nat) : Except Fault BlockCacher := do
  let bc ← init {} (pages * unit) unit 1 dirty_bytes dirty_bytes 170
  let (bc, _) := register_image bc 100
  let (bc, _) := register_image bc 200
  pure bc

/-- `write_buffer(1, off, len, B, c1)` on a cache of four 4-byte pages, then
`read_buffer(1, off, len, buf, c2)` into a caller buffer of `len` bytes; the
result is the caller buffer. -/
def write_then_read (off len : Nat) (B : List Nat) : Except Fault (List Nat) := do
  let bc ← cache 4 4 8
  let (bc, _) ← write_buffer single_object_striper bc 1 off len B 1
  let bc := { bc with user_bufs := [List.replicate len 9] }
  let (bc, _) ← read_buffer single_object_striper bc 1 off len 0 2 0
  pure (bc.user_bufs.getD 0 [])

/-- Pages of 2 bytes, all objects absent.  `read_buffer(1, 0, 2)` brings page 0
in; then `read_buffer(1, 0, 6)` into a caller buffer holding `buf` finds page 0
resident and pages 1 and 2 missing, and the backend answers both object reads
with `-ENOENT` and no extents.  The result is the caller buffer and the page
frames. -/
def read_absent (buf : List Nat) : Except Fault (List Nat × List (List Nat)) := do
  let bc ← cache 8 2 8
  let bc := { bc with user_bufs := [[9, 9], buf] }
  let (bc, _) ← read_buffer single_object_striper bc 1 0 2 0 1 0
  let bc ← backend_read_done bc (-ENOENT) [] []
  let (bc, _) ← read_buffer single_object_striper bc 1 0 6 1 2 0
  let bc ← backend_read_done bc (-ENOENT) [] []
  let bc ← backend_read_done bc (-ENOENT) [] []
  pure (bc.user_bufs.getD 1 [], bc.frames)

/-- Page 0 of image 1 (8-byte pages) is made resident with the bytes `1..8`,
then `discard(1, off, len)`; the result is the page frames. -/
def discard_resident (off len : Nat) : Except Fault (List (List Nat)) := do
  let bc ← cache 4 8 8
  let (bc, _) ← write_buffer single_object_striper bc 1 0 8 [1, 2, 3, 4, 5, 6, 7, 8] 1
  let bc ← discard bc 1 off len
  pure bc.frames

/-- Three page descriptors at offsets 0, 4096 and 8192. -/
def three_pages : List Page := [{ offset := 0 }, { offset := 4096 }, { offset := 8192 }]

/-- `write_buffer(1, 0, 4, B, c1)` (submitted at once: the cache starts in
writethrough), `user_flush(c2)` while that write is outstanding, then
`user_flush(c3)`; finally the backend completes both writes with success. -/
def flush_twice : Except Fault (BlockCacher × BlockCacher) := do
  let bc ← cache 4 4 8
  let (bc, _) ← write_buffer single_object_striper bc 1 0 4 [1, 2, 3, 4] 1
  let bc ← user_flush single_object_striper bc 2
  let bc3 ← user_flush single_object_striper bc 3
  let bc ← backend_write_done bc3 0
  let bc ← backend_write_done bc 0
  pure (bc3, bc)

/-- The state of `flush_twice` before the second `user_flush`. -/
def flush_once : Except Fault BlockCacher := do
  let bc ← cache 4 4 8
  let (bc, _) ← write_buffer single_object_striper bc 1 0 4 [1, 2, 3, 4] 1
  user_flush single_object_striper bc 2

/-- `user_flush(c1)` on the empty cache (which leaves writethrough),
`write_buffer(1, 0, 4, B, c2)`, `user_flush(c3)`, and the backend completes the
one submitted write with success. -/
def flush_one_image : Except Fault BlockCacher := do
  let bc ← cache 4 4 8
  let bc ← user_flush single_object_striper bc 1
  let (bc, _) ← write_buffer single_object_striper bc 1 0 4 [1, 2, 3, 4] 2
  let bc ← user_flush single_object_striper bc 3
  backend_write_done bc 0

/-- `max_dirty = 0`: `write_buffer(1, 0, 4, B, c1)`, the backend completes the
write with success; the second component is the state after a following
`user_flush(c2)`. -/
def writethrough_write : Except Fault (BlockCacher × BlockCacher) := do
  let bc ← cache 4 4 0
  let (bc, _) ← write_buffer single_object_striper bc 1 0 4 [1, 2, 3, 4] 1
  let bc ← backend_write_done bc 0
  let bc2 ← user_flush single_object_striper bc 2
  pure (bc, bc2)

/-- `mark_dirty(p)` on the empty tracker, then `writeback_pages(out, 0)`. -/
def dirty_then_writeback_all : Except Fault (List Page × DirtyPageState) := do
  let (ps, d) ← DirtyPageState.mark_dirty [{}] {} 0
  let (ps, d, _) ← DirtyPageState.writeback_pages ps d [] 0
  pure (ps, d)

/-- A cache of two pages.  Image 1 reads its pages 0 and 1 (both absent in the
backend), reads page 0 again (a hit), then image 2 reads its page 0, which
evicts page 1 of image 1. -/
def evict_across_images : Except Fault BlockCacher := do
  let bc ← cache 2 4 8
  let bc := { bc with user_bufs := [[9, 9, 9, 9]] }
  let (bc, _) ← read_buffer single_object_striper bc 1 0 4 0 1 0
  let bc ← backend_read_done bc (-ENOENT) [] []
  let (bc, _) ← read_buffer single_object_striper bc 1 4 4 0 2 0
  let bc ← backend_read_done bc (-ENOENT) [] []
  let (bc, _) ← read_buffer single_object_striper bc 1 0 4 0 3 0
  let (bc, _) ← read_buffer single_object_striper bc 2 0 4 0 4 0
  pure bc

/-- The started cache of four 4-byte pages, as a state. -/
def empty_cache : BlockCacher :=
  match cache 4 4 8 with
  | .ok bc => bc
  | .error _ => {}

/-- The state `empty_cache` after the `set_writeback` and `flush_pages(0, c1)`
steps of `user_flush(c1)`. -/
def empty_cache_flushed : BlockCacher :=
  match flush_pages single_object_striper
      { empty_cache with dirty_page_state := empty_cache.dirty_page_state.set_writeback } 0
      (.user 1) with
  | .ok bc => bc
  | .error _ => {}

end Scenario

/-! ## The CAR size invariant: vocabulary

The four CAR lists, the two free lists and the pages between `adjust_and_hold`
and `insert_page`, read off the descriptor heap by following `page_next`. -/

namespace Arc4

/-- Total read of `x[i]` for use in statements (`i` beyond 3 reads the last slot). -/
def sel {α : Type} (a : Arc4 α) (i : Nat) : α :=
  match i with
  | 0 => a.lru
  | 1 => a.lfu
  | 2 => a.lru_ghost
  | _ => a.lfu_ghost

/-- Total write of `x[i] = v` for use in statements. -/
def upd {α : Type} (a : Arc4 α) (i : Nat) (v : α) : Arc4 α :=
  match i with
  | 0 => { a with lru := v }
  | 1 => { a with lfu := v }
  | 2 => { a with lru_ghost := v }
  | _ => { a with lfu_ghost := v }

end Arc4

/-- The list `l` is what following `page_next` from the pointer `h` visits
before reaching `NULL`. -/
def Chain (ps : List Page) : Option Nat → List Nat → Prop
  | h, [] => h = none
  | h, p :: l => h = some p ∧ ∃ pg, ps[p]? = some pg ∧ Chain ps pg.page_next l

/-- What the list structure of a descriptor consists of: its successor
pointer and its class. -/
def links (pg : Page) : Option Nat × Nat := (pg.page_next, pg.arc_idx)

/-- The heaps `ps` and `ps2` hold the same descriptors up to fields that are
not `links`, except possibly at the indices for which `S` holds. -/
def SameLinksOff (S : Nat → Prop) (ps ps2 : List Page) : Prop :=
  ps2.length = ps.length ∧ ∀ x, ¬ S x → (ps2[x]?).map links = (ps[x]?).map links

/-- The page `x` is on one of the four lists `L`. -/
def InLists (L : Arc4 (List Nat)) (x : Nat) : Prop := ∃ i, i < 4 ∧ x ∈ L.sel i

/-- The four CAR lists of `c` are the chains `L`, each ending at its foot,
without repetition and pairwise disjoint. -/
structure CarLists (ps : List Page) (c : CARState) (L : Arc4 (List Nat)) : Prop where
  chain : ∀ i, i < 4 → Chain ps (c.arc_list_head.sel i) (L.sel i)
  foot : ∀ i, i < 4 → c.arc_list_foot.sel i = (L.sel i).getLast?
  nodup : ∀ i, i < 4 → (L.sel i).Nodup
  disjoint : ∀ i j, i < 4 → j < 4 → i ≠ j → ∀ x, x ∈ L.sel i → x ∉ L.sel j

/-- The size counters of `c` agree with the lengths of the lists `L`, given
that `e` pages of class `ARC_LRU` are counted but not linked (admitted by
`adjust_and_hold`, `insert_page` still to come). -/
def Counts (c : CARState) (L : Arc4 (List Nat)) (e : Nat) : Prop :=
  c.arc_list_size.lru = L.lru.length + e ∧ c.arc_list_size.lfu = L.lfu.length ∧
  c.arc_list_size.lru_ghost = L.lru_ghost.length ∧
  c.arc_list_size.lfu_ghost = L.lfu_ghost.length

/-- The list structure of a cache state: the four CAR lists `L`, the list `fd`
of descriptors on `free_data_pages`, the list `fp` of descriptors on
`free_pages`, and the pages `det` that `get_pages` has admitted and that await
their `insert_page`.  No descriptor is in two of them, and the waiting pages
carry class `ARC_LRU`. -/
structure Struct (ps : List Page) (c : CARState) (fdh fph : Option Nat)
    (L : Arc4 (List Nat)) (fd fp det : List Nat) : Prop where
  lists : CarLists ps c L
  fd_chain : Chain ps fdh fd
  fp_chain : Chain ps fph fp
  nodup : (fd ++ fp ++ det).Nodup
  apart : ∀ x, x ∈ fd ++ fp ++ det → ¬ InLists L x
  det_lru : ∀ x, x ∈ det → ∃ pg, ps[x]? = some pg ∧ pg.arc_idx = ARC_LRU

/-- The bounds that `CARState::validate` checks, over the natural numbers. -/
def SizeBounds (c : CARState) : Prop :=
  c.arc_list_size.lru + c.arc_list_size.lfu ≤ c.data_pages ∧
  c.arc_list_size.lru + c.arc_list_size.lru_ghost ≤ c.data_pages ∧
  c.arc_list_size.lfu + c.arc_list_size.lfu_ghost ≤ 2 * c.data_pages ∧
  c.arc_list_size.lru + c.arc_list_size.lfu + c.arc_list_size.lru_ghost
    + c.arc_list_size.lfu_ghost ≤ 2 * c.data_pages ∧
  (c.arc_list_size.lru + c.arc_list_size.lfu < c.data_pages →
    c.arc_list_size.lru_ghost = 0 ∧ c.arc_list_size.lfu_ghost = 0)

/-- The invariant behind the size bounds: the lists are well formed, the
counters count the linked pages plus the pages in `det`, every frame is either
free, still to be allocated, or counted in LRU or LFU, and the bounds hold. -/
def CarInv (bc : BlockCacher) (det : List Nat) : Prop :=
  ∃ L fd fp,
    Struct bc.all_pages bc.car_state bc.free_data_pages_head bc.free_pages_head L fd fp det ∧
    Counts bc.car_state L det.length ∧
    fd.length + bc.remain_data_pages + bc.car_state.arc_list_size.lru
      + bc.car_state.arc_list_size.lfu = bc.car_state.data_pages ∧
    bc.car_state.data_pages < 2147483648 ∧
    SizeBounds bc.car_state

/-- The descriptors that a `get_pages` call admitted: the entries of its
output array `pages` at the slots `idx, …, idx + n - 1` that are not hits, in
slot order. -/
def admitted (pages : List (Option Nat)) (hit : List Bool) : Nat → Nat → List Nat
  | 0, _ => []
  | n + 1, idx =>
    if hit.getD idx false then admitted pages hit n (idx + 1)
    else (pages.getD idx none).toList ++ admitted pages hit n (idx + 1)

/-- The cache states that `init`, `register_image`, `get_pages` and
`insert_page` of a page admitted by an earlier `get_pages` lead to, for a cache
of fewer than 2^31 pages.  The list holds the admitted pages whose
`insert_page` is still to come. -/
inductive CarReachable : BlockCacher → List Nat → Prop
  | init {bc : BlockCacher} (cache_size unit region_units target_dirty max_dirty fill : Nat) :
    BlockCacher.init {} cache_size unit region_units target_dirty max_dirty fill = .ok bc →
    bc.total_half_pages < 2147483648 → CarReachable bc []
  | register_image {bc : BlockCacher} {det : List Nat} (ictx : Nat) :
    CarReachable bc det → CarReachable (BlockCacher.register_image bc ictx).1 det
  | get_pages {bc bc2 : BlockCacher} {det : List Nat} (ictx_id tree : Nat)
    (ghost_tree : Option Nat) (num_pages align_offset : Nat) {pages : List (Option Nat)}
    {hit : List Bool} :
    CarReachable bc det →
    BlockCacher.get_pages bc ictx_id tree ghost_tree num_pages align_offset false
      = .ok (bc2, pages, hit) →
    CarReachable bc2 ((admitted pages hit num_pages 0).reverse ++ det)
  | get_hit_pages {bc bc2 : BlockCacher} {det : List Nat} (ictx_id tree : Nat)
    (ghost_tree : Option Nat) (num_pages align_offset : Nat) {pages : List (Option Nat)}
    {hit : List Bool} :
    CarReachable bc det →
    BlockCacher.get_pages bc ictx_id tree ghost_tree num_pages align_offset true
      = .ok (bc2, pages, hit) →
    CarReachable bc2 det
  | insert_page {bc bc2 : BlockCacher} {det : List Nat} (p : Nat) :
    CarReachable bc det → p ∈ det → BlockCacher.car_insert_page bc p = .ok bc2 →
    CarReachable bc2 (det.erase p)

/-- The value of a run that succeeds (`d` when it does not). -/
def result_or {α : Type} (d : α) : Except Fault α → α
  | .ok a => a
  | .error _ => d

namespace Scenario

/-- A cache of two pages of 4 bytes, regions of one page. -/
def car_w0 : BlockCacher := result_or {} (BlockCacher.init {} 8 4 1 0 0 170)

/-- Image handle 100 registered (id 1). -/
def car_w1 : BlockCacher := (BlockCacher.register_image car_w0 100).1

/-- After `get_pages` for the page at offset 0: a miss, admitted from a new region. -/
def car_g1 : BlockCacher × List (Option Nat) × List Bool :=
  result_or (car_w1, [], []) (BlockCacher.get_pages car_w1 1 1 (some 1) 1 0)

/-- After `insert_page` of the page admitted for offset 0 (descriptor 3). -/
def car_w2 : BlockCacher := result_or car_g1.1 (BlockCacher.car_insert_page car_g1.1 3)

/-- After `get_pages` for the page at offset 4: a miss, admitted from a new region. -/
def car_g2 : BlockCacher × List (Option Nat) × List Bool :=
  result_or (car_w2, [], []) (BlockCacher.get_pages car_w2 1 1 (some 1) 1 4)

/-- After `insert_page` of the page admitted for offset 4 (descriptor 2). -/
def car_w3 : BlockCacher := result_or car_g2.1 (BlockCacher.car_insert_page car_g2.1 2)

/-- After `get_pages` for the page at offset 8: the cache is full, descriptor 3
is evicted and taken back from the ghost list. -/
def car_g3 : BlockCacher × List (Option Nat) × List Bool :=
  result_or (car_w3, [], []) (BlockCacher.get_pages car_w3 1 1 (some 1) 1 8)

/-- After `insert_page` of the page admitted for offset 8 (descriptor 3). -/
def car_w4 : BlockCacher := result_or car_g3.1 (BlockCacher.car_insert_page car_g3.1 3)

end Scenario

/-! ## Retries, completions and image tables: drivers and vocabulary -/

namespace BlockCacher

/-- The retry loop of `flusher_entry`: `while (!flush_retry_writes.empty())
{ w = front(); pop_front(); w->send_by_bc_write_comp(snapc); }`; the argument
is the queue still to drain. -/
def flusher_retry_loop : List C_BlockCacheWrite → BlockCacher → BlockCacher
  | [], bc => bc
  | w :: rest, bc =>
    flusher_retry_loop rest
      { bc with flush_retry_writes := rest, backend_writes := bc.backend_writes ++ [w] }

/-- One pass of the flusher thread over `flush_retry_writes`. -/
def flusher_retry (bc : BlockCacher) : BlockCacher :=
  flusher_retry_loop bc.flush_retry_writes bc

/-- The call `add_request()` made `k` times on the completion `comp`. -/
def add_requests (comp : Nat) : Nat → BlockCacher → Except Fault BlockCacher
  | 0, bc => .ok bc
  | k + 1, bc => do
    let bc ← add_request bc comp
    add_requests comp k bc

/-- The calls `complete_request(r)` on the completion `comp`, one for each
result of the list, in order. -/
def complete_requests (comp : Nat) : List Int → BlockCacher → Except Fault BlockCacher
  | [], bc => .ok bc
  | r :: rs, bc => do
    let bc ← complete_request bc comp r
    complete_requests comp rs bc

/-- The completion `comp` wraps the user context `c`, is not deleted and waits
for `j` requests. -/
def pending (bc : BlockCacher) (comp c j : Nat) : Prop :=
  ∃ x, bc.completions[comp]? = some x ∧ x.deleted = false ∧ x.ctxt = .user c ∧ x.count = j

end BlockCacher

namespace CARState

/-- The counters of `c` hold values of their type `uint32_t`. -/
def is_uint32 (c : CARState) : Prop :=
  c.arc_list_size.lru < 4294967296 ∧ c.arc_list_size.lfu < 4294967296 ∧
  c.arc_list_size.lru_ghost < 4294967296 ∧ c.arc_list_size.lfu_ghost < 4294967296 ∧
  c.arc_lru_limit < 4294967296 ∧ c.data_pages < 4294967296

instance (c : CARState) : Decidable c.is_uint32 := by
  unfold is_uint32
  infer_instance

end CARState

/-- A call of the image management interface. -/
inductive ImageOp where
  | register (ictx : Nat) : ImageOp
  | unregister (ictx : Nat) : ImageOp
  deriving DecidableEq, Repr

namespace ImageOp

/-- The image handle the call is about. -/
def handle : ImageOp → Nat
  | register ictx => ictx
  | unregister ictx => ictx

/-- The state after the call. -/
def apply (bc : BlockCacher) : ImageOp → BlockCacher
  | register ictx => (BlockCacher.register_image bc ictx).1
  | unregister ictx => BlockCacher.unregister_image bc ictx

/-- The id that the call returns for a new registration: `register_image` of
a handle that is not registered at the time. -/
def new_id (bc : BlockCacher) : ImageOp → Option Nat
  | register ictx =>
    match map_find bc.ictx_ids ictx with
    | some _ => none
    | none => some (BlockCacher.register_image bc ictx).2
  | unregister _ => none

/-- A sequence of calls: the final state and the ids returned for new
registrations, in call order. -/
def run : List ImageOp → BlockCacher → BlockCacher × List Nat
  | [], bc => (bc, [])
  | op :: ops, bc =>
    let r := run ops (apply bc op)
    (r.1, (new_id bc op).toList ++ r.2)

end ImageOp

namespace BlockCacher

/-- The image tables are consistent: every entry `(handle, id)` of `ictx_ids`
has `1 <= id < ictx_next`, slot `id` of `registered_ictx` holds the handle and
slot `id` of both tree vectors holds a tree; no id occurs twice; and the
vectors are not longer than `ictx_next`. -/
def images_consistent (bc : BlockCacher) : Prop :=
  1 ≤ bc.ictx_next ∧
  bc.registered_ictx.length ≤ bc.ictx_next ∧
  bc.registered_tree.length ≤ bc.ictx_next ∧
  bc.ghost_trees.length ≤ bc.ictx_next ∧
  (bc.ictx_ids.map Prod.snd).Nodup ∧
  ∀ e, e ∈ bc.ictx_ids →
    1 ≤ e.2 ∧ e.2 < bc.ictx_next ∧ bc.registered_ictx[e.2]? = some (some e.1) ∧
    (∃ t, bc.registered_tree[e.2]? = some (some t)) ∧
    (∃ t, bc.ghost_trees[e.2]? = some (some t))

end BlockCacher

namespace Scenario

open BlockCacher

/-- `user_flush(c1)` on the empty cache (which leaves writethrough),
`write_buffer(1, 0, 4, B, c2)` and `user_flush(c3)`, which submits the page as
one writeback extent; the backend fails the write with `-EIO`, the flusher
retries it, and the backend completes the retry with success.  The result is
`inflight_pages` before the submission, after it, after the failure, after the
resend and after the final completion. -/
def retried_write : Except Fault (List Int) := do
  let bc ← cache 4 4 8
  let bc ← user_flush single_object_striper bc 1
  let (bc0, _) ← write_buffer single_object_striper bc 1 0 4 [1, 2, 3, 4] 2
  let bc1 ← user_flush single_object_striper bc0 3
  let bc2 ← backend_write_done bc1 (-5)
  let bc3 := flusher_retry bc2
  let bc4 ← backend_write_done bc3 0
  pure [bc0.inflight_pages, bc1.inflight_pages, bc2.inflight_pages, bc3.inflight_pages,
    bc4.inflight_pages]

/-- The cache `car_w3` (two pages: descriptor 3 at offset 0 and descriptor 2
at offset 4, both in LRU) after `get_pages` for offset 0 (a hit, which sets
the reference bit of descriptor 3) and `get_pages` for offset 8 (a miss: the
clock moves descriptor 3 to LFU and evicts descriptor 2 to LRU_GHOST and to
the ghost index). -/
def ghost_ready : Except Fault BlockCacher := do
  let (bc, _) ← get_pages car_w3 1 1 (some 1) 1 0
  let (bc, _) ← get_pages bc 1 1 (some 1) 1 8
  pure bc

/-- A completion for the user context 7 with two requests, completed with
`r1` and then `r2`; the result is the log of fired contexts after each. -/
def two_results (r1 r2 : Int) : Except Fault (List (Nat × Int) × List (Nat × Int)) := do
  let (bc, comp) := new_completion {} (.user 7)
  let bc ← add_requests comp 2 bc
  let bc1 ← complete_request bc comp r1
  let bc2 ← complete_request bc1 comp r2
  pure (bc1.fired, bc2.fired)

/-- On a fresh cache of four 4-byte pages, `get_pages(1, tree, ghost_tree,
pages, hit, 2, 4)`: two misses, at offsets 4 and 8.  The result is `pages`,
`hit`, the offsets of the nodes of the image index in iteration order, and
what `lower_bound(4)` and `lower_bound(8)` return on it afterwards. -/
def unordered_index :
    Except Fault (List (Option Nat) × List Bool × List (Nat × Nat) × List Nat × List Nat) := do
  let bc ← cache 4 4 8
  let (bc, pages, hit) ← get_pages bc 1 1 (some 1) 2 4
  let t ← get_tree bc.registered_tree 1
  let lb4 ← PageRBTree.lower_bound bc.all_pages t 4
  let lb8 ← PageRBTree.lower_bound bc.all_pages t 8
  pure (pages, hit, t.inorder.map (fun n => (n, (bc.all_pages.getD n {}).offset)), lb4, lb8)

/-- A CAR state with `|LRU| = 1`, `|LFU| = 3`, `|LRU_GHOST| = 4`,
`|LFU_GHOST| = 2`, `arc_lru_limit = 1` and `data_pages = 8`. -/
def car_sizes : CARState :=
  { arc_list_size := ⟨1, 3, 4, 2⟩, arc_lru_limit := 1, data_pages := 8 }

end Scenario

/-! ## The clock rule, linked lists and further scenarios: vocabulary -/

/-- The heaps `ps` and `ps2` hold descriptors that agree under `f` (a field, or
the whole descriptor), except possibly at the indices for which `S` holds. -/
def SameOff {α : Type} (S : Nat → Prop) (f : Page → α) (ps ps2 : List Page) : Prop :=
  ps2.length = ps.length ∧ ∀ x, ¬ S x → (ps2[x]?).map f = (ps[x]?).map f

/-- The function `f` does not look at the list fields of a descriptor
(`page_next`, `page_prev`, `arc_idx`). -/
def LinkBlind {α : Type} (f : Page → α) : Prop :=
  ∀ (pg : Page) (n v : Option Nat) (a : Nat),
    f { pg with page_next := n, page_prev := v, arc_idx := a } = f pg

/-- The function `f` does not look at the successor pointer of a descriptor. -/
def NextBlind {α : Type} (f : Page → α) : Prop :=
  ∀ (pg : Page) (n : Option Nat), f { pg with page_next := n } = f pg

/-- What a descriptor holds apart from its two list pointers: `offset`,
`ictx_id`, `reference`, `arc_idx`, `onread`, `dirty` and `addr`. -/
def payload (pg : Page) : Nat × Nat × Nat × Nat × Nat × Nat × Option Nat :=
  (pg.offset, pg.ictx_id, pg.reference, pg.arc_idx, pg.onread, pg.dirty, pg.addr)

/-- The class (`arc_idx`) of the descriptor `x` (`ARC_COUNT` for an index
outside the heap). -/
def class_of (ps : List Page) (x : Nat) : Nat :=
  match ps[x]? with
  | some pg => pg.arc_idx
  | none => ARC_COUNT

/-- The descriptor with its two list pointers exchanged: following `page_next`
in the mirrored heap is following `page_prev` in the heap. -/
def mirror (pg : Page) : Page :=
  { pg with page_next := pg.page_prev, page_prev := pg.page_next }

/-- The list `l` is doubly linked between `head` and `foot`: following
`page_next` from `head` visits `l`, following `page_prev` from `foot` visits
`l` backwards, and no descriptor occurs twice. -/
structure DList (ps : List Page) (head foot : Option Nat) (l : List Nat) : Prop where
  fwd : Chain ps head l
  bwd : Chain (ps.map mirror) foot l.reverse
  nodup : l.Nodup

/-- The reference bit of the descriptor `x` (0 for an index outside the heap). -/
def reference_of (ps : List Page) (x : Nat) : Nat :=
  match ps[x]? with
  | some pg => pg.reference
  | none => 0

/-- Modelled from the spec: the CAR clock rule of section 4.C on the four lists,
run for at most the given number of rounds.  `held` is the number of pages that
are counted in `|LRU|` but not linked, `lim` is `arc_lru_limit`, and `ref`
gives the reference bit of each page.  If `|LRU| >= arc_lru_limit`, pop the
head of LRU: if its reference bit is set, clear it, append the page to the LFU
tail and continue; else append it to the LRU_GHOST tail and return it.
Otherwise pop the head of LFU: if its reference bit is set, clear it,
re-append the page to the LFU tail and continue; else append it to the
LFU_GHOST tail and return it.  The result is the final lists, the pages moved
to the LFU tail in pop order, and the returned page; `none` when a list to pop
from is empty or the rounds are used up. -/
def clock_rule (held lim : Nat) :
    Nat → (Nat → Nat) → Arc4 (List Nat) → Option (Arc4 (List Nat) × List Nat × Nat)
  | 0, _, _ => none
  | fuel + 1, ref, L =>
    if L.lru.length + held ≥ lim then
      match L.lru with
      | [] => none
      | q :: rest =>
        if ref q ≠ 0 then
          (clock_rule held lim fuel (Function.update ref q 0)
            { L with lru := rest, lfu := L.lfu ++ [q] }).map
            (fun r => (r.1, q :: r.2.1, r.2.2))
        else some ({ L with lru := rest, lru_ghost := L.lru_ghost ++ [q] }, [], q)
    else
      match L.lfu with
      | [] => none
      | q :: rest =>
        if ref q ≠ 0 then
          (clock_rule held lim fuel (Function.update ref q 0)
            { L with lfu := rest ++ [q] }).map
            (fun r => (r.1, q :: r.2.1, r.2.2))
        else some ({ L with lfu := rest, lfu_ghost := L.lfu_ghost ++ [q] }, [], q)

namespace Scenario

open BlockCacher

/-- Four clean descriptors (offsets 0, 4, 8, 12), made dirty in the order 0, 1,
2, 3: the dirty FIFO is 0, 1, 2, 3. -/
def dirty_fifo : Except Fault (List Page × DirtyPageState) := do
  let ps : List Page := [{ offset := 0 }, { offset := 4 }, { offset := 8 }, { offset := 12 }]
  let (ps, d) ← DirtyPageState.mark_dirty ps {} 0
  let (ps, d) ← DirtyPageState.mark_dirty ps d 1
  let (ps, d) ← DirtyPageState.mark_dirty ps d 2
  DirtyPageState.mark_dirty ps d 3

/-- What a scenario shows of the dirty tracker: for each descriptor `dirty`,
`page_prev` and `page_next`, then head, foot and count of the FIFO. -/
def fifo_view (r : List Page × DirtyPageState) :
    List (Nat × Option Nat × Option Nat) × Option Nat × Option Nat × Nat :=
  (r.1.map (fun p => (p.dirty, p.page_prev, p.page_next)),
    r.2.dirty_pages_head, r.2.dirty_pages_foot, r.2.dirty_pages)

/-- `writeback_pages(out, num)` on the FIFO 0, 1, 2, 3; the result is the view
of the tracker and the map `out`. -/
def writeback_some (num : Nat) :
    Except Fault ((List (Nat × Option Nat × Option Nat) × Option Nat × Option Nat × Nat)
      × DirtyPageState.SortedFlush) := do
  let (ps, d) ← dirty_fifo
  let (ps, d, sf) ← DirtyPageState.writeback_pages ps d [] num
  pure (fifo_view (ps, d), sf)

/-- One page of 8 bytes at object offset 0 is read (`read_buffer(1, 0, 8)`), and
the backend answers with the sparse extent map `m_ext_map` and `data`; the
result is the page frames. -/
def sparse_read (m_ext_map : List (Nat × Nat)) (data : List Nat) :
    Except Fault (List (List Nat)) := do
  let bc ← cache 4 8 8
  let bc := { bc with user_bufs := [List.replicate 8 9] }
  let (bc, _) ← read_buffer single_object_striper bc 1 0 8 0 1 0
  let bc ← backend_read_done bc 8 m_ext_map data
  pure bc.frames

/-- A hand-made CAR state over six descriptors: LRU holds 0 (referenced) and
1, LFU holds 2, LRU_GHOST holds 3, LFU_GHOST holds 4, and descriptor 5 is a
clean page on no list.  `data_pages` is 3 and `arc_lru_limit` is 1. -/
def clock_state : List Page × CARState :=
  ([{ offset := 0, arc_idx := ARC_LRU, reference := 1, page_next := some 1 },
    { offset := 4, arc_idx := ARC_LRU, page_prev := some 0 },
    { offset := 8, arc_idx := ARC_LFU },
    { offset := 12, arc_idx := ARC_LRU_GHOST },
    { offset := 16, arc_idx := ARC_LFU_GHOST },
    { offset := 20, arc_idx := ARC_COUNT }],
   { arc_list_head := ⟨some 0, some 2, some 3, some 4⟩
     arc_list_foot := ⟨some 1, some 2, some 3, some 4⟩
     arc_list_size := ⟨2, 1, 1, 1⟩
     arc_lru_limit := 1
     data_pages := 3 })

/-- The state `clock_state` after `evict_data()`: heap, CAR state and the
returned descriptor. -/
def clock_evicted : List Page × CARState × Nat :=
  result_or ([], {}, 0) (CARState.evict_data clock_state.1 clock_state.2)

/-- The cache `car_w3` (descriptor 3 at offset 0 and descriptor 2 at offset 4,
both in LRU, `arc_lru_limit` = 1) after `get_pages` for offset 0 and for
offset 4 (two hits, which set both reference bits), and then `evict_data()`.
The result is the pairs (`arc_idx`, `reference`) of the four descriptors before
the eviction, the lists handed to the clock rule with their result, the
returned descriptor, the pairs after the eviction, and the list heads. -/
def clock_wrap : Except Fault (List (Nat × Nat) ×
    Option (Arc4 (List Nat) × List Nat × Nat) × Nat × List (Nat × Nat) × Arc4 (Option Nat)) := do
  let (bc, _) ← get_pages car_w3 1 1 (some 1) 1 0
  let (bc, _) ← get_pages bc 1 1 (some 1) 1 4
  let (ps, c, p) ← CARState.evict_data bc.all_pages bc.car_state
  pure (bc.all_pages.map (fun x => (x.arc_idx, x.reference)),
    clock_rule 0 bc.car_state.arc_lru_limit (bc.all_pages.length + 1)
      (reference_of bc.all_pages) ⟨[3, 2], [], [], []⟩,
    p, ps.map (fun x => (x.arc_idx, x.reference)), c.arc_list_head)

/-- The started cache of four 8-byte pages after `read_buffer(1, 0, 16)`: a
backend read for the two pages (descriptors 7 and 6) is outstanding. -/
def read_pending : BlockCacher :=
  result_or {} (do
    let bc ← cache 4 8 8
    let bc := { bc with user_bufs := [List.replicate 16 9] }
    let (bc, _) ← read_buffer single_object_striper bc 1 0 16 0 1 0
    pure bc)

/-- The outstanding read of `read_pending`. -/
def pending_rd : C_BlockCacheRead :=
  { comp := 0
    extent := { oid := 0, objectno := 0, offset := 0, length := 16,
                page_extents := [(0, 7), (8, 6)] }
    start := 0
    «end» := 16
    start_buf := (0, 0) }

end Scenario

/-! ## Index order, page spans, termination and further scenarios: vocabulary -/

/-- The offset of the descriptor `x` (0 for an index outside the heap). -/
def offset_of (ps : List Page) (x : Nat) : Nat :=
  match ps[x]? with
  | some pg => pg.offset
  | none => 0

/-- The `dirty` flag of the descriptor `x` (0 for an index outside the heap). -/
def dirty_of (ps : List Page) (x : Nat) : Nat :=
  match ps[x]? with
  | some pg => pg.dirty
  | none => 0

/-- In every round of the clock rule that is reached within the given number
of rounds, the list that the test `|LRU| >= arc_lru_limit` selects has a page
to pop.  `held`, `lim` and `ref` are as in `clock_rule`. -/
def clock_ready (held lim : Nat) : Nat → (Nat → Nat) → Arc4 (List Nat) → Bool
  | 0, _, _ => true
  | fuel + 1, ref, L =>
    if L.lru.length + held ≥ lim then
      match L.lru with
      | [] => false
      | q :: rest =>
        if ref q ≠ 0 then
          clock_ready held lim fuel (Function.update ref q 0)
            { L with lru := rest, lfu := L.lfu ++ [q] }
        else true
    else
      match L.lfu with
      | [] => false
      | q :: rest =>
        if ref q ≠ 0 then
          clock_ready held lim fuel (Function.update ref q 0) { L with lfu := rest ++ [q] }
        else true

/-- The calls `file_to_pages(run[0]->offset, run.size()*page_length, run,
page_length, object_extents)` for the runs `runs`, one after the other. -/
def stripe_runs (striper : Striper) (ps : List Page) (page_length : Nat)
    (runs : List (List Nat)) (object_extents : ObjectExtents) : ObjectExtents :=
  runs.foldl (fun oe run =>
    striper (offset_of ps (run.headD 0)) (u64 (run.length * page_length)) run page_length oe)
    object_extents

namespace Scenario

open BlockCacher

/-- `read_buffer(ictx_id, off, 4, buf, c)` on a cache of 4-byte pages. -/
def read_page (bc : BlockCacher) (ictx_id off c : Nat) : Except Fault BlockCacher := do
  let (bc, _) ← read_buffer single_object_striper bc ictx_id off 4 0 c 0
  pure bc

/-- `read_buffer(ictx_id, off, 4, buf, c)` on a cache of 4-byte pages, and the
backend answers the read with the four bytes 1, 2, 3, 4. -/
def read_page_done (bc : BlockCacher) (ictx_id off c : Nat) : Except Fault BlockCacher := do
  let bc ← read_page bc ictx_id off c
  backend_read_done bc 4 [] [1, 2, 3, 4]

/-- What a scenario shows of the CAR state: the four counters, the limit, the
heads of LRU and LFU, and `inflight_pages`. -/
def car_view (bc : BlockCacher) : Arc4 Nat × Nat × Option Nat × Option Nat × Int :=
  (bc.car_state.arc_list_size, bc.car_state.arc_lru_limit, bc.car_state.arc_list_head.lru,
    bc.car_state.arc_list_head.lfu, bc.inflight_pages)

/-- A cache of four 4-byte pages (`arc_lru_limit` = 2), image 1.  The pages at
offsets 0 and 4 are read and then read again (two hits, which set their
reference bits); the pages at 8 and 12 are read, which fills the cache.  The
read at offset 16 moves the pages at 0 and 4 to LFU and evicts the page at 8;
the read at offset 20 evicts the page at 12.  Neither read is answered yet, so
their two pages are counted in `|LRU|` and linked nowhere. -/
def lru_drained : Except Fault BlockCacher := do
  let bc ← cache 4 4 8
  let bc := { bc with user_bufs := [List.replicate 4 9] }
  let bc ← read_page_done bc 1 0 1
  let bc ← read_page_done bc 1 4 2
  let bc ← read_page bc 1 0 3
  let bc ← read_page bc 1 4 4
  let bc ← read_page_done bc 1 8 5
  let bc ← read_page_done bc 1 12 6
  let bc ← read_page bc 1 16 7
  read_page bc 1 20 8

/-- A cache of four 4-byte pages, image 1.  The page at offset 4 is read and
read again (a hit), the pages at 8, 12 and 16 are read, and the read at
offset 0 (not answered yet) moves the page at 4 to LFU and evicts the page at
8 (descriptor 6) to LRU_GHOST and to the ghost index of image 1. -/
def ghost_revisit : Except Fault BlockCacher := do
  let bc ← cache 4 4 8
  let bc := { bc with user_bufs := [List.replicate 8 9] }
  let bc ← read_page_done bc 1 4 1
  let bc ← read_page bc 1 4 2
  let bc ← read_page_done bc 1 8 3
  let bc ← read_page_done bc 1 12 4
  let bc ← read_page_done bc 1 16 5
  read_page bc 1 0 6

/-- A cache of four 4-byte pages.  Image 2 reads the page at offset 12 twice
(a hit), image 1 reads the page at offset 4 (descriptor 6), image 2 reads the
pages at 4 and 16, and the read of image 2 at offset 0 (not answered yet) moves
the page at 12 to LFU and evicts descriptor 6, which `get_pages` puts into the
ghost index of image 2: that index now holds a ghost at offset 4 while the
page of image 2 at offset 4 is resident. -/
def ghost_behind : Except Fault BlockCacher := do
  let bc ← cache 4 4 8
  let bc := { bc with user_bufs := [List.replicate 8 9] }
  let bc ← read_page_done bc 2 12 1
  let bc ← read_page bc 2 12 2
  let bc ← read_page_done bc 1 4 3
  let bc ← read_page_done bc 2 4 4
  let bc ← read_page_done bc 2 16 5
  read_page bc 2 0 6

/-- What a scenario shows of the indexes: the nodes of the ghost indexes and of
the image indexes in iteration order, and for each descriptor `offset`,
`arc_idx`, `ictx_id` and `onread`. -/
def index_view (bc : BlockCacher) :
    List (Option (List Nat)) × List (Option (List Nat)) × List (Nat × Nat × Nat × Nat) :=
  (bc.ghost_trees.map (Option.map PageRBTree.inorder),
    bc.registered_tree.map (Option.map PageRBTree.inorder),
    bc.all_pages.map (fun p => (p.offset, p.arc_idx, p.ictx_id, p.onread)))

/-- A write of one page (descriptor 0 at object offset 0) that was submitted
under flush id 0 for the completion 0. -/
def failed_write : C_BlockCacheWrite :=
  { comp := 0
    ictx := 1
    extent := { oid := 0, objectno := 0, offset := 0, length := 4, page_extents := [(0, 0)] }
    data := [1, 2, 3, 4]
    flush_id := 0 }

end Scenario

/-! ## Accumulated results and further scenarios: vocabulary -/

namespace BlockCacher

/-- The completion `comp` wraps the user context `c`, is not deleted, waits for
`j` requests and holds the value `v` in `rval`. -/
def holding (bc : BlockCacher) (comp c j : Nat) (v : Int) : Prop :=
  ∃ x, bc.completions[comp]? = some x ∧ x.deleted = false ∧ x.ctxt = .user c ∧ x.count = j ∧
    x.rval = v

end BlockCacher

/-- Modelled from the spec, with `-EEXIST` in the place of `NOT_FOUND`: what a
completion that holds `rval` reports after the results `rs`.  A negative `rval`
stays; otherwise it is the first negative result other than `-EEXIST`, and when
there is none, `rval` plus the sum of the positive results. -/
def reported (rval : Int) (rs : List Int) : Int :=
  if rval < 0 then rval
  else
    match rs.find? (fun r => decide (r < 0 ∧ r ≠ -EEXIST)) with
    | some e => e
    | none => rval + (rs.filter (fun r => decide (0 < r))).sum

namespace Scenario

open BlockCacher

/-- On a started cache of four 4-byte pages grown one frame at a time,
`read_buffer(1, 0, 4, buf, c1)` misses, and the backend answers the read with
the result `r` and no data; the result is the log of fired contexts. -/
def read_answered (r : Int) : Except Fault (List (Nat × Int)) := do
  let bc ← cache 4 4 8
  let bc := { bc with user_bufs := [List.replicate 4 9] }
  let bc ← read_page bc 1 0 1
  let bc ← backend_read_done bc r [] []
  pure bc.fired

/-- A cache of four 4-byte pages that grows by regions of two frames, with
image 100 registered, after `read_buffer(1, 0, 4, buf, c1)`: the read of the
page (descriptor 6) is outstanding. -/
def read_in_region : Except Fault BlockCacher := do
  let bc ← init {} 16 4 2 8 8 170
  let (bc, _) := register_image bc 100
  let bc := { bc with user_bufs := [List.replicate 4 9] }
  read_page bc 1 0 1

/-- What a scenario shows of a descriptor: `offset`, `arc_idx`, `onread`,
`dirty`, `page_next` and `page_prev`. -/
def page_view (bc : BlockCacher) (p : Nat) : Nat × Nat × Nat × Nat × Option Nat × Option Nat :=
  let pg := bc.all_pages.getD p {}
  (pg.offset, pg.arc_idx, pg.onread, pg.dirty, pg.page_next, pg.page_prev)

/-- On a started cache of four 4-byte pages, `read_buffer(1, 0, len, buf, c1)`;
the result is the page extents of the reads handed to the backend and
`inflight_pages`. -/
def long_read (len : Nat) : Except Fault (List (List (Nat × Nat)) × Int) := do
  let bc ← cache 4 4 8
  let (bc, _) ← read_buffer single_object_striper bc 1 0 len 0 1 0
  pure (bc.backend_reads.map (fun rd => rd.extent.page_extents), bc.inflight_pages)

end Scenario

/-! ## Theorems -/

/-! ### Ordered maps -/

/-- Looking up a key just assigned returns the assigned value. -/
theorem map_find_map_set_self {β : Type} (m : List (Nat × β)) (k : Nat) (v : β) :
    map_find (map_set m k v) k = some v := by
  induction m with
  | nil => simp [map_set, map_find]
  | cons a m ih =>
    obtain ⟨k0, v0⟩ := a
    by_cases h1 : k < k0
    · simp [map_set, map_find, h1]
    · by_cases h2 : k = k0
      · simp [map_set, map_find, h2]
      · simp [map_set, map_find, h1, h2, ih]

/-- Erasing an absent key changes nothing. -/
theorem map_erase_of_not_found {β : Type} (m : List (Nat × β)) (k : Nat)
    (h : map_find m k = none) : map_erase m k = m := by
  induction m with
  | nil => rfl
  | cons a m ih =>
    obtain ⟨k0, v0⟩ := a
    by_cases h2 : k = k0
    · simp [map_find, h2] at h
    · simp [map_find, h2] at h
      simp [map_erase, h2, ih h]

/-- Erasing a key inserted into a map that lacked it restores the map. -/
theorem map_erase_map_set_of_not_found {β : Type} (m : List (Nat × β)) (k : Nat) (v : β)
    (h : map_find m k = none) : map_erase (map_set m k v) k = m := by
  induction m with
  | nil => simp [map_set, map_erase]
  | cons a m ih =>
    obtain ⟨k0, v0⟩ := a
    by_cases h2 : k = k0
    · simp [map_find, h2] at h
    · simp [map_find, h2] at h
      by_cases h1 : k < k0
      · simp [map_set, map_erase, h1]
      · simp [map_set, map_erase, h1, h2, ih h]

/-! ### The CAR size invariant -/

section CarInvariant

open CARState BlockCacher

/-- A bind in `Except` succeeds exactly when both steps do. -/
theorem bind_ok {ε α β : Type} {x : Except ε α} {f : α → Except ε β} {b : β} :
    (x >>= f) = Except.ok b ↔ ∃ a, x = .ok a ∧ f a = .ok b := by
  cases x <;> simp [bind, Except.bind]

/-- A descriptor read succeeds exactly when the index is in the heap. -/
theorem getPage_ok {ps : List Page} {i : Nat} {pg : Page} :
    getPage ps i = .ok pg ↔ ps[i]? = some pg := by
  unfold getPage
  cases h : ps[i]? <;> simp

/-- A descriptor update succeeds exactly when the index is in the heap, and
overwrites that slot. -/
theorem modPage_ok {ps ps2 : List Page} {i : Nat} {f : Page → Page} :
    modPage ps i f = .ok ps2 ↔ ∃ pg, ps[i]? = some pg ∧ ps2 = ps.set i (f pg) := by
  unfold modPage
  cases h : ps[i]? <;> simp [eq_comm]

/-- A pointer dereference succeeds exactly on a non-null pointer. -/
theorem deref_ok {p : Option Nat} {i : Nat} : CARState.deref p = .ok i ↔ p = some i := by
  unfold CARState.deref
  cases p <;> simp

/-- An assertion passes exactly when its condition is true. -/
theorem assert_ok {c : Bool} {u : Unit} : assert c = .ok u ↔ c = true := by
  unfold assert
  cases c <;> simp

/-- A successful array read is in bounds and agrees with `sel`. -/
theorem Arc4.get_ok {α : Type} {a : Arc4 α} {i : Nat} {v : α} (h : a.get i = .ok v) :
    i < 4 ∧ v = a.sel i := by
  unfold Arc4.get at h
  split at h <;> simp_all [Arc4.sel]

/-- A successful array write is in bounds and agrees with `upd`. -/
theorem Arc4.set_ok {α : Type} {a a2 : Arc4 α} {i : Nat} {v : α} (h : a.set i v = .ok a2) :
    i < 4 ∧ a2 = a.upd i v := by
  unfold Arc4.set at h
  split at h <;> simp at h <;> subst h <;> exact ⟨by omega, rfl⟩

/-- Reading slot `j` after writing slot `i`. -/
theorem Arc4.sel_upd {α : Type} (a : Arc4 α) (i j : Nat) (v : α) (hi : i < 4) (hj : j < 4) :
    (a.upd i v).sel j = if j = i then v else a.sel j := by
  rcases i with _ | _ | _ | _ | i <;> rcases j with _ | _ | _ | _ | j <;>
    first | omega | simp [Arc4.sel, Arc4.upd]

/-- A chain survives any heap change that keeps the links of its members. -/
theorem Chain.frame {ps ps2 : List Page} {l : List Nat} : ∀ {h : Option Nat}, Chain ps h l →
    (∀ x, x ∈ l → (ps2[x]?).map links = (ps[x]?).map links) → Chain ps2 h l := by
  induction l with
  | nil => intro h hc _; exact hc
  | cons p l ih =>
    intro h hc hs
    obtain ⟨hh, pg, hpg, hrest⟩ := hc
    have hp := hs p (List.mem_cons_self _ _)
    rw [hpg] at hp
    cases h2 : ps2[p]? with
    | none => simp [h2] at hp
    | some pg2 =>
      simp [h2, links] at hp
      refine ⟨hh, pg2, h2, ?_⟩
      rw [hp.1]
      exact ih hrest (fun x hx => hs x (List.mem_cons_of_mem _ hx))

/-- The last member of a chain has no successor. -/
theorem Chain.last_next {ps : List Page} {l : List Nat} {f : Nat} : ∀ {h : Option Nat},
    Chain ps h l → l.getLast? = some f → ∃ pg, ps[f]? = some pg ∧ pg.page_next = none := by
  induction l with
  | nil => intro h _ hl; simp at hl
  | cons p l ih =>
    intro h hc hl
    obtain ⟨_, pg, hpg, hrest⟩ := hc
    cases l with
    | nil =>
      simp at hl
      subst hl
      exact ⟨pg, hpg, hrest⟩
    | cons q t =>
      rw [List.getLast?_cons_cons] at hl
      exact ih hrest hl

/-- Linking `p` behind the last member `f` of a chain extends the chain by `p`. -/
theorem Chain.snoc {ps ps2 : List Page} {l : List Nat} {f p : Nat} : ∀ {h : Option Nat},
    Chain ps h l → l.Nodup → l.getLast? = some f →
    (∀ x, x ∈ l → x ≠ f → (ps2[x]?).map links = (ps[x]?).map links) →
    (∃ pg2, ps2[f]? = some pg2 ∧ pg2.page_next = some p) →
    (∃ pg2, ps2[p]? = some pg2 ∧ pg2.page_next = none) →
    Chain ps2 h (l ++ [p]) := by
  induction l with
  | nil => intro h _ _ hl; simp at hl
  | cons a l ih =>
    intro h hc hnd hl hs hf hp
    obtain ⟨hh, pg, hpg, hrest⟩ := hc
    cases l with
    | nil =>
      simp at hl
      subst hl
      obtain ⟨pg2, h2, hn2⟩ := hf
      obtain ⟨pg3, h3, hn3⟩ := hp
      exact ⟨hh, pg2, h2, by rw [hn2]; exact ⟨rfl, pg3, h3, by rw [hn3]; rfl⟩⟩
    | cons q t =>
      rw [List.getLast?_cons_cons] at hl
      have hne : a ≠ f := by
        intro hEq
        have : f ∈ q :: t := List.mem_of_getLast?_eq_some hl
        rw [← hEq] at this
        exact (List.nodup_cons.mp hnd).1 this
      have ha := hs a (List.mem_cons_self _ _) hne
      rw [hpg] at ha
      cases h2 : ps2[a]? with
      | none => simp [h2] at ha
      | some pg2 =>
        simp [h2, links] at ha
        refine ⟨hh, pg2, h2, ?_⟩
        rw [ha.1]
        exact ih hrest (List.nodup_cons.mp hnd).2 hl
          (fun x hx hxf => hs x (List.mem_cons_of_mem _ hx) hxf) hf hp

/-- Every member of a chain is a descriptor of the heap. -/
theorem Chain.mem_get {ps : List Page} {l : List Nat} {x : Nat} : ∀ {h : Option Nat},
    Chain ps h l → x ∈ l → ∃ pg, ps[x]? = some pg := by
  induction l with
  | nil => intro h _ hx; simp at hx
  | cons p l ih =>
    intro h hc hx
    obtain ⟨_, pg, hpg, hrest⟩ := hc
    rcases List.mem_cons.mp hx with rfl | hx
    · exact ⟨pg, hpg⟩
    · exact ih hrest hx

/-- A `pure` in `Except` returns its argument. -/
theorem pure_ok {ε α : Type} {a b : α} : (pure a : Except ε α) = Except.ok b ↔ a = b := by
  simp [pure, Except.pure]

/-- The chain from `NULL` is empty. -/
theorem Chain.of_none {ps : List Page} {l : List Nat} (h : Chain ps none l) : l = [] := by
  cases l with
  | nil => rfl
  | cons p l => exact absurd h.1 (by simp)

/-- The chain from a non-null pointer starts with that descriptor. -/
theorem Chain.of_some {ps : List Page} {l : List Nat} {p : Nat} (h : Chain ps (some p) l) :
    ∃ rest pg, l = p :: rest ∧ ps[p]? = some pg ∧ Chain ps pg.page_next rest := by
  cases l with
  | nil => exact absurd h (by simp [Chain])
  | cons q l =>
    obtain ⟨hq, pg, hpg, hrest⟩ := h
    cases hq
    exact ⟨l, pg, rfl, hpg, hrest⟩

/-- No change keeps all links. -/
theorem SameLinksOff.refl (S : Nat → Prop) (ps : List Page) : SameLinksOff S ps ps :=
  ⟨rfl, fun _ _ => rfl⟩

/-- Two changes that keep the links off `S` compose. -/
theorem SameLinksOff.trans {S : Nat → Prop} {ps ps2 ps3 : List Page}
    (h1 : SameLinksOff S ps ps2) (h2 : SameLinksOff S ps2 ps3) : SameLinksOff S ps ps3 :=
  ⟨h2.1.trans h1.1, fun x hx => (h2.2 x hx).trans (h1.2 x hx)⟩

/-- Keeping the links off `S` implies keeping them off any larger set. -/
theorem SameLinksOff.mono {S T : Nat → Prop} {ps ps2 : List Page}
    (h : SameLinksOff S ps ps2) (hst : ∀ x, S x → T x) : SameLinksOff T ps ps2 :=
  ⟨h.1, fun x hx => h.2 x (fun hs => hx (hst x hs))⟩

/-- Overwriting descriptor `i` leaves every other descriptor as it was. -/
theorem SameLinksOff.set (ps : List Page) (i : Nat) (a : Page) :
    SameLinksOff (fun x => x = i) ps (ps.set i a) := by
  refine ⟨by simp, fun x hx => ?_⟩
  have : i ≠ x := fun h => hx h.symm
  simp [List.getElem?_set, this]

/-- Overwriting descriptor `i` by one with the same links changes no links. -/
theorem SameLinksOff.set_same (ps : List Page) (i : Nat) (pg a : Page)
    (hpg : ps[i]? = some pg) (ha : links a = links pg) :
    SameLinksOff (fun _ => False) ps (ps.set i a) := by
  refine ⟨by simp, fun x _ => ?_⟩
  by_cases h : i = x
  · subst h
    have hlt : i < ps.length := by
      rcases Nat.lt_or_ge i ps.length with h | h
      · exact h
      · rw [List.getElem?_eq_none h] at hpg; cases hpg
    simp [List.getElem?_set, hlt, hpg, ha]
  · simp [List.getElem?_set, h]

/-- Reading back an overwritten slot. -/
theorem get_set_self {ps : List Page} {i : Nat} {pg a : Page} (hpg : ps[i]? = some pg) :
    (ps.set i a)[i]? = some a := by
  have hlt : i < ps.length := by
    rcases Nat.lt_or_ge i ps.length with h | h
    · exact h
    · rw [List.getElem?_eq_none h] at hpg; cases hpg
  simp [List.getElem?_set, hlt]

/-- The decrement `--x` of a positive `uint32_t` does not wrap. -/
theorem sub32_one {a : Nat} (h1 : 0 < a) (h2 : a < 4294967296) : sub32 a 1 = a - 1 := by
  unfold sub32
  split <;> omega

/-- A value below 2^32 is its own `uint32_t` truncation. -/
theorem u32_of_lt {a : Nat} (h : a < 4294967296) : u32 a = a := by
  unfold u32
  omega

/-- Every page on a CAR list is a descriptor of the heap. -/
theorem CarLists.listed_get {ps : List Page} {c : CARState} {L : Arc4 (List Nat)}
    (hL : CarLists ps c L) {i x : Nat} (hi : i < 4) (hx : x ∈ L.sel i) :
    ∃ pg, ps[x]? = some pg :=
  (hL.chain i hi).mem_get hx

/-- The effect of `_pop_head_page(idx)` on well-formed lists: the head `p` of list
`idx` is unlinked, only `p` changes its links, and counter `idx` drops by one. -/
theorem pop_spec {ps ps2 : List Page} {c c2 : CARState} {L : Arc4 (List Nat)} {idx p : Nat}
    (hL : CarLists ps c L) (hidx : idx < 4)
    (h : _pop_head_page ps c idx = .ok (ps2, c2, p)) :
    ∃ rest, L.sel idx = p :: rest ∧ CarLists ps2 c2 (L.upd idx rest) ∧
      SameLinksOff (fun x => x = p) ps ps2 ∧
      (∃ pg pg2, ps[p]? = some pg ∧ ps2[p]? = some pg2 ∧ pg2.page_next = none ∧
        pg2.reference = pg.reference) ∧
      c2.arc_list_size = c.arc_list_size.upd idx (sub32 (c.arc_list_size.sel idx) 1) ∧
      c2.arc_lru_limit = c.arc_lru_limit ∧ c2.data_pages = c.data_pages := by
  simp only [CARState._pop_head_page, bind_ok, pure_ok, getPage_ok, modPage_ok, deref_ok] at h
  obtain ⟨hd, hhd, p', hp', pg, hpg, ps1, hps1, heads, hheads, ps2', hps2, foots, hfoots, sz, hsz,
    sizes, hsizes, ps3, hps3, hfin⟩ := h
  simp only [Prod.mk.injEq] at hfin
  obtain ⟨rfl, rfl, rfl⟩ := hfin
  obtain ⟨-, hhd⟩ := Arc4.get_ok hhd
  obtain ⟨-, hsz⟩ := Arc4.get_ok hsz
  obtain ⟨-, rfl⟩ := Arc4.set_ok hheads
  obtain ⟨-, rfl⟩ := Arc4.set_ok hsizes
  subst hp' hsz
  have hch := hL.chain idx hidx
  rw [← hhd] at hch
  obtain ⟨rest, pg0, hl, hpg0, hrest⟩ := hch.of_some
  rw [hpg] at hpg0
  cases hpg0
  have hnd := hL.nodup idx hidx
  rw [hl] at hnd
  have hprest : p' ∉ rest := (List.nodup_cons.mp hnd).1
  -- the heap after the three assignments
  have h1 : SameLinksOff (fun _ => False) ps ps1 ∧ ∃ pg1, ps1[p']? = some pg1 ∧
      pg1.reference = pg.reference := by
    cases hn : pg.page_next with
    | none =>
      rw [hn] at hps1
      simp only [pure_ok] at hps1
      subst hps1
      exact ⟨SameLinksOff.refl _ _, pg, hpg, rfl⟩
    | some q =>
      rw [hn] at hps1
      simp only [modPage_ok] at hps1
      obtain ⟨pq, hpq, rfl⟩ := hps1
      refine ⟨SameLinksOff.set_same ps q pq _ hpq rfl, ?_⟩
      by_cases hqp : q = p'
      · subst hqp
        rw [hpg] at hpq
        cases hpq
        exact ⟨_, get_set_self hpg, rfl⟩
      · exact ⟨pg, by simp [List.getElem?_set, hqp, hpg], rfl⟩
  obtain ⟨hs1, pg1, hpg1, hr1⟩ := h1
  obtain ⟨pga, hpga, hps2eq⟩ := hps2
  rw [hpg1] at hpga
  cases hpga
  have hs2 : SameLinksOff (fun x => x = p') ps1 ps2' := by
    rw [hps2eq]; exact SameLinksOff.set _ _ _
  have hg2 : ∃ pg2, ps2'[p']? = some pg2 ∧ pg2.page_next = none ∧
      pg2.reference = pg1.reference := by
    rw [hps2eq]; exact ⟨_, get_set_self hpg1, rfl, rfl⟩
  obtain ⟨pg2, hpg2, hn2, hr2⟩ := hg2
  obtain ⟨pgb, hpgb, hps3eq⟩ := hps3
  rw [hpg2] at hpgb
  cases hpgb
  have hs3 : SameLinksOff (fun x => x = p') ps ps3 := by
    refine ((hs1.mono (fun _ hf => hf.elim)).trans hs2).trans ?_
    rw [hps3eq]; exact SameLinksOff.set _ _ _
  have hg3 : ∃ pg3, ps3[p']? = some pg3 ∧ pg3.page_next = none ∧
      pg3.reference = pg.reference := by
    rw [hps3eq]; exact ⟨_, get_set_self hpg2, hn2, hr2.trans hr1⟩
  obtain ⟨pg3, hpg3, hn3, hr3⟩ := hg3
  have hframe : ∀ l : List Nat, p' ∉ l → ∀ hp, Chain ps hp l → Chain ps3 hp l :=
    fun l hpl hp hc => hc.frame (fun x hx => hs3.2 x (fun hxp => hpl (hxp ▸ hx)))
  refine ⟨rest, hl, ?_, hs3, ⟨pg, pg3, hpg, hpg3, hn3, hr3⟩, rfl, rfl, rfl⟩
  have hsel : ∀ j, j < 4 → (L.upd idx rest).sel j = if j = idx then rest else L.sel j :=
    fun j hj => Arc4.sel_upd L idx j rest hidx hj
  constructor
  · intro j hj
    rw [hsel j hj]
    simp only [Arc4.sel_upd _ idx j _ hidx hj]
    by_cases hji : j = idx
    · subst hji
      simp only [if_true]
      exact hframe rest hprest _ hrest
    · simp only [hji, if_false]
      refine hframe _ ?_ _ (hL.chain j hj)
      intro hmem
      exact hL.disjoint idx j hidx hj (Ne.symm hji) p' (by rw [hl]; exact List.mem_cons_self _ _) hmem
  · intro j hj
    rw [hsel j hj]
    by_cases hji : j = idx
    · subst hji
      simp only [if_true]
      by_cases hnone : pg.page_next.isNone = true
      · rw [if_pos hnone] at hfoots
        obtain ⟨-, rfl⟩ := Arc4.set_ok hfoots
        have : rest = [] := by
          rw [Option.isNone_iff_eq_none.mp hnone] at hrest
          exact hrest.of_none
        simp [Arc4.sel_upd _ j j _ hj hj, this]
      · rw [if_neg hnone] at hfoots
        simp only [pure_ok] at hfoots
        subst hfoots
        have hne : rest ≠ [] := by
          intro h0
          rw [h0] at hrest
          have : pg.page_next = none := hrest
          exact hnone (by simp [this])
        have := hL.foot j hj
        rw [hl] at this
        rw [this]
        obtain ⟨q, t, rfl⟩ := List.exists_cons_of_ne_nil hne
        exact List.getLast?_cons_cons
    · simp only [hji, if_false]
      by_cases hnone : pg.page_next.isNone = true
      · rw [if_pos hnone] at hfoots
        obtain ⟨-, rfl⟩ := Arc4.set_ok hfoots
        simp [Arc4.sel_upd _ idx j _ hidx hj, hji, hL.foot j hj]
      · rw [if_neg hnone] at hfoots
        simp only [pure_ok] at hfoots
        subst hfoots
        exact hL.foot j hj
  · intro j hj
    rw [hsel j hj]
    by_cases hji : j = idx
    · simp only [hji, if_true]; exact (List.nodup_cons.mp hnd).2
    · simp only [hji, if_false]; exact hL.nodup j hj
  · intro i j hi hj hij x hx
    rw [hsel i hi] at hx
    rw [hsel j hj]
    have hsub : ∀ k, k < 4 → ∀ y, y ∈ (if k = idx then rest else L.sel k) → y ∈ L.sel k := by
      intro k hk y hy
      by_cases hki : k = idx
      · simp only [hki, if_true] at hy; rw [hki, hl]; exact List.mem_cons_of_mem _ hy
      · simp only [hki, if_false] at hy; exact hy
    exact fun hxj => hL.disjoint i j hi hj hij x (hsub i hi x hx) (hsub j hj x hxj)

/-- A list has no last element exactly when it is empty. -/
theorem getLast?_eq_none_iff' {l : List Nat} : l.getLast? = none ↔ l = [] := by
  cases l with
  | nil => simp
  | cons a t => simp [List.getLast?_cons]

/-- The effect of `_append_page(page, dst)` for a page on none of the lists:
`page` becomes the tail of list `dst`, only `page` and the old members of that
list change links, and counter `dst` grows by one. -/
theorem append_spec {ps ps2 : List Page} {c c2 : CARState} {L : Arc4 (List Nat)} {page dst : Nat}
    (hL : CarLists ps c L) (hdst : dst < 4) (hout : ∀ i, i < 4 → page ∉ L.sel i)
    (h : _append_page ps c page dst = .ok (ps2, c2)) :
    CarLists ps2 c2 (L.upd dst (L.sel dst ++ [page])) ∧
      SameLinksOff (fun x => x = page ∨ x ∈ L.sel dst) ps ps2 ∧
      (∃ pg2, ps2[page]? = some pg2 ∧ pg2.arc_idx = dst) ∧
      c2.arc_list_size = c.arc_list_size.upd dst (u32 (c.arc_list_size.sel dst + 1)) ∧
      c2.arc_lru_limit = c.arc_lru_limit ∧ c2.data_pages = c.data_pages := by
  simp only [CARState._append_page, bind_ok, pure_ok, getPage_ok, modPage_ok, assert_ok] at h
  obtain ⟨pg, hpg, -, hassert, ps1, hps1, foot, hfoot, psb, hpsb, psc, hpsc, foots, hfoots,
    head, hhead, heads, hheads, psd, hpsd, sz, hsz, sizes, hsizes, hfin⟩ := h
  simp only [Prod.mk.injEq] at hfin
  obtain ⟨rfl, rfl⟩ := hfin
  obtain ⟨-, hfoot⟩ := Arc4.get_ok hfoot
  obtain ⟨-, hhead⟩ := Arc4.get_ok hhead
  obtain ⟨-, hsz⟩ := Arc4.get_ok hsz
  obtain ⟨-, rfl⟩ := Arc4.set_ok hfoots
  obtain ⟨-, rfl⟩ := Arc4.set_ok hsizes
  subst hsz
  simp only [Bool.and_eq_true, beq_iff_eq, Option.isNone_iff_eq_none] at hassert
  obtain ⟨⟨-, hnext⟩, -⟩ := hassert
  have hch := hL.chain dst hdst
  have hft := hL.foot dst hdst
  rw [← hfoot] at hft
  rw [← hhead] at hch
  -- step 1: page->arc_idx = dst
  obtain ⟨pga, hpga, hps1eq⟩ := hps1
  rw [hpg] at hpga; cases hpga
  have hs1 : SameLinksOff (fun x => x = page) ps ps1 := by
    rw [hps1eq]; exact SameLinksOff.set _ _ _
  have hg1 : ∃ p1, ps1[page]? = some p1 ∧ p1.page_next = none ∧ p1.arc_idx = dst := by
    rw [hps1eq]; exact ⟨_, get_set_self hpg, hnext, rfl⟩
  obtain ⟨p1, hp1, hn1, ha1⟩ := hg1
  -- step 2: foot->page_next = page
  have h2 : SameLinksOff (fun x => x = page ∨ x ∈ L.sel dst) ps psb ∧
      (∃ p2, psb[page]? = some p2 ∧ p2.page_next = none ∧ p2.arc_idx = dst) ∧
      (∀ f, foot = some f → ∃ pf, psb[f]? = some pf ∧ pf.page_next = some page) := by
    cases hf : foot with
    | none =>
      rw [hf] at hpsb
      simp only [pure_ok] at hpsb
      subst hpsb
      exact ⟨hs1.mono (fun _ hx => Or.inl hx), ⟨p1, hp1, hn1, ha1⟩, fun f hf2 => by cases hf2⟩
    | some f =>
      rw [hf] at hpsb hft
      simp only [modPage_ok] at hpsb
      obtain ⟨pf, hpf, hpsbeq⟩ := hpsb
      have hfl : f ∈ L.sel dst := List.mem_of_getLast?_eq_some hft.symm
      have hfp : f ≠ page := fun hEq => hout dst hdst (hEq ▸ hfl)
      refine ⟨?_, ?_, ?_⟩
      · refine (hs1.mono (fun _ hx => Or.inl hx)).trans ?_
        rw [hpsbeq]
        exact (SameLinksOff.set _ _ _).mono (fun x hx => Or.inr (hx ▸ hfl))
      · rw [hpsbeq]
        exact ⟨p1, by simp [List.getElem?_set, hfp, hp1], hn1, ha1⟩
      · intro f2 hf2
        cases hf2
        rw [hpsbeq]
        exact ⟨_, get_set_self hpf, rfl⟩
  obtain ⟨hs2, ⟨p2, hp2, hn2, ha2⟩, hfootnext⟩ := h2
  -- steps 3 and 4: page->page_prev = foot; page->reference = 0
  obtain ⟨pgc, hpgc, hpsceq⟩ := hpsc
  rw [hp2] at hpgc; cases hpgc
  have hs3 : SameLinksOff (fun _ => False) psb psc := by
    rw [hpsceq]; exact SameLinksOff.set_same _ _ _ _ hp2 rfl
  have hp3 : psc[page]? = some { p2 with page_prev := foot } := by
    rw [hpsceq]; exact get_set_self hp2
  obtain ⟨pgd, hpgd, hpsdeq⟩ := hpsd
  rw [hp3] at hpgd; cases hpgd
  have hs4 : SameLinksOff (fun _ => False) psc psd := by
    rw [hpsdeq]; exact SameLinksOff.set_same _ _ _ _ hp3 rfl
  have hs : SameLinksOff (fun x => x = page ∨ x ∈ L.sel dst) ps psd :=
    (hs2.trans (hs3.mono (fun _ hf => hf.elim))).trans (hs4.mono (fun _ hf => hf.elim))
  have hsame : ∀ x, (psd[x]?).map links = (psb[x]?).map links := fun x =>
    ((hs4.2 x (fun hf => hf)).trans (hs3.2 x (fun hf => hf)))
  have hpd : ∃ p4, psd[page]? = some p4 ∧ p4.page_next = none ∧ p4.arc_idx = dst := by
    have := hsame page
    rw [hp2] at this
    cases h4 : psd[page]? with
    | none => simp [h4] at this
    | some p4 =>
      simp [h4, links] at this
      exact ⟨p4, rfl, this.1.trans hn2, this.2.trans ha2⟩
  obtain ⟨p4, hp4, hn4, ha4⟩ := hpd
  have hfd : ∀ f, foot = some f → ∃ pf, psd[f]? = some pf ∧ pf.page_next = some page := by
    intro f hf
    obtain ⟨pf, hpf, hnf⟩ := hfootnext f hf
    have := hsame f
    rw [hpf] at this
    cases h4 : psd[f]? with
    | none => simp [h4] at this
    | some pf4 =>
      simp [h4, links] at this
      exact ⟨pf4, rfl, this.1.trans hnf⟩
  refine ⟨?_, hs, ⟨p4, hp4, ha4⟩, rfl, rfl, rfl⟩
  have hsel : ∀ j, j < 4 → (L.upd dst (L.sel dst ++ [page])).sel j =
      if j = dst then L.sel dst ++ [page] else L.sel j :=
    fun j hj => Arc4.sel_upd L dst j _ hdst hj
  have hother : ∀ j, j < 4 → j ≠ dst → ∀ x, x ∈ L.sel j →
      (psd[x]?).map links = (ps[x]?).map links := by
    intro j hj hjd x hx
    refine hs.2 x ?_
    rintro (hxp | hxd)
    · exact hout j hj (hxp ▸ hx)
    · exact hL.disjoint j dst hj hdst hjd x hx hxd
  constructor
  · intro j hj
    rw [hsel j hj]
    by_cases hjd : j = dst
    · subst hjd
      simp only [if_true]
      cases hf : foot with
      | none =>
        rw [hf] at hft
        have hnil : L.sel j = [] := getLast?_eq_none_iff'.mp hft.symm
        rw [hnil] at hch ⊢
        have hh : head = none := hch
        rw [hh] at hheads
        simp only [Option.isNone_none, if_true] at hheads
        obtain ⟨-, rfl⟩ := Arc4.set_ok hheads
        simp only [Arc4.sel_upd _ j j _ hj hj, if_true, List.nil_append]
        exact ⟨rfl, p4, hp4, by rw [hn4]; rfl⟩
      | some f =>
        rw [hf] at hft
        have hne : L.sel j ≠ [] := by
          intro h0; rw [h0] at hft; simp at hft
        have hh : head.isNone = false := by
          cases hhd : head with
          | none => rw [hhd] at hch; exact absurd hch.of_none hne
          | some a => rfl
        rw [hh] at hheads
        simp only [Bool.false_eq_true, if_false, pure_ok] at hheads
        subst hheads
        rw [← hhead]
        refine Chain.snoc hch (hL.nodup j hj) hft.symm ?_ (hfd f hf) ⟨p4, hp4, hn4⟩
        intro x hx hxf
        refine (hsame x).trans ?_
        -- psb differs from ps only at page and f
        by_cases hxp : x = page
        · exact absurd (hxp ▸ hx) (hout j hj)
        · rw [hf] at hpsb
          simp only [modPage_ok] at hpsb
          obtain ⟨pf, hpf, hpsbeq⟩ := hpsb
          rw [hpsbeq]
          have : f ≠ x := fun hEq => hxf hEq.symm
          simp only [List.getElem?_set, this, if_false]
          exact hs1.2 x hxp
    · simp only [hjd, if_false]
      have hhj : heads.sel j = c.arc_list_head.sel j := by
        by_cases hnone : head.isNone = true
        · rw [if_pos hnone] at hheads
          obtain ⟨-, rfl⟩ := Arc4.set_ok hheads
          simp [Arc4.sel_upd _ dst j _ hdst hj, hjd]
        · rw [if_neg hnone] at hheads
          simp only [pure_ok] at hheads
          rw [hheads]
      show Chain psd (heads.sel j) (L.sel j)
      rw [hhj]
      exact (hL.chain j hj).frame (hother j hj hjd)
  · intro j hj
    rw [hsel j hj]
    show (c.arc_list_foot.upd dst (some page)).sel j = _
    rw [Arc4.sel_upd _ dst j _ hdst hj]
    by_cases hjd : j = dst
    · simp [hjd]
    · simp only [hjd, if_false]; exact hL.foot j hj
  · intro j hj
    rw [hsel j hj]
    by_cases hjd : j = dst
    · simp only [hjd, if_true]
      exact List.Nodup.append (hL.nodup dst hdst) (List.nodup_singleton _)
        (by
          intro x hx hx2
          simp at hx2
          exact hout dst hdst (hx2 ▸ hx))
    · simp only [hjd, if_false]; exact hL.nodup j hj
  · intro i j hi hj hij x hx
    rw [hsel i hi] at hx
    rw [hsel j hj]
    by_cases hid : i = dst
    · have hjd : j ≠ dst := fun h => hij (hid.trans h.symm)
      simp only [hid, if_true, List.mem_append, List.mem_singleton] at hx
      simp only [hjd, if_false]
      rcases hx with hx | hx
      · exact hL.disjoint dst j hdst hj (fun h => hjd h.symm) x hx
      · rw [hx]; exact hout j hj
    · simp only [hid, if_false] at hx
      by_cases hjd : j = dst
      · simp only [hjd, if_true, List.mem_append, List.mem_singleton]
        rintro (hxd | hxp)
        · exact hL.disjoint i dst hi hdst hid x hx hxd
        · exact hout i hi (hxp ▸ hx)
      · simp only [hjd, if_false]
        exact hL.disjoint i j hi hj hij x hx

/-- After a pop, every listed page was listed before. -/
theorem InLists.upd_pop {L : Arc4 (List Nat)} {idx p : Nat} {rest : List Nat} (hidx : idx < 4)
    (hl : L.sel idx = p :: rest) (x : Nat) :
    InLists (L.upd idx rest) x → InLists L x := by
  rintro ⟨i, hi, hx⟩
  rw [Arc4.sel_upd L idx i rest hidx hi] at hx
  by_cases hii : i = idx
  · simp only [hii, if_true] at hx
    exact ⟨idx, hidx, by rw [hl]; exact List.mem_cons_of_mem _ hx⟩
  · simp only [hii, if_false] at hx
    exact ⟨i, hi, hx⟩

/-- After a pop, every page listed before is the popped one or still listed. -/
theorem InLists.upd_pop_rev {L : Arc4 (List Nat)} {idx p : Nat} {rest : List Nat} (hidx : idx < 4)
    (hl : L.sel idx = p :: rest) (x : Nat) (hx : InLists L x) :
    x = p ∨ InLists (L.upd idx rest) x := by
  obtain ⟨i, hi, hx⟩ := hx
  by_cases hii : i = idx
  · subst hii
    rw [hl] at hx
    rcases List.mem_cons.mp hx with h | h
    · exact Or.inl h
    · exact Or.inr ⟨i, hi, by rw [Arc4.sel_upd L i i rest hi hi]; simpa using h⟩
  · exact Or.inr ⟨i, hi, by rw [Arc4.sel_upd L idx i rest hidx hi]; simpa [hii] using hx⟩

/-- After an append, the listed pages are the old ones and the appended one. -/
theorem InLists.upd_snoc {L : Arc4 (List Nat)} {dst p : Nat} (hdst : dst < 4) (x : Nat) :
    InLists (L.upd dst (L.sel dst ++ [p])) x ↔ InLists L x ∨ x = p := by
  constructor
  · rintro ⟨i, hi, hx⟩
    rw [Arc4.sel_upd L dst i _ hdst hi] at hx
    by_cases hii : i = dst
    · simp only [hii, if_true, List.mem_append, List.mem_singleton] at hx
      rcases hx with h | h
      · exact Or.inl ⟨dst, hdst, h⟩
      · exact Or.inr h
    · simp only [hii, if_false] at hx
      exact Or.inl ⟨i, hi, hx⟩
  · rintro (⟨i, hi, hx⟩ | h)
    · refine ⟨i, hi, ?_⟩
      rw [Arc4.sel_upd L dst i _ hdst hi]
      by_cases hii : i = dst
      · simp only [hii, if_true, List.mem_append]; exact Or.inl (hii ▸ hx)
      · simp only [hii, if_false]; exact hx
    · refine ⟨dst, hdst, ?_⟩
      rw [Arc4.sel_upd L dst dst _ hdst hdst]
      simp [h]

/-- One round of the clock: pop the head of list `idx`, append it to `dst`. -/
theorem move_spec {ps ps1 ps2 : List Page} {c c1 c2 : CARState} {L : Arc4 (List Nat)}
    {idx dst p : Nat} (hL : CarLists ps c L) (hidx : idx < 4) (hdst : dst < 4)
    (h1 : _pop_head_page ps c idx = .ok (ps1, c1, p))
    (h2 : _append_page ps1 c1 p dst = .ok (ps2, c2)) :
    ∃ rest, L.sel idx = p :: rest ∧
      CarLists ps2 c2 ((L.upd idx rest).upd dst ((L.upd idx rest).sel dst ++ [p])) ∧
      (∀ x, InLists ((L.upd idx rest).upd dst ((L.upd idx rest).sel dst ++ [p])) x ↔
        InLists L x) ∧
      SameLinksOff (InLists L) ps ps2 ∧
      c2.arc_list_size = (c.arc_list_size.upd idx (sub32 (c.arc_list_size.sel idx) 1)).upd dst
        (u32 ((c.arc_list_size.upd idx (sub32 (c.arc_list_size.sel idx) 1)).sel dst + 1)) ∧
      c2.arc_lru_limit = c.arc_lru_limit ∧ c2.data_pages = c.data_pages := by
  obtain ⟨rest, hl, hL1, hs1, -, hsz1, hlim1, hd1⟩ := pop_spec hL hidx h1
  have hpin : InLists L p := ⟨idx, hidx, by rw [hl]; exact List.mem_cons_self _ _⟩
  have hout : ∀ i, i < 4 → p ∉ (L.upd idx rest).sel i := by
    intro i hi hmem
    rw [Arc4.sel_upd L idx i rest hidx hi] at hmem
    have hnd := hL.nodup idx hidx
    rw [hl] at hnd
    by_cases hii : i = idx
    · simp only [hii, if_true] at hmem
      exact (List.nodup_cons.mp hnd).1 hmem
    · simp only [hii, if_false] at hmem
      exact hL.disjoint idx i hidx hi (Ne.symm hii) p (by rw [hl]; exact List.mem_cons_self _ _) hmem
  obtain ⟨hL2, hs2, -, hsz2, hlim2, hd2⟩ := append_spec hL1 hdst hout h2
  refine ⟨rest, hl, hL2, ?_, ?_, ?_, hlim2.trans hlim1, hd2.trans hd1⟩
  · intro x
    rw [InLists.upd_snoc hdst]
    constructor
    · rintro (h | h)
      · exact InLists.upd_pop hidx hl x h
      · exact h ▸ hpin
    · intro h
      rcases InLists.upd_pop_rev hidx hl x h with h | h
      · exact Or.inr h
      · exact Or.inl h
  · refine (hs1.mono ?_).trans (hs2.mono ?_)
    · intro x hx; exact hx ▸ hpin
    · rintro x (hx | hx)
      · exact hx ▸ hpin
      · exact InLists.upd_pop hidx hl x ⟨dst, hdst, hx⟩
  · rw [hsz2, hsz1]

/-- The effect of `evict_data()` on well-formed lists whose counters are exact up
to `e` held pages: the lists stay well formed over the same pages, the counters
stay exact, one page moves from LRU or LFU to the ghost list of its class, and
only listed pages change links. -/
theorem evict_spec : ∀ (fuel : Nat) {ps ps2 : List Page} {c c2 : CARState}
    {L : Arc4 (List Nat)} {e p : Nat},
    CarLists ps c L → Counts c L e →
    L.lru.length + e + L.lfu.length + L.lru_ghost.length + L.lfu_ghost.length + 1
      < 4294967296 →
    evict_loop fuel ps c = .ok (ps2, c2, p) →
    ∃ L2, CarLists ps2 c2 L2 ∧ Counts c2 L2 e ∧ (∀ x, InLists L2 x ↔ InLists L x) ∧
      SameLinksOff (InLists L) ps ps2 ∧
      L2.lru.length + L2.lfu.length + 1 = L.lru.length + L.lfu.length ∧
      ((L2.lru.length + 1 ≤ L.lru.length ∧ L2.lru_ghost.length = L.lru_ghost.length + 1 ∧
          L2.lfu_ghost.length = L.lfu_ghost.length) ∨
        (L2.lru.length ≤ L.lru.length ∧ L2.lru_ghost.length = L.lru_ghost.length ∧
          L2.lfu_ghost.length = L.lfu_ghost.length + 1)) ∧
      c2.arc_lru_limit = c.arc_lru_limit ∧ c2.data_pages = c.data_pages := by
  intro fuel
  induction fuel with
  | zero => intro ps ps2 c c2 L e p _ _ _ h; simp [evict_loop] at h
  | succ fuel ih =>
    intro ps ps2 c c2 L e p hL hC hB h
    obtain ⟨hc0, hc1, hc2, hc3⟩ := hC
    rw [evict_loop] at h
    split at h
    · -- pop the head of ARC_LRU
      simp only [bind_ok, getPage_ok] at h
      obtain ⟨⟨ps1, c1, q⟩, hpop, pg, hpg, h⟩ := h
      dsimp only at hpg h
      split at h
      · simp only [bind_ok] at h
        obtain ⟨⟨psa, ca⟩, happ, h⟩ := h
        dsimp only at h
        obtain ⟨rest, hl, hLa, hin, hs, hsz, hlim, hd⟩ :=
          move_spec hL (by decide : ARC_LRU < 4) (by decide : ARC_LFU < 4) hpop happ
        simp only [ARC_LRU, ARC_LFU, Arc4.sel, Arc4.upd] at hl hLa hin hsz
        have hlen0 : L.lru.length = rest.length + 1 := by rw [hl]; rfl
        have hCa : Counts ca ⟨rest, L.lfu ++ [q], L.lru_ghost, L.lfu_ghost⟩ e := by
          have e1 : sub32 c.arc_list_size.lru 1 = c.arc_list_size.lru - 1 :=
            sub32_one (by omega) (by omega)
          have e2 : u32 (c.arc_list_size.lfu + 1) = c.arc_list_size.lfu + 1 :=
            u32_of_lt (by omega)
          refine ⟨?_, ?_, ?_, ?_⟩ <;> simp only [hsz, e1, e2, List.length_append,
            List.length_cons, List.length_nil] <;> omega
        have hBa : rest.length + e + (L.lfu ++ [q]).length + L.lru_ghost.length +
            L.lfu_ghost.length + 1 < 4294967296 := by
          simp only [List.length_cons, List.length_append, List.length_nil]
          omega
        obtain ⟨L2, hL2, hC2, hin2, hs2, hlen, hcase, hlim2, hd2⟩ := ih hLa hCa hBa h
        simp only [List.length_append, List.length_cons, List.length_nil] at hlen hcase
        refine ⟨L2, hL2, hC2, fun x => (hin2 x).trans (hin x), ?_, ?_, ?_,
          hlim2.trans hlim, hd2.trans hd⟩
        · exact hs.trans (hs2.mono (fun x hx => (hin x).mp hx))
        · omega
        · rcases hcase with ⟨h1, h2, h3⟩ | ⟨h1, h2, h3⟩
          · exact Or.inl ⟨by omega, h2, h3⟩
          · exact Or.inr ⟨by omega, h2, h3⟩
      · simp only [bind_ok, pure_ok] at h
        obtain ⟨⟨psa, ca⟩, happ, h⟩ := h
        simp only [Prod.mk.injEq] at h
        obtain ⟨rfl, rfl, rfl⟩ := h
        obtain ⟨rest, hl, hLa, hin, hs, hsz, hlim, hd⟩ :=
          move_spec hL (by decide : ARC_LRU < 4) (by decide : ARC_LRU_GHOST < 4) hpop happ
        simp only [ARC_LRU, ARC_LRU_GHOST, Arc4.sel, Arc4.upd] at hl hLa hin hsz
        have hlen0 : L.lru.length = rest.length + 1 := by rw [hl]; rfl
        refine ⟨_, hLa, ?_, hin, hs, ?_, ?_, hlim, hd⟩
        · have e1 : sub32 c.arc_list_size.lru 1 = c.arc_list_size.lru - 1 :=
            sub32_one (by omega) (by omega)
          have e2 : u32 (c.arc_list_size.lru_ghost + 1) = c.arc_list_size.lru_ghost + 1 :=
            u32_of_lt (by omega)
          refine ⟨?_, ?_, ?_, ?_⟩ <;> simp only [hsz, e1, e2, List.length_append,
            List.length_cons, List.length_nil] <;> omega
        · simp only [List.length_cons, List.length_append, List.length_nil]; omega
        · exact Or.inl ⟨by simp only []; omega, by simp, rfl⟩
    · -- pop the head of ARC_LFU
      simp only [bind_ok, getPage_ok] at h
      obtain ⟨⟨ps1, c1, q⟩, hpop, pg, hpg, h⟩ := h
      dsimp only at hpg h
      split at h
      · simp only [bind_ok] at h
        obtain ⟨⟨psa, ca⟩, happ, h⟩ := h
        dsimp only at h
        obtain ⟨rest, hl, hLa, hin, hs, hsz, hlim, hd⟩ :=
          move_spec hL (by decide : ARC_LFU < 4) (by decide : ARC_LFU < 4) hpop happ
        simp only [ARC_LFU, Arc4.sel, Arc4.upd] at hl hLa hin hsz
        have hlen0 : L.lfu.length = rest.length + 1 := by rw [hl]; rfl
        have hCa : Counts ca ⟨L.lru, rest ++ [q], L.lru_ghost, L.lfu_ghost⟩ e := by
          have e1 : sub32 c.arc_list_size.lfu 1 = c.arc_list_size.lfu - 1 :=
            sub32_one (by omega) (by omega)
          have e2 : u32 (c.arc_list_size.lfu - 1 + 1) = c.arc_list_size.lfu - 1 + 1 :=
            u32_of_lt (by omega)
          refine ⟨?_, ?_, ?_, ?_⟩ <;> simp only [hsz, e1, e2, List.length_append,
            List.length_cons, List.length_nil] <;> omega
        have hBa : L.lru.length + e + (rest ++ [q]).length + L.lru_ghost.length +
            L.lfu_ghost.length + 1 < 4294967296 := by
          simp only [List.length_cons, List.length_append, List.length_nil]
          omega
        obtain ⟨L2, hL2, hC2, hin2, hs2, hlen, hcase, hlim2, hd2⟩ := ih hLa hCa hBa h
        simp only [List.length_append, List.length_cons, List.length_nil] at hlen hcase
        refine ⟨L2, hL2, hC2, fun x => (hin2 x).trans (hin x), ?_, ?_, ?_,
          hlim2.trans hlim, hd2.trans hd⟩
        · exact hs.trans (hs2.mono (fun x hx => (hin x).mp hx))
        · omega
        · exact hcase
      · simp only [bind_ok, pure_ok] at h
        obtain ⟨⟨psa, ca⟩, happ, h⟩ := h
        simp only [Prod.mk.injEq] at h
        obtain ⟨rfl, rfl, rfl⟩ := h
        obtain ⟨rest, hl, hLa, hin, hs, hsz, hlim, hd⟩ :=
          move_spec hL (by decide : ARC_LFU < 4) (by decide : ARC_LFU_GHOST < 4) hpop happ
        simp only [ARC_LFU, ARC_LFU_GHOST, Arc4.sel, Arc4.upd] at hl hLa hin hsz
        have hlen0 : L.lfu.length = rest.length + 1 := by rw [hl]; rfl
        refine ⟨_, hLa, ?_, hin, hs, ?_, ?_, hlim, hd⟩
        · have e1 : sub32 c.arc_list_size.lfu 1 = c.arc_list_size.lfu - 1 :=
            sub32_one (by omega) (by omega)
          have e2 : u32 (c.arc_list_size.lfu_ghost + 1) = c.arc_list_size.lfu_ghost + 1 :=
            u32_of_lt (by omega)
          refine ⟨?_, ?_, ?_, ?_⟩ <;> simp only [hsz, e1, e2, List.length_append,
            List.length_cons, List.length_nil] <;> omega
        · simp only [List.length_cons, List.length_append, List.length_nil]; omega
        · exact Or.inr ⟨Nat.le_refl _, rfl, by simp⟩

/-- Well-formed lists survive a change that keeps the heads, the feet and the
links of the listed pages. -/
theorem CarLists.congr {ps ps2 : List Page} {c c2 : CARState} {L : Arc4 (List Nat)}
    (hL : CarLists ps c L) (hh : c2.arc_list_head = c.arc_list_head)
    (hf : c2.arc_list_foot = c.arc_list_foot)
    (hs : ∀ x, InLists L x → (ps2[x]?).map links = (ps[x]?).map links) : CarLists ps2 c2 L where
  chain i hi := by
    rw [hh]
    exact (hL.chain i hi).frame (fun x hx => hs x ⟨i, hi, hx⟩)
  foot i hi := by rw [hf]; exact hL.foot i hi
  nodup := hL.nodup
  disjoint := hL.disjoint

/-- A page of class `ARC_LRU` keeps its class when its links are kept. -/
theorem det_frame {ps ps2 : List Page} {x : Nat}
    (h : ∃ pg, ps[x]? = some pg ∧ pg.arc_idx = ARC_LRU)
    (hs : (ps2[x]?).map links = (ps[x]?).map links) :
    ∃ pg, ps2[x]? = some pg ∧ pg.arc_idx = ARC_LRU := by
  obtain ⟨pg, hpg, ha⟩ := h
  rw [hpg] at hs
  cases h2 : ps2[x]? with
  | none => simp [h2] at hs
  | some pg2 =>
    simp [h2, links] at hs
    exact ⟨pg2, rfl, hs.2.trans ha⟩

/-- Changes to descriptors that are on no list leave the structure intact. -/
theorem Struct.keep {ps ps2 : List Page} {c d : CARState} {fdh fph : Option Nat}
    {L : Arc4 (List Nat)} {fd fp det : List Nat} {S : Nat → Prop}
    (h : Struct ps c fdh fph L fd fp det) (hh : d.arc_list_head = c.arc_list_head)
    (hf : d.arc_list_foot = c.arc_list_foot) (hs : SameLinksOff S ps ps2)
    (hS : ∀ x, S x → ¬ InLists L x ∧ x ∉ fd ++ fp ++ det) :
    Struct ps2 d fdh fph L fd fp det where
  lists := h.lists.congr hh hf (fun x hx => hs.2 x (fun hsx => (hS x hsx).1 hx))
  fd_chain := h.fd_chain.frame (fun x hx => hs.2 x (fun hsx => (hS x hsx).2 (by simp [hx])))
  fp_chain := h.fp_chain.frame (fun x hx => hs.2 x (fun hsx => (hS x hsx).2 (by simp [hx])))
  nodup := h.nodup
  apart := h.apart
  det_lru x hx := det_frame (h.det_lru x hx) (hs.2 x (fun hsx => (hS x hsx).2 (by simp [hx])))

/-- The effect of `adjust_and_hold(cur, 2)` (no ghost hit): `cur` gets class
`ARC_LRU` and the LRU counter grows by one. -/
theorem adjust_spec {ps ps2 : List Page} {c c2 : CARState} {cur : Nat}
    (h : adjust_and_hold ps c cur 2 = .ok (ps2, c2)) :
    (∃ pg, ps[cur]? = some pg ∧ ps2 = ps.set cur { pg with arc_idx := ARC_LRU }) ∧
    c2 = { c with arc_list_size := { c.arc_list_size with
      lru := u32 (c.arc_list_size.lru + 1) } } := by
  unfold adjust_and_hold at h
  simp only [ARC_LRU, ARC_LFU, show (2 : Nat) ≠ 0 by decide, show (2 : Nat) ≠ 1 by decide,
    if_false, bind_ok, pure_ok, modPage_ok, getPage_ok] at h
  obtain ⟨⟨ps1, c1⟩, ⟨psx, ⟨pg, hpg, rfl⟩, hx⟩, pg2, hpg2, sz, hsz, sizes, hsizes, hfin⟩ := h
  simp only [Prod.mk.injEq] at hx hfin
  obtain ⟨rfl, rfl⟩ := hx
  obtain ⟨rfl, rfl⟩ := hfin
  rw [get_set_self hpg] at hpg2
  cases hpg2
  obtain ⟨-, hsz⟩ := Arc4.get_ok hsz
  obtain ⟨-, rfl⟩ := Arc4.set_ok hsizes
  subst hsz
  exact ⟨⟨pg, hpg, rfl⟩, rfl⟩

/-- The effect of lines 196-202 of `get_pages` for a descriptor `cur` outside all
lists: `cur` joins the held pages, the LRU counter grows by one. -/
theorem admit_page_spec {bc bc2 : BlockCacher} {ictx tree pos cur cur2 : Nat}
    {L : Arc4 (List Nat)} {fd fp det : List Nat}
    (hS : Struct bc.all_pages bc.car_state bc.free_data_pages_head bc.free_pages_head
      L fd fp det)
    (hcur : ¬ InLists L cur ∧ cur ∉ fd ++ fp ++ det)
    (h : admit_page bc ictx tree pos 2 cur = .ok (bc2, cur2)) :
    cur2 = cur ∧
    Struct bc2.all_pages bc2.car_state bc2.free_data_pages_head bc2.free_pages_head
      L fd fp (cur :: det) ∧
    bc2.car_state.arc_list_size = { bc.car_state.arc_list_size with
      lru := u32 (bc.car_state.arc_list_size.lru + 1) } ∧
    bc2.car_state.data_pages = bc.car_state.data_pages ∧
    bc2.car_state.arc_lru_limit = bc.car_state.arc_lru_limit ∧
    bc2.remain_data_pages = bc.remain_data_pages := by
  unfold admit_page at h
  simp only [bind_ok, pure_ok, getPage_ok, modPage_ok, assert_ok] at h
  obtain ⟨pg, hpg, -, -, ⟨ps1, car1⟩, hadj, t, -, t2, -, ps2, ⟨pg1, hpg1, hps2⟩, hfin⟩ := h
  simp only [Prod.mk.injEq] at hfin
  obtain ⟨rfl, rfl⟩ := hfin
  obtain ⟨⟨pg0, hpg0, hps1⟩, hcar⟩ := adjust_spec hadj
  dsimp only at hpg1 hps2
  subst hcar
  have hs1 : SameLinksOff (fun x => x = cur) bc.all_pages ps1 := by
    rw [hps1]; exact SameLinksOff.set _ _ _
  have hs2 : SameLinksOff (fun x => x = cur) bc.all_pages ps2 := by
    refine hs1.trans ?_
    rw [hps2]; exact SameLinksOff.set _ _ _
  have hcurpg : ∃ pg2, ps2[cur]? = some pg2 ∧ pg2.arc_idx = ARC_LRU := by
    rw [hps1, get_set_self hpg0] at hpg1
    cases hpg1
    rw [hps2]
    exact ⟨_, get_set_self (by rw [hps1]; exact get_set_self hpg0), rfl⟩
  have hS2 := hS.keep (d := { bc.car_state with arc_list_size :=
      { bc.car_state.arc_list_size with lru := u32 (bc.car_state.arc_list_size.lru + 1) } })
    rfl rfl hs2 (fun x hx => by subst hx; exact hcur)
  refine ⟨rfl, ?_, rfl, rfl, rfl, rfl⟩
  exact {
    lists := hS2.lists
    fd_chain := hS2.fd_chain
    fp_chain := hS2.fp_chain
    nodup := by
      rw [List.nodup_middle]
      exact List.nodup_cons.mpr ⟨hcur.2, hS.nodup⟩
    apart := by
      intro x hx
      simp only [List.mem_append, List.mem_cons] at hx
      rcases hx with (hx | hx) | hx | hx
      · exact hS.apart x (by simp [hx])
      · exact hS.apart x (by simp [hx])
      · exact hx ▸ hcur.1
      · exact hS.apart x (by simp [hx])
    det_lru := by
      intro x hx
      rcases List.mem_cons.mp hx with hx | hx
      · exact hx ▸ hcurpg
      · exact hS2.det_lru x hx }

/-- The pop of the head of `free_data_pages`. -/
theorem pop_free_spec {bc bc2 : BlockCacher} {cur : Nat} {fd : List Nat}
    (h : pop_free_data_page bc = .ok (bc2, cur))
    (hfd : Chain bc.all_pages bc.free_data_pages_head fd) :
    ∃ rest, fd = cur :: rest ∧ Chain bc.all_pages bc2.free_data_pages_head rest ∧
      bc2.all_pages = bc.all_pages ∧ bc2.car_state = bc.car_state ∧
      bc2.free_pages_head = bc.free_pages_head ∧
      bc2.remain_data_pages = bc.remain_data_pages := by
  unfold pop_free_data_page at h
  simp only [bind_ok, pure_ok, getPage_ok, deref_ok] at h
  obtain ⟨p, hp, pg, hpg, hfin⟩ := h
  simp only [Prod.mk.injEq] at hfin
  obtain ⟨rfl, rfl⟩ := hfin
  rw [hp] at hfd
  obtain ⟨rest, pg0, hl, hpg0, hrest⟩ := hfd.of_some
  rw [hpg] at hpg0
  cases hpg0
  exact ⟨rest, hl, hrest, rfl, rfl, rfl, rfl⟩

/-- The loop of `reg_region` moves the first `n` descriptors of `free_pages` to
the front of `free_data_pages`, in reverse order. -/
theorem reg_loop_spec : ∀ (n : Nat) {bc bc2 : BlockCacher} {frame : Nat} {fd fp : List Nat},
    reg_region_loop n bc frame = .ok bc2 →
    Chain bc.all_pages bc.free_data_pages_head fd →
    Chain bc.all_pages bc.free_pages_head fp → (fd ++ fp).Nodup →
    ∃ taken fp2, fp = taken ++ fp2 ∧ taken.length = n ∧
      Chain bc2.all_pages bc2.free_data_pages_head (taken.reverse ++ fd) ∧
      Chain bc2.all_pages bc2.free_pages_head fp2 ∧
      SameLinksOff (fun x => x ∈ taken) bc.all_pages bc2.all_pages ∧
      bc2.car_state = bc.car_state ∧ bc2.remain_data_pages = bc.remain_data_pages ∧
      bc2.region_maxpages = bc.region_maxpages := by
  intro n
  induction n with
  | zero =>
    intro bc bc2 frame fd fp h hfd hfp _
    simp only [reg_region_loop, Except.ok.injEq] at h
    subst h
    exact ⟨[], fp, rfl, rfl, hfd, hfp, SameLinksOff.refl _ _, rfl, rfl, rfl⟩
  | succ n ih =>
    intro bc bc2 frame fd fp h hfd hfp hnd
    rw [reg_region_loop] at h
    simp only [bind_ok, getPage_ok, modPage_ok, deref_ok] at h
    obtain ⟨p, hp, pg, hpg, ps1, ⟨pg0, hpg0, hps1⟩, h⟩ := h
    rw [hpg] at hpg0
    cases hpg0
    rw [hp] at hfp
    obtain ⟨rest, pg0, hl, hpg0, hrest⟩ := hfp.of_some
    rw [hpg] at hpg0
    cases hpg0
    subst hl
    have hpfd : p ∉ fd := by
      intro hmem
      exact (List.nodup_append.mp hnd).2.2 hmem (List.mem_cons_self _ _)
    have hprest : p ∉ rest := (List.nodup_cons.mp (List.nodup_append.mp hnd).2.1).1
    have hs1 : SameLinksOff (fun x => x = p) bc.all_pages ps1 := by
      rw [hps1]; exact SameLinksOff.set _ _ _
    have hfd1 : Chain ps1 (some p) (p :: fd) := by
      refine ⟨rfl, _, (by rw [hps1]; exact get_set_self hpg), ?_⟩
      exact hfd.frame (fun x hx => hs1.2 x (fun hxp => hpfd (hxp ▸ hx)))
    have hfp1 : Chain ps1 pg.page_next rest :=
      hrest.frame (fun x hx => hs1.2 x (fun hxp => hprest (hxp ▸ hx)))
    have hnd1 : ((p :: fd) ++ rest).Nodup := by
      have := List.nodup_middle.mp hnd
      exact List.nodup_cons.mpr ⟨by simpa using (List.nodup_cons.mp this).1,
        (List.nodup_cons.mp this).2⟩
    obtain ⟨taken, fp2, hfp2, hlen, hc1, hc2, hs2, hcar, hrem, hreg⟩ :=
      ih h hfd1 hfp1 hnd1
    refine ⟨p :: taken, fp2, by rw [hfp2]; rfl, by simp [hlen], ?_, hc2, ?_, hcar, hrem, hreg⟩
    · simpa using hc1
    · refine (hs1.mono ?_).trans (hs2.mono ?_)
      · intro x hx; exact hx ▸ List.mem_cons_self _ _
      · intro x hx; exact List.mem_cons_of_mem _ hx

/-- The effect of growing by one region and taking its first frame, on the two
free lists. -/
theorem take_grown_spec {bc bc2 : BlockCacher} {cur : Nat} {fp : List Nat}
    (hfd : bc.free_data_pages_head = none)
    (hfp : Chain bc.all_pages bc.free_pages_head fp) (hnd : fp.Nodup)
    (hrem : bc.remain_data_pages < 4294967296)
    (h : take_grown bc = .ok (bc2, cur)) :
    ∃ fd2 fp2, (cur :: fd2 ++ fp2).Perm fp ∧
      Chain bc2.all_pages bc2.free_data_pages_head fd2 ∧
      Chain bc2.all_pages bc2.free_pages_head fp2 ∧
      SameLinksOff (fun x => x ∈ fp) bc.all_pages bc2.all_pages ∧
      bc2.car_state = bc.car_state ∧
      fd2.length + 1 + bc2.remain_data_pages = bc.remain_data_pages := by
  unfold take_grown at h
  simp only [bind_ok, assert_ok] at h
  obtain ⟨⟨bc1, r⟩, hreg, -, -, hpop⟩ := h
  unfold reg_region at hreg
  simp only [bind_ok, pure_ok, assert_ok, bne_iff_ne, ne_eq] at hreg
  obtain ⟨-, hrps, bcl, hloop, hfin⟩ := hreg
  simp only [Prod.mk.injEq] at hfin
  obtain ⟨rfl, -⟩ := hfin
  have hfd0 : Chain bc.all_pages bc.free_data_pages_head [] := hfd
  obtain ⟨taken, fp2, hfp2, hlen, hc1, hc2, hs, hcar, hremeq, -⟩ :=
    reg_loop_spec _ hloop hfd0 hfp (by simpa using hnd)
  dsimp only at hc1 hc2 hs hcar hremeq hpop
  obtain ⟨rest, hl, hrestc, hps2, hcar2, hfph2, hrem2⟩ := pop_free_spec hpop hc1
  dsimp only at hrestc hps2 hcar2 hfph2 hrem2
  simp only [List.append_nil] at hl
  refine ⟨rest, fp2, ?_, ?_, ?_, ?_, ?_, ?_⟩
  · rw [hfp2, List.cons_append, ← List.cons_append, ← hl]
    exact List.Perm.append_right _ (List.reverse_perm _)
  · rw [hps2]; exact hrestc
  · rw [hps2, hfph2]; exact hc2
  · rw [hps2]; exact hs.mono (fun x hx => by rw [hfp2]; simp [hx])
  · rw [hcar2]; exact hcar
  · rw [hrem2, hremeq]
    have hl2 : rest.length + 1 = taken.length := by
      have := congrArg List.length hl
      simp at this
      omega
    have : u32 (min bc.remain_data_pages bc.region_maxpages)
        = min bc.remain_data_pages bc.region_maxpages := u32_of_lt (by omega)
    rw [this]
    unfold sub32
    split <;> omega

/-- The popped head of a list is on none of the lists afterwards. -/
theorem pop_not_in {ps : List Page} {c : CARState} {L : Arc4 (List Nat)} {idx p : Nat}
    {rest : List Nat} (hL : CarLists ps c L) (hidx : idx < 4) (hl : L.sel idx = p :: rest) :
    ¬ InLists (L.upd idx rest) p := by
  rintro ⟨i, hi, hmem⟩
  rw [Arc4.sel_upd L idx i rest hidx hi] at hmem
  have hnd := hL.nodup idx hidx
  rw [hl] at hnd
  by_cases hii : i = idx
  · simp only [hii, if_true] at hmem
    exact (List.nodup_cons.mp hnd).1 hmem
  · simp only [hii, if_false] at hmem
    exact hL.disjoint idx i hidx hi (Ne.symm hii) p (by rw [hl]; exact List.mem_cons_self _ _) hmem

/-- The list structure survives a CAR operation that rearranges the listed pages
and changes links of listed pages only. -/
theorem Struct.relist {ps ps2 : List Page} {c c2 : CARState} {fdh fph : Option Nat}
    {L L2 : Arc4 (List Nat)} {fd fp det : List Nat}
    (h : Struct ps c fdh fph L fd fp det) (hL2 : CarLists ps2 c2 L2)
    (hsub : ∀ x, InLists L2 x → InLists L x) (hs : SameLinksOff (InLists L) ps ps2) :
    Struct ps2 c2 fdh fph L2 fd fp det where
  lists := hL2
  fd_chain := h.fd_chain.frame (fun x hx => hs.2 x (h.apart x (by simp [hx])))
  fp_chain := h.fp_chain.frame (fun x hx => hs.2 x (h.apart x (by simp [hx])))
  nodup := h.nodup
  apart x hx hin := h.apart x hx (hsub x hin)
  det_lru x hx := det_frame (h.det_lru x hx) (hs.2 x (h.apart x (by simp [hx])))

/-- The three cases of `get_ghost_page(NULL)`: the head of the LRU ghost list when
`|LRU| + |LRU_GHOST| = data_pages`, else the head of the LFU ghost list when all
four lists hold `2 * data_pages` pages, else `NULL`. -/
theorem ghost_none_spec {ps ps2 : List Page} {c c2 : CARState} {L : Arc4 (List Nat)}
    {cq : Option Nat} (hL : CarLists ps c L)
    (hsum : c.arc_list_size.lru + c.arc_list_size.lfu + c.arc_list_size.lru_ghost
      + c.arc_list_size.lfu_ghost < 4294967296)
    (hD : c.data_pages < 2147483648)
    (h : get_ghost_page ps c none = .ok (ps2, c2, cq)) :
    (∃ q idx rest, cq = some q ∧ idx < 4 ∧ L.sel idx = q :: rest ∧
        CarLists ps2 c2 (L.upd idx rest) ∧ SameLinksOff (fun x => x = q) ps ps2 ∧
        c2.arc_list_size = c.arc_list_size.upd idx (sub32 (c.arc_list_size.sel idx) 1) ∧
        c2.arc_lru_limit = c.arc_lru_limit ∧ c2.data_pages = c.data_pages ∧
        ((idx = 2 ∧ c.arc_list_size.lru + c.arc_list_size.lru_ghost = c.data_pages) ∨
          (idx = 3 ∧ c.arc_list_size.lru + c.arc_list_size.lru_ghost ≠ c.data_pages ∧
            c.arc_list_size.lru + c.arc_list_size.lfu + c.arc_list_size.lru_ghost
              + c.arc_list_size.lfu_ghost = 2 * c.data_pages))) ∨
    (cq = none ∧ ps2 = ps ∧ c2 = c ∧
      c.arc_list_size.lru + c.arc_list_size.lru_ghost ≠ c.data_pages ∧
      c.arc_list_size.lru + c.arc_list_size.lfu + c.arc_list_size.lru_ghost
        + c.arc_list_size.lfu_ghost ≠ 2 * c.data_pages) := by
  unfold get_ghost_page at h
  dsimp only at h
  rw [u32_of_lt (a := c.arc_list_size.lru + c.arc_list_size.lru_ghost) (by omega),
    u32_of_lt (a := c.arc_list_size.lru + c.arc_list_size.lfu + c.arc_list_size.lru_ghost
      + c.arc_list_size.lfu_ghost) hsum,
    u32_of_lt (a := c.data_pages * 2) (by omega)] at h
  split at h
  · rename_i h1
    simp only [bind_ok, pure_ok, Prod.mk.injEq] at h
    obtain ⟨⟨psa, ca, q⟩, hpop, rfl, rfl, rfl⟩ := h
    obtain ⟨rest, hl, hL2, hs, -, hsz, hlim, hdp⟩ := pop_spec hL (by decide : ARC_LRU_GHOST < 4) hpop
    exact Or.inl ⟨q, 2, rest, rfl, by decide, hl, hL2, hs, hsz, hlim, hdp, Or.inl ⟨rfl, h1⟩⟩
  · rename_i h1
    split at h
    · rename_i h2
      simp only [bind_ok, pure_ok, Prod.mk.injEq] at h
      obtain ⟨⟨psa, ca, q⟩, hpop, rfl, rfl, rfl⟩ := h
      obtain ⟨rest, hl, hL2, hs, -, hsz, hlim, hdp⟩ :=
        pop_spec hL (by decide : ARC_LFU_GHOST < 4) hpop
      exact Or.inl ⟨q, 3, rest, rfl, by decide, hl, hL2, hs, hsz, hlim, hdp,
        Or.inr ⟨rfl, h1, by omega⟩⟩
    · rename_i h2
      simp only [pure_ok, Prod.mk.injEq] at h
      obtain ⟨rfl, rfl, rfl⟩ := h
      exact Or.inr ⟨rfl, rfl, rfl, h1, by omega⟩

/-- Taking the head of `free_pages` out of the list structure. -/
theorem Struct.pop_fp {ps : List Page} {c : CARState} {fdh : Option Nat} {q : Nat}
    {L : Arc4 (List Nat)} {fd fp det : List Nat}
    (h : Struct ps c fdh (some q) L fd fp det) :
    ∃ rest pg, fp = q :: rest ∧ ps[q]? = some pg ∧
      Struct ps c fdh pg.page_next L fd rest det ∧
      (¬ InLists L q ∧ q ∉ fd ++ rest ++ det) := by
  obtain ⟨rest, pg, hl, hpg, hrest⟩ := h.fp_chain.of_some
  subst hl
  have hnd := h.nodup
  have hnd2 : (q :: (fd ++ rest ++ det)).Nodup := by
    rw [List.append_assoc] at hnd
    have := List.nodup_middle.mp hnd
    rwa [List.append_assoc]
  refine ⟨rest, pg, rfl, hpg, ⟨h.lists, h.fd_chain, hrest, (List.nodup_cons.mp hnd2).2, ?_, h.det_lru⟩,
    h.apart q (by simp), (List.nodup_cons.mp hnd2).1⟩
  intro x hx
  refine h.apart x ?_
  simp only [List.mem_append, List.mem_cons] at hx ⊢
  rcases hx with (hx | hx) | hx
  · exact Or.inl (Or.inl hx)
  · exact Or.inl (Or.inr (Or.inr hx))
  · exact Or.inr hx

/-- Taking the head of `free_data_pages` out of the list structure. -/
theorem Struct.pop_fd {ps : List Page} {c : CARState} {fph : Option Nat} {q : Nat}
    {L : Arc4 (List Nat)} {fd fp det : List Nat}
    (h : Struct ps c (some q) fph L fd fp det) :
    ∃ rest pg, fd = q :: rest ∧ ps[q]? = some pg ∧
      Struct ps c pg.page_next fph L rest fp det ∧
      (¬ InLists L q ∧ q ∉ rest ++ fp ++ det) := by
  obtain ⟨rest, pg, hl, hpg, hrest⟩ := h.fd_chain.of_some
  subst hl
  have hnd := h.nodup
  have hnd2 : (q :: (rest ++ fp ++ det)).Nodup := by simpa using hnd
  refine ⟨rest, pg, rfl, hpg, ⟨h.lists, hrest, h.fp_chain, (List.nodup_cons.mp hnd2).2, ?_, h.det_lru⟩,
    h.apart q (by simp), (List.nodup_cons.mp hnd2).1⟩
  intro x hx
  refine h.apart x ?_
  simp only [List.mem_append, List.mem_cons] at hx ⊢
  rcases hx with (hx | hx) | hx
  · exact Or.inl (Or.inl (Or.inr hx))
  · exact Or.inl (Or.inr hx)
  · exact Or.inr hx

/-- The effect of lines 168-180 of `get_pages` on a full cache: the list structure
is kept, the returned descriptor is outside all lists, and the counters leave room
for the admission that follows. -/
theorem take_evicted_spec {bc bc2 : BlockCacher} {tree gtree cur : Nat} {gp : Option Nat}
    {L : Arc4 (List Nat)} {fp det : List Nat}
    (hS : Struct bc.all_pages bc.car_state bc.free_data_pages_head bc.free_pages_head L [] fp det)
    (hC : Counts bc.car_state L det.length)
    (hfull : bc.car_state.arc_list_size.lru + bc.car_state.arc_list_size.lfu
      = bc.car_state.data_pages)
    (hD : bc.car_state.data_pages < 2147483648)
    (hB : SizeBounds bc.car_state)
    (h : take_evicted bc tree gtree 2 gp = .ok (bc2, cur)) :
    ∃ L2 fp2,
      Struct bc2.all_pages bc2.car_state bc2.free_data_pages_head bc2.free_pages_head
        L2 [] fp2 det ∧
      Counts bc2.car_state L2 det.length ∧
      (¬ InLists L2 cur ∧ cur ∉ [] ++ fp2 ++ det) ∧
      bc2.car_state.data_pages = bc.car_state.data_pages ∧
      bc2.car_state.arc_lru_limit = bc.car_state.arc_lru_limit ∧
      bc2.remain_data_pages = bc.remain_data_pages ∧
      bc2.car_state.arc_list_size.lru + 1 + bc2.car_state.arc_list_size.lfu
        = bc.car_state.data_pages ∧
      bc2.car_state.arc_list_size.lru + 1 + bc2.car_state.arc_list_size.lru_ghost
        ≤ bc.car_state.data_pages ∧
      bc2.car_state.arc_list_size.lru + 1 + bc2.car_state.arc_list_size.lfu
        + bc2.car_state.arc_list_size.lru_ghost + bc2.car_state.arc_list_size.lfu_ghost
        ≤ 2 * bc.car_state.data_pages := by
  obtain ⟨hc0, hc1, hc2, hc3⟩ := hC
  obtain ⟨hb1, hb2, hb3, hb4, hb5⟩ := hB
  unfold take_evicted at h
  simp only [bind_ok] at h
  obtain ⟨⟨ps1, car1, p⟩, hev, h⟩ := h
  dsimp only at h
  obtain ⟨t, -, gt, -, gt2, -, h⟩ := h
  simp only [ne_eq, not_true_eq_false, if_false] at h
  obtain ⟨⟨ps2, car2, cq⟩, hgg, h⟩ := h
  dsimp only at h
  obtain ⟨⟨bc3, cur3⟩, hm, h⟩ := h
  dsimp only at h
  simp only [getPage_ok, modPage_ok, pure_ok, Prod.mk.injEq] at h
  obtain ⟨pg, hpg, ps3, ⟨pgc, hpgc, hps3⟩, hbc2, hcur⟩ := h
  subst hbc2 hcur
  unfold evict_data at hev
  obtain ⟨L1, hL1, hC1, hin1, hs1, hlen1, hcase1, hlim1, hdp1⟩ :=
    evict_spec _ hS.lists ⟨hc0, hc1, hc2, hc3⟩ (by omega) hev
  obtain ⟨hd0, hd1, hd2, hd3⟩ := hC1
  have hS1 : Struct ps1 car1 bc.free_data_pages_head bc.free_pages_head L1 [] fp det :=
    hS.relist hL1 (fun x => (hin1 x).mp) hs1
  have hs3 : SameLinksOff (fun _ => False) bc3.all_pages ps3 := by
    rw [hps3]; exact SameLinksOff.set_same _ _ pgc _ hpgc rfl
  rcases ghost_none_spec hL1 (by omega) (by omega) hgg with
    ⟨q, idx, rest, rfl, hidx, hl, hL2, hs2, hsz2, hlim2, hdp2, hcase2⟩ |
    ⟨rfl, rfl, rfl, hne1, hne2⟩
  · simp only [bind_ok, pure_ok, Prod.mk.injEq] at hm
    obtain ⟨gt3, _, rfl, rfl⟩ := hm
    dsimp only at hs3 ⊢
    have hqin : InLists L1 q := ⟨idx, hidx, by rw [hl]; exact List.mem_cons_self _ _⟩
    have hS2 : Struct ps2 car2 bc.free_data_pages_head bc.free_pages_head (L1.upd idx rest)
        [] fp det :=
      hS1.relist hL2 (InLists.upd_pop hidx hl) (hs2.mono (fun x hx => hx ▸ hqin))
    have hS3 := hS2.keep (d := car2) rfl rfl hs3 (fun x hx => hx.elim)
    refine ⟨L1.upd idx rest, fp, hS3, ?_, ⟨pop_not_in hL1 hidx hl, fun hmem => hS1.apart q hmem hqin⟩,
      hdp2.trans hdp1, hlim2.trans hlim1, rfl, ?_⟩
    · rcases hcase2 with ⟨rfl, -⟩ | ⟨rfl, -, -⟩
      · have hl2 : L1.lru_ghost = q :: rest := hl
        have hg : car1.arc_list_size.lru_ghost = rest.length + 1 := by rw [hd2, hl2]; rfl
        unfold Counts
        rw [hsz2]
        simp only [Arc4.sel, Arc4.upd]
        rw [hg, sub32_one (by omega) (by omega)]
        exact ⟨hd0, hd1, by omega, hd3⟩
      · have hl2 : L1.lfu_ghost = q :: rest := hl
        have hg : car1.arc_list_size.lfu_ghost = rest.length + 1 := by rw [hd3, hl2]; rfl
        unfold Counts
        rw [hsz2]
        simp only [Arc4.sel, Arc4.upd]
        rw [hg, sub32_one (by omega) (by omega)]
        exact ⟨hd0, hd1, hd2, by omega⟩
    · rcases hcase2 with ⟨rfl, he⟩ | ⟨rfl, he1, he2⟩
      · have hl2 : L1.lru_ghost = q :: rest := hl
        have hg : car1.arc_list_size.lru_ghost = rest.length + 1 := by rw [hd2, hl2]; rfl
        rw [hsz2]
        simp only [Arc4.sel, Arc4.upd]
        rw [hg, sub32_one (by omega) (by omega)]
        refine ⟨by omega, by omega, by omega⟩
      · have hl2 : L1.lfu_ghost = q :: rest := hl
        have hg : car1.arc_list_size.lfu_ghost = rest.length + 1 := by rw [hd3, hl2]; rfl
        rw [hsz2]
        simp only [Arc4.sel, Arc4.upd]
        rw [hg, sub32_one (by omega) (by omega)]
        refine ⟨by omega, by omega, by omega⟩
  · simp only [bind_ok, pure_ok, Prod.mk.injEq, deref_ok, getPage_ok] at hm
    obtain ⟨q, hq, qg, hqg, rfl, rfl⟩ := hm
    dsimp only at hs3 ⊢
    rw [hq] at hS1
    obtain ⟨rest, pg0, hfp, hpg0, hS2, hout⟩ := hS1.pop_fp
    rw [hqg] at hpg0
    cases hpg0
    have hS3 := hS2.keep (d := car2) rfl rfl hs3 (fun x hx => hx.elim)
    refine ⟨L1, rest, hS3, ⟨hd0, hd1, hd2, hd3⟩, hout, hdp1, hlim1, rfl, ?_⟩
    refine ⟨by omega, by omega, by omega⟩

/-- The effect of lines 182-188 of `get_pages` on the list structure. -/
theorem take_grown_struct {bc bc2 : BlockCacher} {cur : Nat} {L : Arc4 (List Nat)}
    {fp det : List Nat}
    (hS : Struct bc.all_pages bc.car_state bc.free_data_pages_head bc.free_pages_head L [] fp det)
    (hfd : bc.free_data_pages_head = none) (hrem : bc.remain_data_pages < 4294967296)
    (h : take_grown bc = .ok (bc2, cur)) :
    ∃ fd2 fp2,
      Struct bc2.all_pages bc2.car_state bc2.free_data_pages_head bc2.free_pages_head
        L fd2 fp2 det ∧
      (¬ InLists L cur ∧ cur ∉ fd2 ++ fp2 ++ det) ∧
      bc2.car_state = bc.car_state ∧
      fd2.length + 1 + bc2.remain_data_pages = bc.remain_data_pages := by
  have hnd0 : (fp ++ det).Nodup := by simpa using hS.nodup
  obtain ⟨fd2, fp2, hperm, hc1, hc2, hs, hcar, hlen⟩ :=
    take_grown_spec hfd hS.fp_chain (List.nodup_append.mp hnd0).1 hrem h
  have hmem : ∀ x, x ∈ fp → ¬ InLists L x ∧ x ∉ det := fun x hx =>
    ⟨hS.apart x (by simp [hx]), fun hd => (List.nodup_append.mp hnd0).2.2 hx hd⟩
  have hnd1 : ((cur :: fd2 ++ fp2) ++ det).Nodup :=
    (List.Perm.nodup_iff (List.Perm.append_right det hperm)).mpr hnd0
  have hnd2 : (cur :: (fd2 ++ fp2 ++ det)).Nodup := by simpa using hnd1
  have hsub : ∀ x, x ∈ fd2 ++ fp2 ++ det → x ∈ [] ++ fp ++ det := by
    intro x hx
    simp only [List.mem_append, List.nil_append] at hx ⊢
    rcases hx with hx | hx
    · exact Or.inl ((List.Perm.mem_iff hperm).mp (List.mem_cons_of_mem _ (by simpa using hx)))
    · exact Or.inr hx
  refine ⟨fd2, fp2, ⟨?_, hc1, hc2, (List.nodup_cons.mp hnd2).2, fun x hx => hS.apart x (hsub x hx),
    ?_⟩, ⟨?_, (List.nodup_cons.mp hnd2).1⟩, hcar, hlen⟩
  · exact hS.lists.congr (by rw [hcar]) (by rw [hcar])
      (fun x hx => hs.2 x (fun hxfp => (hmem x hxfp).1 hx))
  · intro x hx
    exact det_frame (hS.det_lru x hx) (hs.2 x (fun hxfp => (hmem x hxfp).2 hx))
  · exact (hmem cur ((List.Perm.mem_iff hperm).mp (List.mem_cons_self _ _))).1

/-- One miss admission (without ghost hit) keeps the invariant and adds the
admitted page to the held pages. -/
theorem miss_admit_inv {bc bc2 : BlockCacher} {ictx tree gtree pos cur : Nat} {gp : Option Nat}
    {det : List Nat} (hI : CarInv bc det)
    (h : miss_admit bc ictx tree gtree pos 2 gp = .ok (bc2, cur)) :
    CarInv bc2 (cur :: det) := by
  obtain ⟨L, fd, fp, hS, hC, hsum, hD, hB⟩ := hI
  unfold miss_admit at h
  simp only [bind_ok] at h
  obtain ⟨⟨bc1, cur1⟩, hsel, hadm⟩ := h
  dsimp only at hadm
  obtain ⟨hc0, hc1, hc2, hc3⟩ := hC
  obtain ⟨hb1, hb2, hb3, hb4, hb5⟩ := hB
  split at hsel
  · rename_i hnone
    have hfdh : bc.free_data_pages_head = none := by simpa using hnone
    have hfd : fd = [] := by
      have := hS.fd_chain
      rw [hfdh] at this
      exact this.of_none
    subst hfd
    simp only [List.length_nil, Nat.zero_add] at hsum
    split at hsel
    · rename_i hrem
      rw [hrem] at hsum
      obtain ⟨L2, fp2, hS2, ⟨hd0, hd1, hd2, hd3⟩, hcur, hdp, hlim, hrem2, ha1, ha2, ha3⟩ :=
        take_evicted_spec hS ⟨hc0, hc1, hc2, hc3⟩ (by omega) hD ⟨hb1, hb2, hb3, hb4, hb5⟩ hsel
      obtain ⟨rfl, hS3, hsz, hdp3, hlim3, hrem3⟩ := admit_page_spec hS2 hcur hadm
      refine ⟨L2, [], fp2, hS3, ?_, ?_, by omega, ?_⟩
      · unfold Counts
        rw [hsz]
        dsimp only
        rw [u32_of_lt (by omega)]
        exact ⟨by simp only [List.length_cons]; omega, hd1, hd2, hd3⟩
      · rw [hsz, hdp3, hrem3, hrem2, hrem, hdp]
        dsimp only
        rw [u32_of_lt (by omega)]
        simp only [List.length_nil]
        omega
      · unfold SizeBounds
        rw [hsz, hdp3, hdp]
        dsimp only
        rw [u32_of_lt (by omega)]
        refine ⟨by omega, by omega, by omega, by omega, by omega⟩
    · rename_i hrem
      obtain ⟨fd2, fp2, hS2, hcur, hcar, hlen⟩ := take_grown_struct hS hfdh (by omega) hsel
      obtain ⟨rfl, hS3, hsz, hdp3, hlim3, hrem3⟩ := admit_page_spec hS2 hcur hadm
      have hg := hb5 (by omega)
      refine ⟨L, fd2, fp2, hS3, ?_, ?_, by rw [hdp3, hcar]; exact hD, ?_⟩
      · unfold Counts
        rw [hsz, hcar]
        dsimp only
        rw [u32_of_lt (by omega)]
        exact ⟨by simp only [List.length_cons]; omega, hc1, hc2, hc3⟩
      · rw [hsz, hdp3, hrem3, hcar]
        dsimp only
        rw [u32_of_lt (by omega)]
        omega
      · unfold SizeBounds
        rw [hsz, hdp3, hcar]
        dsimp only
        rw [u32_of_lt (by omega)]
        refine ⟨by omega, by omega, by omega, by omega, fun _ => hg⟩
  · rename_i hsome
    unfold pop_free_data_page at hsel
    simp only [bind_ok, pure_ok, getPage_ok, deref_ok, Prod.mk.injEq] at hsel
    obtain ⟨q, hq, qg, hqg, rfl, rfl⟩ := hsel
    rw [hq] at hS
    obtain ⟨rest, pg0, rfl, hpg0, hS2, hcur⟩ := hS.pop_fd
    rw [hqg] at hpg0
    cases hpg0
    obtain ⟨rfl, hS3, hsz, hdp3, hlim3, hrem3⟩ :=
      admit_page_spec (h := hadm) hS2 hcur
    dsimp only at hsz hdp3 hlim3 hrem3
    simp only [List.length_cons] at hsum
    have hg := hb5 (by omega)
    refine ⟨L, rest, fp, hS3, ?_, ?_, by rw [hdp3]; exact hD, ?_⟩
    · unfold Counts
      rw [hsz]
      dsimp only
      rw [u32_of_lt (by omega)]
      exact ⟨by simp only [List.length_cons]; omega, hc1, hc2, hc3⟩
    · rw [hsz, hdp3, hrem3]
      dsimp only
      rw [u32_of_lt (by omega)]
      omega
    · unfold SizeBounds
      rw [hsz, hdp3]
      dsimp only
      rw [u32_of_lt (by omega)]
      refine ⟨by omega, by omega, by omega, by omega, fun _ => hg⟩

/-- Whenever the ghost-index walk of `get_pages` returns, it reports no ghost hit:
on a ghost page at `pos` the assertion `ghost_page->offset > pos` fails. -/
theorem ghost_walk_hist {ps : List Page} {gt : PageRBTree} {pos hist : Nat}
    {git gp git2 gp2 : Option Nat}
    (h : ghost_walk ps gt pos git gp = .ok (hist, git2, gp2)) : hist = 2 := by
  unfold ghost_walk at h
  split at h
  · simp only [Except.ok.injEq, Prod.mk.injEq] at h
    exact h.1.symm
  · simp only [bind_ok, deref_ok, getPage_ok] at h
    obtain ⟨g, hg, gpg, hgpg, ⟨hist1, git1, gp1⟩, hbr, hrest⟩ := h
    dsimp only at hrest
    split at hbr
    · rename_i heq
      simp only [pure_ok, Prod.mk.injEq] at hbr
      obtain ⟨-, -, rfl⟩ := hbr
      subst hg
      simp only [bind_ok, getPage_ok, assert_ok, decide_eq_true_eq] at hrest
      obtain ⟨gpg2, hgpg2, -, hlt, -⟩ := hrest
      rw [hgpg] at hgpg2
      cases hgpg2
      omega
    · split at hbr
      · cases hbr
      · simp only [pure_ok, Prod.mk.injEq] at hbr
        obtain ⟨rfl, -, rfl⟩ := hbr
        simp only [bind_ok, getPage_ok, assert_ok, pure_ok, Prod.mk.injEq] at hrest
        obtain ⟨-, -, -, -, h2, -⟩ := hrest
        exact h2.symm

/-- The hit scan of `get_pages` changes no links and keeps the length of `pages`. -/
theorem hit_scan_spec (pl ao eo np : Nat) : ∀ (suffix : List Nat) {ps ps2 : List Page}
    {pages pages2 : List (Option Nat)} {hit hit2 : List Bool},
    hit_scan pl ao eo np suffix ps pages hit = .ok (ps2, pages2, hit2) →
    SameLinksOff (fun _ => False) ps ps2 ∧ pages2.length = pages.length := by
  intro suffix
  induction suffix with
  | nil =>
    intro ps ps2 pages pages2 hit hit2 h
    simp only [hit_scan, Except.ok.injEq, Prod.mk.injEq] at h
    obtain ⟨rfl, rfl, rfl⟩ := h
    exact ⟨SameLinksOff.refl _ _, rfl⟩
  | cons n rest ih =>
    intro ps ps2 pages pages2 hit hit2 h
    rw [hit_scan] at h
    simp only [bind_ok, getPage_ok] at h
    obtain ⟨cp, hcp, h⟩ := h
    split at h
    · cases h
    · split at h
      · simp only [bind_ok, hit_page, modPage_ok] at h
        obtain ⟨ps1, ⟨pg, hpg, hps1⟩, h⟩ := h
        split at h
        · cases h
        · split at h
          · cases h
          · obtain ⟨hs, hl⟩ := ih h
            have hs1 : SameLinksOff (fun _ => False) ps ps1 := by
              rw [hps1]; exact SameLinksOff.set_same _ _ pg _ hpg rfl
            exact ⟨hs1.trans hs, by rw [hl, List.length_set]⟩
      · simp only [Except.ok.injEq, Prod.mk.injEq] at h
        obtain ⟨rfl, rfl, rfl⟩ := h
        exact ⟨SameLinksOff.refl _ _, rfl⟩

/-- The invariant depends on the cache state only through the links of the
descriptors, the CAR state, the two free-list heads and `remain_data_pages`. -/
theorem CarInv.transfer {bc bc2 : BlockCacher} {det : List Nat} (h : CarInv bc det)
    (hs : SameLinksOff (fun _ => False) bc.all_pages bc2.all_pages)
    (hc : bc2.car_state = bc.car_state)
    (hfd : bc2.free_data_pages_head = bc.free_data_pages_head)
    (hfp : bc2.free_pages_head = bc.free_pages_head)
    (hr : bc2.remain_data_pages = bc.remain_data_pages) : CarInv bc2 det := by
  obtain ⟨L, fd, fp, hS, hC, hsum, hD, hB⟩ := h
  refine ⟨L, fd, fp, ?_, ?_, ?_, ?_, ?_⟩
  · rw [hc, hfd, hfp]
    exact hS.keep rfl rfl hs (fun x hx => hx.elim)
  · rw [hc]; exact hC
  · rw [hc, hr]; exact hsum
  · rw [hc]; exact hD
  · rw [hc]; exact hB

/-- The miss loop of `get_pages` keeps the invariant; the held pages grow by the
pages it wrote to the slots that are not hits. -/
theorem miss_loop_inv (ictx tree gtree : Nat) : ∀ (n : Nat) {bc bc2 : BlockCacher}
    {idx pos : Nat} {git gp : Option Nat} {pages pages2 : List (Option Nat)}
    {hit hit2 : List Bool} {det : List Nat},
    CarInv bc det → idx + n ≤ pages.length →
    miss_loop ictx tree gtree n bc idx pos git gp pages hit = .ok (bc2, pages2, hit2) →
    hit2 = hit ∧ pages2.length = pages.length ∧ (∀ j, j < idx → pages2[j]? = pages[j]?) ∧
      CarInv bc2 ((admitted pages2 hit n idx).reverse ++ det) := by
  intro n
  induction n with
  | zero =>
    intro bc bc2 idx pos git gp pages pages2 hit hit2 det hI _ h
    simp only [miss_loop, Except.ok.injEq, Prod.mk.injEq] at h
    obtain ⟨rfl, rfl, rfl⟩ := h
    exact ⟨rfl, rfl, fun _ _ => rfl, by simpa [admitted] using hI⟩
  | succ n ih =>
    intro bc bc2 idx pos git gp pages pages2 hit hit2 det hI hlen h
    rw [miss_loop] at h
    split at h
    · rename_i hhit
      obtain ⟨h1, h2, h3, h4⟩ := ih hI (by omega) h
      refine ⟨h1, h2, fun j hj => h3 j (by omega), ?_⟩
      rw [admitted, if_pos hhit]
      exact h4
    · rename_i hhit
      simp only [bind_ok] at h
      obtain ⟨gt, -, ⟨hist, git1, gp1⟩, hwalk, ⟨bc1, cur⟩, hadm, h⟩ := h
      dsimp only at hadm h
      have hh := ghost_walk_hist hwalk
      subst hh
      have hI1 := miss_admit_inv hI hadm
      obtain ⟨h1, h2, h3, h4⟩ := ih hI1 (by rw [List.length_set]; omega) h
      rw [List.length_set] at h2
      have hidx : pages2[idx]? = some (some cur) := by
        rw [h3 idx (by omega), List.getElem?_set_self (by omega)]
      refine ⟨h1, h2, fun j hj => ?_, ?_⟩
      · rw [h3 j (by omega), List.getElem?_set_ne (by omega)]
      · rw [admitted, if_neg hhit]
        have : pages2.getD idx none = some cur := by
          rw [List.getD_eq_getElem?_getD, hidx]; rfl
        rw [this]
        simpa using h4

/-- A call of `get_pages` keeps the invariant; the held pages grow by the admitted
pages. -/
theorem get_pages_inv {bc bc2 : BlockCacher} {ictx tree n off : Nat} {gtree : Option Nat}
    {pages : List (Option Nat)} {hit : List Bool} {det : List Nat} (hI : CarInv bc det)
    (h : get_pages bc ictx tree gtree n off false = .ok (bc2, pages, hit)) :
    CarInv bc2 ((admitted pages hit n 0).reverse ++ det) := by
  unfold get_pages at h
  simp only [bind_ok] at h
  obtain ⟨t, -, suffix, -, ⟨ps1, pages1, hit1⟩, hscan, h⟩ := h
  dsimp only at h
  obtain ⟨hs, hl⟩ := hit_scan_spec _ _ _ _ suffix hscan
  have hI1 : CarInv { bc with all_pages := ps1 } det := hI.transfer hs rfl rfl rfl rfl
  simp only [Bool.false_eq_true, if_false] at h
  split at h
  · cases h
  · simp only [bind_ok] at h
    obtain ⟨gslot, -, gt, -, gsuffix, -, h⟩ := h
    obtain ⟨rfl, -, -, h4⟩ := miss_loop_inv ictx tree gslot n hI1
      (by rw [hl, List.length_replicate]; omega) h
    exact h4

/-- A call of `get_pages` with `only_hit` keeps the invariant. -/
theorem get_pages_hit_inv {bc bc2 : BlockCacher} {ictx tree n off : Nat} {gtree : Option Nat}
    {pages : List (Option Nat)} {hit : List Bool} {det : List Nat} (hI : CarInv bc det)
    (h : get_pages bc ictx tree gtree n off true = .ok (bc2, pages, hit)) :
    CarInv bc2 det := by
  unfold get_pages at h
  simp only [bind_ok] at h
  obtain ⟨t, -, suffix, -, ⟨ps1, pages1, hit1⟩, hscan, h⟩ := h
  dsimp only at h
  obtain ⟨hs, hl⟩ := hit_scan_spec _ _ _ _ suffix hscan
  simp only [if_true, pure_ok, Prod.mk.injEq] at h
  obtain ⟨rfl, -, -⟩ := h
  exact hI.transfer hs rfl rfl rfl rfl

/-- A call of `insert_page` on a held page keeps the invariant and releases the page. -/
theorem car_insert_inv {bc bc2 : BlockCacher} {p : Nat} {det : List Nat} (hI : CarInv bc det)
    (hp : p ∈ det) (h : car_insert_page bc p = .ok bc2) : CarInv bc2 (det.erase p) := by
  obtain ⟨L, fd, fp, hS, ⟨hc0, hc1, hc2, hc3⟩, hsum, hD, hB⟩ := hI
  obtain ⟨hb1, hb2, hb3, hb4, hb5⟩ := hB
  unfold car_insert_page at h
  simp only [bind_ok, pure_ok] at h
  obtain ⟨⟨ps2, car2⟩, hins, rfl⟩ := h
  dsimp only
  unfold insert_page at hins
  simp only [bind_ok, getPage_ok] at hins
  obtain ⟨pg, hpg, sz, hsz, sizes, hsizes, happ⟩ := hins
  obtain ⟨pg0, hpg0, hcls⟩ := hS.det_lru p hp
  rw [hpg] at hpg0
  cases hpg0
  rw [hcls] at hsz hsizes happ
  obtain ⟨-, rfl⟩ := Arc4.get_ok hsz
  obtain ⟨-, rfl⟩ := Arc4.set_ok hsizes
  have hlen : 0 < det.length := List.length_pos_of_mem hp
  have hpout : ¬ InLists L p := hS.apart p (by simp [hp])
  obtain ⟨hL2, hs2, -, hsz2, hlim2, hdp2⟩ := append_spec (c := { bc.car_state with
      arc_list_size := bc.car_state.arc_list_size.upd ARC_LRU
        (sub32 (bc.car_state.arc_list_size.sel ARC_LRU) 1) }) (hS.lists.congr rfl rfl (fun _ _ => rfl))
    (by decide : ARC_LRU < 4) (fun i hi hmem => hpout ⟨i, hi, hmem⟩) happ
  have hsize : car2.arc_list_size = bc.car_state.arc_list_size := by
    rw [hsz2]
    simp only [Arc4.sel, Arc4.upd, ARC_LRU]
    rw [sub32_one (by omega) (by omega), u32_of_lt (by omega)]
    have : bc.car_state.arc_list_size.lru - 1 + 1 = bc.car_state.arc_list_size.lru := by omega
    rw [this]
  dsimp only at hlim2 hdp2
  have hnd := hS.nodup
  have hne : ∀ x, x ∈ fd ++ fp ++ det.erase p → x ≠ p ∧ x ∈ fd ++ fp ++ det := by
    intro x hx
    rw [List.mem_append] at hx
    rcases hx with hx | hx
    · exact ⟨fun hxp => (List.nodup_append.mp hnd).2.2 hx (hxp ▸ hp), List.mem_append_left _ hx⟩
    · have hdn : det.Nodup := (List.nodup_append.mp hnd).2.1
      have := (List.Nodup.mem_erase_iff hdn).mp hx
      exact ⟨this.1, List.mem_append_right _ this.2⟩
  have hframe : ∀ x, x ∈ fd ++ fp ++ det.erase p →
      (ps2[x]?).map links = (bc.all_pages[x]?).map links := by
    intro x hx
    refine hs2.2 x ?_
    rintro (hxp | hxl)
    · exact (hne x hx).1 hxp
    · exact hS.apart x (hne x hx).2 ⟨ARC_LRU, by decide, hxl⟩
  refine ⟨L.upd ARC_LRU (L.sel ARC_LRU ++ [p]), fd, fp, ⟨hL2, ?_, ?_, ?_, ?_, ?_⟩, ?_, ?_, ?_, ?_⟩
  · exact hS.fd_chain.frame (fun x hx => hframe x (by simp [hx]))
  · exact hS.fp_chain.frame (fun x hx => hframe x (by simp [hx]))
  · exact List.Nodup.sublist
      (List.Sublist.append (List.Sublist.refl _) (List.erase_sublist _ _)) hnd
  · intro x hx hin
    rcases (InLists.upd_snoc (by decide : ARC_LRU < 4) x).mp hin with hin | hxp
    · exact hS.apart x (hne x hx).2 hin
    · exact (hne x hx).1 hxp
  · intro x hx
    exact det_frame (hS.det_lru x (List.mem_of_mem_erase hx)) (hframe x (by simp [hx]))
  · unfold Counts
    rw [hsize]
    simp only [Arc4.sel, Arc4.upd, ARC_LRU, List.length_append, List.length_cons, List.length_nil,
      List.length_erase_of_mem hp]
    exact ⟨by omega, hc1, hc2, hc3⟩
  · rw [hsize, hdp2]; exact hsum
  · rw [hdp2]; exact hD
  · unfold SizeBounds
    rw [hsize, hdp2]
    exact ⟨hb1, hb2, hb3, hb4, hb5⟩

/-- The descriptors threaded by `init` form the chain `n-1, …, 0`. -/
theorem init_pages_spec : ∀ n, (init_pages n).1.length = n ∧
    Chain (init_pages n).1 (init_pages n).2 (List.range n).reverse := by
  intro n
  induction n with
  | zero => exact ⟨rfl, rfl⟩
  | succ i ih =>
    obtain ⟨hl, hc⟩ := ih
    rw [init_pages]
    generalize init_pages i = r at hl hc
    obtain ⟨ps, head⟩ := r
    dsimp only at hl hc ⊢
    refine ⟨by simp [hl], ?_⟩
    rw [List.range_succ, List.reverse_append, List.reverse_singleton, List.singleton_append]
    refine ⟨rfl, { page_next := head, arc_idx := ARC_COUNT }, ?_, ?_⟩
    · rw [List.getElem?_append_right (by omega), hl, Nat.sub_self]; rfl
    · refine hc.frame (fun x hx => ?_)
      have hx2 : x < i := by simpa using hx
      rw [List.getElem?_append_left (by omega)]

/-- Every slot of the array of empty lists is empty. -/
theorem empty_sel (i : Nat) : (Arc4.mk ([] : List Nat) [] [] []).sel i = [] := by
  unfold Arc4.sel
  split <;> rfl

/-- Every slot of the array of null pointers is null. -/
theorem none_sel (i : Nat) : (Arc4.mk (none : Option Nat) none none none).sel i = none := by
  unfold Arc4.sel
  split <;> rfl

/-- The state after `init` satisfies the invariant. -/
theorem init_inv {bc : BlockCacher} {cs unit ru td md fill : Nat}
    (h : init {} cs unit ru td md fill = .ok bc) (ht : bc.total_half_pages < 2147483648) :
    CarInv bc [] := by
  unfold init at h
  simp only [ne_eq, not_true_eq_false, if_false] at h
  split at h
  · cases h
  · obtain ⟨hl, hc⟩ := init_pages_spec (u64 (u32 (u64 cs / u64 unit) * 2))
    generalize init_pages (u64 (u32 (u64 cs / u64 unit) * 2)) = r at h hl hc
    obtain ⟨ps, head⟩ := r
    simp only [Except.ok.injEq] at h
    subst h
    dsimp only at ht hl hc ⊢
    refine ⟨⟨[], [], [], []⟩, [], _, ⟨⟨?_, ?_, ?_, ?_⟩, rfl, hc, ?_, ?_, ?_⟩, ⟨rfl, rfl, rfl, rfl⟩,
      ?_, ht, ?_⟩
    · intro i _; rw [empty_sel]; exact none_sel i
    · intro i _; rw [empty_sel]; exact none_sel i
    · intro i _; rw [empty_sel]; exact List.nodup_nil
    · intro i j _ _ _ x hx; rw [empty_sel] at hx; cases hx
    · simpa using List.nodup_range _
    · rintro x _ ⟨i, _, hx⟩; rw [empty_sel] at hx; cases hx
    · intro x hx; cases hx
    · dsimp only
      simp only [List.length_nil]
      omega
    · unfold SizeBounds
      dsimp only
      exact ⟨by omega, by omega, by omega, by omega, fun _ => ⟨rfl, rfl⟩⟩

/-- A call of `register_image` keeps the invariant. -/
theorem register_inv {bc : BlockCacher} {det : List Nat} (ictx : Nat) (h : CarInv bc det) :
    CarInv (register_image bc ictx).1 det := by
  unfold register_image
  split
  · exact h
  · exact h.transfer (SameLinksOff.refl _ _) rfl rfl rfl rfl

/-- The size bounds over the natural numbers make `validate()` return true when
`data_pages` is below 2^31, where its `uint32_t` sums do not wrap. -/
theorem validate_of_bounds {c : CARState} (hD : c.data_pages < 2147483648)
    (hB : SizeBounds c) : c.validate = true := by
  obtain ⟨hb1, hb2, hb3, hb4, hb5⟩ := hB
  unfold validate
  dsimp only
  rw [u32_of_lt (a := c.arc_list_size.lru + c.arc_list_size.lfu) (by omega),
    u32_of_lt (a := c.arc_list_size.lru + c.arc_list_size.lru_ghost) (by omega),
    u32_of_lt (a := c.arc_list_size.lfu + c.arc_list_size.lfu_ghost) (by omega),
    u32_of_lt (a := c.arc_list_size.lru + c.arc_list_size.lfu + c.arc_list_size.lru_ghost
      + c.arc_list_size.lfu_ghost) (by omega),
    u32_of_lt (a := c.arc_list_size.lru_ghost + c.arc_list_size.lfu_ghost) (by omega),
    u32_of_lt (a := c.data_pages * 2) (by omega)]
  split_ifs <;> first | rfl | (exfalso; omega)

/-- Every reachable state satisfies the invariant. -/
theorem CarReachable.inv {bc : BlockCacher} {det : List Nat} (h : CarReachable bc det) :
    CarInv bc det := by
  induction h with
  | init _ _ _ _ _ _ h ht => exact init_inv h ht
  | register_image ictx _ ih => exact register_inv ictx ih
  | get_pages _ _ _ _ _ _ h ih => exact get_pages_inv ih h
  | get_hit_pages _ _ _ _ _ _ h ih => exact get_pages_hit_inv ih h
  | insert_page p _ hp h ih => exact car_insert_inv ih hp h

end CarInvariant

/-! ### adjust_and_hold -/

section AdjustAndHold

open CARState

/-- The subtraction `a - b` of two `uint32_t` with `b <= a` does not wrap. -/
theorem sub32_of_le {a b : Nat} (h : b ≤ a) (ha : a < 4294967296) : sub32 a b = a - b := by
  unfold sub32
  rw [Nat.mod_eq_of_lt ha, Nat.mod_eq_of_lt (Nat.lt_of_le_of_lt h ha), if_pos h]

/-- The steps of `adjust_and_hold` after the choice of the class `idx`:
the class is written to the page and counter `idx` grows by one. -/
theorem hold_in_class {ps : List Page} {cur : Nat} {pg : Page} (hpg : ps[cur]? = some pg)
    (idx : Nat) :
    modPage ps cur (fun x => { x with arc_idx := idx })
        = .ok (ps.set cur { pg with arc_idx := idx }) ∧
      getPage (ps.set cur { pg with arc_idx := idx }) cur = .ok { pg with arc_idx := idx } :=
  ⟨modPage_ok.mpr ⟨pg, hpg, rfl⟩, getPage_ok.mpr (get_set_self hpg)⟩

end AdjustAndHold

/-! ### BlockCacherCompletion -/

section Completions

open BlockCacher

/-- Reading back an overwritten slot of any array. -/
theorem set_get_of_some {α : Type} {l : List α} {i : Nat} {x a : α} (h : l[i]? = some x) :
    (l.set i a)[i]? = some a := by
  have hi : i < l.length := by
    by_contra hn
    rw [List.getElem?_eq_none (by omega)] at h
    cases h
  exact List.getElem?_set_self hi

/-- A fresh completion waits for no request. -/
theorem pending_new (bc : BlockCacher) (c : Nat) :
    pending (new_completion bc (.user c)).1 (new_completion bc (.user c)).2 c 0 := by
  refine ⟨{ ctxt := .user c }, ?_, rfl, rfl, rfl⟩
  simp [new_completion]

/-- A call of `add_request` on a pending completion adds one to its count and
fires nothing. -/
theorem pending_add {bc : BlockCacher} {comp c j : Nat} (h : pending bc comp c j)
    (hj : j + 1 < 4294967296) :
    ∃ bc2, add_request bc comp = .ok bc2 ∧ pending bc2 comp c (j + 1) ∧ bc2.fired = bc.fired := by
  obtain ⟨x, hx, hd, hc, hn⟩ := h
  simp only [add_request, get_completion, hx, hd, bind, Except.bind, pure, Except.pure,
    Bool.false_eq_true, if_false]
  refine ⟨_, rfl, ?_, rfl⟩
  unfold pending
  dsimp only
  refine ⟨_, set_get_of_some hx, rfl, hc, ?_⟩
  show u32 (x.count + 1) = j + 1
  rw [hn, u32_of_lt hj]

/-- A call of `complete_request` on a completion that waits for more than one
request takes one off its count and fires nothing. -/
theorem pending_complete {bc : BlockCacher} {comp c j : Nat} (r : Int)
    (h : pending bc comp c (j + 2)) (hj : j + 2 < 4294967296) :
    ∃ bc2, complete_request bc comp r = .ok bc2 ∧ pending bc2 comp c (j + 1) ∧
      bc2.fired = bc.fired := by
  obtain ⟨x, hx, hd, hc, hn⟩ := h
  have hs : sub32 x.count 1 = j + 1 := by rw [hn, sub32_one (by omega) hj]; rfl
  have hne : ¬ (sub32 x.count 1 = 0) := by rw [hs]; omega
  simp only [complete_request, get_completion, hx, hd, bind, Except.bind, pure, Except.pure,
    Bool.false_eq_true, if_false, hne]
  refine ⟨_, rfl, ?_, rfl⟩
  unfold pending
  dsimp only
  refine ⟨_, set_get_of_some hx, ?_, ?_, ?_⟩
  · rfl
  · exact hc
  · exact hs

/-- A call of `complete_request` on a completion that waits for one request
fires its context with the accumulated value. -/
theorem pending_last {bc : BlockCacher} {comp c : Nat} (r : Int) (h : pending bc comp c 1) :
    ∃ bc2 x, complete_request bc comp r = .ok bc2 ∧ bc2.completions[comp]? = some x ∧
      bc2.fired = bc.fired ++ [(c, x.rval)] := by
  obtain ⟨x, hx, hd, hc, hn⟩ := h
  have hs : sub32 x.count 1 = 0 := by rw [hn]; rfl
  simp only [complete_request, get_completion, hx, hd, bind, Except.bind, pure, Except.pure,
    Bool.false_eq_true, if_false, hs, if_true, hc, complete_context]
  refine ⟨_, _, rfl, set_get_of_some hx, rfl⟩

/-- The call `add_request()` made `k` times adds `k` to the count. -/
theorem pending_add_requests (comp c : Nat) : ∀ (k : Nat) {bc : BlockCacher} {j : Nat},
    pending bc comp c j → j + k < 4294967296 →
    ∃ bc2, add_requests comp k bc = .ok bc2 ∧ pending bc2 comp c (j + k) ∧
      bc2.fired = bc.fired := by
  intro k
  induction k with
  | zero => intro bc j h _; exact ⟨bc, rfl, h, rfl⟩
  | succ k ih =>
    intro bc j h hj
    obtain ⟨bc1, h1, hp1, hf1⟩ := pending_add h (by omega)
    obtain ⟨bc2, h2, hp2, hf2⟩ := ih hp1 (by omega)
    refine ⟨bc2, ?_, ?_, hf2.trans hf1⟩
    · simp only [add_requests, h1, bind, Except.bind]
      exact h2
    · have : j + (k + 1) = j + 1 + k := by omega
      rw [this]; exact hp2

/-- Fewer calls of `complete_request` than the count fire nothing. -/
theorem pending_before_last (comp c : Nat) : ∀ (rs : List Int) {bc : BlockCacher} {j : Nat},
    pending bc comp c j → rs.length < j → j < 4294967296 →
    ∃ bc2, complete_requests comp rs bc = .ok bc2 ∧ bc2.fired = bc.fired := by
  intro rs
  induction rs with
  | nil => intro bc j _ _ _; exact ⟨bc, rfl, rfl⟩
  | cons r rs ih =>
    intro bc j h hl hj
    simp only [List.length_cons] at hl
    obtain ⟨i, rfl⟩ : ∃ i, j = i + 2 := ⟨j - 2, by omega⟩
    obtain ⟨bc1, h1, hp1, hf1⟩ := pending_complete r h hj
    obtain ⟨bc2, h2, hf2⟩ := ih hp1 (by omega) (by omega)
    refine ⟨bc2, ?_, hf2.trans hf1⟩
    simp only [complete_requests, h1, bind, Except.bind]
    exact h2

/-- As many calls of `complete_request` as the count fire the context once, on
the last call. -/
theorem pending_all (comp c : Nat) : ∀ (rs : List Int) {bc : BlockCacher},
    pending bc comp c rs.length → 0 < rs.length → rs.length < 4294967296 →
    ∃ bc2 x, complete_requests comp rs bc = .ok bc2 ∧ bc2.completions[comp]? = some x ∧
      bc2.fired = bc.fired ++ [(c, x.rval)] := by
  intro rs
  induction rs with
  | nil => intro bc _ h0 _; exact absurd h0 (by simp)
  | cons r rs ih =>
    intro bc h _ hj
    simp only [List.length_cons] at h hj
    cases rs with
    | nil =>
      obtain ⟨bc2, x, h2, hx, hf⟩ := pending_last r h
      refine ⟨bc2, x, ?_, hx, hf⟩
      simp only [complete_requests, h2, bind, Except.bind]
    | cons r2 rs2 =>
      simp only [List.length_cons] at h hj ih
      obtain ⟨bc1, h1, hp1, hf1⟩ := pending_complete r h hj
      obtain ⟨bc2, x, h2, hx, hf2⟩ := ih hp1 (by omega) (by omega)
      refine ⟨bc2, x, ?_, hx, by rw [hf2, hf1]⟩
      simp only [complete_requests, h1, bind, Except.bind] at h2 ⊢
      exact h2

end Completions

/-! ### Image registration -/

section Images

open BlockCacher

/-- A lookup that succeeds returns an entry of the map. -/
theorem map_find_mem {β : Type} : ∀ (m : List (Nat × β)) {k : Nat} {v : β},
    map_find m k = some v → (k, v) ∈ m := by
  intro m
  induction m with
  | nil => intro k v h; cases h
  | cons e m ih =>
    intro k v h
    obtain ⟨k0, v0⟩ := e
    simp only [map_find] at h
    split at h
    · rename_i hk
      cases h
      rw [hk]
      exact List.mem_cons_self _ _
    · exact List.mem_cons_of_mem _ (ih h)

/-- An assignment leaves the other keys as they were. -/
theorem map_find_map_set_ne {β : Type} : ∀ (m : List (Nat × β)) {k k2 : Nat} (v : β),
    k2 ≠ k → map_find (map_set m k v) k2 = map_find m k2 := by
  intro m
  induction m with
  | nil =>
    intro k k2 v h
    simp [map_set, map_find, h]
  | cons e m ih =>
    intro k k2 v h
    obtain ⟨k0, v0⟩ := e
    simp only [map_set]
    split
    · simp [map_find, h]
    · split
      · rename_i hk
        subst hk
        simp [map_find, h]
      · simp only [map_find]
        rw [ih v h]

/-- A removal leaves the other keys as they were. -/
theorem map_find_map_erase_ne {β : Type} : ∀ (m : List (Nat × β)) {k k2 : Nat},
    k2 ≠ k → map_find (map_erase m k) k2 = map_find m k2 := by
  intro m
  induction m with
  | nil => intro k k2 _; rfl
  | cons e m ih =>
    intro k k2 h
    obtain ⟨k0, v0⟩ := e
    simp only [map_erase]
    split
    · rename_i hk
      subst hk
      simp [map_find, h]
    · simp only [map_find]
      rw [ih h]

/-- A removal takes out the entry that the lookup finds. -/
theorem map_erase_perm {β : Type} : ∀ (m : List (Nat × β)) {k : Nat} {v : β},
    map_find m k = some v → ((k, v) :: map_erase m k).Perm m := by
  intro m
  induction m with
  | nil => intro k v h; cases h
  | cons e m ih =>
    intro k v h
    obtain ⟨k0, v0⟩ := e
    simp only [map_find] at h
    simp only [map_erase]
    split at h
    · rename_i hk
      cases h
      subst hk
      simp
    · rename_i hk
      rw [if_neg hk]
      exact (List.Perm.swap _ _ _).trans (List.Perm.cons _ (ih h))

/-- An assignment to a key that is not in the map adds one entry. -/
theorem map_set_perm {β : Type} : ∀ (m : List (Nat × β)) {k : Nat} (v : β),
    map_find m k = none → (map_set m k v).Perm ((k, v) :: m) := by
  intro m
  induction m with
  | nil => intro k v _; exact List.Perm.refl _
  | cons e m ih =>
    intro k v h
    obtain ⟨k0, v0⟩ := e
    simp only [map_find] at h
    split at h
    · cases h
    · rename_i hk
      simp only [map_set]
      split
      · exact List.Perm.refl _
      · exact (List.Perm.cons _ (ih v h)).trans (List.Perm.swap _ _ _)

/-- The vector after `resize(n + 1)` and `v[n] = x` has `n + 1` slots. -/
theorem resize_set_length {α : Type} (v : List (Option α)) (n : Nat) (x : Option α) :
    (resize_set v n x).length = n + 1 := by
  simp [resize_set]
  omega

/-- Slot `n` holds `x` after `resize(n + 1)` and `v[n] = x`. -/
theorem resize_set_new {α : Type} (v : List (Option α)) (n : Nat) (x : Option α) :
    (resize_set v n x)[n]? = some x := by
  unfold resize_set
  rw [List.getElem?_set_self]
  simp
  omega

/-- The slots below `n` that the vector had are kept by `resize(n + 1)` and
`v[n] = x`. -/
theorem resize_set_old {α : Type} (v : List (Option α)) (n : Nat) (x : Option α) {j : Nat}
    {a : Option α} (hj : j < n) (h : v[j]? = some a) : (resize_set v n x)[j]? = some a := by
  have hl : j < v.length := by
    by_contra hn
    rw [List.getElem?_eq_none (by omega)] at h
    cases h
  unfold resize_set
  rw [List.getElem?_set_ne (by omega), List.getElem?_take_of_lt (by omega),
    List.getElem?_append_left hl, h]

/-- The constructed cache has consistent image tables. -/
theorem images_consistent_init : images_consistent {} :=
  ⟨Nat.le_refl _, Nat.zero_le _, Nat.zero_le _, Nat.zero_le _, List.nodup_nil,
    fun _ h => nomatch h⟩

/-- A call of `register_image` keeps the image tables consistent. -/
theorem images_consistent_register {bc : BlockCacher} (ictx : Nat) (h : images_consistent bc) :
    images_consistent (register_image bc ictx).1 := by
  obtain ⟨h1, h2, h3, h4, h5, h6⟩ := h
  unfold register_image
  cases hf : map_find bc.ictx_ids ictx with
  | some id => exact ⟨h1, h2, h3, h4, h5, h6⟩
  | none =>
    have hp := map_set_perm bc.ictx_ids bc.ictx_next hf
    unfold images_consistent
    dsimp only
    refine ⟨by omega, by rw [resize_set_length], by rw [resize_set_length],
      by rw [resize_set_length], ?_, ?_⟩
    · rw [List.Perm.nodup_iff (List.Perm.map Prod.snd hp)]
      simp only [List.map_cons, List.nodup_cons]
      refine ⟨?_, h5⟩
      intro hmem
      obtain ⟨e, he, heq⟩ := List.mem_map.mp hmem
      have := (h6 e he).2.1
      omega
    · intro e he
      rcases List.mem_cons.mp ((List.Perm.mem_iff hp).mp he) with rfl | he
      · exact ⟨h1, by simp, resize_set_new _ _ _, ⟨_, resize_set_new _ _ _⟩,
          ⟨_, resize_set_new _ _ _⟩⟩
      · obtain ⟨e1, e2, e3, ⟨t, e4⟩, ⟨g, e5⟩⟩ := h6 e he
        exact ⟨e1, by omega, resize_set_old _ _ _ e2 e3, ⟨t, resize_set_old _ _ _ e2 e4⟩,
          ⟨g, resize_set_old _ _ _ e2 e5⟩⟩

/-- A call of `unregister_image` keeps the image tables consistent. -/
theorem images_consistent_unregister {bc : BlockCacher} (ictx : Nat)
    (h : images_consistent bc) : images_consistent (unregister_image bc ictx) := by
  obtain ⟨h1, h2, h3, h4, h5, h6⟩ := h
  unfold unregister_image
  cases hf : map_find bc.ictx_ids ictx with
  | none => exact ⟨h1, h2, h3, h4, h5, h6⟩
  | some id =>
    have hp := map_erase_perm bc.ictx_ids hf
    have hnd : (id :: (map_erase bc.ictx_ids ictx).map Prod.snd).Nodup := by
      have := (List.Perm.nodup_iff (List.Perm.map Prod.snd hp)).mpr h5
      simpa using this
    unfold images_consistent
    dsimp only
    refine ⟨h1, by rw [List.length_set]; exact h2, by rw [List.length_set]; exact h3,
      by rw [List.length_set]; exact h4, (List.nodup_cons.mp hnd).2, ?_⟩
    intro e he
    have hne : id ≠ e.2 := by
      intro heq
      exact (List.nodup_cons.mp hnd).1 (heq ▸ List.mem_map_of_mem Prod.snd he)
    obtain ⟨e1, e2, e3, ⟨t, e4⟩, ⟨g, e5⟩⟩ :=
      h6 e ((List.Perm.mem_iff hp).mp (List.mem_cons_of_mem _ he))
    exact ⟨e1, e2, by rw [List.getElem?_set_ne hne]; exact e3,
      ⟨t, by rw [List.getElem?_set_ne hne]; exact e4⟩,
      ⟨g, by rw [List.getElem?_set_ne hne]; exact e5⟩⟩

/-- Every call keeps the image tables consistent. -/
theorem images_consistent_apply {bc : BlockCacher} (op : ImageOp) (h : images_consistent bc) :
    images_consistent (op.apply bc) := by
  cases op with
  | register ictx => exact images_consistent_register ictx h
  | unregister ictx => exact images_consistent_unregister ictx h

/-- Every sequence of calls keeps the image tables consistent. -/
theorem images_consistent_run : ∀ (ops : List ImageOp) {bc : BlockCacher},
    images_consistent bc → images_consistent (ImageOp.run ops bc).1 := by
  intro ops
  induction ops with
  | nil => intro bc h; exact h
  | cons op ops ih => intro bc h; exact ih (images_consistent_apply op h)

/-- The ids returned for new registrations are `ictx_next`, `ictx_next + 1`,
and so on, and `ictx_next` has advanced by their number. -/
theorem run_new_ids : ∀ (ops : List ImageOp) (bc : BlockCacher),
    (ImageOp.run ops bc).2 = List.range' bc.ictx_next (ImageOp.run ops bc).2.length ∧
    (ImageOp.run ops bc).1.ictx_next = bc.ictx_next + (ImageOp.run ops bc).2.length := by
  intro ops
  induction ops with
  | nil => intro bc; exact ⟨rfl, rfl⟩
  | cons op ops ih =>
    intro bc
    obtain ⟨i1, i2⟩ := ih (op.apply bc)
    cases op with
    | register ictx =>
      cases hf : map_find bc.ictx_ids ictx with
      | some id =>
        have ha : ImageOp.apply bc (.register ictx) = bc := by
          simp only [ImageOp.apply, register_image, hf]
        rw [ha] at i1 i2
        simp only [ImageOp.run, ImageOp.new_id, hf, ha, Option.toList, List.nil_append]
        exact ⟨i1, i2⟩
      | none =>
        have ha : (ImageOp.apply bc (.register ictx)).ictx_next = bc.ictx_next + 1 := by
          simp only [ImageOp.apply, register_image, hf]
        have hb : (register_image bc ictx).2 = bc.ictx_next := by
          simp only [register_image, hf]
        rw [ha] at i1 i2
        simp only [ImageOp.run, ImageOp.new_id, hf, hb, Option.toList, List.singleton_append,
          List.length_cons]
        refine ⟨?_, by omega⟩
        rw [List.range'_succ]
        exact congrArg _ i1
    | unregister ictx =>
      have ha : (ImageOp.apply bc (.unregister ictx)).ictx_next = bc.ictx_next := by
        simp only [ImageOp.apply, unregister_image]
        split <;> rfl
      rw [ha] at i1 i2
      simp only [ImageOp.run, ImageOp.new_id, Option.toList, List.nil_append]
      exact ⟨i1, i2⟩

/-- A call about another handle leaves the id of a handle as it was. -/
theorem apply_keeps_other_id (bc : BlockCacher) (op : ImageOp) {h : Nat} (hne : op.handle ≠ h) :
    map_find (op.apply bc).ictx_ids h = map_find bc.ictx_ids h := by
  cases op with
  | register ictx =>
    simp only [ImageOp.apply, register_image]
    split
    · rfl
    · exact map_find_map_set_ne _ _ (Ne.symm hne)
  | unregister ictx =>
    simp only [ImageOp.apply, unregister_image]
    split
    · rfl
    · exact map_find_map_erase_ne _ (Ne.symm hne)

end Images

/-! ### Steps on the CAR lists -/

section CarSteps

open CARState

theorem SameOff.id_heap {α : Type} (S : Nat → Prop) (f : Page → α) (ps : List Page) :
    SameOff S f ps ps :=
  ⟨rfl, fun _ _ => rfl⟩

theorem SameOff.and_then {α : Type} {S : Nat → Prop} {f : Page → α} {ps ps2 ps3 : List Page}
    (h1 : SameOff S f ps ps2) (h2 : SameOff S f ps2 ps3) : SameOff S f ps ps3 :=
  ⟨h2.1.trans h1.1, fun x hx => (h2.2 x hx).trans (h1.2 x hx)⟩

theorem SameOff.weaken {α : Type} {S T : Nat → Prop} {f : Page → α} {ps ps2 : List Page}
    (h : SameOff S f ps ps2) (hst : ∀ x, S x → T x) : SameOff T f ps ps2 :=
  ⟨h.1, fun x hx => h.2 x (fun hs => hx (hst x hs))⟩

/-- A descriptor update keeps `f` everywhere when the index is in `S` or the
update does not touch `f`. -/
theorem SameOff.of_modPage {α : Type} {S : Nat → Prop} {f : Page → α} {ps ps2 : List Page}
    {i : Nat} {g : Page → Page} (h : modPage ps i g = .ok ps2)
    (hg : ¬ S i → ∀ pg, f (g pg) = f pg) : SameOff S f ps ps2 := by
  obtain ⟨pg, hpg, rfl⟩ := modPage_ok.mp h
  refine ⟨List.length_set _ _ _, fun x hx => ?_⟩
  by_cases hxi : x = i
  · subst hxi
    rw [set_get_of_some hpg, hpg]
    exact congrArg some (hg hx pg)
  · rw [List.getElem?_set_ne (Ne.symm hxi)]

/-- A step `match o with | some q => modPage ps q g | none => pure ps`. -/
theorem SameOff.of_opt_modPage {α : Type} {S : Nat → Prop} {f : Page → α} {ps ps2 : List Page}
    {o : Option Nat} {g : Page → Page}
    (h : (match o with
      | some q => modPage ps q g
      | none => pure ps : Except Fault (List Page)) = .ok ps2)
    (hg : ∀ q, o = some q → ¬ S q → ∀ pg, f (g pg) = f pg) : SameOff S f ps ps2 := by
  cases o with
  | none => simp only [pure_ok] at h; subst h; exact SameOff.id_heap _ _ _
  | some q => exact SameOff.of_modPage h (hg q rfl)

/-- Popping the head of a list changes list fields only. -/
theorem pop_keeps {α : Type} {f : Page → α} (hf : LinkBlind f) {ps ps2 : List Page}
    {c c2 : CARState} {idx p : Nat} (h : _pop_head_page ps c idx = .ok (ps2, c2, p)) :
    SameOff (fun _ => False) f ps ps2 := by
  simp only [CARState._pop_head_page, bind_ok, pure_ok, getPage_ok, deref_ok] at h
  obtain ⟨hd, hhd, p1, hp1, pg, hpg, ps1, hps1, heads, hheads, psb, hpsb, foots, hfoots, sz, hsz,
    sizes, hsizes, ps3, hps3, hfin⟩ := h
  simp only [Prod.mk.injEq] at hfin
  obtain ⟨rfl, rfl, rfl⟩ := hfin
  have e1 : SameOff (fun _ => False) f ps ps1 :=
    SameOff.of_opt_modPage hps1 (fun _ _ _ x => hf x x.page_next none x.arc_idx)
  have e2 : SameOff (fun _ => False) f ps1 psb :=
    SameOff.of_modPage hpsb (fun _ x => hf x none none x.arc_idx)
  have e3 : SameOff (fun _ => False) f psb ps3 :=
    SameOff.of_modPage hps3 (fun _ x => hf x x.page_next x.page_prev ARC_COUNT)
  exact (e1.and_then e2).and_then e3

/-- A function blind to the list fields is blind to the successor pointer. -/
theorem LinkBlind.next_blind {α : Type} {f : Page → α} (hf : LinkBlind f) : NextBlind f :=
  fun pg n => hf pg n pg.page_prev pg.arc_idx

/-- Appending `page` changes, outside `page`, a successor pointer only. -/
theorem append_keeps {α : Type} {f : Page → α} (hf : NextBlind f) {ps ps2 : List Page}
    {c c2 : CARState} {page dst : Nat} (h : _append_page ps c page dst = .ok (ps2, c2)) :
    SameOff (fun x => x = page) f ps ps2 := by
  simp only [CARState._append_page, bind_ok, pure_ok, getPage_ok, assert_ok] at h
  obtain ⟨pg, hpg, -, hassert, ps1, hps1, foot, hfoot, psb, hpsb, psc, hpsc, foots, hfoots,
    head, hhead, heads, hheads, psd, hpsd, sz, hsz, sizes, hsizes, hfin⟩ := h
  simp only [Prod.mk.injEq] at hfin
  obtain ⟨rfl, rfl⟩ := hfin
  have e1 : SameOff (fun x => x = page) f ps ps1 :=
    SameOff.of_modPage hps1 (fun hn => absurd rfl hn)
  have e2 : SameOff (fun x => x = page) f ps1 psb :=
    SameOff.of_opt_modPage hpsb (fun _ _ _ x => hf x (some page))
  have e3 : SameOff (fun x => x = page) f psb psc :=
    SameOff.of_modPage hpsc (fun hn => absurd rfl hn)
  have e4 : SameOff (fun x => x = page) f psc psd :=
    SameOff.of_modPage hpsd (fun hn => absurd rfl hn)
  exact ((e1.and_then e2).and_then e3).and_then e4

/-- Appending `page` leaves every descriptor but `page` and the old foot of the
list as it was. -/
theorem append_frame {ps ps2 : List Page} {c c2 : CARState} {page dst : Nat}
    (h : _append_page ps c page dst = .ok (ps2, c2)) :
    SameOff (fun x => x = page ∨ c.arc_list_foot.sel dst = some x) id ps ps2 := by
  simp only [CARState._append_page, bind_ok, pure_ok, getPage_ok, assert_ok] at h
  obtain ⟨pg, hpg, -, hassert, ps1, hps1, foot, hfoot, psb, hpsb, psc, hpsc, foots, hfoots,
    head, hhead, heads, hheads, psd, hpsd, sz, hsz, sizes, hsizes, hfin⟩ := h
  simp only [Prod.mk.injEq] at hfin
  obtain ⟨rfl, rfl⟩ := hfin
  obtain ⟨-, hfoot⟩ := Arc4.get_ok hfoot
  have e1 : SameOff (fun x => x = page ∨ c.arc_list_foot.sel dst = some x) id ps ps1 :=
    SameOff.of_modPage hps1 (fun hn => absurd (Or.inl rfl) hn)
  have e2 : SameOff (fun x => x = page ∨ c.arc_list_foot.sel dst = some x) id ps1 psb :=
    SameOff.of_opt_modPage hpsb (fun q hq hn => absurd (Or.inr (hfoot.symm.trans hq)) hn)
  have e3 : SameOff (fun x => x = page ∨ c.arc_list_foot.sel dst = some x) id psb psc :=
    SameOff.of_modPage hpsc (fun hn => absurd (Or.inl rfl) hn)
  have e4 : SameOff (fun x => x = page ∨ c.arc_list_foot.sel dst = some x) id psc psd :=
    SameOff.of_modPage hpsd (fun hn => absurd (Or.inl rfl) hn)
  exact ((e1.and_then e2).and_then e3).and_then e4

/-- What `_append_page` leaves in the appended descriptor: the class, the old
foot as predecessor, no successor, and a cleared reference bit. -/
theorem append_page_get {ps ps2 : List Page} {c c2 : CARState} {page dst : Nat}
    (hne : c.arc_list_foot.sel dst ≠ some page)
    (h : _append_page ps c page dst = .ok (ps2, c2)) :
    ∃ pg, ps[page]? = some pg ∧ pg.dirty = 0 ∧ pg.page_next = none ∧ pg.page_prev = none ∧
      ps2[page]? = some
        { pg with arc_idx := dst, page_prev := c.arc_list_foot.sel dst, reference := 0 } := by
  simp only [CARState._append_page, bind_ok, pure_ok, getPage_ok, assert_ok, modPage_ok] at h
  obtain ⟨pg, hpg, -, hassert, ps1, hps1, foot, hfoot, psb, hpsb, psc, hpsc, foots, hfoots,
    head, hhead, heads, hheads, psd, hpsd, sz, hsz, sizes, hsizes, hfin⟩ := h
  simp only [Prod.mk.injEq] at hfin
  obtain ⟨rfl, rfl⟩ := hfin
  obtain ⟨-, hfoot⟩ := Arc4.get_ok hfoot
  simp only [Bool.and_eq_true, beq_iff_eq, Option.isNone_iff_eq_none] at hassert
  obtain ⟨⟨hdirty, hnext⟩, hprev⟩ := hassert
  refine ⟨pg, hpg, hdirty, hnext, hprev, ?_⟩
  obtain ⟨pga, hpga, rfl⟩ := hps1
  rw [hpg] at hpga; cases hpga
  have g1 : (ps.set page { pg with arc_idx := dst })[page]? = some { pg with arc_idx := dst } :=
    set_get_of_some hpg
  have g2 : psb[page]? = some { pg with arc_idx := dst } := by
    cases hf : foot with
    | none =>
      rw [hf] at hpsb
      simp only [pure_ok] at hpsb
      subst hpsb
      exact g1
    | some q =>
      rw [hf] at hpsb
      simp only [modPage_ok] at hpsb
      obtain ⟨pq, hpq, rfl⟩ := hpsb
      have hqp : q ≠ page := by
        intro e
        apply hne
        rw [← hfoot, hf, e]
      rw [List.getElem?_set_ne hqp]
      exact g1
  obtain ⟨pgc, hpgc, rfl⟩ := hpsc
  rw [g2] at hpgc; cases hpgc
  obtain ⟨pgd, hpgd, rfl⟩ := hpsd
  rw [set_get_of_some g2] at hpgd; cases hpgd
  rw [set_get_of_some (set_get_of_some g2), hfoot]

/-- The call `_append_page(page, dst)` returns when `page` is a clean detached
descriptor and the foot of the list, if any, is a descriptor. -/
theorem append_total {ps : List Page} {c : CARState} {page dst : Nat} {pg : Page}
    (hpg : ps[page]? = some pg) (hd : pg.dirty = 0) (hn : pg.page_next = none)
    (hv : pg.page_prev = none) (hdst : dst < 4)
    (hfoot : ∀ q, c.arc_list_foot.sel dst = some q → ∃ pq, ps[q]? = some pq) :
    ∃ r, _append_page ps c page dst = .ok r := by
  have hlen : page < ps.length := by
    by_contra hc
    rw [List.getElem?_eq_none (by omega)] at hpg
    cases hpg
  have step : ∀ (qs : List Page) (g : Page → Page), qs.length = ps.length →
      ∃ qs2, modPage qs page g = .ok qs2 ∧ qs2.length = ps.length := by
    intro qs g hq
    have : page < qs.length := by omega
    refine ⟨qs.set page (g qs[page]), ?_, by simp [hq]⟩
    simp [modPage, List.getElem?_eq_getElem this]
  have hget : ∀ i, i < 4 → ∀ {β : Type} (a : Arc4 β), a.get i = .ok (a.sel i) := by
    intro i hi β a
    interval_cases i <;> rfl
  have hset : ∀ i, i < 4 → ∀ {β : Type} (a : Arc4 β) (v : β), a.set i v = .ok (a.upd i v) := by
    intro i hi β a v
    interval_cases i <;> rfl
  obtain ⟨ps1, h1, l1⟩ := step ps (fun x => { x with arc_idx := dst }) rfl
  have h2 : ∃ psb, (match c.arc_list_foot.sel dst with
      | some f => modPage ps1 f (fun x => { x with page_next := some page })
      | none => pure ps1 : Except Fault (List Page)) = .ok psb ∧ psb.length = ps.length := by
    cases hf : c.arc_list_foot.sel dst with
    | none => exact ⟨ps1, rfl, l1⟩
    | some q =>
      obtain ⟨pq, hpq⟩ := hfoot q hf
      have hq : q < ps1.length := by
        by_contra hc
        rw [List.getElem?_eq_none (by omega)] at hpq
        cases hpq
      exact ⟨ps1.set q { ps1[q] with page_next := some page },
        by simp only [modPage, List.getElem?_eq_getElem hq], by simp [l1]⟩
  obtain ⟨psb, h2, l2⟩ := h2
  obtain ⟨psc, h3, l3⟩ := step psb (fun x => { x with page_prev := c.arc_list_foot.sel dst }) l2
  obtain ⟨psd, h4, l4⟩ := step psc (fun x => { x with reference := 0 }) l3
  have h5 : ∃ heads, (if (c.arc_list_head.sel dst).isNone then
      c.arc_list_head.set dst (some page) else pure c.arc_list_head :
      Except Fault (Arc4 (Option Nat))) = .ok heads := by
    split
    · exact ⟨_, hset dst hdst _ _⟩
    · exact ⟨_, rfl⟩
  obtain ⟨heads, h5⟩ := h5
  simp only [CARState._append_page, bind_ok, pure_ok, getPage_ok, assert_ok]
  exact ⟨_, pg, hpg, (), by simp [hd, hn, hv], ps1, h1, _, hget dst hdst _, psb, h2, psc, h3, _,
    hset dst hdst _ _, _, hget dst hdst _, heads, h5, psd, h4, _, hget dst hdst _, _,
    hset dst hdst _ _, rfl⟩

end CarSteps

/-! ### insert_page -/

section InsertPage

open CARState

/-- Reads of the four slots succeed. -/
theorem Arc4.get_sel {α : Type} (a : Arc4 α) {i : Nat} (hi : i < 4) : a.get i = .ok (a.sel i) := by
  interval_cases i <;> rfl

/-- Writes of the four slots succeed. -/
theorem Arc4.set_upd {α : Type} (a : Arc4 α) {i : Nat} (hi : i < 4) (v : α) :
    a.set i v = .ok (a.upd i v) := by
  interval_cases i <;> rfl

/-- Writing a slot twice keeps the second value. -/
theorem Arc4.upd_upd {α : Type} (a : Arc4 α) (i : Nat) (v w : α) :
    (a.upd i v).upd i w = a.upd i w := by
  rcases i with _ | _ | _ | _ | i <;> rfl

/-- Writing back the value of a slot changes nothing. -/
theorem Arc4.upd_sel {α : Type} (a : Arc4 α) (i : Nat) : a.upd i (a.sel i) = a := by
  rcases i with _ | _ | _ | _ | i <;> rfl

/-- The foot of a well-formed list is a descriptor of the heap. -/
theorem CarLists.foot_get {ps : List Page} {c : CARState} {L : Arc4 (List Nat)}
    (hL : CarLists ps c L) {i q : Nat} (hi : i < 4) (hq : c.arc_list_foot.sel i = some q) :
    q ∈ L.sel i ∧ ∃ pq, ps[q]? = some pq := by
  rw [hL.foot i hi] at hq
  have hm : q ∈ L.sel i := List.mem_of_getLast?_eq_some hq
  exact ⟨hm, hL.listed_get hi hm⟩

/-- `insert_page` of a held page: a clean detached descriptor of class `cls`
that is on no list and is counted in the size counter of `cls`.  The call
returns, links the page at the tail of the list of `cls`, clears its reference
bit, leaves the counters as they are and changes no descriptor but the page
and the old foot of that list. -/
theorem insert_spec {ps : List Page} {c : CARState} {L : Arc4 (List Nat)} {p : Nat} {pg : Page}
    (hL : CarLists ps c L) (hpg : ps[p]? = some pg) (hd : pg.dirty = 0)
    (hn : pg.page_next = none) (hv : pg.page_prev = none) (hcls : pg.arc_idx < 4)
    (hout : ∀ i, i < 4 → p ∉ L.sel i) (hpos : 0 < c.arc_list_size.sel pg.arc_idx)
    (hlt : c.arc_list_size.sel pg.arc_idx < 4294967296) :
    ∃ ps2 c2, insert_page ps c p = .ok (ps2, c2) ∧
      CarLists ps2 c2 (L.upd pg.arc_idx (L.sel pg.arc_idx ++ [p])) ∧
      ps2[p]? = some
        { pg with page_prev := c.arc_list_foot.sel pg.arc_idx, reference := 0 } ∧
      SameOff (fun x => x = p ∨ c.arc_list_foot.sel pg.arc_idx = some x) id ps ps2 ∧
      c2.arc_list_size = c.arc_list_size ∧ c2.arc_lru_limit = c.arc_lru_limit ∧
      c2.data_pages = c.data_pages := by
  obtain ⟨c1, hc1⟩ : ∃ c1 : CARState, c1 =
      { c with
        arc_list_size :=
          c.arc_list_size.upd pg.arc_idx (sub32 (c.arc_list_size.sel pg.arc_idx) 1) } :=
    ⟨_, rfl⟩
  have hins : insert_page ps c p = _append_page ps c1 p pg.arc_idx := by
    unfold insert_page
    simp only [getPage, hpg, Arc4.get_sel _ hcls, Arc4.set_upd _ hcls, bind, Except.bind, hc1]
  have hfe : c1.arc_list_foot = c.arc_list_foot := by rw [hc1]
  have hL1 : CarLists ps c1 L := hL.congr (by rw [hc1]) hfe (fun _ _ => rfl)
  obtain ⟨⟨ps2, c2⟩, hr⟩ := append_total (c := c1) hpg hd hn hv hcls
    (fun q hq => (hL1.foot_get hcls hq).2)
  obtain ⟨hL2, -, -, hsz, hlim, hdp⟩ := append_spec hL1 hcls hout hr
  have hne : c1.arc_list_foot.sel pg.arc_idx ≠ some p := fun e =>
    hout _ hcls (hL1.foot_get hcls e).1
  obtain ⟨pg0, hpg0, -, -, -, hget⟩ := append_page_get hne hr
  rw [hpg] at hpg0
  cases hpg0
  have hfr := append_frame hr
  rw [hfe] at hget hfr
  refine ⟨ps2, c2, hins.trans hr, hL2, hget, hfr, ?_, by rw [hlim, hc1], by rw [hdp, hc1]⟩
  rw [hsz, hc1]
  dsimp only
  rw [Arc4.sel_upd _ _ _ _ hcls hcls, if_pos rfl, Arc4.upd_upd, sub32_one hpos hlt,
    show c.arc_list_size.sel pg.arc_idx - 1 + 1 = c.arc_list_size.sel pg.arc_idx by omega,
    u32_of_lt hlt, Arc4.upd_sel]

/-- `insert_page(p)` changes, outside `p`, a successor pointer only. -/
theorem insert_keeps {α : Type} {f : Page → α} (hf : NextBlind f) {ps ps2 : List Page}
    {c c2 : CARState} {p : Nat} (h : insert_page ps c p = .ok (ps2, c2)) :
    SameOff (fun x => x = p) f ps ps2 := by
  simp only [CARState.insert_page, bind_ok] at h
  obtain ⟨pg, -, sz, -, sizes, -, h⟩ := h
  exact append_keeps hf h

/-- `adjust_and_hold(cur, h)` returns when no division by zero occurs: the page
gets class LFU for `h` = 0 or 1 and class LRU otherwise, and the counter of
that class goes up by one. -/
theorem adjust_hold_ok {ps : List Page} {c : CARState} {cur h : Nat} {pg : Page}
    (hpg : ps[cur]? = some pg) (hz : h = 0 ∨ h = 1 → c.arc_list_size.lfu_ghost ≠ 0) :
    ∃ lim, adjust_and_hold ps c cur h = .ok
      (ps.set cur { pg with arc_idx := if h = 0 ∨ h = 1 then ARC_LFU else ARC_LRU },
       { c with
         arc_lru_limit := lim
         arc_list_size := c.arc_list_size.upd (if h = 0 ∨ h = 1 then ARC_LFU else ARC_LRU)
           (u32 (c.arc_list_size.sel (if h = 0 ∨ h = 1 then ARC_LFU else ARC_LRU) + 1)) }) := by
  by_cases h0 : h = 0
  · subst h0
    obtain ⟨h1, h2⟩ := hold_in_class hpg ARC_LFU
    have hz0 := hz (Or.inl rfl)
    unfold adjust_and_hold
    simp only [ARC_LRU, ARC_LFU, if_true, hz0, if_false, true_or]
    simp only [ARC_LFU] at h1 h2
    simp only [h1, h2, bind, Except.bind, pure, Except.pure, Arc4.get, Arc4.set]
    exact ⟨_, rfl⟩
  · by_cases h1 : h = 1
    · subst h1
      obtain ⟨h1, h2⟩ := hold_in_class hpg ARC_LFU
      have hz0 := hz (Or.inr rfl)
      unfold adjust_and_hold
      simp only [ARC_LRU, ARC_LFU, show (1 : Nat) ≠ 0 by decide, if_false, if_true, hz0,
        or_true]
      simp only [ARC_LFU] at h1 h2
      simp only [h1, h2, bind, Except.bind, pure, Except.pure, Arc4.get, Arc4.set]
      exact ⟨_, rfl⟩
    · obtain ⟨h3, h4⟩ := hold_in_class hpg ARC_LRU
      unfold adjust_and_hold
      simp only [ARC_LRU, ARC_LFU, h0, h1, if_false, or_self]
      simp only [ARC_LRU] at h3 h4
      simp only [h3, h4, bind, Except.bind, pure, Except.pure, Arc4.get, Arc4.set]
      exact ⟨_, rfl⟩

end InsertPage

/-! ### The clock rule -/

section Clock

open CARState

/-- Two heaps with the same reference bits give the same `reference_of`. -/
theorem reference_of_same {S : Nat → Prop} {ps ps2 : List Page}
    (h : SameOff S Page.reference ps ps2) {x : Nat} (hx : ¬ S x) :
    reference_of ps2 x = reference_of ps x := by
  have e := h.2 x hx
  unfold reference_of
  cases h1 : ps[x]? <;> cases h2 : ps2[x]? <;> simp [h1, h2] at e ⊢
  exact e

/-- The reference bit does not depend on the list fields. -/
theorem reference_blind : LinkBlind Page.reference := fun _ _ _ _ => rfl

/-- The appended page ends with a cleared reference bit. -/
theorem append_ref_zero {ps ps2 : List Page} {c c2 : CARState} {page dst : Nat}
    (h : _append_page ps c page dst = .ok (ps2, c2)) : reference_of ps2 page = 0 := by
  simp only [CARState._append_page, bind_ok, pure_ok, getPage_ok, assert_ok] at h
  obtain ⟨pg, hpg, -, hassert, ps1, hps1, foot, hfoot, psb, hpsb, psc, hpsc, foots, hfoots,
    head, hhead, heads, hheads, psd, hpsd, sz, hsz, sizes, hsizes, hfin⟩ := h
  simp only [Prod.mk.injEq] at hfin
  obtain ⟨rfl, rfl⟩ := hfin
  obtain ⟨pgd, hpgd, rfl⟩ := modPage_ok.mp hpsd
  unfold reference_of
  rw [set_get_of_some hpgd]

/-- One round of the clock, on the reference bits: popping leaves them alone,
and appending clears the bit of the moved page only. -/
theorem move_refs {ps ps1 ps2 : List Page} {c c1 c2 : CARState} {idx dst q : Nat}
    (h1 : _pop_head_page ps c idx = .ok (ps1, c1, q))
    (h2 : _append_page ps1 c1 q dst = .ok (ps2, c2)) :
    reference_of ps1 = reference_of ps ∧
      reference_of ps2 = Function.update (reference_of ps) q 0 := by
  have e1 : reference_of ps1 = reference_of ps :=
    funext (fun x => reference_of_same (pop_keeps reference_blind h1) (fun hf => hf))
  refine ⟨e1, funext (fun x => ?_)⟩
  by_cases hx : x = q
  · subst hx
    rw [Function.update_same]
    exact append_ref_zero h2
  · rw [Function.update_noteq hx, ← e1]
    exact reference_of_same (append_keeps reference_blind.next_blind h2) hx

/-- The loop of `evict_data` refines the clock rule on lists: when it returns
`p`, the rule run on the lists of the initial state returns `p` as well, the
lists of the final state are the lists that the rule computes, the counters
stay exact, the limit stays, and the reference bits are cleared for the moved
pages and `p` and kept for all others. -/
theorem evict_refines : ∀ (fuel : Nat) {ps ps2 : List Page} {c c2 : CARState}
    {L : Arc4 (List Nat)} {e p : Nat},
    CarLists ps c L → Counts c L e →
    L.lru.length + e + L.lfu.length + L.lru_ghost.length + L.lfu_ghost.length + 1
      < 4294967296 →
    evict_loop fuel ps c = .ok (ps2, c2, p) →
    ∃ L2 moved, clock_rule e c.arc_lru_limit fuel (reference_of ps) L = some (L2, moved, p) ∧
      CarLists ps2 c2 L2 ∧ Counts c2 L2 e ∧ c2.arc_lru_limit = c.arc_lru_limit ∧
      c2.data_pages = c.data_pages ∧
      ∀ x, reference_of ps2 x = if x ∈ moved ∨ x = p then 0 else reference_of ps x := by
  intro fuel
  induction fuel with
  | zero => intro ps ps2 c c2 L e p _ _ _ h; simp [evict_loop] at h
  | succ fuel ih =>
    intro ps ps2 c c2 L e p hL hC hB h
    obtain ⟨hc0, hc1, hc2, hc3⟩ := hC
    rw [evict_loop] at h
    rw [clock_rule]
    split at h
    · -- pop the head of ARC_LRU
      rename_i hge
      have hge2 : L.lru.length + e ≥ c.arc_lru_limit := by omega
      rw [if_pos hge2]
      simp only [bind_ok, getPage_ok] at h
      obtain ⟨⟨ps1, c1, q⟩, hpop, pg, hpg, h⟩ := h
      dsimp only at hpg h
      have hrq : pg.reference = reference_of ps q := by
        have e0 : reference_of ps1 q = reference_of ps q :=
          reference_of_same (pop_keeps reference_blind hpop) (fun hf => hf)
        rw [← e0]
        unfold reference_of
        rw [hpg]
      split at h
      · rename_i hne
        simp only [bind_ok] at h
        obtain ⟨⟨psa, ca⟩, happ, h⟩ := h
        dsimp only at h
        obtain ⟨rest, hl, hLa, hin, hs, hsz, hlim, hd⟩ :=
          move_spec hL (by decide : ARC_LRU < 4) (by decide : ARC_LFU < 4) hpop happ
        obtain ⟨-, href⟩ := move_refs hpop happ
        simp only [ARC_LRU, ARC_LFU, Arc4.sel, Arc4.upd] at hl hLa hin hsz
        have hlen0 : L.lru.length = rest.length + 1 := by rw [hl]; rfl
        have hCa : Counts ca ⟨rest, L.lfu ++ [q], L.lru_ghost, L.lfu_ghost⟩ e := by
          have e1 : sub32 c.arc_list_size.lru 1 = c.arc_list_size.lru - 1 :=
            sub32_one (by omega) (by omega)
          have e2 : u32 (c.arc_list_size.lfu + 1) = c.arc_list_size.lfu + 1 :=
            u32_of_lt (by omega)
          refine ⟨?_, ?_, ?_, ?_⟩ <;> simp only [hsz, e1, e2, List.length_append,
            List.length_cons, List.length_nil] <;> omega
        have hBa : rest.length + e + (L.lfu ++ [q]).length + L.lru_ghost.length +
            L.lfu_ghost.length + 1 < 4294967296 := by
          simp only [List.length_cons, List.length_append, List.length_nil]
          omega
        obtain ⟨L2, moved, hrule, hL2, hC2, hlim2, hd2, hr2⟩ := ih hLa hCa hBa h
        rw [hlim, href] at hrule
        rw [hrq] at hne
        refine ⟨L2, q :: moved, ?_, hL2, hC2, hlim2.trans hlim, hd2.trans hd, fun x => ?_⟩
        · rw [hl]
          dsimp only
          rw [if_pos hne, hrule]
          rfl
        · rw [hr2 x, href]
          by_cases hx : x ∈ moved ∨ x = p
          · rw [if_pos hx, if_pos (hx.imp_left (List.mem_cons_of_mem q))]
          · rw [if_neg hx]
            by_cases hxq : x = q
            · rw [hxq, Function.update_same, if_pos (Or.inl (List.mem_cons_self q moved))]
            · rw [Function.update_noteq hxq, if_neg]
              rintro (hm | hp)
              · rcases List.mem_cons.mp hm with hq | hm
                · exact hxq hq
                · exact hx (Or.inl hm)
              · exact hx (Or.inr hp)
      · rename_i hne
        simp only [bind_ok, pure_ok] at h
        obtain ⟨⟨psa, ca⟩, happ, h⟩ := h
        simp only [Prod.mk.injEq] at h
        obtain ⟨rfl, rfl, rfl⟩ := h
        obtain ⟨rest, hl, hLa, hin, hs, hsz, hlim, hd⟩ :=
          move_spec hL (by decide : ARC_LRU < 4) (by decide : ARC_LRU_GHOST < 4) hpop happ
        obtain ⟨-, href⟩ := move_refs hpop happ
        simp only [ARC_LRU, ARC_LRU_GHOST, Arc4.sel, Arc4.upd] at hl hLa hin hsz
        have hlen0 : L.lru.length = rest.length + 1 := by rw [hl]; rfl
        rw [hrq] at hne
        refine ⟨_, [], ?_, hLa, ?_, hlim, hd, fun x => ?_⟩
        · rw [hl]
          dsimp only
          rw [if_neg hne]
        · have e1 : sub32 c.arc_list_size.lru 1 = c.arc_list_size.lru - 1 :=
            sub32_one (by omega) (by omega)
          have e2 : u32 (c.arc_list_size.lru_ghost + 1) = c.arc_list_size.lru_ghost + 1 :=
            u32_of_lt (by omega)
          refine ⟨?_, ?_, ?_, ?_⟩ <;> simp only [hsz, e1, e2, List.length_append,
            List.length_cons, List.length_nil] <;> omega
        · rw [href]
          by_cases hx : x = q
          · rw [hx, Function.update_same, if_pos (Or.inr rfl)]
          · rw [Function.update_noteq hx, if_neg]
            simp [hx]
    · -- pop the head of ARC_LFU
      rename_i hge
      have hge2 : ¬ L.lru.length + e ≥ c.arc_lru_limit := by omega
      rw [if_neg hge2]
      simp only [bind_ok, getPage_ok] at h
      obtain ⟨⟨ps1, c1, q⟩, hpop, pg, hpg, h⟩ := h
      dsimp only at hpg h
      have hrq : pg.reference = reference_of ps q := by
        have e0 : reference_of ps1 q = reference_of ps q :=
          reference_of_same (pop_keeps reference_blind hpop) (fun hf => hf)
        rw [← e0]
        unfold reference_of
        rw [hpg]
      split at h
      · rename_i hne
        simp only [bind_ok] at h
        obtain ⟨⟨psa, ca⟩, happ, h⟩ := h
        dsimp only at h
        obtain ⟨rest, hl, hLa, hin, hs, hsz, hlim, hd⟩ :=
          move_spec hL (by decide : ARC_LFU < 4) (by decide : ARC_LFU < 4) hpop happ
        obtain ⟨-, href⟩ := move_refs hpop happ
        simp only [ARC_LFU, Arc4.sel, Arc4.upd] at hl hLa hin hsz
        have hlen0 : L.lfu.length = rest.length + 1 := by rw [hl]; rfl
        have hCa : Counts ca ⟨L.lru, rest ++ [q], L.lru_ghost, L.lfu_ghost⟩ e := by
          have e1 : sub32 c.arc_list_size.lfu 1 = c.arc_list_size.lfu - 1 :=
            sub32_one (by omega) (by omega)
          have e2 : u32 (c.arc_list_size.lfu - 1 + 1) = c.arc_list_size.lfu - 1 + 1 :=
            u32_of_lt (by omega)
          refine ⟨?_, ?_, ?_, ?_⟩ <;> simp only [hsz, e1, e2, List.length_append,
            List.length_cons, List.length_nil] <;> omega
        have hBa : L.lru.length + e + (rest ++ [q]).length + L.lru_ghost.length +
            L.lfu_ghost.length + 1 < 4294967296 := by
          simp only [List.length_cons, List.length_append, List.length_nil]
          omega
        obtain ⟨L2, moved, hrule, hL2, hC2, hlim2, hd2, hr2⟩ := ih hLa hCa hBa h
        rw [hlim, href] at hrule
        rw [hrq] at hne
        refine ⟨L2, q :: moved, ?_, hL2, hC2, hlim2.trans hlim, hd2.trans hd, fun x => ?_⟩
        · rw [hl]
          dsimp only
          rw [if_pos hne, hrule]
          rfl
        · rw [hr2 x, href]
          by_cases hx : x ∈ moved ∨ x = p
          · rw [if_pos hx, if_pos (hx.imp_left (List.mem_cons_of_mem q))]
          · rw [if_neg hx]
            by_cases hxq : x = q
            · rw [hxq, Function.update_same, if_pos (Or.inl (List.mem_cons_self q moved))]
            · rw [Function.update_noteq hxq, if_neg]
              rintro (hm | hp)
              · rcases List.mem_cons.mp hm with hq | hm
                · exact hxq hq
                · exact hx (Or.inl hm)
              · exact hx (Or.inr hp)
      · rename_i hne
        simp only [bind_ok, pure_ok] at h
        obtain ⟨⟨psa, ca⟩, happ, h⟩ := h
        simp only [Prod.mk.injEq] at h
        obtain ⟨rfl, rfl, rfl⟩ := h
        obtain ⟨rest, hl, hLa, hin, hs, hsz, hlim, hd⟩ :=
          move_spec hL (by decide : ARC_LFU < 4) (by decide : ARC_LFU_GHOST < 4) hpop happ
        obtain ⟨-, href⟩ := move_refs hpop happ
        simp only [ARC_LFU, ARC_LFU_GHOST, Arc4.sel, Arc4.upd] at hl hLa hin hsz
        have hlen0 : L.lfu.length = rest.length + 1 := by rw [hl]; rfl
        rw [hrq] at hne
        refine ⟨_, [], ?_, hLa, ?_, hlim, hd, fun x => ?_⟩
        · rw [hl]
          dsimp only
          rw [if_neg hne]
        · have e1 : sub32 c.arc_list_size.lfu 1 = c.arc_list_size.lfu - 1 :=
            sub32_one (by omega) (by omega)
          have e2 : u32 (c.arc_list_size.lfu_ghost + 1) = c.arc_list_size.lfu_ghost + 1 :=
            u32_of_lt (by omega)
          refine ⟨?_, ?_, ?_, ?_⟩ <;> simp only [hsz, e1, e2, List.length_append,
            List.length_cons, List.length_nil] <;> omega
        · rw [href]
          by_cases hx : x = q
          · rw [hx, Function.update_same, if_pos (Or.inr rfl)]
          · rw [Function.update_noteq hx, if_neg]
            simp [hx]

/-- What the clock rule does to the lists: the returned page goes to the tail
of one ghost list; LRU loses a prefix; LFU becomes a suffix of the old LFU
followed by the moved pages; a page not popped stays where it was; the moved
pages had their reference bit set and are pairwise different; and the returned
page had its bit clear unless it was moved before. -/
theorem clock_rule_spec (held lim : Nat) : ∀ (fuel : Nat) {ref : Nat → Nat}
    {L L2 : Arc4 (List Nat)} {moved : List Nat} {p : Nat},
    clock_rule held lim fuel ref L = some (L2, moved, p) →
    ((L2.lru_ghost = L.lru_ghost ++ [p] ∧ L2.lfu_ghost = L.lfu_ghost) ∨
      (L2.lru_ghost = L.lru_ghost ∧ L2.lfu_ghost = L.lfu_ghost ++ [p])) ∧
    L2.lru <:+ L.lru ∧ L2.lfu <:+ L.lfu ++ moved ∧
    (∀ x, x ∈ L.lru → x ∉ moved → x ≠ p → x ∈ L2.lru) ∧
    (∀ x, x ∈ L.lfu ∨ x ∈ moved → x ≠ p → x ∈ L2.lfu) ∧
    (∀ x, x ∈ moved → ref x ≠ 0) ∧ moved.Nodup ∧ (ref p = 0 ∨ p ∈ moved) := by
  intro fuel
  induction fuel with
  | zero => intro ref L L2 moved p h; simp [clock_rule] at h
  | succ fuel ih =>
    intro ref L L2 moved p h
    obtain ⟨l0, l1, l2, l3⟩ := L
    rw [clock_rule] at h
    dsimp only at h ⊢
    -- the common part of the two rounds that move a page to the LFU tail
    have moved_step : ∀ (q : Nat) (L1 : Arc4 (List Nat)) (r : Arc4 (List Nat) × List Nat × Nat),
        ref q ≠ 0 →
        clock_rule held lim fuel (Function.update ref q 0) L1 = some r →
        (r.1, q :: r.2.1, r.2.2) = (L2, moved, p) →
        ∃ m, moved = q :: m ∧
          ((L2.lru_ghost = L1.lru_ghost ++ [p] ∧ L2.lfu_ghost = L1.lfu_ghost) ∨
            (L2.lru_ghost = L1.lru_ghost ∧ L2.lfu_ghost = L1.lfu_ghost ++ [p])) ∧
          L2.lru <:+ L1.lru ∧ L2.lfu <:+ L1.lfu ++ m ∧
          (∀ x, x ∈ L1.lru → x ∉ m → x ≠ p → x ∈ L2.lru) ∧
          (∀ x, x ∈ L1.lfu ∨ x ∈ m → x ≠ p → x ∈ L2.lfu) ∧
          (∀ x, x ∈ moved → ref x ≠ 0) ∧ moved.Nodup ∧ (ref p = 0 ∨ p ∈ moved) := by
      intro q L1 r hq hr he
      obtain ⟨La, m, pa⟩ := r
      simp only [Prod.mk.injEq] at he
      obtain ⟨rfl, rfl, rfl⟩ := he
      obtain ⟨hg, h1, h2, h3, h4, h5, h6, h7⟩ := ih hr
      have hqm : q ∉ m := fun hm => h5 q hm (Function.update_same q 0 ref)
      refine ⟨m, rfl, hg, h1, h2, h3, h4, ?_, List.nodup_cons.mpr ⟨hqm, h6⟩, ?_⟩
      · intro x hx
        rcases List.mem_cons.mp hx with rfl | hm
        · exact hq
        · have hxq : x ≠ q := fun e => hqm (e ▸ hm)
          have := h5 x hm
          rwa [Function.update_noteq hxq] at this
      · rcases h7 with h7 | h7
        · by_cases hpq : pa = q
          · exact Or.inr (hpq ▸ List.mem_cons_self _ _)
          · rw [Function.update_noteq hpq] at h7
            exact Or.inl h7
        · exact Or.inr (List.mem_cons_of_mem _ h7)
    split at h
    · -- LRU
      cases l0 with
      | nil => simp at h
      | cons q rest =>
        dsimp only at h
        split at h
        · rename_i hq
          simp only [Option.map_eq_some'] at h
          obtain ⟨r, hr, he⟩ := h
          obtain ⟨m, rfl, hg, h1, h2, h3, h4, h5, h6, h7⟩ := moved_step q _ r hq hr he
          dsimp only at hg h1 h2 h3 h4
          refine ⟨hg, h1.trans (List.suffix_cons q rest), ?_, ?_, ?_, h5, h6, h7⟩
          · rw [List.append_assoc] at h2
            exact h2
          · intro x hx hxm hxp
            have hxq : x ≠ q := fun e => hxm (e ▸ List.mem_cons_self _ _)
            rcases List.mem_cons.mp hx with e | hr
            · exact absurd e hxq
            · exact h3 x hr (fun hm => hxm (List.mem_cons_of_mem _ hm)) hxp
          · intro x hx hxp
            refine h4 x ?_ hxp
            rcases hx with hx | hx
            · exact Or.inl (List.mem_append_left _ hx)
            · rcases List.mem_cons.mp hx with e | hm
              · exact Or.inl (List.mem_append_right _ (e ▸ List.mem_singleton_self _))
              · exact Or.inr hm
        · rename_i hq
          simp only [Option.some.injEq, Prod.mk.injEq] at h
          obtain ⟨rfl, rfl, rfl⟩ := h
          dsimp only
          refine ⟨Or.inl ⟨rfl, rfl⟩, List.suffix_cons _ _, by simp, ?_, ?_, by simp, by simp,
            Or.inl (not_not.mp hq)⟩
          · intro x hx _ hxp
            rcases List.mem_cons.mp hx with e | hr
            · exact absurd e hxp
            · exact hr
          · intro x hx _
            rcases hx with hx | hx
            · exact hx
            · simp at hx
    · -- LFU
      cases l1 with
      | nil => simp at h
      | cons q rest =>
        dsimp only at h
        split at h
        · rename_i hq
          simp only [Option.map_eq_some'] at h
          obtain ⟨r, hr, he⟩ := h
          obtain ⟨m, rfl, hg, h1, h2, h3, h4, h5, h6, h7⟩ := moved_step q _ r hq hr he
          dsimp only at hg h1 h2 h3 h4
          refine ⟨hg, h1, ?_, ?_, ?_, h5, h6, h7⟩
          · rw [List.append_assoc] at h2
            have : rest ++ ([q] ++ m) <:+ (q :: rest) ++ (q :: m) := by
              rw [List.cons_append]
              exact List.suffix_cons _ _
            exact h2.trans this
          · intro x hx hxm hxp
            exact h3 x hx (fun hm => hxm (List.mem_cons_of_mem _ hm)) hxp
          · intro x hx hxp
            refine h4 x ?_ hxp
            rcases hx with hx | hx
            · rcases List.mem_cons.mp hx with e | hr
              · exact Or.inl (List.mem_append_right _ (e ▸ List.mem_singleton_self _))
              · exact Or.inl (List.mem_append_left _ hr)
            · rcases List.mem_cons.mp hx with e | hm
              · exact Or.inl (List.mem_append_right _ (e ▸ List.mem_singleton_self _))
              · exact Or.inr hm
        · rename_i hq
          simp only [Option.some.injEq, Prod.mk.injEq] at h
          obtain ⟨rfl, rfl, rfl⟩ := h
          dsimp only
          refine ⟨Or.inr ⟨rfl, rfl⟩, List.suffix_refl _, ?_, fun x hx _ _ => hx, ?_, by simp,
            by simp, Or.inl (not_not.mp hq)⟩
          · rw [List.append_nil]
            exact List.suffix_cons _ _
          · intro x hx hxp
            rcases hx with hx | hx
            · rcases List.mem_cons.mp hx with e | hr
              · exact absurd e hxp
              · exact hr
            · simp at hx

/-- A duplicate-free list that is a suffix of `t ++ moved`, holds every page of
the duplicate-free list `moved` but `p`, and does not hold `p`, ends with the
pages of `moved` other than `p`, in the order of `moved`. -/
theorem moved_at_tail {t moved l : List Nat} {p : Nat} (hs : l <:+ t ++ moved)
    (hin : ∀ x, x ∈ moved → x ≠ p → x ∈ l) (hp : p ∉ l) (hm : moved.Nodup) :
    moved.erase p <:+ l := by
  rcases List.suffix_or_suffix_of_suffix hs (List.suffix_append t moved) with h | h
  · -- `l` is a suffix of `moved`
    obtain ⟨a, ha⟩ := h
    have hall : ∀ x, x ∈ a → x = p := by
      intro x hx
      by_contra hxp
      have hxl : x ∈ l := hin x (ha ▸ List.mem_append_left _ hx) hxp
      rw [← ha] at hm
      exact (List.disjoint_of_nodup_append hm) hx hxl
    have hna : a.Nodup := by
      rw [← ha] at hm
      exact (List.nodup_append.mp hm).1
    cases a with
    | nil =>
      rw [List.nil_append] at ha
      rw [← ha, List.erase_of_not_mem hp]
    | cons x a =>
      have hx : x = p := hall x (List.mem_cons_self _ _)
      subst hx
      cases a with
      | nil =>
        rw [← ha]
        simp
      | cons y a =>
        have hy : y = x := hall y (List.mem_cons_of_mem _ (List.mem_cons_self _ _))
        subst hy
        simp at hna
  · have hpm : p ∉ moved := fun hpm => hp (h.subset hpm)
    rw [List.erase_of_not_mem hpm]
    exact h

end Clock

/-! ### The error path of complete_read -/

section ReadError

open CARState BlockCacher

/-- The payload does not look at the successor pointer. -/
theorem payload_next_blind : NextBlind payload := fun _ _ => rfl

/-- `complete_request` reads and writes the completions and the log of fired
contexts only: on a state with the same two fields it does the same to them and
leaves the rest of that state alone. -/
theorem complete_request_congr (bc bc2 : BlockCacher) (comp : Nat) (r : Int)
    (h1 : bc2.completions = bc.completions) (h2 : bc2.fired = bc.fired) :
    complete_request bc2 comp r = (complete_request bc comp r).map
      (fun b => { bc2 with completions := b.completions, fired := b.fired }) := by
  unfold complete_request get_completion
  rw [h1]
  cases hx : bc.completions[comp]? with
  | none => rfl
  | some x =>
    obtain ⟨count, rval, ctxt, deleted⟩ := x
    dsimp only
    cases deleted with
    | true => rfl
    | false =>
      simp only [bind, Except.bind, pure, Except.pure, Bool.false_eq_true, if_false]
      by_cases hc : sub32 count 1 = 0
      · simp only [hc, if_true, Except.map]
        cases ctxt with
        | user id => simp only [complete_context, h1, h2]
        | C_FlushWrite o =>
          cases o <;> simp only [complete_context, h1, h2]
      · simp only [hc, if_false, Except.map, h1, h2]

/-- `complete_request` returns on a live completion. -/
theorem complete_request_total {bc : BlockCacher} {comp : Nat} {x : BlockCacherCompletion}
    (r : Int) (h : get_completion bc comp = .ok x) : ∃ b, complete_request bc comp r = .ok b := by
  unfold complete_request
  simp only [h, bind, Except.bind, pure, Except.pure]
  split <;> exact ⟨_, rfl⟩

/-- The error branch of `complete_read`, for pages that are held: clean
descriptors without links that are on no list, each of a class `cls p` whose
counter counts it.  The loop returns; it changes the heap and the CAR state
only; each list gets the pages of its class appended in extent order; the
counters stay; each page ends with `onread = 0` and `reference = 0` and its
other payload as before; and the payload of all other descriptors stays. -/
theorem release_spec (cls : Nat → Nat) : ∀ (pe : List (Nat × Nat)) (bc : BlockCacher)
    (L : Arc4 (List Nat)),
    CarLists bc.all_pages bc.car_state L →
    (pe.map Prod.snd).Nodup →
    (∀ p, p ∈ pe.map Prod.snd → ∃ pg, bc.all_pages[p]? = some pg ∧ pg.dirty = 0 ∧
      pg.page_next = none ∧ pg.page_prev = none ∧ pg.arc_idx = cls p ∧ cls p < 4 ∧
      (∀ i, i < 4 → p ∉ L.sel i) ∧ 0 < bc.car_state.arc_list_size.sel (cls p)) →
    (∀ i, i < 4 → bc.car_state.arc_list_size.sel i < 4294967296) →
    ∃ ps2 c2 L2, release_pages pe bc = .ok { bc with all_pages := ps2, car_state := c2 } ∧
      CarLists ps2 c2 L2 ∧
      (∀ i, i < 4 → L2.sel i = L.sel i ++ (pe.map Prod.snd).filter (fun p => cls p = i)) ∧
      c2.arc_list_size = bc.car_state.arc_list_size ∧
      c2.arc_lru_limit = bc.car_state.arc_lru_limit ∧
      c2.data_pages = bc.car_state.data_pages ∧
      (∀ p pg, p ∈ pe.map Prod.snd → bc.all_pages[p]? = some pg →
        (ps2[p]?).map payload = some (payload { pg with onread := 0, reference := 0 })) ∧
      SameOff (fun x => x ∈ pe.map Prod.snd) payload bc.all_pages ps2 := by
  intro pe
  induction pe with
  | nil =>
    intro bc L hL _ _ _
    exact ⟨bc.all_pages, bc.car_state, L, rfl, hL, fun i _ => by simp, rfl, rfl, rfl,
      fun p pg hp => by simp at hp, SameOff.id_heap _ _ _⟩
  | cons op rest ih =>
    intro bc L hL hnd hheld hlt
    obtain ⟨o, p⟩ := op
    simp only [List.map_cons, List.nodup_cons] at hnd
    obtain ⟨hprest, hndrest⟩ := hnd
    obtain ⟨pg, hpg, hd, hn, hv, hcls, hc4, hout, hpos⟩ :=
      hheld p (by simp)
    -- onread = 0
    have hmod : modPage bc.all_pages p (fun x => { x with onread := 0 })
        = .ok (bc.all_pages.set p { pg with onread := 0 }) :=
      modPage_ok.mpr ⟨pg, hpg, rfl⟩
    have hp1 : (bc.all_pages.set p { pg with onread := 0 })[p]? = some { pg with onread := 0 } :=
      set_get_of_some hpg
    have hL1 : CarLists (bc.all_pages.set p { pg with onread := 0 }) bc.car_state L := by
      refine hL.congr rfl rfl (fun x hx => ?_)
      have hxp : x ≠ p := by
        rintro rfl
        obtain ⟨i, hi, hm⟩ := hx
        exact hout i hi hm
      rw [List.getElem?_set_ne (Ne.symm hxp)]
    have hc4b : ({ pg with onread := 0 } : Page).arc_idx < 4 := by
      show pg.arc_idx < 4
      rw [hcls]; exact hc4
    obtain ⟨ps2, c2, hins, hL2, hget, hfr, hsz, hlim, hdp⟩ :=
      insert_spec hL1 hp1 hd hn hv hc4b hout
        (by show 0 < bc.car_state.arc_list_size.sel pg.arc_idx; rw [hcls]; exact hpos)
        (hlt _ hc4b)
    have hpay := insert_keeps payload_next_blind hins
    change CarLists ps2 c2 (L.upd pg.arc_idx (L.sel pg.arc_idx ++ [p])) at hL2
    change SameOff (fun x => x = p ∨ bc.car_state.arc_list_foot.sel pg.arc_idx = some x) id
      (bc.all_pages.set p { pg with onread := 0 }) ps2 at hfr
    rw [hcls] at hL2 hfr
    -- the other pages of the extent are as before
    have hsame : ∀ q, q ∈ rest.map Prod.snd → ps2[q]? = bc.all_pages[q]? := by
      intro q hq
      obtain ⟨pq, hpq, -, -, -, -, -, hqout, -⟩ := hheld q (by simp [hq])
      have hqp : q ≠ p := fun e => hprest (e ▸ hq)
      have hnot : ¬ (q = p ∨ bc.car_state.arc_list_foot.sel (cls p) = some q) := by
        rintro (e | e)
        · exact hqp e
        · exact hqout _ hc4 (hL.foot_get hc4 e).1
      have := hfr.2 q hnot
      simp only [Option.map_id_fun, id_eq] at this
      rw [this, List.getElem?_set_ne (Ne.symm hqp)]
    have hsel : ∀ i, i < 4 → (L.upd (cls p) (L.sel (cls p) ++ [p])).sel i
        = L.sel i ++ (if cls p = i then [p] else []) := by
      intro i hi
      rw [Arc4.sel_upd _ _ _ _ hc4 hi]
      by_cases e : i = cls p
      · rw [if_pos e, if_pos e.symm, e]
      · rw [if_neg e, if_neg (fun h => e h.symm), List.append_nil]
    obtain ⟨ps3, c3, L3, hrel, hL3, hl3, hsz3, hlim3, hdp3, hpg3, hfr3⟩ :=
      ih { bc with all_pages := ps2, car_state := c2 } _ hL2 hndrest
        (by
          intro q hq
          obtain ⟨pq, hpq, h1, h2, h3, h4, h5, hqout, h7⟩ := hheld q (by simp [hq])
          have hqp : q ≠ p := fun e => hprest (e ▸ hq)
          refine ⟨pq, (hsame q hq).trans hpq, h1, h2, h3, h4, h5, ?_, ?_⟩
          · intro i hi hm
            rw [hsel i hi] at hm
            rcases List.mem_append.mp hm with hm | hm
            · exact hqout i hi hm
            · split at hm
              · exact hqp (List.mem_singleton.mp hm)
              · simp at hm
          · show 0 < c2.arc_list_size.sel (cls q)
            rw [hsz]; exact h7)
        (by intro i hi; show c2.arc_list_size.sel i < 4294967296; rw [hsz]; exact hlt i hi)
    dsimp only at hrel hsz3 hlim3 hdp3 hpg3 hfr3
    have hrun : release_pages ((o, p) :: rest) bc
        = .ok { bc with all_pages := ps3, car_state := c3 } := by
      rw [release_pages]
      simp only [hmod, car_insert_page, hins, bind, Except.bind, pure, Except.pure]
      exact hrel
    refine ⟨ps3, c3, L3, hrun, hL3, ?_, hsz3.trans hsz, hlim3.trans hlim, hdp3.trans hdp,
      ?_, ?_⟩
    · intro i hi
      rw [hl3 i hi, hsel i hi, List.map_cons, List.filter_cons, List.append_assoc]
      by_cases e : cls p = i
      · simp [e]
      · simp [e]
    · intro q pq hq hpq
      rcases List.mem_cons.mp hq with e | hq
      · subst e
        rw [hpg] at hpq
        cases hpq
        have := hfr3.2 q hprest
        rw [this, hget]
        rfl
      · exact hpg3 q pq hq ((hsame q hq).trans hpq)
    · refine ⟨hfr3.1.trans (hpay.1.trans (List.length_set _ _ _)), fun x hx => ?_⟩
      have hxp : x ≠ p := fun e => hx (e ▸ List.mem_cons_self _ _)
      have hxr : x ∉ rest.map Prod.snd := fun e => hx (List.mem_cons_of_mem _ e)
      rw [hfr3.2 x hxr, hpay.2 x hxp, List.getElem?_set_ne (Ne.symm hxp)]

end ReadError

/-! ### Doubly linked lists -/

section DoublyLinked

/-- The head pointer of a chain is its first member. -/
theorem Chain.head_eq {ps : List Page} {l : List Nat} {h : Option Nat} (hc : Chain ps h l) :
    h = l.head? := by
  cases l with
  | nil => exact hc
  | cons p l => exact hc.1

/-- Inside a chain, the successor pointer of a member is the next member. -/
theorem Chain.at_split {ps : List Page} {p : Nat} {b : List Nat} : ∀ {a : List Nat}
    {h : Option Nat}, Chain ps h (a ++ p :: b) →
    ∃ pg, ps[p]? = some pg ∧ pg.page_next = b.head? ∧ Chain ps b.head? b := by
  intro a
  induction a with
  | nil =>
    intro h hc
    obtain ⟨-, pg, hpg, hrest⟩ := hc
    exact ⟨pg, hpg, hrest.head_eq, hrest.head_eq ▸ hrest⟩
  | cons q a ih =>
    intro h hc
    obtain ⟨-, pg, hpg, hrest⟩ := hc
    exact ih hrest

/-- Unlinking `p` from a chain: when the predecessor of `p` gets the successor
of `p` as its successor and the other members keep their links, the chain is
the old one without `p`. -/
theorem Chain.unlink {ps : List Page} (ps2 : List Page) {p : Nat} {b : List Nat} : ∀ {a : List Nat}
    {h : Option Nat}, Chain ps h (a ++ p :: b) → (a ++ p :: b).Nodup →
    (∀ x, x ∈ a ++ b → a.getLast? ≠ some x → (ps2[x]?).map links = (ps[x]?).map links) →
    (∀ q, a.getLast? = some q → ∃ pq2, ps2[q]? = some pq2 ∧ pq2.page_next = b.head?) →
    Chain ps2 (a ++ b).head? (a ++ b) := by
  intro a
  induction a with
  | nil =>
    intro h hc _ hs _
    obtain ⟨-, pg, hpg, hrest⟩ := hc
    rw [List.nil_append]
    exact (hrest.head_eq ▸ hrest).frame (fun x hx => hs x (by simpa using hx) (by simp))
  | cons q a ih =>
    intro h hc hnd hs hlast
    obtain ⟨-, pq, hpq, hrest⟩ := hc
    have hnd2 : (a ++ p :: b).Nodup := (List.nodup_cons.mp hnd).2
    have hqn : q ∉ a ++ p :: b := (List.nodup_cons.mp hnd).1
    cases a with
    | nil =>
      obtain ⟨pq2, hpq2, hn2⟩ := hlast q rfl
      obtain ⟨-, pg, hpg, hb⟩ := hrest
      refine ⟨rfl, pq2, hpq2, ?_⟩
      rw [hn2]
      refine (hb.head_eq ▸ hb).frame (fun x hx => hs x (by simp [hx]) ?_)
      intro e
      simp only [List.getLast?_singleton, Option.some.injEq] at e
      exact hqn (by simp [e, hx])
    | cons r a =>
      have hih := ih hrest hnd2
        (fun x hx hl => hs x (List.mem_cons_of_mem _ hx)
          (by rwa [List.getLast?_cons_cons]))
        (fun x hl => hlast x (by rwa [List.getLast?_cons_cons]))
      have hq := hs q (by simp) (by
        rw [List.getLast?_cons_cons]
        intro e
        have : q ∈ r :: a := List.mem_of_getLast?_eq_some e
        exact hqn (List.mem_append_left _ this))
      rw [hpq] at hq
      cases h2 : ps2[q]? with
      | none => simp [h2] at hq
      | some pq2 =>
        simp [h2, links] at hq
        refine ⟨rfl, pq2, h2, ?_⟩
        rw [hq.1, hrest.head_eq]
        exact hih

/-- A lookup in the mirrored heap. -/
theorem mirror_get (ps : List Page) (x : Nat) : (ps.map mirror)[x]? = (ps[x]?).map mirror :=
  List.getElem?_map mirror ps x

/-- In a doubly linked list the pointers of a member are its neighbours. -/
theorem DList.neighbours {ps : List Page} {hd ft : Option Nat} {a b : List Nat} {p : Nat}
    (h : DList ps hd ft (a ++ p :: b)) :
    ∃ pg, ps[p]? = some pg ∧ pg.page_next = b.head? ∧ pg.page_prev = a.getLast? := by
  obtain ⟨pg, hpg, hn, -⟩ := h.fwd.at_split
  have hb := h.bwd
  rw [List.reverse_append, List.reverse_cons, List.append_assoc, List.singleton_append] at hb
  obtain ⟨pm, hpm, hm, -⟩ := hb.at_split
  rw [mirror_get, hpg] at hpm
  simp only [Option.map_some', Option.some.injEq] at hpm
  subst hpm
  refine ⟨pg, hpg, hn, ?_⟩
  rw [List.head?_reverse] at hm
  exact hm

/-- The foot of a doubly linked list is its last member. -/
theorem DList.foot_eq {ps : List Page} {hd ft : Option Nat} {l : List Nat}
    (h : DList ps hd ft l) : ft = l.getLast? := by
  rw [h.bwd.head_eq, List.head?_reverse]

/-- Unlinking a member `p` of a doubly linked list: the predecessor gets the
successor of `p` as successor, the successor gets the predecessor of `p` as
predecessor, and the other members are unchanged. -/
theorem DList.without {ps ps2 : List Page} {hd ft : Option Nat} {a b : List Nat} {p : Nat}
    (h : DList ps hd ft (a ++ p :: b))
    (h2 : ∀ x, x ∈ a ++ b → a.getLast? ≠ some x → b.head? ≠ some x → ps2[x]? = ps[x]?)
    (h3 : ∀ q, a.getLast? = some q →
      ∃ pq, ps[q]? = some pq ∧ ps2[q]? = some { pq with page_next := b.head? })
    (h4 : ∀ q, b.head? = some q →
      ∃ pq, ps[q]? = some pq ∧ ps2[q]? = some { pq with page_prev := a.getLast? }) :
    DList ps2 (a ++ b).head? (a ++ b).getLast? (a ++ b) := by
  have hnd := h.nodup
  have hab : ∀ q, a.getLast? = some q → b.head? ≠ some q := by
    intro q hq e
    have h1 : q ∈ a := List.mem_of_getLast?_eq_some hq
    have h2 : q ∈ b := List.mem_of_mem_head? e
    have := (List.nodup_append.mp hnd).2.2
    exact this h1 (List.mem_cons_of_mem _ h2)
  refine ⟨?_, ?_, ?_⟩
  · refine h.fwd.unlink ps2 hnd (fun x hx hl => ?_) (fun q hq => ?_)
    · by_cases e : b.head? = some x
      · obtain ⟨pq, hpq, hpq2⟩ := h4 x e
        rw [hpq, hpq2]
        rfl
      · rw [h2 x hx hl e]
    · obtain ⟨pq, -, hpq2⟩ := h3 q hq
      exact ⟨_, hpq2, rfl⟩
  · have hb := h.bwd
    rw [List.reverse_append, List.reverse_cons, List.append_assoc, List.singleton_append] at hb
    have hnd2 : (b.reverse ++ p :: a.reverse).Nodup := by
      have := List.nodup_reverse.mpr hnd
      rwa [List.reverse_append, List.reverse_cons, List.append_assoc, List.singleton_append]
        at this
    have := hb.unlink (ps2.map mirror) hnd2 (fun x hx hl => ?_) (fun q hq => ?_)
    · rw [List.reverse_append, ← List.head?_reverse, List.reverse_append]
      exact this
    · rw [List.getLast?_reverse] at hl
      have hx2 : x ∈ a ++ b := by
        rcases List.mem_append.mp hx with hx | hx
        · exact List.mem_append_right _ (List.mem_reverse.mp hx)
        · exact List.mem_append_left _ (List.mem_reverse.mp hx)
      rw [mirror_get, mirror_get]
      by_cases e : a.getLast? = some x
      · obtain ⟨pq, hpq, hpq2⟩ := h3 x e
        rw [hpq, hpq2]
        rfl
      · rw [h2 x hx2 e hl]
    · rw [List.getLast?_reverse] at hq
      obtain ⟨pq, -, hpq2⟩ := h4 q hq
      refine ⟨_, by rw [mirror_get, hpq2]; rfl, ?_⟩
      rw [List.head?_reverse]
      rfl
  · have := List.nodup_append.mp hnd
    refine List.nodup_append.mpr ⟨this.1, (List.nodup_cons.mp this.2.1).2, ?_⟩
    intro x hx hxb
    exact this.2.2 hx (List.mem_cons_of_mem _ hxb)

end DoublyLinked

/-! ### The dirty FIFO -/

section DirtyFifo

open DirtyPageState

/-- The payload does not look at the predecessor pointer either. -/
theorem payload_set_links (pg : Page) (n v : Option Nat) :
    payload { pg with page_next := n, page_prev := v } = payload pg := rfl

/-- An optional update of a successor or predecessor pointer: it succeeds when
the target exists, and changes that descriptor only. -/
theorem opt_mod_spec (ps : List Page) (o : Option Nat) (g : Page → Page)
    (ho : ∀ q, o = some q → ∃ pq, ps[q]? = some pq) :
    ∃ ps1, (match o with
        | some q => modPage ps q g
        | none => pure ps : Except Fault (List Page)) = .ok ps1 ∧
      ps1.length = ps.length ∧ (∀ x, o ≠ some x → ps1[x]? = ps[x]?) ∧
      (∀ q pq, o = some q → ps[q]? = some pq → ps1[q]? = some (g pq)) ∧
      ((∀ pg, payload (g pg) = payload pg) →
        ∀ x : Nat, (ps1[x]?).map payload = (ps[x]?).map payload) := by
  cases o with
  | none =>
    exact ⟨ps, rfl, rfl, fun _ _ => rfl, fun q pq e => Option.noConfusion e, fun _ _ => rfl⟩
  | some q =>
    obtain ⟨pq, hpq⟩ := ho q rfl
    refine ⟨ps.set q (g pq), modPage_ok.mpr ⟨pq, hpq, rfl⟩, List.length_set _ _ _, ?_, ?_, ?_⟩
    · intro x hx
      rw [List.getElem?_set_ne (fun e => hx (by rw [e]))]
    · intro q2 pq2 e h2
      cases e
      rw [hpq] at h2
      cases h2
      exact set_get_of_some hpq
    · intro hg x
      by_cases e : x = q
      · subst e
        rw [set_get_of_some hpq, hpq]
        exact congrArg some (hg pq)
      · rw [List.getElem?_set_ne (Ne.symm e)]

/-- The same optional update in a step whose `NULL` branch is a computation
that returns the heap unchanged with the state `k`. -/
theorem opt_mod_with {σ : Type} {ps ps1 : List Page} {o : Option Nat} {g : Page → Page}
    (s k : σ) (kx : Except Fault (List Page × σ)) (hk : kx = .ok (ps, k)) :
    (match o with
      | some q => modPage ps q g
      | none => pure ps : Except Fault (List Page)) = .ok ps1 →
    (match o with
      | some q => do
        let ps ← modPage ps q g
        pure (ps, s)
      | none => kx : Except Fault (List Page × σ))
      = .ok (ps1, if o.isSome then s else k) := by
  intro h
  cases o with
  | none =>
    simp only [pure_ok] at h
    subst h
    exact hk
  | some q =>
    dsimp only at h ⊢
    rw [h]
    rfl

/-- The two unlinking steps shared by `mark_dirty` and `_remove_page`, for a
member `g` of a doubly linked list: the pointers of `g` are its neighbours, both
steps succeed, the list without `g` is doubly linked in the new heap, `g`
itself is unchanged, and nothing but pointers of the two neighbours changes. -/
theorem unlink_steps {ps : List Page} {hd ft : Option Nat} {a b : List Nat} {g : Nat}
    {pg : Page} (hD : DList ps hd ft (a ++ g :: b)) (hpg : ps[g]? = some pg) :
    pg.page_next = b.head? ∧ pg.page_prev = a.getLast? ∧ g ∉ a ++ b ∧
    ∃ ps1 psU,
      (match a.getLast? with
        | some q => modPage ps q (fun x => { x with page_next := b.head? })
        | none => pure ps : Except Fault (List Page)) = .ok ps1 ∧
      (match b.head? with
        | some q => modPage ps1 q (fun x => { x with page_prev := a.getLast? })
        | none => pure ps1 : Except Fault (List Page)) = .ok psU ∧
      DList psU (a ++ b).head? (a ++ b).getLast? (a ++ b) ∧
      ps1[g]? = some pg ∧ psU[g]? = some pg ∧
      (∀ x, x ∉ a ++ b → psU[x]? = ps[x]?) ∧
      (∀ x : Nat, (psU[x]?).map payload = (ps[x]?).map payload) ∧
      psU.length = ps.length := by
  have hnd := hD.nodup
  have hsp := List.nodup_append.mp hnd
  have hpa : g ∉ a := fun h => hsp.2.2 h (List.mem_cons_self _ _)
  have hpb : g ∉ b := (List.nodup_cons.mp hsp.2.1).1
  obtain ⟨pg0, hpg0, hn, hv⟩ := hD.neighbours
  rw [hpg] at hpg0
  cases hpg0
  have hget : ∀ x, x ∈ a ++ g :: b → ∃ px, ps[x]? = some px := fun x hx =>
    hD.fwd.mem_get hx
  have hla : ∀ q, a.getLast? = some q → q ∈ a := fun q hq => List.mem_of_getLast?_eq_some hq
  have hhb : ∀ q, b.head? = some q → q ∈ b := fun q hq => List.mem_of_mem_head? hq
  have hab : ∀ q, a.getLast? = some q → b.head? ≠ some q := fun q hq e =>
    hsp.2.2 (hla q hq) (List.mem_cons_of_mem _ (hhb q e))
  obtain ⟨ps1, h1, l1, k1, m1, y1⟩ := opt_mod_spec ps a.getLast?
    (fun x => { x with page_next := b.head? })
    (fun q hq => hget q (List.mem_append_left _ (hla q hq)))
  obtain ⟨psU, h2, lU, kU, mU, yU⟩ := opt_mod_spec ps1 b.head?
    (fun x => { x with page_prev := a.getLast? })
    (fun q hq => by
      obtain ⟨px, hpx⟩ := hget q (List.mem_append_right _ (List.mem_cons_of_mem _ (hhb q hq)))
      exact ⟨px, by rw [k1 q (fun e => hab q e hq)]; exact hpx⟩)
  have hDU : DList psU (a ++ b).head? (a ++ b).getLast? (a ++ b) := by
    refine hD.without (fun x _ hl hh => ?_) (fun q hq => ?_) (fun q hq => ?_)
    · rw [kU x hh, k1 x hl]
    · obtain ⟨pq, hpq⟩ := hget q (List.mem_append_left _ (hla q hq))
      exact ⟨pq, hpq, by rw [kU q (hab q hq)]; exact m1 q pq hq hpq⟩
    · obtain ⟨pq, hpq⟩ := hget q (List.mem_append_right _ (List.mem_cons_of_mem _ (hhb q hq)))
      exact ⟨pq, hpq, mU q pq hq (by rw [k1 q (fun e => hab q e hq)]; exact hpq)⟩
  have hp1 : ps1[g]? = some pg := by
    rw [k1 g (fun e => hpa (hla g e))]
    exact hpg
  refine ⟨hn, hv, fun h => (List.mem_append.mp h).elim hpa hpb, ps1, psU, h1, h2, hDU, hp1, ?_,
    ?_, ?_, by rw [lU, l1]⟩
  · rw [kU g (fun e => hpb (hhb g e))]
    exact hp1
  · intro x hx
    rw [kU x (fun e => hx (List.mem_append_right _ (hhb x e))),
      k1 x (fun e => hx (List.mem_append_left _ (hla x e)))]
  · intro x
    rw [yU (fun _ => rfl) x, y1 (fun _ => rfl) x]

end DirtyFifo

/-! ### _remove_page and get_ghost_page -/

section GhostPage

open CARState

/-- `_pop_head_page` returns on a non-empty well-formed list. -/
theorem pop_total {ps : List Page} {c : CARState} {L : Arc4 (List Nat)} {idx q : Nat}
    {rest : List Nat} (hL : CarLists ps c L) (hidx : idx < 4) (hl : L.sel idx = q :: rest) :
    ∃ r, _pop_head_page ps c idx = .ok r := by
  have hch := hL.chain idx hidx
  rw [hl] at hch
  obtain ⟨hh, pg, hpg, hrest⟩ := hch
  obtain ⟨ps1, h1, l1, -, -, -⟩ := opt_mod_spec ps pg.page_next
    (fun x => { x with page_prev := none })
    (fun n hn => by
      rw [hn] at hrest
      obtain ⟨r2, pn, -, hpn, -⟩ := hrest.of_some
      exact ⟨pn, hpn⟩)
  have hq1 : q < ps1.length := by
    rw [l1]
    by_contra hc
    rw [List.getElem?_eq_none (by omega)] at hpg
    cases hpg
  have h2 : modPage ps1 q (fun x => { x with page_next := none, page_prev := none })
      = .ok (ps1.set q { ps1[q] with page_next := none, page_prev := none }) := by
    simp only [modPage, List.getElem?_eq_getElem hq1]
  have h3 : ∃ foots, (if pg.page_next.isNone then c.arc_list_foot.set idx none
      else pure c.arc_list_foot : Except Fault (Arc4 (Option Nat))) = .ok foots := by
    split
    · exact ⟨_, Arc4.set_upd _ hidx _⟩
    · exact ⟨_, rfl⟩
  obtain ⟨foots, h3⟩ := h3
  have hq2 : q < (ps1.set q { ps1[q] with page_next := none, page_prev := none }).length := by
    rw [List.length_set]
    exact hq1
  have h4 : modPage (ps1.set q { ps1[q] with page_next := none, page_prev := none }) q
      (fun x => { x with arc_idx := ARC_COUNT }) = .ok
        ((ps1.set q { ps1[q] with page_next := none, page_prev := none }).set q
          { (ps1.set q { ps1[q] with page_next := none, page_prev := none })[q] with
            arc_idx := ARC_COUNT }) := by
    simp only [modPage, List.getElem?_eq_getElem hq2]
  simp only [CARState._pop_head_page, bind_ok, pure_ok, getPage_ok, deref_ok]
  exact ⟨_, _, Arc4.get_sel _ hidx, q, hh, pg, hpg, ps1, h1, _, Arc4.set_upd _ hidx _, _, h2,
    foots, h3, _, Arc4.get_sel _ hidx, _, Arc4.set_upd _ hidx _, _, h4, rfl⟩

/-- `_remove_page(g)` for a member `g` of a CAR list that is linked in both
directions and carries the class of that list: the call returns, the list loses
`g` and keeps the order of the others, the other lists are as before, `g` ends
without links and with class `ARC_COUNT`, the counter of the list goes down by
one, and nothing else changes but pointers of members of that list. -/
theorem remove_spec {ps : List Page} {c : CARState} {L : Arc4 (List Nat)} {idx g : Nat}
    {pg : Page} (hL : CarLists ps c L) (hidx : idx < 4) (hg : g ∈ L.sel idx)
    (hpg : ps[g]? = some pg) (hcls : pg.arc_idx = idx)
    (hb : Chain (ps.map mirror) (c.arc_list_foot.sel idx) (L.sel idx).reverse) :
    ∃ ps2 c2, _remove_page ps c g = .ok (ps2, c2) ∧
      CarLists ps2 c2 (L.upd idx ((L.sel idx).erase g)) ∧
      Chain (ps2.map mirror) (c2.arc_list_foot.sel idx) ((L.sel idx).erase g).reverse ∧
      ps2[g]? = some { pg with arc_idx := ARC_COUNT, page_prev := none, page_next := none } ∧
      c2.arc_list_size = c.arc_list_size.upd idx (sub32 (c.arc_list_size.sel idx) 1) ∧
      c2.arc_lru_limit = c.arc_lru_limit ∧ c2.data_pages = c.data_pages ∧
      (∀ x, x ∉ L.sel idx → ps2[x]? = ps[x]?) ∧
      (∀ x, x ≠ g → (ps2[x]?).map payload = (ps[x]?).map payload) := by
  obtain ⟨a, b, hab⟩ := List.append_of_mem hg
  have hD : DList ps (c.arc_list_head.sel idx) (c.arc_list_foot.sel idx) (a ++ g :: b) :=
    hab ▸ ⟨hL.chain idx hidx, hb, hL.nodup idx hidx⟩
  obtain ⟨hn, hv, hgab, ps1, psU, h1, h2, hDU, hp1, hpU, hfrU, hpayU, hlenU⟩ :=
    unlink_steps hD hpg
  have hga : g ∉ a := fun h => hgab (List.mem_append_left _ h)
  have herase : (L.sel idx).erase g = a ++ b := by
    rw [hab, List.erase_append_right _ hga, List.erase_cons_head]
  rw [herase]
  have hhead : c.arc_list_head.sel idx = (a ++ g :: b).head? := hD.fwd.head_eq
  have hfoot : c.arc_list_foot.sel idx = (a ++ g :: b).getLast? := hD.foot_eq
  -- the heads and feet after the two steps
  have e1 : (if a.getLast?.isSome then c.arc_list_head else c.arc_list_head.upd idx b.head?)
      = c.arc_list_head.upd idx (a ++ b).head? := by
    cases a with
    | nil => rfl
    | cons x a =>
      have : (x :: a).getLast?.isSome = true := by
        rw [List.getLast?_isSome]
        exact List.cons_ne_nil _ _
      rw [if_pos this]
      simp only [List.cons_append, List.head?_cons] at hhead ⊢
      rw [← hhead, Arc4.upd_sel]
  have e2 : (if b.head?.isSome then c.arc_list_foot else c.arc_list_foot.upd idx a.getLast?)
      = c.arc_list_foot.upd idx (a ++ b).getLast? := by
    cases b with
    | nil => simp
    | cons x b =>
      have hb1 : (a ++ x :: b).getLast? = (a ++ g :: x :: b).getLast? := by
        rw [List.getLast?_append_of_ne_nil _ (List.cons_ne_nil _ _),
          List.getLast?_append_of_ne_nil _ (List.cons_ne_nil _ _), List.getLast?_cons_cons]
      simp only [List.head?_cons, Option.isSome_some, if_true]
      rw [hb1, ← hfoot, Arc4.upd_sel]
  have hmod : modPage psU g
      (fun x => { x with arc_idx := ARC_COUNT, page_prev := none, page_next := none })
      = .ok (psU.set g { pg with arc_idx := ARC_COUNT, page_prev := none, page_next := none }) :=
    modPage_ok.mpr ⟨pg, hpU, rfl⟩
  have hother : ∀ x, x ≠ g →
      (psU.set g { pg with arc_idx := ARC_COUNT, page_prev := none, page_next := none })[x]?
        = psU[x]? := fun x hx => List.getElem?_set_ne (Ne.symm hx)
  refine ⟨psU.set g { pg with arc_idx := ARC_COUNT, page_prev := none, page_next := none },
    { c with
      arc_list_size := c.arc_list_size.upd idx (sub32 (c.arc_list_size.sel idx) 1)
      arc_list_head := c.arc_list_head.upd idx (a ++ b).head?
      arc_list_foot := c.arc_list_foot.upd idx (a ++ b).getLast? },
    ?_, ?_, ?_, set_get_of_some hpU, rfl, rfl, rfl, ?_, ?_⟩
  · simp only [CARState._remove_page, bind_ok, pure_ok, getPage_ok]
    refine ⟨pg, hpg, _, Arc4.get_sel _ (hcls ▸ hidx), _, Arc4.set_upd _ (hcls ▸ hidx) _, ?_⟩
    rw [hcls, hv, hn]
    refine ⟨(ps1, { c with
        arc_list_size := c.arc_list_size.upd idx (sub32 (c.arc_list_size.sel idx) 1)
        arc_list_head := c.arc_list_head.upd idx (a ++ b).head? }), ?_, ?_⟩
    · rw [← e1]
      have hk2 : ({ c with
            arc_list_size := c.arc_list_size.upd idx (sub32 (c.arc_list_size.sel idx) 1)
            arc_list_head := if a.getLast?.isSome then c.arc_list_head
              else c.arc_list_head.upd idx b.head? } : CARState)
          = (if a.getLast?.isSome
            then ({ c with arc_list_size :=
                      c.arc_list_size.upd idx (sub32 (c.arc_list_size.sel idx) 1) } : CARState)
            else { c with
              arc_list_size := c.arc_list_size.upd idx (sub32 (c.arc_list_size.sel idx) 1)
              arc_list_head := c.arc_list_head.upd idx b.head? }) := by
        generalize a.getLast? = o
        cases o <;> rfl
      rw [hk2]
      exact opt_mod_with _ _ _ (by rw [Arc4.set_upd _ hidx]; rfl) h1
    · dsimp only
      refine ⟨pg, hp1, ?_⟩
      rw [hcls, hv, hn]
      refine ⟨(psU, { c with
        arc_list_size := c.arc_list_size.upd idx (sub32 (c.arc_list_size.sel idx) 1)
        arc_list_head := c.arc_list_head.upd idx (a ++ b).head?
        arc_list_foot := c.arc_list_foot.upd idx (a ++ b).getLast? }), ?_, _, hmod, rfl⟩
      rw [← e2]
      have hk2 : ({ c with
            arc_list_size := c.arc_list_size.upd idx (sub32 (c.arc_list_size.sel idx) 1)
            arc_list_head := c.arc_list_head.upd idx (a ++ b).head?
            arc_list_foot := if b.head?.isSome then c.arc_list_foot
              else c.arc_list_foot.upd idx a.getLast? } : CARState)
          = (if b.head?.isSome
            then ({ c with
              arc_list_size := c.arc_list_size.upd idx (sub32 (c.arc_list_size.sel idx) 1)
              arc_list_head := c.arc_list_head.upd idx (a ++ b).head? } : CARState)
            else { c with
              arc_list_size := c.arc_list_size.upd idx (sub32 (c.arc_list_size.sel idx) 1)
              arc_list_head := c.arc_list_head.upd idx (a ++ b).head?
              arc_list_foot := c.arc_list_foot.upd idx a.getLast? }) := by
        generalize b.head? = o
        cases o <;> rfl
      rw [hk2]
      exact opt_mod_with _ _ _ (by rw [Arc4.set_upd _ hidx]; rfl) h2
  · -- the four lists
    have hsel : ∀ i, i < 4 → (L.upd idx (a ++ b)).sel i = if i = idx then a ++ b else L.sel i :=
      fun i hi => Arc4.sel_upd _ _ _ _ hidx hi
    have hsub : ∀ x, x ∈ a ++ b → x ∈ L.sel idx := by
      intro x hx
      rw [hab]
      rcases List.mem_append.mp hx with h | h
      · exact List.mem_append_left _ h
      · exact List.mem_append_right _ (List.mem_cons_of_mem _ h)
    have hmem : ∀ i, i < 4 → ∀ x, x ∈ (L.upd idx (a ++ b)).sel i → x ∈ L.sel i := by
      intro i hi x hx
      rw [hsel i hi] at hx
      split at hx
      · rename_i e
        rw [e]
        exact hsub x hx
      · exact hx
    refine ⟨fun i hi => ?_, fun i hi => ?_, fun i hi => ?_, fun i j hi hj hij x hx hx2 => ?_⟩
    · show Chain _ ((c.arc_list_head.upd idx (a ++ b).head?).sel i) _
      rw [hsel i hi, Arc4.sel_upd _ _ _ _ hidx hi]
      by_cases e : i = idx
      · rw [if_pos e, if_pos e]
        exact hDU.fwd.frame (fun x hx => by rw [hother x (fun e2 => hgab (e2 ▸ hx))])
      · rw [if_neg e, if_neg e]
        refine (hL.chain i hi).frame (fun x hx => ?_)
        have hx2 : x ∉ L.sel idx := hL.disjoint i idx hi hidx e x hx
        have hxg : x ≠ g := fun e2 => hx2 (e2 ▸ hg)
        rw [hother x hxg, hfrU x (fun h => hx2 (hsub x h))]
    · show (c.arc_list_foot.upd idx (a ++ b).getLast?).sel i = _
      rw [hsel i hi, Arc4.sel_upd _ _ _ _ hidx hi]
      by_cases e : i = idx
      · rw [if_pos e, if_pos e]
      · rw [if_neg e, if_neg e]
        exact hL.foot i hi
    · rw [hsel i hi]
      by_cases e : i = idx
      · rw [if_pos e]
        exact hDU.nodup
      · rw [if_neg e]
        exact hL.nodup i hi
    · exact hL.disjoint i j hi hj hij x (hmem i hi x hx) (hmem j hj x hx2)
  · show Chain _ ((c.arc_list_foot.upd idx (a ++ b).getLast?).sel idx) _
    rw [Arc4.sel_upd _ _ _ _ hidx hidx, if_pos rfl]
    refine hDU.bwd.frame (fun x hx => ?_)
    have hx2 : x ∈ a ++ b := by
      rw [← List.mem_reverse]
      exact hx
    rw [mirror_get, mirror_get, hother x (fun e2 => hgab (e2 ▸ hx2))]
  · intro x hx
    have hxg : x ≠ g := fun e2 => hx (e2 ▸ hg)
    rw [hother x hxg]
    refine hfrU x (fun h => hx ?_)
    rw [hab]
    rcases List.mem_append.mp h with h | h
    · exact List.mem_append_left _ h
    · exact List.mem_append_right _ (List.mem_cons_of_mem _ h)
  · intro x hx
    rw [hother x hx, hpayU x]

end GhostPage

/-! ### The scenario clock_state -/

section ClockState

/-- The lists of `Scenario.clock_state`. -/
theorem clock_state_lists :
    CarLists Scenario.clock_state.1 Scenario.clock_state.2 ⟨[0, 1], [2], [3], [4]⟩ where
  chain i hi := by
    interval_cases i <;> simp [Scenario.clock_state, Arc4.sel, Chain]
  foot i hi := by
    interval_cases i <;> rfl
  nodup i hi := by
    interval_cases i <;> simp [Arc4.sel]
  disjoint i j hi hj hij x := by
    interval_cases i <;> interval_cases j <;> simp [Arc4.sel] at hij ⊢ <;> omega

end ClockState

/-! ### The scenario fifo_state -/

section FifoState

end FifoState

/-! ### lower_bound on an ordered index -/

section LowerBound

open PageRBTree

/-- Dropping a prefix whose elements all pass the test. -/
theorem dropWhile_append_pass {α : Type} (p : α → Bool) : ∀ (a b : List α),
    (∀ x ∈ a, p x = true) → (a ++ b).dropWhile p = b.dropWhile p
  | [], _, _ => rfl
  | x :: a, b, h => by
    rw [List.cons_append, List.dropWhile_cons_of_pos (h x (List.mem_cons_self _ _))]
    exact dropWhile_append_pass p a b (fun y hy => h y (List.mem_cons_of_mem _ hy))

/-- Nothing is dropped from a list whose elements all fail the test. -/
theorem dropWhile_fail {α : Type} (p : α → Bool) : ∀ (l : List α),
    (∀ x ∈ l, p x = false) → l.dropWhile p = l
  | [], _ => rfl
  | x :: l, h => by
    rw [List.dropWhile_cons_of_neg]
    rw [h x (List.mem_cons_self _ _)]
    exact Bool.false_ne_true

/-- The iteration from the iterator at node `n` to `end()`. -/
theorem from_iterator_at (T : PageRBTree) (n : Nat) (a b : List Nat)
    (h : inorder T = a ++ n :: b) (hn : n ∉ a) : from_iterator T (some n) = n :: b := by
  unfold from_iterator
  dsimp only
  rw [h, dropWhile_append_pass _ a _ (fun x hx => by
    have : x ≠ n := fun e => hn (e ▸ hx)
    simpa using this)]
  rw [List.dropWhile_cons_of_neg]
  simp

/-- One round of the loop of `lower_bound` at a descriptor of the heap. -/
theorem advance_cons (ps : List Page) (o n : Nat) (t : List Nat) (h : n < ps.length) :
    lower_bound_advance ps o (n :: t)
      = if o > offset_of ps n then lower_bound_advance ps o t else .ok (n :: t) := by
  simp only [lower_bound_advance, getPage, offset_of, List.getElem?_eq_getElem h]
  rfl

/-- The loop of `lower_bound` stops at once on pages above `o`. -/
theorem advance_above (ps : List Page) (o : Nat) (l : List Nat)
    (hv : ∀ x ∈ l, x < ps.length) (h : ∀ x ∈ l, o < offset_of ps x) :
    lower_bound_advance ps o l = .ok l := by
  cases l with
  | nil => rfl
  | cons n t =>
    rw [advance_cons ps o n t (hv n (List.mem_cons_self _ _)), if_neg]
    have := h n (List.mem_cons_self _ _)
    omega

/-- One step of the descent of `lower_bound` at a descriptor of the heap. -/
theorem descent_node (ps : List Page) (o n : Nat) (l r : PageRBTree) (parent : Option Nat)
    (h : n < ps.length) :
    lower_bound_descent ps o (node l n r) parent
      = if o < offset_of ps n then lower_bound_descent ps o l (some n)
        else if o > offset_of ps n then lower_bound_descent ps o r (some n)
        else .ok (some n) := by
  simp only [lower_bound_descent, getPage, offset_of, List.getElem?_eq_getElem h]
  rfl

/-- The descent of `lower_bound` into the subtree `t` of the ordered index `T`,
followed by the loop: when the nodes before `t` lie below `o` and the nodes
after `t` above, the result is the iteration from the first node that is not
below `o`. -/
theorem descent_spec (ps : List Page) (o : Nat) (T : PageRBTree)
    (hv : ∀ n ∈ T.inorder, n < ps.length)
    (hs : T.inorder.Pairwise (fun a b => offset_of ps a < offset_of ps b)) :
    ∀ (t : PageRBTree) (parent : Option Nat) (pre post : List Nat),
      T.inorder = pre ++ (t.inorder ++ post) →
      (∀ x ∈ pre, offset_of ps x < o) → (∀ x ∈ post, o < offset_of ps x) →
      (t = nil → lower_bound_advance ps o (from_iterator T parent) = .ok post) →
      ∃ it, lower_bound_descent ps o t parent = .ok it ∧
        lower_bound_advance ps o (from_iterator T it)
          = .ok (T.inorder.dropWhile (fun n => decide (offset_of ps n < o))) := by
  intro t
  induction t with
  | nil =>
    intro parent pre post hT hpre hpost hnil
    refine ⟨parent, rfl, ?_⟩
    rw [hnil rfl, hT, dropWhile_append_pass _ pre _ (fun x hx => by simpa using hpre x hx)]
    simp only [inorder, List.nil_append]
    rw [dropWhile_fail _ post (fun x hx => by
      have := hpost x hx
      simp only [decide_eq_false_iff_not]
      omega)]
  | node l n r ihl ihr =>
    intro parent pre post hT hpre hpost _
    simp only [inorder] at hT
    have hT2 : T.inorder = (pre ++ l.inorder) ++ n :: (r.inorder ++ post) := by
      rw [hT]; simp
    have hnv : n < ps.length := hv n (by rw [hT2]; simp)
    rw [hT2] at hs
    obtain ⟨hsa, hsb, hsab⟩ := List.pairwise_append.mp hs
    have hbelow : ∀ x ∈ pre ++ l.inorder, offset_of ps x < offset_of ps n :=
      fun x hx => hsab x hx n (List.mem_cons_self _ _)
    have habove : ∀ x ∈ r.inorder ++ post, offset_of ps n < offset_of ps x :=
      fun x hx => (List.pairwise_cons.mp hsb).1 x hx
    have hnot : n ∉ pre ++ l.inorder := fun hx => Nat.lt_irrefl _ (hbelow n hx)
    have hfrom := from_iterator_at T n _ _ hT2 hnot
    have hpostv : ∀ x ∈ post, x < ps.length := fun x hx => hv x (by rw [hT2]; simp [hx])
    rw [descent_node ps o n l r parent hnv]
    by_cases h1 : o < offset_of ps n
    · rw [if_pos h1]
      refine ihl (some n) pre (n :: (r.inorder ++ post)) (by rw [hT2]; simp) hpre ?_ ?_
      · intro x hx
        rcases List.mem_cons.mp hx with e | hx
        · rw [e]; exact h1
        · exact Nat.lt_trans h1 (habove x hx)
      · intro _
        rw [hfrom, advance_cons ps o n _ hnv, if_neg (by omega)]
    · rw [if_neg h1]
      by_cases h2 : o > offset_of ps n
      · rw [if_pos h2]
        refine ihr (some n) (pre ++ l.inorder ++ [n]) post (by rw [hT2]; simp) ?_ hpost ?_
        · intro x hx
          rcases List.mem_append.mp hx with hx | hx
          · exact Nat.lt_trans (hbelow x hx) h2
          · rw [List.mem_singleton.mp hx]; exact h2
        · intro hr
          rw [hfrom, advance_cons ps o n _ hnv, if_pos h2, hr]
          simp only [inorder, List.nil_append]
          exact advance_above ps o post hpostv hpost
      · rw [if_neg h2]
        refine ⟨some n, rfl, ?_⟩
        rw [hfrom, advance_cons ps o n _ hnv, if_neg h2, hT2,
          dropWhile_append_pass _ _ _ (fun x hx => by
            have := hbelow x hx
            simp only [decide_eq_true_eq]
            omega),
          List.dropWhile_cons_of_neg (by simp only [decide_eq_true_eq]; omega)]

end LowerBound

/-! ### The pages of a byte range -/

section PageSpan

/-- The quotient rounded up, written with the remainder test of the sources. -/
theorem div_add_rem_test (pl s : Nat) (hpl : 0 < pl) :
    s / pl + (if s % pl ≠ 0 then 1 else 0) = (s + pl - 1) / pl := by
  have h1 : s / pl * pl + s % pl = s := by
    rw [Nat.mul_comm]
    exact Nat.div_add_mod s pl
  have h2 := Nat.mod_lt s hpl
  generalize s / pl = q at h1 ⊢
  generalize s % pl = t at h1 h2 ⊢
  by_cases ht : t = 0
  · rw [if_neg (by simpa using ht), Nat.add_zero]
    symm
    apply Nat.div_eq_of_lt_le
    · omega
    · rw [Nat.add_mul, Nat.one_mul]; omega
  · rw [if_pos ht]
    symm
    apply Nat.div_eq_of_lt_le
    · rw [Nat.add_mul, Nat.one_mul]; omega
    · rw [Nat.add_mul, Nat.add_mul, Nat.one_mul]; omega

/-- The page count of the sources, over the natural numbers: the number of
pages from the page of `off` to the page of the last byte. -/
theorem span_count (pl off len : Nat) (hpl : 0 < pl) :
    (len + off % pl) / pl + (if (off + len) % pl ≠ 0 then 1 else 0)
      = (off + len + pl - 1) / pl - off / pl := by
  have h1 := Nat.div_add_mod off pl
  have e1 : (off + len) % pl = (len + off % pl) % pl := by
    conv_lhs => rw [← h1]
    rw [Nat.add_assoc, Nat.mul_add_mod, Nat.add_comm]
  have e2 : (off + len + pl - 1) / pl = (len + off % pl + pl - 1) / pl + off / pl := by
    have : off + len + pl - 1 = (len + off % pl + pl - 1) + pl * (off / pl) := by omega
    rw [this, Nat.add_mul_div_left _ _ hpl]
  rw [e1, e2, div_add_rem_test pl _ hpl]
  exact (Nat.add_sub_cancel _ _).symm

/-- The pages that a byte range touches: page `j` holds a byte of
`[off, off + len)` exactly when it lies between the page of `off` and the page
of the last byte. -/
theorem touched_pages (pl off len : Nat) (hpl : 0 < pl) (hlen : 0 < len) (j : Nat) :
    (off / pl ≤ j ∧ j < off / pl + ((off + len + pl - 1) / pl - off / pl)) ↔
      (j * pl < off + len ∧ off < (j + 1) * pl) := by
  have hle : off / pl ≤ (off + len + pl - 1) / pl := Nat.div_le_div_right (by omega)
  have e1 : off < (j + 1) * pl ↔ off / pl ≤ j := by
    rw [← Nat.div_lt_iff_lt_mul hpl]
    omega
  have e2 : j * pl < off + len ↔ j < (off + len + pl - 1) / pl := by
    have : off + len + pl - 1 = (off + len - 1) + pl := by omega
    rw [this, Nat.add_div_right _ hpl, Nat.lt_succ_iff, Nat.le_div_iff_mul_le hpl]
    omega
  rw [e1, e2]
  omega

/-- Within the machine ranges the three computations give the pages of the
range: for `page_length > 0`, `len > 0` and `off + len` below 2^64,
`write_buffer` computes `align_offset = off - off mod page_length` and
`num_pages = ceil((off + len) / page_length) - floor(off / page_length)`, and
`read_buffer` and `discard` compute the same when this count is below 2^32.
The count is at least 1, and the pages it spans are exactly the pages that
hold a byte of `[off, off + len)`. -/
theorem span_in_range (page_length off len : Nat) (hpl : 0 < page_length)
    (hlen : 0 < len) (hfit : off + len < 18446744073709551616) :
    BlockCacher.write_buffer_span page_length off len
      = (off - off % page_length,
          (off + len + page_length - 1) / page_length - off / page_length) ∧
    ((off + len + page_length - 1) / page_length - off / page_length < 4294967296 →
      BlockCacher.read_buffer_span page_length off len
        = (off - off % page_length,
            (off + len + page_length - 1) / page_length - off / page_length) ∧
      BlockCacher.discard_span page_length off len
        = (off - off % page_length,
            (off + len + page_length - 1) / page_length - off / page_length)) ∧
    1 ≤ (off + len + page_length - 1) / page_length - off / page_length ∧
    ∀ j, (off / page_length ≤ j ∧
        j < off / page_length
          + ((off + len + page_length - 1) / page_length - off / page_length)) ↔
      (j * page_length < off + len ∧ off < (j + 1) * page_length) := by
  have hmod : off % page_length ≤ off := Nat.mod_le _ _
  have hcount := span_count page_length off len hpl
  have e1 : u64 (len + off - (off - off % page_length)) = len + off % page_length := by
    unfold u64
    rw [Nat.mod_eq_of_lt (by omega)]
    omega
  have e2 : u64 (off + len) = off + len := Nat.mod_eq_of_lt hfit
  have hq : (len + off % page_length) / page_length ≤ len + off % page_length :=
    Nat.div_le_self _ _
  have e3 : (off + len) % page_length ≠ 0 →
      (len + off % page_length) / page_length + 1 < 18446744073709551616 := by
    intro hne
    have h1 := Nat.div_add_mod (len + off % page_length) page_length
    have h2 : (len + off % page_length) % page_length ≠ 0 := by
      have h0 := Nat.div_add_mod off page_length
      have : (off + len) % page_length = (len + off % page_length) % page_length := by
        conv_lhs => rw [← h0]
        rw [Nat.add_assoc, Nat.mul_add_mod, Nat.add_comm]
      rwa [← this]
    have h3 : (len + off % page_length) / page_length
        ≤ page_length * ((len + off % page_length) / page_length) :=
      Nat.le_mul_of_pos_left _ hpl
    omega
  have hone : 1 ≤ (off + len + page_length - 1) / page_length - off / page_length := by
    have h1 : off / page_length + 1 ≤ (off + len + page_length - 1) / page_length := by
      rw [← Nat.add_div_right _ hpl]
      exact Nat.div_le_div_right (by omega)
    omega
  refine ⟨?_, ?_, hone, touched_pages page_length off len hpl hlen⟩
  · unfold BlockCacher.write_buffer_span
    simp only [e1, e2]
    rw [← hcount]
    by_cases hne : (off + len) % page_length ≠ 0
    · rw [if_pos hne, if_pos hne]
      unfold u64
      rw [Nat.mod_eq_of_lt (e3 hne)]
    · rw [if_neg hne, if_neg hne]
      rfl
  · intro h32
    rw [← hcount] at h32
    have hsame : BlockCacher.discard_span page_length off len
        = BlockCacher.read_buffer_span page_length off len := rfl
    rw [hsame]
    refine ⟨?_, ?_⟩ <;>
    · unfold BlockCacher.read_buffer_span
      simp only [e1, e2]
      rw [← hcount]
      by_cases hne : (off + len) % page_length ≠ 0
      · rw [if_pos hne, if_pos hne] at *
        unfold u32
        rw [Nat.mod_eq_of_lt (by omega : (len + off % page_length) / page_length < 4294967296),
          Nat.mod_eq_of_lt h32]
      · rw [if_neg hne, if_neg hne] at *
        unfold u32
        rw [Nat.mod_eq_of_lt (by omega : (len + off % page_length) / page_length < 4294967296)]
        rfl

end PageSpan

/-! ### Rounds of the clock -/

section Termination

open CARState

/-- The dirty flag does not depend on the list fields. -/
theorem dirty_blind : LinkBlind Page.dirty := fun _ _ _ _ => rfl

/-- Heaps that agree on the dirty flags give the same `dirty_of`. -/
theorem dirty_of_same {ps ps2 : List Page} (h : SameOff (fun _ => False) Page.dirty ps ps2)
    (x : Nat) : dirty_of ps2 x = dirty_of ps x := by
  have e := h.2 x (fun hf => hf)
  unfold dirty_of
  cases h1 : ps[x]? <;> cases h2 : ps2[x]? <;> simp [h1, h2] at e ⊢
  exact e

/-- Appending a page changes no dirty flag. -/
theorem append_dirty {ps ps2 : List Page} {c c2 : CARState} {page dst : Nat}
    (h : _append_page ps c page dst = .ok (ps2, c2)) :
    SameOff (fun _ => False) Page.dirty ps ps2 := by
  simp only [CARState._append_page, bind_ok, pure_ok, getPage_ok, assert_ok] at h
  obtain ⟨pg, hpg, -, hassert, ps1, hps1, foot, hfoot, psb, hpsb, psc, hpsc, foots, hfoots,
    head, hhead, heads, hheads, psd, hpsd, sz, hsz, sizes, hsizes, hfin⟩ := h
  simp only [Prod.mk.injEq] at hfin
  obtain ⟨rfl, rfl⟩ := hfin
  have e1 : SameOff (fun _ => False) Page.dirty ps ps1 :=
    SameOff.of_modPage hps1 (fun _ _ => rfl)
  have e2 : SameOff (fun _ => False) Page.dirty ps1 psb :=
    SameOff.of_opt_modPage hpsb (fun _ _ _ _ => rfl)
  have e3 : SameOff (fun _ => False) Page.dirty psb psc :=
    SameOff.of_modPage hpsc (fun _ _ => rfl)
  have e4 : SameOff (fun _ => False) Page.dirty psc psd :=
    SameOff.of_modPage hpsd (fun _ _ => rfl)
  exact ((e1.and_then e2).and_then e3).and_then e4

/-- The popped descriptor is left without list pointers. -/
theorem pop_detached {ps ps2 : List Page} {c c2 : CARState} {idx p : Nat}
    (h : _pop_head_page ps c idx = .ok (ps2, c2, p)) :
    ∃ pg, ps2[p]? = some pg ∧ pg.page_next = none ∧ pg.page_prev = none := by
  simp only [CARState._pop_head_page, bind_ok, pure_ok, getPage_ok, deref_ok] at h
  obtain ⟨hd, hhd, p1, hp1, pg, hpg, ps1, hps1, heads, hheads, psb, hpsb, foots, hfoots, sz, hsz,
    sizes, hsizes, ps3, hps3, hfin⟩ := h
  simp only [Prod.mk.injEq] at hfin
  obtain ⟨rfl, rfl, rfl⟩ := hfin
  obtain ⟨pgb, hpgb, rfl⟩ := modPage_ok.mp hpsb
  obtain ⟨pg3, hpg3, rfl⟩ := modPage_ok.mp hps3
  rw [set_get_of_some hpgb] at hpg3
  cases hpg3
  exact ⟨_, set_get_of_some (set_get_of_some hpgb), rfl, rfl⟩

/-- One round of the clock returns from both of its calls: the head `q` of a
well-formed list is popped and, being clean, appended to the list `dst`. -/
theorem round_total {ps : List Page} {c : CARState} {L : Arc4 (List Nat)} {idx dst q : Nat}
    {rest : List Nat} (hL : CarLists ps c L) (hidx : idx < 4) (hdst : dst < 4)
    (hl : L.sel idx = q :: rest) (hd : dirty_of ps q = 0) :
    ∃ ps1 c1 pg ps2 c2, _pop_head_page ps c idx = .ok (ps1, c1, q) ∧ ps1[q]? = some pg ∧
      pg.reference = reference_of ps q ∧ _append_page ps1 c1 q dst = .ok (ps2, c2) := by
  obtain ⟨⟨ps1, c1, p⟩, hpop⟩ := pop_total hL hidx hl
  obtain ⟨rest2, hl2, hL1, -, ⟨pg0, pg2, hpg0, hpg2, -, href⟩, -, -, -⟩ := pop_spec hL hidx hpop
  have hpq : p = q := by
    rw [hl] at hl2
    exact (List.cons.inj hl2).1.symm
  subst hpq
  obtain ⟨pg1, hpg1, hn, hv⟩ := pop_detached hpop
  rw [hpg2] at hpg1
  cases hpg1
  have hd1 : pg2.dirty = 0 := by
    have e := dirty_of_same (pop_keeps dirty_blind hpop) p
    rw [hd] at e
    unfold dirty_of at e
    rw [hpg2] at e
    exact e
  obtain ⟨⟨ps2, c2⟩, happ⟩ := append_total hpg2 hd1 hn hv hdst
    (fun x hx => (hL1.foot_get hdst hx).2)
  refine ⟨ps1, c1, pg2, ps2, c2, hpop, hpg2, ?_, happ⟩
  rw [href]
  unfold reference_of
  rw [hpg0]

/-- The number of set reference bits on a list does not see a cleared bit of a
page outside the list. -/
theorem countP_update_out (ref : Nat → Nat) (q : Nat) (l : List Nat) (hq : q ∉ l) :
    l.countP (fun x => decide (Function.update ref q 0 x ≠ 0))
      = l.countP (fun x => decide (ref x ≠ 0)) := by
  apply List.countP_congr
  intro x hx
  have : x ≠ q := fun e => hq (e ▸ hx)
  rw [Function.update_noteq this]

/-- A list of different descriptors of a heap is no longer than the heap. -/
theorem nodup_length_le {l : List Nat} {n : Nat} (hn : l.Nodup) (hb : ∀ x ∈ l, x < n) :
    l.length ≤ n := by
  have h := (hn.subperm (fun x hx => List.mem_range.mpr (hb x hx))).length_le
  rwa [List.length_range] at h

/-- The four lists of a well-formed CAR state together are no longer than the
heap. -/
theorem CarLists.total_le {ps : List Page} {c : CARState} {L : Arc4 (List Nat)}
    (hL : CarLists ps c L) :
    L.lru.length + L.lfu.length + L.lru_ghost.length + L.lfu_ghost.length ≤ ps.length := by
  have hnd : (L.lru ++ (L.lfu ++ (L.lru_ghost ++ L.lfu_ghost))).Nodup := by
    have n0 := hL.nodup 0 (by decide)
    have n1 := hL.nodup 1 (by decide)
    have n2 := hL.nodup 2 (by decide)
    have n3 := hL.nodup 3 (by decide)
    have d01 := hL.disjoint 0 1 (by decide) (by decide) (by decide)
    have d02 := hL.disjoint 0 2 (by decide) (by decide) (by decide)
    have d03 := hL.disjoint 0 3 (by decide) (by decide) (by decide)
    have d12 := hL.disjoint 1 2 (by decide) (by decide) (by decide)
    have d13 := hL.disjoint 1 3 (by decide) (by decide) (by decide)
    have d23 := hL.disjoint 2 3 (by decide) (by decide) (by decide)
    simp only [Arc4.sel] at n0 n1 n2 n3 d01 d02 d03 d12 d13 d23
    refine List.Nodup.append n0 (List.Nodup.append n1 (List.Nodup.append n2 n3 ?_) ?_) ?_
    · intro x h2 h3; exact d23 x h2 h3
    · intro x h1 h
      rcases List.mem_append.mp h with h | h
      · exact d12 x h1 h
      · exact d13 x h1 h
    · intro x h0 h
      rcases List.mem_append.mp h with h | h
      · exact d01 x h0 h
      · rcases List.mem_append.mp h with h | h
        · exact d02 x h0 h
        · exact d03 x h0 h
  have hb : ∀ x ∈ L.lru ++ (L.lfu ++ (L.lru_ghost ++ L.lfu_ghost)), x < ps.length := by
    intro x hx
    have hin : ∃ i, i < 4 ∧ x ∈ L.sel i := by
      rcases List.mem_append.mp hx with h | h
      · exact ⟨0, by decide, h⟩
      · rcases List.mem_append.mp h with h | h
        · exact ⟨1, by decide, h⟩
        · rcases List.mem_append.mp h with h | h
          · exact ⟨2, by decide, h⟩
          · exact ⟨3, by decide, h⟩
    obtain ⟨i, hi, hm⟩ := hin
    obtain ⟨pg, hpg⟩ := hL.listed_get hi hm
    by_contra hc
    rw [List.getElem?_eq_none (by omega)] at hpg
    cases hpg
  have := nodup_length_le hnd hb
  simp only [List.length_append] at this
  omega

/-- More rounds do not change what the loop of `evict_data` returns. -/
theorem evict_loop_succ : ∀ (n : Nat) (ps : List Page) (c : CARState)
    (r : List Page × CARState × Nat),
    evict_loop n ps c = .ok r → evict_loop (n + 1) ps c = .ok r := by
  intro n
  induction n with
  | zero => intro ps c r h; simp [evict_loop] at h
  | succ n ih =>
    intro ps c r h
    rw [evict_loop] at h ⊢
    split at h
    · rename_i hge
      rw [if_pos hge]
      simp only [bind_ok, getPage_ok] at h ⊢
      obtain ⟨⟨ps1, c1, q⟩, hpop, pg, hpg, h⟩ := h
      refine ⟨_, hpop, pg, hpg, ?_⟩
      dsimp only at h ⊢
      split at h
      · rename_i hne
        rw [if_pos hne]
        simp only [bind_ok] at h ⊢
        obtain ⟨⟨psa, ca⟩, happ, h⟩ := h
        exact ⟨_, happ, ih _ _ _ h⟩
      · rename_i hne
        rw [if_neg hne]
        exact h
    · rename_i hge
      rw [if_neg hge]
      simp only [bind_ok, getPage_ok] at h ⊢
      obtain ⟨⟨ps1, c1, q⟩, hpop, pg, hpg, h⟩ := h
      refine ⟨_, hpop, pg, hpg, ?_⟩
      dsimp only at h ⊢
      split at h
      · rename_i hne
        rw [if_pos hne]
        simp only [bind_ok] at h ⊢
        obtain ⟨⟨psa, ca⟩, happ, h⟩ := h
        exact ⟨_, happ, ih _ _ _ h⟩
      · rename_i hne
        rw [if_neg hne]
        exact h

/-- The result of the loop of `evict_data` with `n` rounds is its result with
any larger number of rounds. -/
theorem evict_loop_mono {n m : Nat} {ps : List Page} {c : CARState}
    {r : List Page × CARState × Nat} (h : evict_loop n ps c = .ok r) (hnm : n ≤ m) :
    evict_loop m ps c = .ok r := by
  obtain ⟨k, rfl⟩ := Nat.exists_eq_add_of_le hnm
  induction k with
  | zero => exact h
  | succ k ih => exact evict_loop_succ _ _ _ _ (ih (Nat.le_add_right _ _))

end Termination

/-! ### evict_data returns -/

section EvictReturns

open CARState

/-- The loop of `evict_data` returns when it has more rounds than there are set
reference bits in LRU and LFU: on well-formed lists of clean pages with exact
counters, in which every round finds a page on the list it selects, each round
either returns or clears one bit. -/
theorem evict_total : ∀ (fuel : Nat) {ps : List Page} {c : CARState} {L : Arc4 (List Nat)},
    CarLists ps c L → Counts c L 0 →
    L.lru.length + L.lfu.length + L.lru_ghost.length + L.lfu_ghost.length + 1 < 4294967296 →
    (∀ x, x ∈ L.lru ++ L.lfu → dirty_of ps x = 0) →
    clock_ready 0 c.arc_lru_limit fuel (reference_of ps) L = true →
    L.lru.countP (fun x => decide (reference_of ps x ≠ 0))
      + L.lfu.countP (fun x => decide (reference_of ps x ≠ 0)) < fuel →
    ∃ r, evict_loop fuel ps c = .ok r := by
  intro fuel
  induction fuel with
  | zero => intro ps c L _ _ _ _ _ h; omega
  | succ fuel ih =>
    intro ps c L hL hC hB hD hR hM
    obtain ⟨hc0, hc1, hc2, hc3⟩ := hC
    rw [evict_loop]
    rw [clock_ready] at hR
    by_cases hge : c.arc_list_size.lru ≥ c.arc_lru_limit
    · -- pop the head of ARC_LRU
      have hge2 : L.lru.length + 0 ≥ c.arc_lru_limit := by omega
      rw [if_pos hge]
      rw [if_pos hge2] at hR
      cases hlru : L.lru with
      | nil => rw [hlru] at hR; cases hR
      | cons q rest =>
        rw [hlru] at hR
        dsimp only at hR
        have hl : L.sel ARC_LRU = q :: rest := hlru
        have hdq : dirty_of ps q = 0 := hD q (by rw [hlru]; simp)
        have hnd := hL.nodup 0 (by decide)
        have hdis := hL.disjoint 0 1 (by decide) (by decide) (by decide)
        simp only [Arc4.sel] at hnd hdis
        rw [hlru] at hnd hdis
        by_cases hne : reference_of ps q ≠ 0
        · obtain ⟨ps1, c1, pg, ps2, c2, hpop, hpg, href, happ⟩ :=
            round_total hL (by decide : ARC_LRU < 4) (by decide : ARC_LFU < 4) hl hdq
          rw [if_pos hne] at hR
          obtain ⟨rest2, hl2, hLa, -, -, hsz, hlim, -⟩ :=
            move_spec hL (by decide : ARC_LRU < 4) (by decide : ARC_LFU < 4) hpop happ
          obtain ⟨-, hrefs⟩ := move_refs hpop happ
          rw [hl] at hl2
          obtain ⟨-, hrr⟩ := List.cons.inj hl2
          subst hrr
          simp only [ARC_LRU, ARC_LFU, Arc4.sel, Arc4.upd] at hLa hsz
          have hlen0 : L.lru.length = rest.length + 1 := by rw [hlru]; rfl
          have hCa : Counts c2 ⟨rest, L.lfu ++ [q], L.lru_ghost, L.lfu_ghost⟩ 0 := by
            have e1 : sub32 c.arc_list_size.lru 1 = c.arc_list_size.lru - 1 :=
              sub32_one (by omega) (by omega)
            have e2 : u32 (c.arc_list_size.lfu + 1) = c.arc_list_size.lfu + 1 :=
              u32_of_lt (by omega)
            refine ⟨?_, ?_, ?_, ?_⟩ <;> simp only [hsz, e1, e2, List.length_append,
              List.length_cons, List.length_nil] <;> omega
          have hBa : rest.length + (L.lfu ++ [q]).length + L.lru_ghost.length +
              L.lfu_ghost.length + 1 < 4294967296 := by
            simp only [List.length_cons, List.length_append, List.length_nil]
            omega
          have hDa : ∀ x, x ∈ rest ++ (L.lfu ++ [q]) → dirty_of ps2 x = 0 := by
            intro x hx
            rw [dirty_of_same (append_dirty happ), dirty_of_same (pop_keeps dirty_blind hpop)]
            apply hD
            rw [hlru]
            simp only [List.mem_append, List.mem_cons, List.mem_singleton, List.not_mem_nil,
              or_false] at hx ⊢
            tauto
          have hq1 : q ∉ rest := (List.nodup_cons.mp hnd).1
          have hq2 : q ∉ L.lfu := hdis q (List.mem_cons_self _ _)
          have hMa : (rest.countP (fun x => decide (reference_of ps2 x ≠ 0))
              + (L.lfu ++ [q]).countP (fun x => decide (reference_of ps2 x ≠ 0))) < fuel := by
            rw [hrefs, List.countP_append, countP_update_out _ q rest hq1,
              countP_update_out _ q L.lfu hq2]
            rw [hlru, List.countP_cons, if_pos (by simpa using hne)] at hM
            have : [q].countP (fun x => decide (Function.update (reference_of ps) q 0 x ≠ 0))
                = 0 := by
              simp
            omega
          rw [← hlim, ← hrefs] at hR
          obtain ⟨r, hr⟩ := ih hLa hCa hBa hDa hR hMa
          refine ⟨r, ?_⟩
          simp only [bind_ok, getPage_ok]
          refine ⟨_, hpop, pg, hpg, ?_⟩
          dsimp only
          rw [if_pos (by rw [href]; exact hne)]
          simp only [bind_ok]
          exact ⟨_, happ, hr⟩
        · obtain ⟨ps1, c1, pg, ps2, c2, hpop, hpg, href, happ⟩ :=
            round_total hL (by decide : ARC_LRU < 4) (by decide : ARC_LRU_GHOST < 4) hl hdq
          refine ⟨(ps2, c2, q), ?_⟩
          simp only [bind_ok, getPage_ok]
          refine ⟨_, hpop, pg, hpg, ?_⟩
          dsimp only
          rw [if_neg (by rw [href]; exact hne)]
          simp only [bind_ok, pure_ok]
          exact ⟨_, happ, rfl⟩
    · -- pop the head of ARC_LFU
      have hge2 : ¬ L.lru.length + 0 ≥ c.arc_lru_limit := by omega
      rw [if_neg hge]
      rw [if_neg hge2] at hR
      cases hlfu : L.lfu with
      | nil => rw [hlfu] at hR; cases hR
      | cons q rest =>
        rw [hlfu] at hR
        dsimp only at hR
        have hl : L.sel ARC_LFU = q :: rest := hlfu
        have hdq : dirty_of ps q = 0 := hD q (by rw [hlfu]; simp)
        have hnd := hL.nodup 1 (by decide)
        have hdis := hL.disjoint 1 0 (by decide) (by decide) (by decide)
        simp only [Arc4.sel] at hnd hdis
        rw [hlfu] at hnd hdis
        by_cases hne : reference_of ps q ≠ 0
        · obtain ⟨ps1, c1, pg, ps2, c2, hpop, hpg, href, happ⟩ :=
            round_total hL (by decide : ARC_LFU < 4) (by decide : ARC_LFU < 4) hl hdq
          rw [if_pos hne] at hR
          obtain ⟨rest2, hl2, hLa, -, -, hsz, hlim, -⟩ :=
            move_spec hL (by decide : ARC_LFU < 4) (by decide : ARC_LFU < 4) hpop happ
          obtain ⟨-, hrefs⟩ := move_refs hpop happ
          rw [hl] at hl2
          obtain ⟨-, hrr⟩ := List.cons.inj hl2
          subst hrr
          simp only [ARC_LFU, Arc4.sel, Arc4.upd] at hLa hsz
          have hlen0 : L.lfu.length = rest.length + 1 := by rw [hlfu]; rfl
          have hCa : Counts c2 ⟨L.lru, rest ++ [q], L.lru_ghost, L.lfu_ghost⟩ 0 := by
            have e1 : sub32 c.arc_list_size.lfu 1 = c.arc_list_size.lfu - 1 :=
              sub32_one (by omega) (by omega)
            have e2 : u32 (c.arc_list_size.lfu - 1 + 1) = c.arc_list_size.lfu - 1 + 1 :=
              u32_of_lt (by omega)
            refine ⟨?_, ?_, ?_, ?_⟩ <;> simp only [hsz, e1, e2, List.length_append,
              List.length_cons, List.length_nil] <;> omega
          have hBa : L.lru.length + (rest ++ [q]).length + L.lru_ghost.length +
              L.lfu_ghost.length + 1 < 4294967296 := by
            simp only [List.length_cons, List.length_append, List.length_nil]
            omega
          have hDa : ∀ x, x ∈ L.lru ++ (rest ++ [q]) → dirty_of ps2 x = 0 := by
            intro x hx
            rw [dirty_of_same (append_dirty happ), dirty_of_same (pop_keeps dirty_blind hpop)]
            apply hD
            rw [hlfu]
            simp only [List.mem_append, List.mem_cons, List.mem_singleton, List.not_mem_nil,
              or_false] at hx ⊢
            tauto
          have hq1 : q ∉ rest := (List.nodup_cons.mp hnd).1
          have hq2 : q ∉ L.lru := hdis q (List.mem_cons_self _ _)
          have hMa : (L.lru.countP (fun x => decide (reference_of ps2 x ≠ 0))
              + (rest ++ [q]).countP (fun x => decide (reference_of ps2 x ≠ 0))) < fuel := by
            rw [hrefs, List.countP_append, countP_update_out _ q rest hq1,
              countP_update_out _ q L.lru hq2]
            rw [hlfu, List.countP_cons, if_pos (by simpa using hne)] at hM
            have : [q].countP (fun x => decide (Function.update (reference_of ps) q 0 x ≠ 0))
                = 0 := by
              simp
            omega
          rw [← hlim, ← hrefs] at hR
          obtain ⟨r, hr⟩ := ih hLa hCa hBa hDa hR hMa
          refine ⟨r, ?_⟩
          simp only [bind_ok, getPage_ok]
          refine ⟨_, hpop, pg, hpg, ?_⟩
          dsimp only
          rw [if_pos (by rw [href]; exact hne)]
          simp only [bind_ok]
          exact ⟨_, happ, hr⟩
        · obtain ⟨ps1, c1, pg, ps2, c2, hpop, hpg, href, happ⟩ :=
            round_total hL (by decide : ARC_LFU < 4) (by decide : ARC_LFU_GHOST < 4) hl hdq
          refine ⟨(ps2, c2, q), ?_⟩
          simp only [bind_ok, getPage_ok]
          refine ⟨_, hpop, pg, hpg, ?_⟩
          dsimp only
          rw [if_neg (by rw [href]; exact hne)]
          simp only [bind_ok, pure_ok]
          exact ⟨_, happ, rfl⟩

end EvictReturns

/-! ### prepare_continuous_pages -/

section ContinuousPages

open BlockCacher

/-- The call for a run that starts with a descriptor of the heap. -/
theorem stripe_run_cons (striper : Striper) (ps : List Page) (pl p0 : Nat) (t : List Nat)
    (oe : ObjectExtents) (h : p0 < ps.length) :
    stripe_run striper ps pl (p0 :: t) oe
      = .ok (striper (offset_of ps ((p0 :: t).headD 0)) (u64 ((p0 :: t).length * pl)) (p0 :: t)
          pl oe) := by
  simp only [stripe_run, getPage, offset_of, List.getElem?_eq_getElem h, List.headD_cons]
  rfl

/-- The loop of `prepare_continuous_pages` hands complete runs to the striper
and keeps the last run open: runs and open run together are the pages seen so
far, in order. -/
theorem continuous_loop_runs (ps : List Page) (pl lo : Nat) :
    ∀ (pages : List (Nat × Nat)) (cp : List Nat), (∀ x ∈ cp, x < ps.length) →
      (∀ x ∈ pages, x.2 < ps.length) →
      ∃ (runs : List (List Nat)) (last : List Nat),
        runs.flatten ++ last = cp ++ pages.map Prod.snd ∧ (∀ run ∈ runs, run ≠ []) ∧
        (∀ x ∈ last, x < ps.length) ∧
        ∀ (striper : Striper) (oe : ObjectExtents),
          continuous_loop striper ps pl lo pages cp oe
            = .ok (last, stripe_runs striper ps pl runs oe) := by
  intro pages
  induction pages with
  | nil =>
    intro cp hcp _
    exact ⟨[], cp, by simp, by simp, hcp, fun _ _ => rfl⟩
  | cons x rest ih =>
    intro cp hcp hpages
    obtain ⟨first, second⟩ := x
    have hsecond : second < ps.length := hpages (first, second) (List.mem_cons_self _ _)
    have hrest : ∀ x ∈ rest, x.2 < ps.length := fun x hx => hpages x (List.mem_cons_of_mem _ hx)
    by_cases hbreak : first ≠ u64 (lo + pl) ∧ cp ≠ []
    · obtain ⟨hne, hcpne⟩ := hbreak
      obtain ⟨runs, last, hjoin, hruns, hlast, hloop⟩ := ih [second]
        (fun x hx => by rw [List.mem_singleton.mp hx]; exact hsecond) hrest
      cases cp with
      | nil => exact absurd rfl hcpne
      | cons p0 t =>
        refine ⟨(p0 :: t) :: runs, last, ?_, ?_, hlast, fun striper oe => ?_⟩
        · rw [List.flatten_cons, List.append_assoc, hjoin]
          simp
        · intro run hrun
          rcases List.mem_cons.mp hrun with h | h
          · rw [h]; exact List.cons_ne_nil _ _
          · exact hruns run h
        · rw [continuous_loop, if_pos hne, if_pos hcpne,
            stripe_run_cons striper ps pl p0 t oe (hcp p0 (List.mem_cons_self _ _))]
          exact hloop striper _
    · obtain ⟨runs, last, hjoin, hruns, hlast, hloop⟩ := ih (cp ++ [second])
        (fun x hx => by
          rcases List.mem_append.mp hx with h | h
          · exact hcp x h
          · rw [List.mem_singleton.mp h]; exact hsecond) hrest
      refine ⟨runs, last, ?_, hruns, hlast, fun striper oe => ?_⟩
      · rw [hjoin]
        simp
      · rw [continuous_loop]
        by_cases hne : first ≠ u64 (lo + pl)
        · have hcp0 : ¬ cp ≠ [] := fun h => hbreak ⟨hne, h⟩
          rw [if_pos hne, if_neg hcp0]
          exact hloop striper oe
        · rw [if_neg hne]
          exact hloop striper oe

end ContinuousPages

/-! ### The value a completion reports -/

section Accumulation

open BlockCacher

/-- A fresh completion waits for no request and holds 0. -/
theorem holding_new (bc : BlockCacher) (c : Nat) :
    holding (new_completion bc (.user c)).1 (new_completion bc (.user c)).2 c 0 0 := by
  refine ⟨{ ctxt := .user c }, ?_, rfl, rfl, rfl, rfl⟩
  simp [new_completion]

/-- A call of `add_request` adds one to the count, keeps the value and fires
nothing. -/
theorem holding_add {bc : BlockCacher} {comp c j : Nat} {v : Int} (h : holding bc comp c j v)
    (hj : j + 1 < 4294967296) :
    ∃ bc2, add_request bc comp = .ok bc2 ∧ holding bc2 comp c (j + 1) v ∧
      bc2.fired = bc.fired := by
  obtain ⟨x, hx, hd, hc, hn, hv⟩ := h
  simp only [add_request, get_completion, hx, hd, bind, Except.bind, pure, Except.pure,
    Bool.false_eq_true, if_false]
  refine ⟨_, rfl, ?_, rfl⟩
  unfold holding
  dsimp only
  refine ⟨_, set_get_of_some hx, rfl, hc, ?_, hv⟩
  show u32 (x.count + 1) = j + 1
  rw [hn, u32_of_lt hj]

/-- The call `add_request()` made `k` times adds `k` to the count and keeps the
value. -/
theorem holding_add_requests (comp c : Nat) (v : Int) : ∀ (k : Nat) {bc : BlockCacher} {j : Nat},
    holding bc comp c j v → j + k < 4294967296 →
    ∃ bc2, add_requests comp k bc = .ok bc2 ∧ holding bc2 comp c (j + k) v ∧
      bc2.fired = bc.fired := by
  intro k
  induction k with
  | zero => intro bc j h _; exact ⟨bc, rfl, h, rfl⟩
  | succ k ih =>
    intro bc j h hj
    obtain ⟨bc1, h1, hp1, hf1⟩ := holding_add h (by omega)
    obtain ⟨bc2, h2, hp2, hf2⟩ := ih hp1 (by omega)
    refine ⟨bc2, ?_, ?_, hf2.trans hf1⟩
    · simp only [add_requests, h1, bind, Except.bind]
      exact h2
    · have : j + (k + 1) = j + 1 + k := by omega
      rw [this]; exact hp2

/-- A call of `complete_request(r)` on a completion that waits for more than
one request takes one off its count, updates the value and fires nothing. -/
theorem holding_complete {bc : BlockCacher} {comp c j : Nat} {v : Int} (r : Int)
    (h : holding bc comp c (j + 2) v) (hj : j + 2 < 4294967296) :
    ∃ bc2, complete_request bc comp r = .ok bc2 ∧
      holding bc2 comp c (j + 1)
        (if v ≥ 0 then if r < 0 ∧ r ≠ -EEXIST then r else if r > 0 then v + r else v else v) ∧
      bc2.fired = bc.fired := by
  obtain ⟨x, hx, hd, hc, hn, hv⟩ := h
  subst hv
  have hs : sub32 x.count 1 = j + 1 := by rw [hn, sub32_one (by omega) hj]; rfl
  have hne : ¬ (sub32 x.count 1 = 0) := by rw [hs]; omega
  simp only [complete_request, get_completion, hx, hd, bind, Except.bind, pure, Except.pure,
    Bool.false_eq_true, if_false, hne]
  refine ⟨_, rfl, ?_, rfl⟩
  unfold holding
  dsimp only
  exact ⟨_, set_get_of_some hx, rfl, hc, hs, rfl⟩

/-- A call of `complete_request(r)` on a completion that waits for one request
fires its context with the updated value. -/
theorem holding_last {bc : BlockCacher} {comp c : Nat} {v : Int} (r : Int)
    (h : holding bc comp c 1 v) :
    ∃ bc2, complete_request bc comp r = .ok bc2 ∧
      bc2.fired = bc.fired ++ [(c,
        if v ≥ 0 then if r < 0 ∧ r ≠ -EEXIST then r else if r > 0 then v + r else v else v)] := by
  obtain ⟨x, hx, hd, hc, hn, hv⟩ := h
  subst hv
  have hs : sub32 x.count 1 = 0 := by rw [hn]; rfl
  simp only [complete_request, get_completion, hx, hd, bind, Except.bind, pure, Except.pure,
    Bool.false_eq_true, if_false, hs, if_true, hc, complete_context]
  exact ⟨_, rfl, rfl⟩

/-- One result more: the rule of `reported` is the update that
`complete_request` makes, result by result. -/
theorem reported_cons (v r : Int) (rs : List Int) :
    reported v (r :: rs)
      = reported (if v ≥ 0 then if r < 0 ∧ r ≠ -EEXIST then r else if r > 0 then v + r else v
          else v) rs := by
  by_cases hv : v < 0
  · have hv2 : ¬ v ≥ 0 := by omega
    simp only [reported, if_pos hv, if_neg hv2]
  · have hv2 : v ≥ 0 := by omega
    rw [if_pos hv2]
    by_cases hr : r < 0 ∧ r ≠ -EEXIST
    · have hf : (r :: rs).find? (fun r => decide (r < 0 ∧ r ≠ -EEXIST)) = some r := by
        simp [List.find?_cons, hr]
      rw [if_pos hr]
      simp only [reported, if_neg hv, if_pos hr.1, hf]
    · have hf : (r :: rs).find? (fun r => decide (r < 0 ∧ r ≠ -EEXIST))
          = rs.find? (fun r => decide (r < 0 ∧ r ≠ -EEXIST)) := by
        simp only [List.find?_cons, decide_eq_false hr]
      rw [if_neg hr]
      by_cases hp : r > 0
      · have hn : ¬ v + r < 0 := by omega
        have hfl : (r :: rs).filter (fun r => decide (0 < r))
            = r :: rs.filter (fun r => decide (0 < r)) := by
          simp [List.filter_cons, hp]
        rw [if_pos hp]
        simp only [reported, if_neg hv, if_neg hn, hf, hfl, List.sum_cons]
        cases rs.find? (fun r => decide (r < 0 ∧ r ≠ -EEXIST)) with
        | some e => rfl
        | none => simp only []; omega
      · have hfl : (r :: rs).filter (fun r => decide (0 < r))
            = rs.filter (fun r => decide (0 < r)) := by
          simp [List.filter_cons, hp]
        rw [if_neg hp]
        simp only [reported, if_neg hv, hf, hfl]

/-- No result: the value stays. -/
theorem reported_nil (v : Int) : reported v [] = v := by
  simp only [reported, List.find?_nil, List.filter_nil, List.sum_nil, Int.add_zero]
  split <;> rfl

/-- Results received one batch after the other. -/
theorem reported_append (rs more : List Int) : ∀ (v : Int),
    reported v (rs ++ more) = reported (reported v rs) more := by
  induction rs with
  | nil => intro v; rw [List.nil_append, reported_nil]
  | cons r rs ih => intro v; rw [List.cons_append, reported_cons, reported_cons, ih]

/-- As many calls of `complete_request` as the count fire the context once,
with the value that `reported` gives for the results. -/
theorem holding_all (comp c : Nat) : ∀ (rs : List Int) {bc : BlockCacher} {v : Int},
    holding bc comp c rs.length v → 0 < rs.length → rs.length < 4294967296 →
    ∃ bc2, complete_requests comp rs bc = .ok bc2 ∧
      bc2.fired = bc.fired ++ [(c, reported v rs)] := by
  intro rs
  induction rs with
  | nil => intro bc v _ h0 _; exact absurd h0 (by simp)
  | cons r rs ih =>
    intro bc v h _ hj
    simp only [List.length_cons] at h hj
    rw [reported_cons]
    cases rs with
    | nil =>
      obtain ⟨bc2, h2, hf⟩ := holding_last r h
      refine ⟨bc2, ?_, ?_⟩
      · simp only [complete_requests, h2, bind, Except.bind]
      · rw [hf, reported_nil]
    | cons r2 rs2 =>
      simp only [List.length_cons] at h hj ih
      obtain ⟨bc1, h1, hp1, hf1⟩ := holding_complete r h hj
      obtain ⟨bc2, h2, hf2⟩ := ih hp1 (by omega) (by omega)
      refine ⟨bc2, ?_, by rw [hf2, hf1]⟩
      simp only [complete_requests, h1, bind, Except.bind] at h2 ⊢
      exact h2

/-- The reported value of a fresh completion is negative exactly when a
negative result other than `-EEXIST` was received. -/
theorem reported_neg_iff (rs : List Int) :
    reported 0 rs < 0 ↔ ∃ r, r ∈ rs ∧ r < 0 ∧ r ≠ -EEXIST := by
  have hsum : ∀ l : List Int, 0 ≤ (l.filter (fun r => decide (0 < r))).sum := by
    intro l
    apply List.sum_nonneg
    intro x hx
    have := (List.mem_filter.mp hx).2
    simp only [decide_eq_true_eq] at this
    omega
  simp only [reported, Int.lt_irrefl, if_false, Int.zero_add]
  cases hf : rs.find? (fun r => decide (r < 0 ∧ r ≠ -EEXIST)) with
  | some e =>
    have h1 := List.find?_some hf
    have h2 := List.mem_of_find?_eq_some hf
    simp only [decide_eq_true_eq] at h1
    exact ⟨fun _ => ⟨e, h2, h1⟩, fun _ => h1.1⟩
  | none =>
    constructor
    · intro h
      have := hsum rs
      simp only [] at h
      omega
    · rintro ⟨r, hr, hneg⟩
      have := List.find?_eq_none.mp hf r hr
      simp only [decide_eq_true_eq] at this
      exact absurd hneg this

end Accumulation

/-! ### adjust_and_hold and the ghost history -/

section GhostHistory

open CARState

end GhostHistory

/-! ### Claims -/

/-- Claim C1 (fails on the code): a write of 3 bytes at offset 1 of a 4-byte
page ends on the page boundary, and `write_buffer` takes `end_len =
page_length = 4`, so its `memcpy` runs one byte past the caller buffer and the
page frame; the same request ending one byte earlier reads back what was
written. -/
theorem C1_single_page_tail_overrun :
    BlockCacher.tail_len 4 0 4 1 = 4 ∧
    Scenario.write_then_read 1 3 [1, 2, 3] = .error .out_of_bounds ∧
    Scenario.write_then_read 1 2 [1, 2] = .ok [1, 2] :=
  ⟨rfl, rfl, rfl⟩

/-- Claim C2 (fails on the code): a 3-page read whose pages 1 and 2 are misses
on absent objects leaves bytes 2..5 of the requested range of the caller buffer
untouched (the zeros land 4 bytes further on), although every page frame is
zero; with a caller buffer of exactly 6 bytes the copy runs out of bounds. -/
theorem C2_absent_object_read_not_zero_filled :
    Scenario.read_absent [9, 9, 9, 9, 9, 9, 9, 9, 9, 9, 9, 9] =
      .ok ([0, 0, 9, 9, 9, 9, 0, 0, 0, 0, 9, 9], [[0, 0], [0, 0], [0, 0]]) ∧
    Scenario.read_absent [9, 9, 9, 9, 9, 9] = .error .out_of_bounds :=
  ⟨rfl, rfl⟩

/-- Claim C3 (fails on the code): `discard(1, 1, 2)` on a resident 8-byte page
zeroes bytes 1, 2 and 3, although byte 3 lies outside `[1, 3)`. -/
theorem C3_discard_zeroes_past_range :
    Scenario.discard_resident 1 2 = .ok [[1, 0, 0, 0, 5, 6, 7, 8]] :=
  rfl

/-- Claim C4 (fails on the code): for pages at offsets 0, 4096, 8192 (page
length 4096) `prepare_continuous_pages` calls the striper twice, first for the
run of pages 0 and 1 (8192 bytes), then for page 2 alone, whatever the striper;
with the single-object layout that is two extents, hence two writes. -/
theorem C4_three_contiguous_pages_two_runs (striper : Striper) (acc : ObjectExtents) :
    BlockCacher.prepare_continuous_pages striper Scenario.three_pages 4096
        [(0, 0), (4096, 1), (8192, 2)] acc
      = .ok (striper 8192 4096 [2] 4096 (striper 0 8192 [0, 1] 4096 acc)) ∧
    (BlockCacher.prepare_continuous_pages BlockCacher.single_object_striper Scenario.three_pages
        4096 [(0, 0), (4096, 1), (8192, 2)] []).map
      (fun oe => ((map_find oe 0).getD []).length) = .ok 2 :=
  ⟨rfl, rfl⟩

/-- Claim C5 (fails on the code): the second of two back-to-back `user_flush`
calls finds pending count 0 for its `flush_id` but is not fired, because the
first barrier is still outstanding; it is recorded on barrier 1 with count 0,
and after both writes have completed it is still there, unfired, with no write
left at the backend. -/
theorem C5_second_flush_completion_stranded :
    Scenario.flush_twice.map (fun r =>
        (r.1.fired, r.1.flush_commits, r.2.fired, r.2.flush_commits, r.2.backend_writes))
      = .ok ([],
          [(0, 2, some (.user 2)), (1, 0, some (.user 3))],
          [(1, 0), (2, 0), (2, 0)],
          [(1, 0, some (.user 3))],
          []) :=
  rfl

/-- Claim C6 (fails on the code): a `user_flush(c3)` that submits one write for
one image has its completion fired twice when that write succeeds, once by the
barrier in `complete_write` and once more through the per-image
`BlockCacherCompletion` that `flush_pages` created around it. -/
theorem C6_user_flush_completion_fired_twice :
    Scenario.flush_one_image.map (fun bc => (bc.fired, bc.fired.count (3, 0)))
      = .ok ([(1, 0), (2, 0), (3, 0), (3, 0)], 2) :=
  rfl

/-- Claim C7 (fails on the code): with `max_dirty = 0`, after one
`write_buffer` whose write has completed successfully the page is still on the
dirty FIFO and `dirty_pages` is 1; a following `user_flush` submits it again. -/
theorem C7_writethrough_leaves_page_dirty :
    Scenario.writethrough_write.map (fun r =>
        (r.1.dirty_page_state.dirty_pages, r.1.dirty_page_state.dirty_pages_head,
         r.1.backend_writes.length, r.2.backend_writes.length))
      = .ok (1, some 7, 0, 1) :=
  rfl

/-- Claim C8 (fails on the code): after `mark_dirty(p)` and
`writeback_pages(out, 0)` the dirty FIFO is empty and the page is clean, but
`dirty_pages` is still 1. -/
theorem C8_writeback_all_keeps_dirty_count :
    Scenario.dirty_then_writeback_all.map (fun r =>
        (r.2.dirty_pages_head, r.2.dirty_pages_foot, r.1.map (fun p => p.dirty), r.2.dirty_pages))
      = .ok (none, none, [0], 1) :=
  rfl

/-- Claim C9: in every state of a cache of fewer than 2^31 pages that `init`,
`register_image`, `get_pages` (hits and miss admissions from a free frame, from
a new region, or by `evict_data`, `get_ghost_page` and `adjust_and_hold`) and
`insert_page` of admitted pages lead to, `CARState::validate` returns true and
the five size bounds it checks hold over the natural numbers. -/
theorem C9_car_size_bounds_hold {bc : BlockCacher} {det : List Nat} (h : CarReachable bc det) :
    CARState.validate bc.car_state = true ∧ SizeBounds bc.car_state := by
  obtain ⟨L, fd, fp, -, -, -, hD, hB⟩ := h.inv
  exact ⟨validate_of_bounds hD hB, hB⟩

/-- Claim C9, witness: a cache of two pages after three miss admissions, each
followed by `insert_page`; the first two take a frame from a new region, the
third evicts. -/
theorem C9_car_size_bounds_hold_witness :
    CarReachable Scenario.car_w4 [] ∧
      (CARState.validate Scenario.car_w4.car_state = true ∧
        SizeBounds Scenario.car_w4.car_state) :=
  have h0 : CarReachable Scenario.car_w0 [] := CarReachable.init 8 4 1 0 0 170 rfl (by decide)
  have h1 : CarReachable Scenario.car_w1 [] := CarReachable.register_image 100 h0
  have g1 : CarReachable Scenario.car_g1.1 [3] :=
    CarReachable.get_pages 1 1 (some 1) 1 0 h1
      (rfl : _ = Except.ok (Scenario.car_g1.1, Scenario.car_g1.2.1, Scenario.car_g1.2.2))
  have h2 : CarReachable Scenario.car_w2 [] :=
    CarReachable.insert_page 3 g1 (List.mem_cons_self _ _) rfl
  have g2 : CarReachable Scenario.car_g2.1 [2] :=
    CarReachable.get_pages 1 1 (some 1) 1 4 h2
      (rfl : _ = Except.ok (Scenario.car_g2.1, Scenario.car_g2.2.1, Scenario.car_g2.2.2))
  have h3 : CarReachable Scenario.car_w3 [] :=
    CarReachable.insert_page 2 g2 (List.mem_cons_self _ _) rfl
  have g3 : CarReachable Scenario.car_g3.1 [3] :=
    CarReachable.get_pages 1 1 (some 1) 1 8 h3
      (rfl : _ = Except.ok (Scenario.car_g3.1, Scenario.car_g3.2.1, Scenario.car_g3.2.2))
  have h4 : CarReachable Scenario.car_w4 [] :=
    CarReachable.insert_page 3 g3 (List.mem_cons_self _ _) rfl
  ⟨h4, C9_car_size_bounds_hold h4⟩

/-- Claim C10 (fails on the code): when a miss of image 2 evicts page 1 of
image 1 (descriptor 2), `get_pages` files the ghost in the ghost index of
image 2; the ghost index of image 1 stays empty. -/
theorem C10_evicted_page_in_wrong_ghost_index :
    Scenario.evict_across_images.map (fun bc =>
        (bc.ghost_trees.map (Option.map PageRBTree.inorder), (bc.all_pages.getD 2 {}).ictx_id,
         (bc.all_pages.getD 2 {}).arc_idx,
         bc.registered_tree.map (Option.map PageRBTree.inorder)))
      = .ok ([none, some [], some [2]], 1, ARC_LRU_GHOST, [none, some [3, 2], some [1]]) :=
  rfl

/-- Claim C11 (fails on the code): a writeback extent of one page whose first
attempt fails with `-EIO` and whose retry succeeds leaves `inflight_pages` at
-1: the counter is 0 before the submission, 1 after it, 0 after the failed
attempt, still 0 after the flusher has sent the write again, and -1 after the
final `complete_write`. -/
theorem C11_retried_write_leaves_inflight_negative :
    Scenario.retried_write = .ok [0, 1, 0, 0, -1] :=
  rfl

/-- Claim C12 (fails on the code): with descriptor 2 (offset 4, class
`ARC_LRU_GHOST`) in the ghost index, the miss at offset 4 stops at
`assert(ghost_page->offset > pos)` and admits nothing; and the history that
`get_pages` would pass on, `ghost_page->arc_idx = ARC_LRU_GHOST`, makes
`adjust_and_hold` give class LRU and leave `arc_lru_limit` at 1, where the
claim has class LFU and limit `min(1 + 4/2, 8) = 3`. -/
theorem C12_lru_ghost_hit_not_admitted_to_lfu :
    Scenario.ghost_ready.map (fun bc =>
        (bc.ghost_trees.map (Option.map PageRBTree.inorder),
         (bc.all_pages.getD 2 {}).offset, (bc.all_pages.getD 2 {}).arc_idx))
      = .ok ([none, some [2]], 4, ARC_LRU_GHOST) ∧
    (Scenario.ghost_ready >>= fun bc => BlockCacher.get_pages bc 1 1 (some 1) 1 4)
      = .error .assert_fail ∧
    (CARState.adjust_and_hold [{}] Scenario.car_sizes 0 ARC_LRU_GHOST).map
        (fun r => ((r.1.getD 0 {}).arc_idx, r.2.arc_lru_limit))
      = .ok (ARC_LRU, 1) :=
  ⟨rfl, rfl, rfl⟩

/-- Claim C13 (fails on the code): the code that `complete_request` leaves out
is `-EEXIST`, not `-ENOENT`.  A completion with two requests that receives
`-ENOENT` and then 5 fires its context with -2, and one that receives `-EEXIST`
and then 5 fires it with 5.  Through `read_buffer`: a read that the backend
fails with `-EEXIST` (a negative code other than `-ENOENT`) fires the user
context with 0, where a read failed with `-EIO` fires it with -5. -/
theorem C13_eexist_is_the_code_left_out :
    Scenario.two_results (-ENOENT) 5 = .ok ([], [(7, -2)]) ∧
    Scenario.two_results (-EEXIST) 5 = .ok ([], [(7, 5)]) ∧
    Scenario.read_answered (-EEXIST) = .ok [(1, 0)] ∧
    Scenario.read_answered (-5) = .ok [(1, -5)] :=
  ⟨rfl, rfl, rfl, rfl⟩

/-- Claim C13 (as amended): on a new completion for the user context `c`,
after `k >= 1` calls of `add_request`, the `k` calls of `complete_request` with
the results `rs` return and fire `c` once, with the first negative result other
than `-EEXIST` if there is one and with the sum of the positive results
otherwise (`reported 0 rs`).  That value is negative exactly when a negative
result other than `-EEXIST` was received: `-EEXIST` never makes it negative,
`-ENOENT` does; and once the results received so far give a negative value,
the results that follow do not change it. -/
theorem C13_first_error_other_than_eexist (bc : BlockCacher) (c : Nat) (rs : List Int)
    (hk : 0 < rs.length) (hlt : rs.length < 4294967296) :
    ∃ bc1 bc3,
      BlockCacher.add_requests (BlockCacher.new_completion bc (.user c)).2 rs.length
          (BlockCacher.new_completion bc (.user c)).1 = .ok bc1 ∧
      BlockCacher.complete_requests (BlockCacher.new_completion bc (.user c)).2 rs bc1
          = .ok bc3 ∧
      bc3.fired = bc.fired ++ [(c, reported 0 rs)] ∧
      (reported 0 rs < 0 ↔ ∃ r, r ∈ rs ∧ r < 0 ∧ r ≠ -EEXIST) ∧
      ∀ (first more : List Int), rs = first ++ more → reported 0 first < 0 →
        reported 0 rs = reported 0 first := by
  obtain ⟨bc1, h1, hp1, hf1⟩ :=
    holding_add_requests _ c 0 rs.length (holding_new bc c) (by omega)
  rw [Nat.zero_add] at hp1
  have hf0 : bc1.fired = bc.fired := hf1
  obtain ⟨bc3, h3, hf3⟩ := holding_all _ c rs hp1 hk hlt
  refine ⟨bc1, bc3, h1, h3, by rw [hf3, hf0], reported_neg_iff rs, fun first more hs he => ?_⟩
  rw [hs, reported_append]
  generalize reported 0 first = e at he
  simp only [reported, if_pos he]

/-- Claim C13 (as amended), at the results `-EEXIST`, 4, `-ENOENT`, 6, -5: the
context fires with -2. -/
theorem C13_first_error_other_than_eexist_witness :
    0 < [-EEXIST, 4, -ENOENT, 6, -5].length ∧
    [-EEXIST, 4, -ENOENT, 6, -5].length < 4294967296 ∧
    reported 0 [-EEXIST, 4, -ENOENT, 6, -5] = -2 ∧
    ∃ bc1 bc3,
      BlockCacher.add_requests (BlockCacher.new_completion {} (.user 7)).2
          [-EEXIST, 4, -ENOENT, 6, -5].length (BlockCacher.new_completion {} (.user 7)).1
        = .ok bc1 ∧
      BlockCacher.complete_requests (BlockCacher.new_completion {} (.user 7)).2
          [-EEXIST, 4, -ENOENT, 6, -5] bc1 = .ok bc3 ∧
      bc3.fired = ({} : BlockCacher).fired ++ [(7, reported 0 [-EEXIST, 4, -ENOENT, 6, -5])] ∧
      (reported 0 [-EEXIST, 4, -ENOENT, 6, -5] < 0 ↔
        ∃ r, r ∈ [-EEXIST, 4, -ENOENT, 6, -5] ∧ r < 0 ∧ r ≠ -EEXIST) ∧
      ∀ (first more : List Int), [-EEXIST, 4, -ENOENT, 6, -5] = first ++ more →
        reported 0 first < 0 →
        reported 0 [-EEXIST, 4, -ENOENT, 6, -5] = reported 0 first :=
  ⟨by decide, by decide, by decide,
    C13_first_error_other_than_eexist {} 7 [-EEXIST, 4, -ENOENT, 6, -5] (by decide) (by decide)⟩

/-- Claim C14: on a new completion for the user context `c`, after
`add_request` has been called `k >= 1` times, the first `n < k` calls of
`complete_request` fire nothing, and the `k` calls together fire `c` exactly
once, with the value `rval` that the completion has accumulated. -/
theorem C14_context_fires_on_last_request (bc : BlockCacher) (c : Nat) (rs : List Int)
    (hk : 0 < rs.length) (hlt : rs.length < 4294967296) :
    ∃ bc1,
      BlockCacher.add_requests (BlockCacher.new_completion bc (.user c)).2 rs.length
          (BlockCacher.new_completion bc (.user c)).1 = .ok bc1 ∧
      (∀ n, n < rs.length → ∃ bc2,
        BlockCacher.complete_requests (BlockCacher.new_completion bc (.user c)).2 (rs.take n) bc1
          = .ok bc2 ∧ bc2.fired = bc.fired) ∧
      ∃ bc3 x,
        BlockCacher.complete_requests (BlockCacher.new_completion bc (.user c)).2 rs bc1
          = .ok bc3 ∧
        bc3.completions[(BlockCacher.new_completion bc (.user c)).2]? = some x ∧
        bc3.fired = bc.fired ++ [(c, x.rval)] := by
  obtain ⟨bc1, h1, hp1, hf1⟩ :=
    pending_add_requests _ c rs.length (pending_new bc c) (by omega)
  rw [Nat.zero_add] at hp1
  have hf0 : bc1.fired = bc.fired := hf1
  refine ⟨bc1, h1, ?_, ?_⟩
  · intro n hn
    obtain ⟨bc2, h2, hf2⟩ := pending_before_last _ c (rs.take n) hp1
      (by rw [List.length_take]; omega) hlt
    exact ⟨bc2, h2, hf2.trans hf0⟩
  · obtain ⟨bc3, x, h3, hx, hf3⟩ := pending_all _ c rs hp1 hk hlt
    exact ⟨bc3, x, h3, hx, by rw [hf3, hf0]⟩

/-- Claim C14, witness: three requests with results 4, 0 and 6; nothing fires
after one or two completions, and the third fires context 7 with 10. -/
theorem C14_context_fires_on_last_request_witness :
    ∃ bc1,
      BlockCacher.add_requests 0 3 (BlockCacher.new_completion {} (.user 7)).1 = .ok bc1 ∧
      (∃ bc2, BlockCacher.complete_requests 0 [4, 0] bc1 = .ok bc2 ∧ bc2.fired = []) ∧
      ∃ bc3, BlockCacher.complete_requests 0 [4, 0, 6] bc1 = .ok bc3 ∧ bc3.fired = [(7, 10)] := by
  obtain ⟨bc1, h1, h2, -⟩ :=
    C14_context_fires_on_last_request {} 7 [4, 0, 6] (by decide) (by decide)
  have e : bc1 = { completions := [{ ctxt := .user 7, count := 3 }] } :=
    Except.ok.inj (h1.symm.trans rfl)
  subst e
  exact ⟨_, h1, h2 2 (by decide), _, rfl, rfl⟩

/-- Claim C15: `register_image` of a handle that has the id `id` returns `id`
and leaves the whole state as it was. -/
theorem C15_register_image_idempotent (bc : BlockCacher) (ictx id : Nat)
    (h : map_find bc.ictx_ids ictx = some id) :
    BlockCacher.register_image bc ictx = (bc, id) := by
  unfold BlockCacher.register_image
  rw [h]

/-- Claim C15, witness: registering handle 100 twice on the constructed cache
gives id 1 both times, and the second call changes nothing. -/
theorem C15_register_image_idempotent_witness :
    (BlockCacher.register_image {} 100).2 = 1 ∧
    BlockCacher.register_image (BlockCacher.register_image {} 100).1 100
      = ((BlockCacher.register_image {} 100).1, 1) :=
  ⟨rfl, C15_register_image_idempotent (BlockCacher.register_image {} 100).1 100 1 rfl⟩

/-- Claim C16: after every sequence of `register_image` and `unregister_image`
calls on the constructed cache, the ids returned for new registrations are
1, 2, 3, ... in call order; every registered handle `h` with id `id` is in
slot `id`; a further call about another handle leaves the id and the slot of
`h` as they are; and `unregister_image(h)` writes `NULL` to slot `id` of the
three vectors and to no other slot. -/
theorem C16_image_ids_never_renumbered (ops : List ImageOp) :
    (ImageOp.run ops {}).2 = List.range' 1 (ImageOp.run ops {}).2.length ∧
    ∀ h id, map_find (ImageOp.run ops {}).1.ictx_ids h = some id →
      (ImageOp.run ops {}).1.registered_ictx[id]? = some (some h) ∧
      (∀ op : ImageOp, op.handle ≠ h →
        map_find (op.apply (ImageOp.run ops {}).1).ictx_ids h = some id ∧
        (op.apply (ImageOp.run ops {}).1).registered_ictx[id]? = some (some h)) ∧
      (BlockCacher.unregister_image (ImageOp.run ops {}).1 h).registered_ictx
        = (ImageOp.run ops {}).1.registered_ictx.set id none ∧
      (BlockCacher.unregister_image (ImageOp.run ops {}).1 h).registered_tree
        = (ImageOp.run ops {}).1.registered_tree.set id none ∧
      (BlockCacher.unregister_image (ImageOp.run ops {}).1 h).ghost_trees
        = (ImageOp.run ops {}).1.ghost_trees.set id none := by
  refine ⟨(run_new_ids ops {}).1, ?_⟩
  intro h id hf
  have hI := images_consistent_run ops images_consistent_init
  refine ⟨(hI.2.2.2.2.2 (h, id) (map_find_mem _ hf)).2.2.1, ?_, ?_⟩
  · intro op hne
    have hf2 : map_find (op.apply (ImageOp.run ops {}).1).ictx_ids h = some id := by
      rw [apply_keeps_other_id _ op hne]; exact hf
    have hI2 := images_consistent_apply op hI
    exact ⟨hf2, (hI2.2.2.2.2.2 (h, id) (map_find_mem _ hf2)).2.2.1⟩
  · simp only [BlockCacher.unregister_image, hf, and_self]

/-- Claim C16, witness: handles 100 and 200 are registered, 100 is
unregistered and registered again, then 300 is registered: the new ids are 1,
2, 3, 4, and handle 200 is still in slot 2. -/
theorem C16_image_ids_never_renumbered_witness :
    (ImageOp.run [.register 100, .register 200, .unregister 100, .register 100, .register 300]
      {}).2 = [1, 2, 3, 4] ∧
    (ImageOp.run [.register 100, .register 200, .unregister 100, .register 100, .register 300]
      {}).1.registered_ictx[2]? = some (some 200) :=
  ⟨(C16_image_ids_never_renumbered
      [.register 100, .register 200, .unregister 100, .register 100, .register 300]).1,
    ((C16_image_ids_never_renumbered
      [.register 100, .register 200, .unregister 100, .register 100, .register 300]).2
      200 2 rfl).1⟩

/-- Claim C17 (fails on the code): after `get_pages` for the two absent pages
at offsets 4 and 8, `pages` holds descriptor 7 (offset 4) and descriptor 6
(offset 8), but the image index iterates descriptor 6 before descriptor 7:
each page is inserted under the offset it had before, 0, and gets its offset
afterwards.  `lower_bound(8)` then returns `end()` instead of `pages[1]`. -/
theorem C17_index_not_ordered_after_get_pages :
    Scenario.unordered_index
      = .ok ([some 7, some 6], [false, false], [(6, 8), (7, 4)], [7], []) :=
  rfl

/-- Claim C18: `adjust_and_hold(cur, 1)` (1 stands for a hit in LFU_GHOST), in
a state with `|LFU_GHOST| > 0`, lowers `arc_lru_limit` by
`|LRU_GHOST| / |LFU_GHOST|` without going below 0 (the subtraction of natural
numbers stops at 0), gives the page class LFU and adds one to the LFU counter
only. -/
theorem C18_lfu_ghost_history_lowers_limit (ps : List Page) (c : CARState) (cur : Nat)
    (pg : Page) (hpg : ps[cur]? = some pg) (hu : c.is_uint32)
    (hz : c.arc_list_size.lfu_ghost ≠ 0) (hw : c.arc_list_size.lfu + 1 < 4294967296) :
    CARState.adjust_and_hold ps c cur 1 = .ok
      (ps.set cur { pg with arc_idx := ARC_LFU },
       { c with
         arc_lru_limit :=
           c.arc_lru_limit - c.arc_list_size.lru_ghost / c.arc_list_size.lfu_ghost
         arc_list_size := { c.arc_list_size with lfu := c.arc_list_size.lfu + 1 } }) := by
  obtain ⟨h1, h2⟩ := hold_in_class hpg ARC_LFU
  obtain ⟨-, -, -, -, hl, -⟩ := hu
  unfold CARState.adjust_and_hold
  simp only [ARC_LRU, ARC_LFU, show (1 : Nat) ≠ 0 by decide, if_false, if_true, hz]
  simp only [ARC_LFU] at h1 h2
  simp only [h1, h2, bind, Except.bind, pure, Except.pure, Arc4.get, Arc4.set]
  rw [u32_of_lt hw]
  by_cases hgt : c.arc_lru_limit > c.arc_list_size.lru_ghost / c.arc_list_size.lfu_ghost
  · rw [if_pos hgt, sub32_of_le (Nat.le_of_lt hgt) hl]
  · rw [if_neg hgt]
    have : c.arc_lru_limit - c.arc_list_size.lru_ghost / c.arc_list_size.lfu_ghost = 0 := by
      omega
    rw [this]

/-- Claim C18, witness: with `arc_lru_limit = 1`, `|LRU_GHOST| = 4` and
`|LFU_GHOST| = 2` the limit becomes 0, not a wrapped `1 - 2`. -/
theorem C18_lfu_ghost_history_lowers_limit_witness :
    CARState.adjust_and_hold [{}] Scenario.car_sizes 0 1 = .ok
      ([{ arc_idx := ARC_LFU }],
       { Scenario.car_sizes with arc_lru_limit := 0, arc_list_size := ⟨1, 4, 4, 2⟩ }) :=
  C18_lfu_ghost_history_lowers_limit [{}] Scenario.car_sizes 0 {} rfl (by decide) (by decide)
    (by decide)

/-- Claim C20: `adjust_and_hold(cur, 2)` (2 stands for no ghost hit) gives the
page class LRU and adds one to the LRU counter; `arc_lru_limit`, the other
three counters, the list heads and feet and every link of every page stay as
they were. -/
theorem C20_no_history_holds_in_lru (ps : List Page) (c : CARState) (cur : Nat) (pg : Page)
    (hpg : ps[cur]? = some pg) (hw : c.arc_list_size.lru + 1 < 4294967296) :
    CARState.adjust_and_hold ps c cur 2 = .ok
      (ps.set cur { pg with arc_idx := ARC_LRU },
       { c with arc_list_size := { c.arc_list_size with lru := c.arc_list_size.lru + 1 } }) := by
  obtain ⟨h1, h2⟩ := hold_in_class hpg ARC_LRU
  unfold CARState.adjust_and_hold
  simp only [ARC_LRU, ARC_LFU, show (2 : Nat) ≠ 0 by decide, show (2 : Nat) ≠ 1 by decide,
    if_false]
  simp only [ARC_LRU] at h1 h2
  simp only [h1, h2, bind, Except.bind, pure, Except.pure, Arc4.get, Arc4.set]
  rw [u32_of_lt hw]

/-- Claim C20, witness: a page with links and a state with non-empty lists. -/
theorem C20_no_history_holds_in_lru_witness :
    CARState.adjust_and_hold [{ page_next := some 5, page_prev := some 6, arc_idx := ARC_COUNT }]
        Scenario.car_sizes 0 2 = .ok
      ([{ page_next := some 5, page_prev := some 6, arc_idx := ARC_LRU }],
       { Scenario.car_sizes with arc_list_size := ⟨2, 3, 4, 2⟩ }) :=
  C20_no_history_holds_in_lru _ Scenario.car_sizes 0
    { page_next := some 5, page_prev := some 6, arc_idx := ARC_COUNT } rfl (by decide)

/-- Claim C21 (fails as stated): on the two-page cache `car_w3` with both
reference bits set, `evict_data` pops descriptor 3 from LRU and moves it to
LFU, does the same with descriptor 2, and then, LRU being shorter than
`arc_lru_limit`, pops descriptor 3 again from the head of LFU, now with a
clear bit, and returns it.  The pages popped before the returned page are 3
and 2, but LFU holds descriptor 2 only: descriptor 3 is the returned page, on
LFU_GHOST (class 3), and it had `reference = 1` at the head of LRU when the
call began. -/
theorem C21_returned_page_was_moved_before :
    Scenario.clock_wrap = .ok
      ([(4, 0), (4, 0), (0, 1), (0, 1)],
       some (⟨[], [2], [], [3]⟩, [3, 2], 3),
       3,
       [(4, 0), (4, 0), (1, 0), (3, 0)],
       ⟨none, some 2, none, some 3⟩) :=
  rfl

/-- Claim C21 (amended): when `evict_data` returns `p` from a state with
well-formed lists `L` and exact counters, it has followed the CAR clock rule
round by round (`clock_rule` on the lists returns `p` too, with the same final
lists `L2`, which are well formed with exact counters).  `p` is now the tail of
LRU_GHOST or of LFU_GHOST, the other ghost list being unchanged, and had
`reference = 0` at the start unless it is one of the pages `moved` before;
every page of `moved` had its reference bit set; the pages of `moved` other
than `p` are the tail of LFU, in pop order; LFU is a suffix of the old LFU
followed by `moved`, LRU is a suffix of the old LRU and keeps every page that
was not popped; and the reference bits of `moved` and `p` are clear while all
other reference bits are as before. -/
theorem C21_evict_data_follows_clock_rule {ps ps2 : List Page} {c c2 : CARState}
    {L : Arc4 (List Nat)} {e p : Nat} (hL : CarLists ps c L) (hC : Counts c L e)
    (hB : L.lru.length + e + L.lfu.length + L.lru_ghost.length + L.lfu_ghost.length + 1
      < 4294967296)
    (h : CARState.evict_data ps c = .ok (ps2, c2, p)) :
    ∃ L2 moved,
      clock_rule e c.arc_lru_limit (ps.length + 1) (reference_of ps) L = some (L2, moved, p) ∧
      CarLists ps2 c2 L2 ∧ Counts c2 L2 e ∧
      ((L2.lru_ghost = L.lru_ghost ++ [p] ∧ L2.lfu_ghost = L.lfu_ghost) ∨
        (L2.lru_ghost = L.lru_ghost ∧ L2.lfu_ghost = L.lfu_ghost ++ [p])) ∧
      (reference_of ps p = 0 ∨ p ∈ moved) ∧
      (∀ x, x ∈ moved → reference_of ps x ≠ 0) ∧
      moved.erase p <:+ L2.lfu ∧ L2.lfu <:+ L.lfu ++ moved ∧ L2.lru <:+ L.lru ∧
      (∀ x, x ∈ L.lru → x ∉ moved → x ≠ p → x ∈ L2.lru) ∧
      (∀ x, reference_of ps2 x = if x ∈ moved ∨ x = p then 0 else reference_of ps x) := by
  obtain ⟨L2, moved, hrule, hL2, hC2, -, -, href⟩ := evict_refines _ hL hC hB h
  obtain ⟨hg, h1, h2, h3, h4, h5, h6, h7⟩ := clock_rule_spec _ _ _ hrule
  have hp : p ∉ L2.lfu := by
    rcases hg with ⟨hg, -⟩ | ⟨-, hg⟩
    · refine hL2.disjoint 2 1 (by decide) (by decide) (by decide) p ?_
      show p ∈ L2.lru_ghost
      rw [hg]
      exact List.mem_append_right _ (List.mem_singleton_self p)
    · refine hL2.disjoint 3 1 (by decide) (by decide) (by decide) p ?_
      show p ∈ L2.lfu_ghost
      rw [hg]
      exact List.mem_append_right _ (List.mem_singleton_self p)
  exact ⟨L2, moved, hrule, hL2, hC2, hg, h7, h5,
    moved_at_tail h2 (fun x hx hxp => h4 x (Or.inr hx) hxp) hp h6, h2, h1, h3, href⟩

/-- Claim C21, witness: on `Scenario.clock_state` (LRU 0, 1 with descriptor 0
referenced, LFU 2, limit 1) `evict_data` returns, and the conclusion holds for
the returned state `Scenario.clock_evicted`. -/
theorem C21_evict_data_follows_clock_rule_witness :
    ∃ L2 moved,
      clock_rule 0 Scenario.clock_state.2.arc_lru_limit (Scenario.clock_state.1.length + 1)
          (reference_of Scenario.clock_state.1) ⟨[0, 1], [2], [3], [4]⟩
        = some (L2, moved, Scenario.clock_evicted.2.2) ∧
      CarLists Scenario.clock_evicted.1 Scenario.clock_evicted.2.1 L2 ∧
      Counts Scenario.clock_evicted.2.1 L2 0 ∧
      ((L2.lru_ghost = [3] ++ [Scenario.clock_evicted.2.2] ∧ L2.lfu_ghost = [4]) ∨
        (L2.lru_ghost = [3] ∧ L2.lfu_ghost = [4] ++ [Scenario.clock_evicted.2.2])) ∧
      (reference_of Scenario.clock_state.1 Scenario.clock_evicted.2.2 = 0
        ∨ Scenario.clock_evicted.2.2 ∈ moved) ∧
      (∀ x, x ∈ moved → reference_of Scenario.clock_state.1 x ≠ 0) ∧
      moved.erase Scenario.clock_evicted.2.2 <:+ L2.lfu ∧ L2.lfu <:+ [2] ++ moved ∧
      L2.lru <:+ [0, 1] ∧
      (∀ x, x ∈ [0, 1] → x ∉ moved → x ≠ Scenario.clock_evicted.2.2 → x ∈ L2.lru) ∧
      (∀ x, reference_of Scenario.clock_evicted.1 x
        = if x ∈ moved ∨ x = Scenario.clock_evicted.2.2 then 0
          else reference_of Scenario.clock_state.1 x) :=
  C21_evict_data_follows_clock_rule clock_state_lists ⟨rfl, rfl, rfl, rfl⟩ (by decide) rfl

/-- Claim C22: `get_ghost_page` on well-formed lists with exact counters.
(1) For a page `g` of a ghost list that is linked in both directions and
carries the class of that list, `get_ghost_page(g)` returns `g`; the list has
lost `g` and keeps the order of its other pages, `g` has no links and class
`ARC_COUNT`, the counters stay exact, and nothing else changes but pointers of
pages of that list.  (2) Without `g`, if `|LRU| + |LRU_GHOST| = data_pages`,
the call pops and returns the head of LRU_GHOST.  (3) Otherwise, if the four
sizes sum to `2 * data_pages`, it pops and returns the head of LFU_GHOST.
(4) Otherwise it returns `NULL` and changes nothing. -/
theorem C22_get_ghost_page_cases {ps : List Page} {c : CARState} {L : Arc4 (List Nat)}
    {e : Nat} (hL : CarLists ps c L) (hC : Counts c L e)
    (hsum : c.arc_list_size.lru + c.arc_list_size.lfu + c.arc_list_size.lru_ghost
      + c.arc_list_size.lfu_ghost < 4294967296)
    (hD : c.data_pages < 2147483648) :
    (∀ g idx pg, idx = ARC_LRU_GHOST ∨ idx = ARC_LFU_GHOST → g ∈ L.sel idx →
      ps[g]? = some pg → pg.arc_idx = idx →
      Chain (ps.map mirror) (c.arc_list_foot.sel idx) (L.sel idx).reverse →
      ∃ ps2 c2, CARState.get_ghost_page ps c (some g) = .ok (ps2, c2, some g) ∧
        CarLists ps2 c2 (L.upd idx ((L.sel idx).erase g)) ∧
        Counts c2 (L.upd idx ((L.sel idx).erase g)) e ∧
        ps2[g]? = some { pg with arc_idx := ARC_COUNT, page_prev := none, page_next := none } ∧
        (∀ x, x ∉ L.sel idx → ps2[x]? = ps[x]?) ∧
        (∀ x, x ≠ g → (ps2[x]?).map payload = (ps[x]?).map payload)) ∧
    (c.arc_list_size.lru + c.arc_list_size.lru_ghost = c.data_pages →
      ∀ q rest, L.lru_ghost = q :: rest →
      ∃ ps2 c2, CARState.get_ghost_page ps c none = .ok (ps2, c2, some q) ∧
        CarLists ps2 c2 { L with lru_ghost := rest } ∧
        Counts c2 { L with lru_ghost := rest } e ∧
        SameLinksOff (fun x => x = q) ps ps2) ∧
    (c.arc_list_size.lru + c.arc_list_size.lru_ghost ≠ c.data_pages →
      c.arc_list_size.lru + c.arc_list_size.lfu + c.arc_list_size.lru_ghost
        + c.arc_list_size.lfu_ghost = 2 * c.data_pages →
      ∀ q rest, L.lfu_ghost = q :: rest →
      ∃ ps2 c2, CARState.get_ghost_page ps c none = .ok (ps2, c2, some q) ∧
        CarLists ps2 c2 { L with lfu_ghost := rest } ∧
        Counts c2 { L with lfu_ghost := rest } e ∧
        SameLinksOff (fun x => x = q) ps ps2) ∧
    (c.arc_list_size.lru + c.arc_list_size.lru_ghost ≠ c.data_pages →
      c.arc_list_size.lru + c.arc_list_size.lfu + c.arc_list_size.lru_ghost
        + c.arc_list_size.lfu_ghost ≠ 2 * c.data_pages →
      CARState.get_ghost_page ps c none = .ok (ps, c, none)) := by
  obtain ⟨hc0, hc1, hc2, hc3⟩ := hC
  have e1 : u32 (c.arc_list_size.lru + c.arc_list_size.lru_ghost)
      = c.arc_list_size.lru + c.arc_list_size.lru_ghost := u32_of_lt (by omega)
  have e2 : u32 (c.arc_list_size.lru + c.arc_list_size.lfu + c.arc_list_size.lru_ghost
      + c.arc_list_size.lfu_ghost) = c.arc_list_size.lru + c.arc_list_size.lfu
      + c.arc_list_size.lru_ghost + c.arc_list_size.lfu_ghost := u32_of_lt hsum
  have e3 : u32 (c.data_pages * 2) = 2 * c.data_pages := by
    rw [u32_of_lt (by omega)]
    omega
  refine ⟨?_, ?_, ?_, ?_⟩
  · intro g idx pg hidx hg hpg hcls hb
    have hi4 : idx < 4 := by
      rcases hidx with rfl | rfl <;> decide
    obtain ⟨ps2, c2, hrun, hL2, -, hget, hsz, -, -, hfr, hpay⟩ :=
      remove_spec hL hi4 hg hpg hcls hb
    refine ⟨ps2, c2, ?_, hL2, ?_, hget, hfr, hpay⟩
    · simp only [CARState.get_ghost_page, hrun, bind, Except.bind, pure, Except.pure]
    · obtain ⟨a, b, hab⟩ := List.append_of_mem hg
      have hlen : ((L.sel idx).erase g).length + 1 = (L.sel idx).length := by
        rw [List.length_erase_of_mem hg]
        have : 0 < (L.sel idx).length := List.length_pos_of_mem hg
        omega
      rcases hidx with rfl | rfl
      · simp only [ARC_LRU_GHOST, Arc4.sel, Arc4.upd] at hlen hsz ⊢
        have e4 : sub32 c.arc_list_size.lru_ghost 1 = c.arc_list_size.lru_ghost - 1 :=
          sub32_one (by omega) (by omega)
        refine ⟨?_, ?_, ?_, ?_⟩ <;> simp only [hsz, e4] <;> omega
      · simp only [ARC_LFU_GHOST, Arc4.sel, Arc4.upd] at hlen hsz ⊢
        have e4 : sub32 c.arc_list_size.lfu_ghost 1 = c.arc_list_size.lfu_ghost - 1 :=
          sub32_one (by omega) (by omega)
        refine ⟨?_, ?_, ?_, ?_⟩ <;> simp only [hsz, e4] <;> omega
  · intro hcond q rest hl
    obtain ⟨⟨ps2, c2, p⟩, hpop⟩ := pop_total hL (by decide : ARC_LRU_GHOST < 4) hl
    obtain ⟨rest2, hl2, hL2, hs, -, hsz, -, -⟩ := pop_spec hL (by decide : ARC_LRU_GHOST < 4) hpop
    have hl3 : q :: rest = p :: rest2 := hl.symm.trans hl2
    cases hl3
    refine ⟨ps2, c2, ?_, hL2, ?_, hs⟩
    · unfold CARState.get_ghost_page
      dsimp only
      rw [e1, if_pos hcond, hpop]
      rfl
    · have hlen : L.lru_ghost.length = rest.length + 1 := by rw [hl]; rfl
      simp only [ARC_LRU_GHOST, Arc4.sel, Arc4.upd] at hsz ⊢
      have e4 : sub32 c.arc_list_size.lru_ghost 1 = c.arc_list_size.lru_ghost - 1 :=
        sub32_one (by omega) (by omega)
      refine ⟨?_, ?_, ?_, ?_⟩ <;> simp only [hsz, e4] <;> omega
  · intro hcond hcond2 q rest hl
    obtain ⟨⟨ps2, c2, p⟩, hpop⟩ := pop_total hL (by decide : ARC_LFU_GHOST < 4) hl
    obtain ⟨rest2, hl2, hL2, hs, -, hsz, -, -⟩ := pop_spec hL (by decide : ARC_LFU_GHOST < 4) hpop
    have hl3 : q :: rest = p :: rest2 := hl.symm.trans hl2
    cases hl3
    refine ⟨ps2, c2, ?_, hL2, ?_, hs⟩
    · unfold CARState.get_ghost_page
      dsimp only
      rw [e1, if_neg hcond, e2, e3, if_pos hcond2, hpop]
      rfl
    · have hlen : L.lfu_ghost.length = rest.length + 1 := by rw [hl]; rfl
      simp only [ARC_LFU_GHOST, Arc4.sel, Arc4.upd] at hsz ⊢
      have e4 : sub32 c.arc_list_size.lfu_ghost 1 = c.arc_list_size.lfu_ghost - 1 :=
        sub32_one (by omega) (by omega)
      refine ⟨?_, ?_, ?_, ?_⟩ <;> simp only [hsz, e4] <;> omega
  · intro hcond hcond2
    unfold CARState.get_ghost_page
    dsimp only
    rw [e1, if_neg hcond, e2, e3, if_neg hcond2]
    rfl

/-- Claim C22, witness: in `Scenario.clock_state` (LRU 0, 1; LFU 2; LRU_GHOST
3; LFU_GHOST 4; `data_pages` = 3) the ghost page 3 can be taken, and without a
ghost page the call pops the head of LRU_GHOST, since 2 + 1 = 3. -/
theorem C22_get_ghost_page_cases_witness :
    (∃ ps2 c2, CARState.get_ghost_page Scenario.clock_state.1 Scenario.clock_state.2 (some 3)
        = .ok (ps2, c2, some 3) ∧
      CarLists ps2 c2 ⟨[0, 1], [2], [], [4]⟩ ∧ Counts c2 ⟨[0, 1], [2], [], [4]⟩ 0 ∧
      ps2[3]? = some { offset := 12, arc_idx := ARC_COUNT }) ∧
    (∃ ps2 c2, CARState.get_ghost_page Scenario.clock_state.1 Scenario.clock_state.2 none
        = .ok (ps2, c2, some 3) ∧
      CarLists ps2 c2 ⟨[0, 1], [2], [], [4]⟩ ∧ Counts c2 ⟨[0, 1], [2], [], [4]⟩ 0) := by
  have h := C22_get_ghost_page_cases (e := 0) clock_state_lists ⟨rfl, rfl, rfl, rfl⟩
    (by decide) (by decide)
  obtain ⟨ps2, c2, h1, h2, h3, h4, -, -⟩ := h.1 3 ARC_LRU_GHOST
    { offset := 12, arc_idx := ARC_LRU_GHOST } (Or.inl rfl) (by decide) rfl rfl
    (by simp [Chain, Scenario.clock_state, Arc4.sel, ARC_LRU_GHOST, mirror])
  obtain ⟨ps3, c3, k1, k2, k3, -⟩ := h.2.1 (by decide) 3 [] rfl
  exact ⟨⟨ps2, c2, h1, h2, h3, h4⟩, ⟨ps3, c3, k1, k2, k3⟩⟩

/-- Claim C23 (fails on the code): on the cache `car_w3`, where descriptor 3 is
linked in LRU and the LRU counter is 2, `_remove_page(3)` leaves the counter
at 1 and the class of the page at `ARC_COUNT`, and `make_dirty(3)` then
evaluates `++arc_list_size[ARC_COUNT]`, past the end of the array: the counter
is not restored and the previous class is lost. -/
theorem C23_make_dirty_loses_class_and_count :
    ((Scenario.car_w3.all_pages.getD 3 {}).arc_idx, Scenario.car_w3.car_state.arc_list_size.lru)
      = (ARC_LRU, 2) ∧
    (CARState._remove_page Scenario.car_w3.all_pages Scenario.car_w3.car_state 3).map
        (fun r => ((r.1.getD 3 {}).arc_idx, r.2.arc_list_size))
      = .ok (ARC_COUNT, ⟨1, 0, 0, 0⟩) ∧
    CARState.make_dirty Scenario.car_w3.all_pages Scenario.car_w3.car_state 3
      = .error .out_of_bounds :=
  ⟨rfl, rfl, rfl⟩

/-- Claim C24: for a clean page `p` that is on no list and has no links,
`adjust_and_hold(p, h)` followed by `insert_page(p)` both return (on a ghost
hit, `h` = 0 or 1, provided `|LFU_GHOST|` is not 0), and leave `p` at the tail
of the list of the class that `adjust_and_hold` gave it (LFU for `h` = 0 or 1,
LRU otherwise): that list is the old list followed by `p`, its foot is `p`, the
other lists are as before, `p` has `reference = 0`, the size counter of the
class is one larger than before `adjust_and_hold` and the other counters are
unchanged, and the counter equals the number of linked pages if it did
before. -/
theorem C24_hold_then_insert_links_at_tail {ps : List Page} {c : CARState}
    {L : Arc4 (List Nat)} {p h : Nat} {pg : Page}
    (hL : CarLists ps c L) (hpg : ps[p]? = some pg) (hd : pg.dirty = 0)
    (hn : pg.page_next = none) (hv : pg.page_prev = none)
    (hout : ∀ i, i < 4 → p ∉ L.sel i)
    (hz : h = 0 ∨ h = 1 → c.arc_list_size.lfu_ghost ≠ 0)
    (hw : c.arc_list_size.lru + 1 < 4294967296 ∧ c.arc_list_size.lfu + 1 < 4294967296) :
    ∃ ps1 c1 pg1 ps2 c2 pg2,
      CARState.adjust_and_hold ps c p h = .ok (ps1, c1) ∧ ps1[p]? = some pg1 ∧
      pg1.arc_idx = (if h = 0 ∨ h = 1 then ARC_LFU else ARC_LRU) ∧
      CARState.insert_page ps1 c1 p = .ok (ps2, c2) ∧
      CarLists ps2 c2 (L.upd pg1.arc_idx (L.sel pg1.arc_idx ++ [p])) ∧
      c2.arc_list_foot.sel pg1.arc_idx = some p ∧
      ps2[p]? = some pg2 ∧ pg2.arc_idx = pg1.arc_idx ∧ pg2.reference = 0 ∧
      pg2.page_next = none ∧
      c2.arc_list_size
        = c.arc_list_size.upd pg1.arc_idx (c.arc_list_size.sel pg1.arc_idx + 1) ∧
      (c.arc_list_size.sel pg1.arc_idx = (L.sel pg1.arc_idx).length →
        c2.arc_list_size.sel pg1.arc_idx = (L.sel pg1.arc_idx ++ [p]).length) := by
  obtain ⟨lim, hadj⟩ := adjust_hold_ok (c := c) hpg hz
  obtain ⟨cls, hcls⟩ : ∃ cls, cls = (if h = 0 ∨ h = 1 then ARC_LFU else ARC_LRU) := ⟨_, rfl⟩
  rw [← hcls] at hadj
  have hc4 : cls < 4 := by
    rw [hcls]
    split <;> decide
  have hsz : c.arc_list_size.sel cls + 1 < 4294967296 := by
    rw [hcls]
    split
    · exact hw.2
    · exact hw.1
  rw [u32_of_lt hsz] at hadj
  have hp1 : (ps.set p { pg with arc_idx := cls })[p]? = some { pg with arc_idx := cls } :=
    set_get_of_some hpg
  have hL1 : CarLists (ps.set p { pg with arc_idx := cls })
      { c with
        arc_lru_limit := lim
        arc_list_size := c.arc_list_size.upd cls (c.arc_list_size.sel cls + 1) } L := by
    refine hL.congr rfl rfl (fun x hx => ?_)
    have hxp : x ≠ p := by
      rintro rfl
      obtain ⟨i, hi, hm⟩ := hx
      exact hout i hi hm
    rw [List.getElem?_set_ne (Ne.symm hxp)]
  have hs1 : (c.arc_list_size.upd cls (c.arc_list_size.sel cls + 1)).sel cls
      = c.arc_list_size.sel cls + 1 := by
    rw [Arc4.sel_upd _ _ _ _ hc4 hc4, if_pos rfl]
  obtain ⟨ps2, c2, hins, hL2, hget, -, hsz2, -, -⟩ :=
    insert_spec hL1 hp1 hd hn hv hc4 hout (by dsimp only; rw [hs1]; omega)
      (by dsimp only; rw [hs1]; exact hsz)
  have hfoot := hL2.foot cls hc4
  rw [Arc4.sel_upd _ _ _ _ hc4 hc4, if_pos rfl, List.getLast?_append, List.getLast?_singleton]
    at hfoot
  refine ⟨_, _, _, ps2, c2, _, hadj, hp1, hcls, hins, hL2, hfoot, hget, rfl, rfl, hn, hsz2, ?_⟩
  intro he
  rw [hsz2]
  dsimp only
  rw [hs1, List.length_append, List.length_singleton, ← he]

/-- Claim C24, witness: in `Scenario.clock_state` the clean detached descriptor
5 is held with history 1 and inserted: it becomes the tail of LFU. -/
theorem C24_hold_then_insert_links_at_tail_witness :
    ∃ ps1 c1 pg1 ps2 c2 pg2,
      CARState.adjust_and_hold Scenario.clock_state.1 Scenario.clock_state.2 5 1
        = .ok (ps1, c1) ∧ ps1[5]? = some pg1 ∧
      pg1.arc_idx = (if (1 : Nat) = 0 ∨ (1 : Nat) = 1 then ARC_LFU else ARC_LRU) ∧
      CARState.insert_page ps1 c1 5 = .ok (ps2, c2) ∧
      CarLists ps2 c2
        ((⟨[0, 1], [2], [3], [4]⟩ : Arc4 (List Nat)).upd pg1.arc_idx
          ((⟨[0, 1], [2], [3], [4]⟩ : Arc4 (List Nat)).sel pg1.arc_idx ++ [5])) ∧
      c2.arc_list_foot.sel pg1.arc_idx = some 5 ∧
      ps2[5]? = some pg2 ∧ pg2.arc_idx = pg1.arc_idx ∧ pg2.reference = 0 ∧
      pg2.page_next = none ∧
      c2.arc_list_size = Scenario.clock_state.2.arc_list_size.upd pg1.arc_idx
        (Scenario.clock_state.2.arc_list_size.sel pg1.arc_idx + 1) ∧
      (Scenario.clock_state.2.arc_list_size.sel pg1.arc_idx
          = ((⟨[0, 1], [2], [3], [4]⟩ : Arc4 (List Nat)).sel pg1.arc_idx).length →
        c2.arc_list_size.sel pg1.arc_idx
          = ((⟨[0, 1], [2], [3], [4]⟩ : Arc4 (List Nat)).sel pg1.arc_idx ++ [5]).length) :=
  C24_hold_then_insert_links_at_tail clock_state_lists
    (show Scenario.clock_state.1[5]? = some { offset := 20, arc_idx := ARC_COUNT } from rfl)
    rfl rfl rfl
    (fun i hi => by interval_cases i <;> simp [Arc4.sel])
    (fun _ => by decide) (by decide)

/-- Claim C25 (fails on the code): after the miss at offset 8 that evicts
descriptor 2 to `ARC_LRU_GHOST` and admits descriptor 1, the ghost still holds
the address of frame 1, the same address as the admitted page:
`cur_page->addr = p->addr` copies the pointer and does not clear `p->addr`. -/
theorem C25_ghost_keeps_buffer_address :
    Scenario.ghost_ready.map (fun bc =>
        (((bc.all_pages.getD 2 {}).arc_idx, (bc.all_pages.getD 2 {}).addr),
         ((bc.all_pages.getD 1 {}).arc_idx, (bc.all_pages.getD 1 {}).addr)))
      = .ok ((ARC_LRU_GHOST, some 1), (ARC_LRU, some 1)) :=
  rfl

/-- Claim C27 (fails on the code): `writeback_pages(out, 1)` on the FIFO 0, 1,
2, 3 detaches three pages, not one: descriptors 0, 1 and 2 are clean and in
`out`, the count is 1, and descriptor 3, the new head, still has
`page_prev = 2`.  With `num = 2` all four pages are detached. -/
theorem C27_writeback_detaches_two_more :
    Scenario.writeback_some 1
      = .ok (([(0, none, none), (0, none, none), (0, none, none), (1, some 2, none)],
              some 3, some 3, 1),
             [(0, [(0, 0), (4, 1), (8, 2)])]) ∧
    Scenario.writeback_some 2
      = .ok (([(0, none, none), (0, none, none), (0, none, none), (0, none, none)],
              none, none, 0),
             [(0, [(0, 0), (4, 1), (8, 2), (12, 3)])]) :=
  ⟨rfl, rfl⟩

/-- Claim C28: `need_writeback_pages()` is `dirty_pages - target_pages` stopped
at 0 (the subtraction of natural numbers), `need_writeback()` holds exactly
when that is positive, and `writethrough()` holds exactly when
`max_dirty_pages = 0` or `wt` is still set; `wt` is set in the constructed
tracker and cleared by `set_writeback`. -/
theorem C28_dirty_policy_flags (d : DirtyPageState) (hd : d.dirty_pages < 4294967296) :
    d.need_writeback_pages = d.dirty_pages - d.target_pages ∧
    (d.need_writeback = true ↔ 0 < d.need_writeback_pages) ∧
    (d.writethrough = true ↔ d.max_dirty_pages = 0 ∨ d.wt = true) ∧
    ({} : DirtyPageState).wt = true ∧ d.set_writeback.wt = false ∧
    (d.set_writeback.writethrough = true ↔ d.max_dirty_pages = 0) := by
  have h1 : d.need_writeback_pages = d.dirty_pages - d.target_pages := by
    unfold DirtyPageState.need_writeback_pages
    split
    · rename_i h
      unfold sub32
      rw [Nat.mod_eq_of_lt hd, Nat.mod_eq_of_lt (by omega), if_pos (by omega)]
    · omega
  refine ⟨h1, ?_, ?_, rfl, rfl, ?_⟩
  · rw [h1]
    simp only [DirtyPageState.need_writeback, decide_eq_true_eq]
    omega
  · simp only [DirtyPageState.writethrough, Bool.or_eq_true, beq_iff_eq]
    exact Or.comm
  · simp [DirtyPageState.writethrough, DirtyPageState.set_writeback]

/-- Claim C28, witness: 5 dirty pages with a target of 7 need no writeback (no
wrapped `5 - 7`), and 7 with a target of 5 need 2. -/
theorem C28_dirty_policy_flags_witness :
    DirtyPageState.need_writeback_pages { dirty_pages := 5, target_pages := 7 } = 0 ∧
    DirtyPageState.need_writeback_pages { dirty_pages := 7, target_pages := 5 } = 2 :=
  ⟨(C28_dirty_policy_flags { dirty_pages := 5, target_pages := 7 } (by decide)).1,
    (C28_dirty_policy_flags { dirty_pages := 7, target_pages := 5 } (by decide)).1⟩

/-- Claim C29 (fails on the code): for a page of 8 bytes with the extents
`[0, 2)` and `[4, 6)` and the backend bytes 1, 2, 3, 4, the page ends up as
1, 2, 0, 0, 0, 0, 3, 4: the second extent lands at offset 6, not at 4.  The
padding before an extent is computed from the start of the page
(`ext_it->first - page_it->first`) and added to `page_int_offset`, which is
already 2.  With the second extent at `[6, 8)` the zero-fill runs past the end
of the page. -/
theorem C29_second_extent_in_page_misplaced :
    Scenario.sparse_read [(0, 2), (4, 2)] [1, 2, 3, 4] = .ok [[1, 2, 0, 0, 0, 0, 3, 4]] ∧
    Scenario.sparse_read [(0, 2), (6, 2)] [1, 2, 3, 4] = .error .out_of_bounds ∧
    Scenario.sparse_read [(2, 2)] [1, 2] = .ok [[0, 0, 1, 2, 0, 0, 0, 0]] :=
  ⟨rfl, rfl, rfl⟩

/-- Claim C30 (fails on the code): a page that `get_pages` hands to a read
still carries the `page_next` it had on the free list it was taken from.  On a
cache that grows by regions of two frames, the first read gets descriptor 6,
whose `page_next` is descriptor 7, the head of `free_data_pages`; when the
backend fails the read with `-EIO`, `complete_read` clears `onread` and calls
`insert_page`, and `_append_page` stops at
`assert(!page->dirty && !page->page_next && !page->page_prev)`: the page is not
re-inserted and the completion receives nothing.  The same happens on a cache
grown one frame at a time once a read is served by an eviction (descriptor 3,
taken from `free_pages` with `page_next` = descriptor 2).  Only a page whose
`page_next` happens to be `NULL` (the first read on a cache grown one frame at
a time) goes through, and its context fires with -5. -/
theorem C30_read_error_stops_at_stale_link :
    Scenario.read_in_region.map (fun bc =>
        (Scenario.page_view bc 6, bc.free_data_pages_head,
          bc.backend_reads.map (fun rd => rd.extent.page_extents), bc.inflight_pages))
      = .ok ((0, ARC_LRU, 1, 0, some 7, none), some 7, [[(0, 6)]], 1) ∧
    (Scenario.read_in_region >>= fun bc => BlockCacher.backend_read_done bc (-5) [] [])
      = .error .assert_fail ∧
    Scenario.ghost_revisit.map (fun bc =>
        (Scenario.page_view bc 3, bc.backend_reads.map (fun rd => rd.extent.page_extents),
          bc.inflight_pages))
      = .ok ((0, ARC_LRU, 1, 0, some 2, none), [[(0, 3)]], 1) ∧
    (Scenario.ghost_revisit >>= fun bc => BlockCacher.backend_read_done bc (-5) [] [])
      = .error .assert_fail ∧
    Scenario.read_answered (-5) = .ok [(1, -5)] :=
  ⟨rfl, rfl, rfl, rfl, rfl⟩

/-- Claim C31 (the code departs from it): `complete_write` with a negative
result and retries allowed returns, queues the write at the end of
`flush_retry_writes`, and leaves the barrier counts, the page descriptors, the
CAR state and the dirty FIFO as they were; yet it is not only a queueing step:
`inflight_pages.sub(page_extents.size())` runs before the test, so
`inflight_pages` has dropped by the number of pages of the extent although the
write is still to be sent again. -/
theorem C31_retry_branch_lowers_inflight (bc : BlockCacher) (w : C_BlockCacheWrite) (r : Int)
    (hr : r < 0) :
    ∃ bc2, BlockCacher.complete_write bc w r = .ok bc2 ∧
      bc2.flush_retry_writes = bc.flush_retry_writes ++ [w] ∧
      bc2.flush_commits = bc.flush_commits ∧ bc2.all_pages = bc.all_pages ∧
      bc2.car_state = bc.car_state ∧ bc2.dirty_page_state = bc.dirty_page_state ∧
      bc2.fired = bc.fired ∧
      bc2.inflight_pages = bc.inflight_pages - w.extent.page_extents.length ∧
      (w.extent.page_extents ≠ [] →
        bc2 ≠ { bc with flush_retry_writes := bc.flush_retry_writes ++ [w] }) := by
  refine ⟨{ bc with
      inflight_pages := bc.inflight_pages - w.extent.page_extents.length
      flush_retry_writes := bc.flush_retry_writes ++ [w] }, ?_, rfl, rfl, rfl, rfl, rfl, rfl, rfl,
    ?_⟩
  · unfold BlockCacher.complete_write
    simp [hr]
    rfl
  · intro hne heq
    have h := congrArg BlockCacher.inflight_pages heq
    simp only at h
    have hpos : 0 < w.extent.page_extents.length := List.length_pos.mpr hne
    omega

/-- Claim C31, at a write of one page that the backend fails with `-EIO`. -/
theorem C31_retry_branch_lowers_inflight_witness :
    (-5 : Int) < 0 ∧
    ∃ bc2, BlockCacher.complete_write {} Scenario.failed_write (-5) = .ok bc2 ∧
      bc2.flush_retry_writes = ({} : BlockCacher).flush_retry_writes ++ [Scenario.failed_write] ∧
      bc2.flush_commits = ({} : BlockCacher).flush_commits ∧
      bc2.all_pages = ({} : BlockCacher).all_pages ∧
      bc2.car_state = ({} : BlockCacher).car_state ∧
      bc2.dirty_page_state = ({} : BlockCacher).dirty_page_state ∧
      bc2.fired = ({} : BlockCacher).fired ∧
      bc2.inflight_pages = ({} : BlockCacher).inflight_pages
        - Scenario.failed_write.extent.page_extents.length ∧
      (Scenario.failed_write.extent.page_extents ≠ [] →
        bc2 ≠ { ({} : BlockCacher) with
          flush_retry_writes := ({} : BlockCacher).flush_retry_writes ++ [Scenario.failed_write] }) :=
  ⟨by decide, C31_retry_branch_lowers_inflight {} Scenario.failed_write (-5) (by decide)⟩

/-- Claim C32: on an index whose nodes are page descriptors with strictly
ascending offsets in iteration order, `lower_bound(o)` returns, and the
iterator it returns stands before the pages that remain when the pages below
`o` are dropped from the front of the iteration.  So it points at a page with
the smallest offset that is at least `o`; and it is `end()` (the empty
iteration, reached without a fault) exactly when every page lies below `o`,
which includes the empty index. -/
theorem C32_lower_bound_first_not_below (ps : List Page) (t : PageRBTree) (o : Nat)
    (hv : ∀ n ∈ t.inorder, n < ps.length)
    (hs : t.inorder.Pairwise (fun a b => offset_of ps a < offset_of ps b)) :
    ∃ l, PageRBTree.lower_bound ps t o = .ok l ∧
      l = t.inorder.dropWhile (fun n => decide (offset_of ps n < o)) ∧
      (∀ n, l.head? = some n → n ∈ t.inorder ∧ o ≤ offset_of ps n ∧
        ∀ m ∈ t.inorder, o ≤ offset_of ps m → offset_of ps n ≤ offset_of ps m) ∧
      (l = [] ↔ ∀ m ∈ t.inorder, offset_of ps m < o) := by
  obtain ⟨it, hd, ha⟩ := descent_spec ps o t hv hs t none [] []
    (by simp) (fun _ h => absurd h (List.not_mem_nil _)) (fun _ h => absurd h (List.not_mem_nil _))
    (fun _ => rfl)
  refine ⟨_, ?_, rfl, ?_, ?_⟩
  · unfold PageRBTree.lower_bound
    rw [hd]
    exact ha
  · intro n hn
    have hsplit := List.takeWhile_append_dropWhile (fun n => decide (offset_of ps n < o))
      t.inorder
    generalize hl : t.inorder.dropWhile (fun n => decide (offset_of ps n < o)) = l at hn hsplit
    cases l with
    | nil => cases hn
    | cons x l2 =>
      simp only [List.head?_cons, Option.some.injEq] at hn
      subst hn
      have hx : ¬ offset_of ps x < o := by
        have := List.head?_dropWhile_not (fun n => decide (offset_of ps n < o)) t.inorder
        rw [hl] at this
        simpa using this
      refine ⟨by rw [← hsplit]; simp, by omega, fun m hm hmo => ?_⟩
      rw [← hsplit] at hm hs
      rcases List.mem_append.mp hm with h | h
      · have := List.mem_takeWhile_imp h
        simp only [decide_eq_true_eq] at this
        omega
      · rcases List.mem_cons.mp h with e | h2
        · rw [e]
        · have := (List.pairwise_cons.mp (List.pairwise_append.mp hs).2.1).1 m h2
          omega
  · rw [List.dropWhile_eq_nil_iff]
    simp

/-- Claim C32, at the index with the descriptors 1 (root, offset 4096), 0
(left, offset 0) and 2 (right, offset 8192) and `o = 4097`: the result is the
iterator at descriptor 2. -/
theorem C32_lower_bound_first_not_below_witness :
    (∀ n ∈ (PageRBTree.node (.node .nil 0 .nil) 1 (.node .nil 2 .nil)).inorder,
      n < Scenario.three_pages.length) ∧
    (PageRBTree.node (.node .nil 0 .nil) 1 (.node .nil 2 .nil)).inorder.Pairwise
      (fun a b => offset_of Scenario.three_pages a < offset_of Scenario.three_pages b) ∧
    ∃ l, PageRBTree.lower_bound Scenario.three_pages
        (PageRBTree.node (.node .nil 0 .nil) 1 (.node .nil 2 .nil)) 4097 = .ok l ∧
      l = (PageRBTree.node (.node .nil 0 .nil) 1 (.node .nil 2 .nil)).inorder.dropWhile
        (fun n => decide (offset_of Scenario.three_pages n < 4097)) ∧
      (∀ n, l.head? = some n →
        n ∈ (PageRBTree.node (.node .nil 0 .nil) 1 (.node .nil 2 .nil)).inorder ∧
        4097 ≤ offset_of Scenario.three_pages n ∧
        ∀ m ∈ (PageRBTree.node (.node .nil 0 .nil) 1 (.node .nil 2 .nil)).inorder,
          4097 ≤ offset_of Scenario.three_pages m →
          offset_of Scenario.three_pages n ≤ offset_of Scenario.three_pages m) ∧
      (l = [] ↔ ∀ m ∈ (PageRBTree.node (.node .nil 0 .nil) 1 (.node .nil 2 .nil)).inorder,
        offset_of Scenario.three_pages m < 4097) :=
  ⟨by decide, by decide,
    C32_lower_bound_first_not_below Scenario.three_pages
      (PageRBTree.node (.node .nil 0 .nil) 1 (.node .nil 2 .nil)) 4097 (by decide) (by decide)⟩

/-- Claim C33 (fails on the code): `read_buffer` and `discard` keep `num_pages`
in a `uint32_t`, where `write_buffer` keeps it in a `uint64_t`.  For
`page_length = 4`, `off = 0` and `len = 2^34 + 4` the range touches
`2^32 + 1` pages, which is what `write_buffer` computes, and `read_buffer` and
`discard` compute 1; for `len = 2^34` they compute 0 (with pages of 4096 bytes
the same happens at `len = 2^44`).  The call `read_buffer(1, 0, 2^34 + 4)` then
asks the backend for the one page at offset 0 only, and
`read_buffer(1, 0, 2^34)` reads `pages[0]` of an array of no pages. -/
theorem C33_read_span_is_truncated :
    (0 + 17179869188 + 4 - 1) / 4 - 0 / 4 = 4294967297 ∧
    BlockCacher.write_buffer_span 4 0 17179869188 = (0, 4294967297) ∧
    BlockCacher.read_buffer_span 4 0 17179869188 = (0, 1) ∧
    BlockCacher.discard_span 4 0 17179869188 = (0, 1) ∧
    BlockCacher.write_buffer_span 4 0 17179869184 = (0, 4294967296) ∧
    BlockCacher.read_buffer_span 4 0 17179869184 = (0, 0) ∧
    BlockCacher.discard_span 4 0 17179869184 = (0, 0) ∧
    BlockCacher.write_buffer_span 4096 0 17592186044416 = (0, 4294967296) ∧
    BlockCacher.read_buffer_span 4096 0 17592186044416 = (0, 0) ∧
    Scenario.long_read 17179869188 = .ok ([[(0, 7)]], 1) ∧
    Scenario.long_read 17179869184 = .error .out_of_bounds ∧
    Scenario.long_read 8 = .ok ([[(0, 7), (4, 6)]], 2) :=
  ⟨by decide, rfl, rfl, rfl, rfl, rfl, rfl, rfl, rfl, rfl, rfl, rfl⟩

/-- Claim C34 (fails on the code): on a cache of four pages whose limit is 2,
after two referenced pages have moved to LFU and the two pages left in LRU
have been evicted for reads that are still in flight, the counter `|LRU|` is 2
(the two pages held by the reads) and the LRU list is empty, with no free
frame and none left to allocate.  The test `|LRU| >= arc_lru_limit` selects
LRU, and `_pop_head_page(ARC_LRU)` dereferences the `NULL` head: in
`evict_data` itself, and in the `read_buffer` at offset 24 that calls it. -/
theorem C34_evict_data_pops_empty_lru :
    Scenario.lru_drained.map (fun bc =>
        (Scenario.car_view bc, bc.free_data_pages_head, bc.remain_data_pages))
      = .ok ((⟨2, 2, 2, 0⟩, 2, none, some 7, 2), none, 0) ∧
    (Scenario.lru_drained >>= fun bc =>
        CARState._pop_head_page bc.all_pages bc.car_state ARC_LRU) = .error .null_deref ∧
    (Scenario.lru_drained >>= fun bc => CARState.evict_data bc.all_pages bc.car_state)
      = .error .null_deref ∧
    (Scenario.lru_drained >>= fun bc => Scenario.read_page bc 1 24 9) = .error .null_deref :=
  ⟨rfl, rfl, rfl, rfl⟩

/-- Claim C35: on a heap of fewer than 2^32 - 1 descriptors, for every CAR
state whose lists are well formed and hold clean pages, whose size counters
equal the lengths of the lists, and in which every round of the clock finds a
page on the list it selects, the loop of `evict_data` returns within
`|LRU| + 2*|LFU| + 1` rounds (each round is one pop), and `evict_data` returns
that result. -/
theorem C35_evict_data_returns (ps : List Page) (c : CARState) (L : Arc4 (List Nat))
    (hL : CarLists ps c L) (hC : Counts c L 0) (hlen : ps.length + 1 < 4294967296)
    (hclean : ∀ x, x ∈ L.lru ++ L.lfu → dirty_of ps x = 0)
    (hready : ∀ n, clock_ready 0 c.arc_lru_limit n (reference_of ps) L = true) :
    ∃ r, CARState.evict_loop (L.lru.length + 2 * L.lfu.length + 1) ps c = .ok r ∧
      CARState.evict_data ps c = .ok r := by
  have htot := hL.total_le
  have h1 := List.countP_le_length (fun x => decide (reference_of ps x ≠ 0)) (l := L.lru)
  have h2 := List.countP_le_length (fun x => decide (reference_of ps x ≠ 0)) (l := L.lfu)
  obtain ⟨r, hr⟩ := evict_total
    (L.lru.countP (fun x => decide (reference_of ps x ≠ 0))
      + L.lfu.countP (fun x => decide (reference_of ps x ≠ 0)) + 1)
    hL hC (by omega) hclean (hready _) (Nat.lt_succ_self _)
  exact ⟨r, evict_loop_mono hr (by omega), evict_loop_mono hr (by omega)⟩

/-- Claim C35, at the state `Scenario.clock_state`: LRU holds the descriptors 0
(referenced) and 1, LFU holds 2, and the limit is 1. -/
theorem C35_evict_data_returns_witness :
    CarLists Scenario.clock_state.1 Scenario.clock_state.2 ⟨[0, 1], [2], [3], [4]⟩ ∧
    Counts Scenario.clock_state.2 ⟨[0, 1], [2], [3], [4]⟩ 0 ∧
    Scenario.clock_state.1.length + 1 < 4294967296 ∧
    (∀ x, x ∈ [0, 1] ++ [2] → dirty_of Scenario.clock_state.1 x = 0) ∧
    (∀ n, clock_ready 0 Scenario.clock_state.2.arc_lru_limit n
      (reference_of Scenario.clock_state.1) ⟨[0, 1], [2], [3], [4]⟩ = true) ∧
    ∃ r, CARState.evict_loop ([0, 1].length + 2 * [2].length + 1) Scenario.clock_state.1
        Scenario.clock_state.2 = .ok r ∧
      CARState.evict_data Scenario.clock_state.1 Scenario.clock_state.2 = .ok r :=
  have hready : ∀ n, clock_ready 0 Scenario.clock_state.2.arc_lru_limit n
      (reference_of Scenario.clock_state.1) ⟨[0, 1], [2], [3], [4]⟩ = true := by
    intro n
    rcases n with _ | _ | n <;> rfl
  ⟨clock_state_lists, ⟨rfl, rfl, rfl, rfl⟩, by decide, by decide, hready,
    C35_evict_data_returns Scenario.clock_state.1 Scenario.clock_state.2 ⟨[0, 1], [2], [3], [4]⟩
      clock_state_lists ⟨rfl, rfl, rfl, rfl⟩ (by decide) (by decide) hready⟩

/-- Claim C36 (fails on the code): with a ghost page at offset 8 in the ghost
index of image 1, the miss at offset 8 takes the branch of a ghost hit, which
advances `ghost_it` and leaves `ghost_page` at the hit page, so that
`assert(ghost_page->offset > pos)` compares 8 with 8 and fails.  And with a
ghost page at offset 4 in the ghost index of image 2 while the page of image 2
at offset 4 is resident, `get_pages` for the offsets 4 and 8 skips the hit at 4
and enters `while (ghost_page->offset < pos) ++ghost_it;` at the miss at 8,
whose condition the body never changes. -/
theorem C36_ghost_walk_asserts_or_spins :
    Scenario.ghost_revisit.map (fun bc => (Scenario.index_view bc).1)
      = .ok [none, some [6], some []] ∧
    (Scenario.ghost_revisit >>= fun bc => do
        let gt ← BlockCacher.get_tree bc.ghost_trees 1
        let l ← PageRBTree.lower_bound bc.all_pages gt 8
        pure (l.map (offset_of bc.all_pages),
          BlockCacher.ghost_walk bc.all_pages gt 8 l.head? l.head?))
      = .ok ([8], .error .assert_fail) ∧
    (Scenario.ghost_revisit >>= fun bc => Scenario.read_page bc 1 8 7) = .error .assert_fail ∧
    (Scenario.ghost_behind >>= fun bc => do
        let gt ← BlockCacher.get_tree bc.ghost_trees 2
        let l ← PageRBTree.lower_bound bc.all_pages gt 4
        let (_, _, hit) ← BlockCacher.get_pages bc 2 2 (some 2) 2 4 true
        pure (l.map (offset_of bc.all_pages), hit,
          BlockCacher.ghost_walk bc.all_pages gt 8 l.head? l.head?))
      = .ok ([4], [true, false], .error .diverge) ∧
    (Scenario.ghost_behind >>= fun bc =>
        BlockCacher.read_buffer BlockCacher.single_object_striper bc 2 4 8 0 7 0)
      = .error .diverge :=
  ⟨rfl, rfl, rfl, rfl, rfl⟩

/-- Claim C37: for every page map whose pages are descriptors of the heap,
there are non-empty runs whose concatenation is the sequence of the pages in
map order, such that `prepare_continuous_pages` returns, for every striper,
what the striper calls for these runs produce in this order; the call for a
run passes the offset of the first page of the run and the length `run size *
page_length` (`stripe_runs`). -/
theorem C37_runs_partition_the_pages (ps : List Page) (page_length : Nat)
    (pages : List (Nat × Nat)) (hv : ∀ x ∈ pages, x.2 < ps.length) :
    ∃ runs : List (List Nat),
      runs.flatten = pages.map Prod.snd ∧ (∀ run ∈ runs, run ≠ []) ∧
      ∀ (striper : Striper) (object_extents : ObjectExtents),
        BlockCacher.prepare_continuous_pages striper ps page_length pages object_extents
          = .ok (stripe_runs striper ps page_length runs object_extents) := by
  obtain ⟨runs, last, hjoin, hruns, hlast, hloop⟩ :=
    continuous_loop_runs ps page_length 0 pages [] (fun _ h => absurd h (List.not_mem_nil _)) hv
  cases last with
  | nil =>
    refine ⟨runs, by simpa using hjoin, hruns, fun striper oe => ?_⟩
    rw [BlockCacher.prepare_continuous_pages, hloop striper oe]
    rfl
  | cons p0 t =>
    refine ⟨runs ++ [p0 :: t], by simpa using hjoin, ?_, fun striper oe => ?_⟩
    · intro run hrun
      rcases List.mem_append.mp hrun with h | h
      · exact hruns run h
      · rw [List.mem_singleton.mp h]; exact List.cons_ne_nil _ _
    · rw [BlockCacher.prepare_continuous_pages, hloop striper oe]
      have h := stripe_run_cons striper ps page_length p0 t
        (stripe_runs striper ps page_length runs oe) (hlast p0 (List.mem_cons_self _ _))
      simp only [stripe_runs, List.foldl_append, List.foldl_cons, List.foldl_nil] at h ⊢
      exact h

/-- Claim C37, at the pages at offsets 0, 4096 and 8192 with pages of 4096
bytes. -/
theorem C37_runs_partition_the_pages_witness :
    (∀ x ∈ [(0, 0), (4096, 1), (8192, 2)], x.2 < Scenario.three_pages.length) ∧
    ∃ runs : List (List Nat),
      runs.flatten = [(0, 0), (4096, 1), (8192, 2)].map Prod.snd ∧ (∀ run ∈ runs, run ≠ []) ∧
      ∀ (striper : Striper) (object_extents : ObjectExtents),
        BlockCacher.prepare_continuous_pages striper Scenario.three_pages 4096
            [(0, 0), (4096, 1), (8192, 2)] object_extents
          = .ok (stripe_runs striper Scenario.three_pages 4096 runs object_extents) :=
  ⟨by decide, C37_runs_partition_the_pages Scenario.three_pages 4096
    [(0, 0), (4096, 1), (8192, 2)] (by decide)⟩

end librbd
